import Mathlib

/-!
todo-cli: the mutation service (package `app`) over the entity model (package `model`), the
persistence of the state (package `store`) and the pane layout of package `tui`.

A shallow embedding of `src/model/model.go`, `src/app/app.go`, `src/store/store.go` and
`paneWidths` of `src/tui/tui.go`.

Conventions of the embedding

* Go slices are Lean lists (value semantics); `copyState` is therefore the identity. Package
  app does not tell a nil slice from an empty one, and its state holds the elements only;
  package store, where the JSON text tells them apart, has its own `StoredState`.
* `time.Time` is a natural number, `0` being the zero time (`IsZero`).
* `time.Now().UTC()` and `newID()` read the environment; every operation that calls them takes
  the value read as an explicit argument (`now`, `newID`, or a stream `ids` when `newID()` is
  called once per archived task).
* Go `int` is 64 bit: arithmetic on stored positions goes through `wrapInt`.
* An operation returns the pair of its Go result (`Except Err _`) and the service after the
  call, so that what a failing call leaves behind is part of the model.
* `sort.SliceStable` is the stable sort of its comparator (`sortSliceStable`).
* A file holds the JSON value its text denotes, or a text that is not JSON. What the Go
  library fixes and package store only uses (the texts of `time.Time`, the folding of member
  names, `filepath.Glob`, the decoding of a slice written twice) is a parameter (`GoLib`)
  with the laws of the library. The file system is the set of files by path, and a call on it other
  than `filepath.Glob` does not fail.
-/

namespace TodoCli

/-! ## package model -/

/-- Go: `time.Time`; `0` is the zero time. -/
abbrev Time := Nat

/-- Go: `model.Filter` (a string type). -/
abbrev Filter := String

def FilterAll : Filter := "all"
def FilterTodo : Filter := "todo"
def FilterDone : Filter := "done"

/-- Go: `model.Priority` (an int type). -/
abbrev Priority := Int

def PriorityNone : Priority := 0
def PriorityLow : Priority := 1
def PriorityMedium : Priority := 2
def PriorityHigh : Priority := 3

/-- Go: `model.List`. -/
structure TodoList where
  ID : String
  Name : String
  Color : String
  CreatedAt : Time
  UpdatedAt : Time
deriving DecidableEq, Repr, Inhabited

/-- Go: `model.Task`. -/
structure Task where
  ID : String
  ListID : String
  Text : String
  Done : Bool
  Priority : Priority
  Position : Int
  CreatedAt : Time
  UpdatedAt : Time
deriving DecidableEq, Repr, Inhabited

/-- Go: `model.ArchivedCompletedTask`. -/
structure ArchivedCompletedTask where
  ID : String
  TaskText : String
  OriginListID : String
  OriginList : String
  Priority : Priority
  DoneAt : Time
  ArchivedAt : Time
deriving DecidableEq, Repr, Inhabited

def SessionFocusLists : String := "lists"
def SessionFocusTasks : String := "tasks"

/-- Go: `model.SessionContext`. -/
structure SessionContext where
  ActiveListID : String
  Focus : String
deriving DecidableEq, Repr, Inhabited

/-- Go: `model.Metadata`. -/
structure Metadata where
  Version : Int
  FirstRun : Bool
  Session : SessionContext
deriving DecidableEq, Repr, Inhabited

/-- Go: `model.AppState`. -/
structure AppState where
  Lists : List TodoList
  Tasks : List Task
  ArchivedCompleted : List ArchivedCompletedTask
  Filter : Filter
  Query : String
  Metadata : Metadata
deriving DecidableEq, Repr, Inhabited

/-- Go: `model.NewState`. -/
def NewState : AppState :=
  { Lists := [], Tasks := [], ArchivedCompleted := [], Filter := FilterAll, Query := "",
    Metadata := { Version := 1, FirstRun := true,
                  Session := { ActiveListID := "", Focus := SessionFocusLists } } }

/-! ## Go runtime pieces used by package app -/

/-- Go: `unicode.IsSpace`. -/
def isSpace (c : Char) : Bool :=
  let n := c.toNat
  decide (n = 0x20 ∨ (0x09 ≤ n ∧ n ≤ 0x0D) ∨ n = 0x85 ∨ n = 0xA0 ∨ n = 0x1680 ∨
    (0x2000 ≤ n ∧ n ≤ 0x200A) ∨ n = 0x2028 ∨ n = 0x2029 ∨ n = 0x202F ∨ n = 0x205F ∨ n = 0x3000)

/-- Go: `strings.TrimSpace`: leading and trailing white space removed. -/
def TrimSpace (s : String) : String :=
  String.mk ((s.data.dropWhile isSpace).reverse.dropWhile isSpace).reverse

/-- Go `int` arithmetic: the result of an addition, wrapped to 64 bit two's complement. -/
def wrapInt (x : Int) : Int := (x + 2 ^ 63) % 2 ^ 64 - 2 ^ 63

/-- Go: `sort.SliceStable(l, less)`, `less` read on the elements: the stable sort, an element
goes before the first one that is not less than it. -/
def sortSliceStable {α : Type} (less : α → α → Bool) (l : List α) : List α :=
  l.insertionSort (fun a b => less b a = false)

/-- Go: `for i := range l \x7b if p(l[i]) \x7b ... i ... \x7d \x7d` leaving at the first hit: the first index
whose element satisfies `p`. -/
def indexWhere {α : Type} (p : α → Bool) : List α → Option Nat
  | [] => none
  | a :: as => if p a then some 0 else (indexWhere p as).map (· + 1)

/-- Go: `l[i] = f(l[i])`, an assignment to fields of the element at index `i`. -/
def updateAt {α : Type} (f : α → α) : List α → Nat → List α
  | [], _ => []
  | a :: as, 0 => f a :: as
  | a :: as, i + 1 => a :: updateAt f as i

/-- Go: the indexes `i`, ascending from `k`, with `p(l[i])`. -/
def indexesWhere {α : Type} (p : α → Bool) : List α → Nat → List Nat
  | [], _ => []
  | a :: as, k => if p a then k :: indexesWhere p as (k + 1) else indexesWhere p as (k + 1)

/-! ## package app -/

def undoStackLimit : Nat := 20

/-- Go: the error values of package app. -/
inductive Err where
  | ErrListNotFound
  | ErrTaskNotFound
  | ErrInvalidName
  | ErrInvalidTask
  | ErrInvalidFilter
  | ErrInvalidPriority
  | ErrNothingToUndo
  | ErrInvalidListRef
  | ErrTaskAlreadyAtTop
  | ErrTaskAlreadyAtBottom
  | ErrListAlreadyAtTop
  | ErrListAlreadyAtBottom
  | ErrNoCompletedToClear
  | ErrNoTasksInList
  | ErrInvalidSessionFocus
deriving DecidableEq, Repr, Inhabited

open Err

/-- Go: `Service`. -/
structure Service where
  state : AppState
  undo : List AppState
deriving DecidableEq, Repr, Inhabited

/-- Go: `copyState`, a deep copy; on values, the identity. -/
def copyState (state : AppState) : AppState := state

/-- Go: `listIDExists`. -/
def listIDExists (lists : List TodoList) (id : String) : Bool :=
  lists.any (fun l => l.ID == id)

/-- Go: the comparator of `taskIndexesForList`, on task indexes. -/
def taskLess (tasks : List Task) (i j : Nat) : Bool :=
  let a := tasks.getD i default
  let b := tasks.getD j default
  if a.Position ≠ b.Position then decide (a.Position < b.Position) else decide (a.ID < b.ID)

/-- Go: `Service.taskIndexesForList`. -/
def taskIndexesForList (tasks : List Task) (listID : String) : List Nat :=
  sortSliceStable (taskLess tasks) (indexesWhere (fun t => t.ListID == listID) tasks 0)

/-- Go: `for i, idx := range indexes \x7b tasks[idx].Position = i + 1 \x7d`, `i` counted from `k`. -/
def assignPositions : List Task → List Nat → Nat → List Task
  | tasks, [], _ => tasks
  | tasks, idx :: rest, k =>
    assignPositions (updateAt (fun t => { t with Position := (k : Int) + 1 }) tasks idx) rest (k + 1)

/-- Go: `Service.normalizePositionsForList`, on the task slice. -/
def normalizePositions (tasks : List Task) (listID : String) : List Task :=
  assignPositions tasks (taskIndexesForList tasks listID) 0

/-- Go: the comparator of the per-list sort in `normalizeState`, on task indexes. -/
def startupLess (tasks : List Task) (i j : Nat) : Bool :=
  let a := tasks.getD i default
  let b := tasks.getD j default
  let aHasPos := decide (a.Position > 0)
  let bHasPos := decide (b.Position > 0)
  if aHasPos ≠ bHasPos then aHasPos
  else if aHasPos && bHasPos && decide (a.Position ≠ b.Position) then decide (a.Position < b.Position)
  else decide (i < j)

/-- Go: the body of `for _, indexes := range grouped` in `normalizeState` for the group of
`listID`: the indexes of the group sorted, then numbered from 1. -/
def startupAssign (ts : List Task) (listID : String) : List Task :=
  assignPositions ts
    (sortSliceStable (startupLess ts) (indexesWhere (fun t => t.ListID == listID) ts 0)) 0

/-- Go: the range check on a priority in `normalizeState` and `SetTaskPriority`. -/
def priorityOutOfRange (p : Priority) : Bool :=
  decide (p < PriorityNone) || decide (p > PriorityHigh)

/-- Go: `normalizeState`. The groups of `grouped` are disjoint sets of indexes and the sort of
a group reads only positions of that group, so the order in which the map is ranged over does
not show in the result; the groups are taken in the order of the distinct list ids of the
task slice. -/
def normalizeState (state : AppState) : AppState :=
  let filter := if state.Filter = "" then FilterAll else state.Filter
  let version := if state.Metadata.Version = 0 then 1 else state.Metadata.Version
  let focus1 :=
    if TrimSpace state.Metadata.Session.Focus = "" then SessionFocusLists
    else state.Metadata.Session.Focus
  let focus2 :=
    if focus1 ≠ SessionFocusLists ∧ focus1 ≠ SessionFocusTasks then SessionFocusLists else focus1
  let tasks1 := state.Tasks.map
    (fun t => if priorityOutOfRange t.Priority then { t with Priority := PriorityNone } else t)
  let archived := state.ArchivedCompleted.map
    (fun a => if priorityOutOfRange a.Priority then { a with Priority := PriorityNone } else a)
  let tasks2 := (tasks1.map (·.ListID)).dedup.foldl startupAssign tasks1
  let active :=
    if state.Metadata.Session.ActiveListID ≠ "" ∧
        ¬ listIDExists state.Lists state.Metadata.Session.ActiveListID
    then "" else state.Metadata.Session.ActiveListID
  { Lists := state.Lists, Tasks := tasks2, ArchivedCompleted := archived, Filter := filter,
    Query := state.Query,
    Metadata := { Version := version, FirstRun := state.Metadata.FirstRun,
                  Session := { ActiveListID := active, Focus := focus2 } } }

/-- Go: `NewService`. -/
def NewService (state : AppState) : Service :=
  { state := normalizeState state, undo := [] }

namespace Service

/-- Go: `Service.State`. -/
def State (s : Service) : AppState := copyState s.state

/-- Go: `Service.GetList`. -/
def GetList (s : Service) (id : String) : Except Err TodoList :=
  match s.state.Lists.find? (fun l => l.ID == id) with
  | some l => .ok l
  | none => .error ErrListNotFound

/-- Go: `Service.GetTask`. -/
def GetTask (s : Service) (id : String) : Except Err Task :=
  match s.state.Tasks.find? (fun t => t.ID == id) with
  | some t => .ok t
  | none => .error ErrTaskNotFound

/-- Go: `Service.hasList`. -/
def hasList (s : Service) (listID : String) : Bool :=
  s.state.Lists.any (fun l => l.ID == listID)

/-- Go: `Service.pushUndo`. -/
def pushUndo (s : Service) : Service :=
  let undo := s.undo ++ [copyState s.state]
  if undo.length > undoStackLimit then
    { s with undo := undo.drop (undo.length - undoStackLimit) }
  else { s with undo := undo }

/-- The service with its task slice replaced. -/
def withTasks (s : Service) (tasks : List Task) : Service :=
  { s with state := { s.state with Tasks := tasks } }

/-- The service with its list slice replaced. -/
def withLists (s : Service) (lists : List TodoList) : Service :=
  { s with state := { s.state with Lists := lists } }

/-- Go: `Service.normalizePositionsForList`. -/
def normalizePositionsForList (s : Service) (listID : String) : Service :=
  s.withTasks (normalizePositions s.state.Tasks listID)

/-- Go: `Service.CreateList`. -/
def CreateList (s : Service) (name color : String) (now : Time) (newID : String) :
    Except Err TodoList × Service :=
  let name := TrimSpace name
  if name = "" then (.error ErrInvalidName, s)
  else
    let list : TodoList :=
      { ID := newID, Name := name, Color := TrimSpace color, CreatedAt := now, UpdatedAt := now }
    let s1 := s.pushUndo
    (.ok list, s1.withLists (s1.state.Lists ++ [list]))

/-- Go: `Service.UpdateList`. -/
def UpdateList (s : Service) (id name color : String) (now : Time) :
    Except Err TodoList × Service :=
  let name := TrimSpace name
  if name = "" then (.error ErrInvalidName, s)
  else
    match indexWhere (fun l => l.ID == id) s.state.Lists with
    | none => (.error ErrListNotFound, s)
    | some i =>
      let s1 := s.pushUndo
      let lists := updateAt
        (fun l => { l with Name := name, Color := TrimSpace color, UpdatedAt := now })
        s1.state.Lists i
      (.ok (lists.getD i default), s1.withLists lists)

/-- Go: `Service.DeleteList`. -/
def DeleteList (s : Service) (id : String) : Except Err Unit × Service :=
  match indexWhere (fun l => l.ID == id) s.state.Lists with
  | none => (.error ErrListNotFound, s)
  | some i =>
    let s1 := s.pushUndo
    let s2 := s1.withLists (s1.state.Lists.take i ++ s1.state.Lists.drop (i + 1))
    let keptTasks := s2.state.Tasks.filter (fun t => t.ListID != id)
    (.ok (), s2.withTasks keptTasks)

/-- Go: `Service.moveList`. -/
def moveList (s : Service) (listID : String) (direction : Int) (now : Time) :
    Except Err TodoList × Service :=
  match indexWhere (fun l => l.ID == listID) s.state.Lists with
  | none => (.error ErrListNotFound, s)
  | some idx =>
    let target : Int := (idx : Int) + direction
    if target < 0 then (.error ErrListAlreadyAtTop, s)
    else if target ≥ (s.state.Lists.length : Int) then (.error ErrListAlreadyAtBottom, s)
    else
      let s1 := s.pushUndo
      let tgt := target.toNat
      let atIdx := s1.state.Lists.getD idx default
      let atTarget := s1.state.Lists.getD tgt default
      let lists1 := (s1.state.Lists.set idx atTarget).set tgt atIdx
      let lists2 := updateAt (fun l => { l with UpdatedAt := now }) lists1 idx
      let lists3 := updateAt (fun l => { l with UpdatedAt := now }) lists2 tgt
      (.ok (lists3.getD tgt default), s1.withLists lists3)

/-- Go: `Service.MoveListUp`. -/
def MoveListUp (s : Service) (listID : String) (now : Time) : Except Err TodoList × Service :=
  s.moveList listID (-1) now

/-- Go: `Service.MoveListDown`. -/
def MoveListDown (s : Service) (listID : String) (now : Time) : Except Err TodoList × Service :=
  s.moveList listID 1 now

/-- Go: the loop of `Service.nextTodoInsertPosition`, carrying `firstDonePos` and `maxPos`. -/
def insertScan (listID : String) : List Task → Int → Int → Int × Int
  | [], firstDonePos, maxPos => (firstDonePos, maxPos)
  | t :: ts, firstDonePos, maxPos =>
    if t.ListID ≠ listID then insertScan listID ts firstDonePos maxPos
    else
      let maxPos1 := if t.Position > maxPos then t.Position else maxPos
      let firstDonePos1 :=
        if t.Done = true ∧ (firstDonePos = 0 ∨ t.Position < firstDonePos) then t.Position
        else firstDonePos
      insertScan listID ts firstDonePos1 maxPos1

/-- Go: `Service.nextTodoInsertPosition`. -/
def nextTodoInsertPosition (s : Service) (listID : String) : Int :=
  let r := insertScan listID s.state.Tasks 0 0
  if r.1 > 0 then r.1 else wrapInt (r.2 + 1)

/-- Go: the loop of `Service.CreateTask` that makes room for the new task: the position of
every task of the list at or after `insertPos` incremented. -/
def shiftPositions (tasks : List Task) (listID : String) (insertPos : Int) : List Task :=
  tasks.map (fun t =>
    if t.ListID = listID ∧ t.Position ≥ insertPos then
      { t with Position := wrapInt (t.Position + 1) }
    else t)

/-- Go: `Service.CreateTask`. -/
def CreateTask (s : Service) (listID text : String) (now : Time) (newID : String) :
    Except Err Task × Service :=
  let listID := TrimSpace listID
  if listID = "" then (.error ErrInvalidListRef, s)
  else
    let text := TrimSpace text
    if text = "" then (.error ErrInvalidTask, s)
    else if ¬ s.hasList listID then (.error ErrListNotFound, s)
    else
      let insertPos := s.nextTodoInsertPosition listID
      let task : Task :=
        { ID := newID, ListID := listID, Text := text, Done := false, Priority := PriorityNone,
          Position := insertPos, CreatedAt := now, UpdatedAt := now }
      let s1 := s.pushUndo
      let s2 := s1.withTasks (shiftPositions s1.state.Tasks listID insertPos ++ [task])
      (.ok task, s2.normalizePositionsForList listID)

/-- Go: `Service.UpdateTask`. -/
def UpdateTask (s : Service) (id text : String) (now : Time) : Except Err Task × Service :=
  let text := TrimSpace text
  if text = "" then (.error ErrInvalidTask, s)
  else
    match indexWhere (fun t => t.ID == id) s.state.Tasks with
    | none => (.error ErrTaskNotFound, s)
    | some i =>
      let s1 := s.pushUndo
      let tasks := updateAt (fun t => { t with Text := text, UpdatedAt := now }) s1.state.Tasks i
      (.ok (tasks.getD i default), s1.withTasks tasks)

/-- Go: `Service.DeleteTask`. -/
def DeleteTask (s : Service) (id : String) : Except Err Unit × Service :=
  match indexWhere (fun t => t.ID == id) s.state.Tasks with
  | none => (.error ErrTaskNotFound, s)
  | some i =>
    let listID := (s.state.Tasks.getD i default).ListID
    let s1 := s.pushUndo
    let s2 := s1.withTasks (s1.state.Tasks.take i ++ s1.state.Tasks.drop (i + 1))
    (.ok (), s2.normalizePositionsForList listID)

/-- Go: the inner loop of `Service.ToggleDone`: the greatest position among the tasks of the
list other than the one at index `i`, `j` being the index of the head. -/
def maxPosExcept (listID : String) (i : Nat) : List Task → Nat → Int → Int
  | [], _, maxPos => maxPos
  | t :: ts, j, maxPos =>
    if j = i ∨ t.ListID ≠ listID then maxPosExcept listID i ts (j + 1) maxPos
    else maxPosExcept listID i ts (j + 1) (if t.Position > maxPos then t.Position else maxPos)

/-- Go: `Service.ToggleDone`. -/
def ToggleDone (s : Service) (taskID : String) (now : Time) : Except Err Task × Service :=
  match indexWhere (fun t => t.ID == taskID) s.state.Tasks with
  | none => (.error ErrTaskNotFound, s)
  | some i =>
    let s1 := s.pushUndo
    let tasks1 := updateAt (fun t => { t with Done := !t.Done, UpdatedAt := now }) s1.state.Tasks i
    if (tasks1.getD i default).Done then
      let listID := (tasks1.getD i default).ListID
      let maxPos := maxPosExcept listID i tasks1 0 0
      let tasks2 := updateAt (fun t => { t with Position := wrapInt (maxPos + 1) }) tasks1 i
      let s2 := (s1.withTasks tasks2).normalizePositionsForList listID
      (.ok (s2.state.Tasks.getD i default), s2)
    else (.ok (tasks1.getD i default), s1.withTasks tasks1)

/-- Go: `Service.SetTaskPriority`. -/
def SetTaskPriority (s : Service) (taskID : String) (priority : Priority) (now : Time) :
    Except Err Task × Service :=
  if priorityOutOfRange priority then (.error ErrInvalidPriority, s)
  else
    match indexWhere (fun t => t.ID == taskID) s.state.Tasks with
    | none => (.error ErrTaskNotFound, s)
    | some i =>
      if (s.state.Tasks.getD i default).Priority = priority then
        (.ok (s.state.Tasks.getD i default), s)
      else
        let s1 := s.pushUndo
        let tasks :=
          updateAt (fun t => { t with Priority := priority, UpdatedAt := now }) s1.state.Tasks i
        (.ok (tasks.getD i default), s1.withTasks tasks)

/-- Go: the exchange in `Service.moveTask`:
`tasks[a].Position, tasks[b].Position = tasks[b].Position, tasks[a].Position`, then both tasks
stamped with `now`. -/
def swapPositions (tasks : List Task) (a b : Nat) (now : Time) : List Task :=
  let posA := (tasks.getD a default).Position
  let posB := (tasks.getD b default).Position
  let tasks1 := updateAt (fun t => { t with Position := posB }) tasks a
  let tasks2 := updateAt (fun t => { t with Position := posA }) tasks1 b
  let tasks3 := updateAt (fun t => { t with UpdatedAt := now }) tasks2 a
  updateAt (fun t => { t with UpdatedAt := now }) tasks3 b

/-- Go: `Service.moveTask`. -/
def moveTask (s : Service) (taskID : String) (direction : Int) (now : Time) :
    Except Err Task × Service :=
  match indexWhere (fun t => t.ID == taskID) s.state.Tasks with
  | none => (.error ErrTaskNotFound, s)
  | some idx =>
    let listID := (s.state.Tasks.getD idx default).ListID
    let ordered := taskIndexesForList s.state.Tasks listID
    match indexWhere (fun taskIdx => (s.state.Tasks.getD taskIdx default).ID == taskID) ordered with
    | none => (.error ErrTaskNotFound, s)
    | some position =>
      let targetPos : Int := (position : Int) + direction
      if targetPos < 0 then (.error ErrTaskAlreadyAtTop, s)
      else if targetPos ≥ (ordered.length : Int) then (.error ErrTaskAlreadyAtBottom, s)
      else
        let s1 := s.pushUndo
        let a := ordered.getD position 0
        let b := ordered.getD targetPos.toNat 0
        let s2 := (s1.withTasks (swapPositions s1.state.Tasks a b now)).normalizePositionsForList
          listID
        ((match s2.state.Tasks.find? (fun t => t.ID == taskID) with
          | some t => .ok t
          | none => .error ErrTaskNotFound), s2)

/-- Go: `Service.MoveTaskUp`. -/
def MoveTaskUp (s : Service) (taskID : String) (now : Time) : Except Err Task × Service :=
  s.moveTask taskID (-1) now

/-- Go: `Service.MoveTaskDown`. -/
def MoveTaskDown (s : Service) (taskID : String) (now : Time) : Except Err Task × Service :=
  s.moveTask taskID 1 now

/-- Go: the archive entry built in the loops of `ClearCompletedToArchive` and
`ArchiveAllToArchive`. -/
def archiveEntry (list : TodoList) (t : Task) (doneAt now : Time) (newID : String) :
    ArchivedCompletedTask :=
  { ID := newID, TaskText := t.Text, OriginListID := list.ID, OriginList := list.Name,
    Priority := t.Priority, DoneAt := doneAt, ArchivedAt := now }

/-- Go: the loop of `Service.ClearCompletedToArchive`, carrying `toArchive` and `kept`; the
call of `newID()` for the k-th entry returns `ids k`. -/
def clearScan (listID : String) (list : TodoList) (now : Time) (ids : Nat → String) :
    List Task → List ArchivedCompletedTask → List Task → List ArchivedCompletedTask × List Task
  | [], toArchive, kept => (toArchive, kept)
  | t :: ts, toArchive, kept =>
    if t.ListID = listID ∧ t.Done = true then
      let doneAt := if t.UpdatedAt = 0 then now else t.UpdatedAt
      clearScan listID list now ids ts
        (toArchive ++ [archiveEntry list t doneAt now (ids toArchive.length)]) kept
    else clearScan listID list now ids ts toArchive (kept ++ [t])

/-- Go: `Service.ClearCompletedToArchive`. -/
def ClearCompletedToArchive (s : Service) (listID : String) (now : Time) (ids : Nat → String) :
    Except Err Int × Service :=
  let listID := TrimSpace listID
  if listID = "" then (.error ErrInvalidListRef, s)
  else
    match s.GetList listID with
    | .error e => (.error e, s)
    | .ok list =>
      let r := clearScan listID list now ids s.state.Tasks [] []
      if r.1.length = 0 then (.error ErrNoCompletedToClear, s)
      else
        let s1 := s.pushUndo
        let s2 := (s1.withTasks r.2).normalizePositionsForList listID
        (.ok (r.1.length : Int),
          { s2 with state := { s2.state with
              ArchivedCompleted := s2.state.ArchivedCompleted ++ r.1 } })

/-- Go: the loop of `Service.ArchiveAllToArchive`. -/
def archiveAllScan (listID : String) (list : TodoList) (now : Time) (ids : Nat → String) :
    List Task → List ArchivedCompletedTask → List Task → List ArchivedCompletedTask × List Task
  | [], toArchive, kept => (toArchive, kept)
  | t :: ts, toArchive, kept =>
    if t.ListID = listID then
      let doneAt := if t.UpdatedAt = 0 ∨ t.Done = false then now else t.UpdatedAt
      archiveAllScan listID list now ids ts
        (toArchive ++ [archiveEntry list t doneAt now (ids toArchive.length)]) kept
    else archiveAllScan listID list now ids ts toArchive (kept ++ [t])

/-- Go: `Service.ArchiveAllToArchive`. -/
def ArchiveAllToArchive (s : Service) (listID : String) (now : Time) (ids : Nat → String) :
    Except Err Int × Service :=
  let listID := TrimSpace listID
  if listID = "" then (.error ErrInvalidListRef, s)
  else
    match s.GetList listID with
    | .error e => (.error e, s)
    | .ok list =>
      let r := archiveAllScan listID list now ids s.state.Tasks [] []
      if r.1.length = 0 then (.error ErrNoTasksInList, s)
      else
        let s1 := s.pushUndo
        let s2 := (s1.withTasks r.2).normalizePositionsForList listID
        (.ok (r.1.length : Int),
          { s2 with state := { s2.state with
              ArchivedCompleted := s2.state.ArchivedCompleted ++ r.1 } })

/-- Go: the loop of `Service.DeleteAllTasks`, carrying `kept` and `removed`. -/
def deleteAllScan (listID : String) : List Task → List Task → Int → List Task × Int
  | [], kept, removed => (kept, removed)
  | t :: ts, kept, removed =>
    if t.ListID = listID then deleteAllScan listID ts kept (removed + 1)
    else deleteAllScan listID ts (kept ++ [t]) removed

/-- Go: `Service.DeleteAllTasks`. -/
def DeleteAllTasks (s : Service) (listID : String) : Except Err Int × Service :=
  let listID := TrimSpace listID
  if listID = "" then (.error ErrInvalidListRef, s)
  else if ¬ s.hasList listID then (.error ErrListNotFound, s)
  else
    let r := deleteAllScan listID s.state.Tasks [] 0
    if r.2 = 0 then (.error ErrNoTasksInList, s)
    else
      let s1 := s.pushUndo
      (.ok r.2, (s1.withTasks r.1).normalizePositionsForList listID)

/-- Go: `Service.SetSessionContext`. -/
def SetSessionContext (s : Service) (activeListID focus : String) : Except Err Unit × Service :=
  let focus := TrimSpace focus
  if focus ≠ "" ∧ focus ≠ SessionFocusLists ∧ focus ≠ SessionFocusTasks then
    (.error ErrInvalidSessionFocus, s)
  else
    let activeListID := if activeListID ≠ "" ∧ ¬ s.hasList activeListID then "" else activeListID
    let focus1 := if focus ≠ "" then focus else s.state.Metadata.Session.Focus
    (.ok (), { s with state := { s.state with
      Metadata := { s.state.Metadata with
        Session := { ActiveListID := activeListID, Focus := focus1 } } } })

/-- Go: `Service.MarkOnboardingSeen`. -/
def MarkOnboardingSeen (s : Service) : Service :=
  { s with state := { s.state with Metadata := { s.state.Metadata with FirstRun := false } } }

/-- Go: `Service.SetFilter`. -/
def SetFilter (s : Service) (filter : Filter) : Except Err Unit × Service :=
  if filter = FilterAll ∨ filter = FilterTodo ∨ filter = FilterDone then
    (.ok (), { s with state := { s.state with Filter := filter } })
  else (.error ErrInvalidFilter, s)

/-- Go: `Service.SetQuery`. -/
def SetQuery (s : Service) (query : String) : Service :=
  { s with state := { s.state with Query := TrimSpace query } }

/-- Go: `Service.Undo`. -/
def Undo (s : Service) : Except Err Unit × Service :=
  match s.undo.getLast? with
  | none => (.error ErrNothingToUndo, s)
  | some last => (.ok (), { state := copyState last, undo := s.undo.dropLast })

/-- Go: `Service.UndoDelete`. -/
def UndoDelete (s : Service) : Except Err Unit × Service := s.Undo

end Service

/-! ## The read side of package app -/

/-- Go: `matchesFilter`. -/
def matchesFilter (filter : Filter) (done : Bool) : Bool :=
  if filter = FilterDone then done
  else if filter = FilterTodo then !done
  else true

/-- Go: the comparator of `sortTasks`, on the tasks. -/
def sortTasksLess (singleListID : String) (a b : Task) : Bool :=
  if singleListID = "" ∧ a.ListID ≠ b.ListID then decide (a.ListID < b.ListID)
  else if a.Position ≠ b.Position then decide (a.Position < b.Position)
  else decide (a.ID < b.ID)

/-- Go: `sortTasks`. -/
def sortTasks (tasks : List Task) (singleListID : String) : List Task :=
  sortSliceStable (sortTasksLess singleListID) tasks

/-- Go: `strings.HasPrefix`, on the characters. -/
def startsWith : List Char → List Char → Bool
  | _, [] => true
  | [], _ :: _ => false
  | c :: cs, d :: ds => c == d && startsWith cs ds

/-- Go: `strings.Contains`, on the characters. -/
def containsChars : List Char → List Char → Bool
  | [], sub => startsWith [] sub
  | c :: cs, sub => startsWith (c :: cs) sub || containsChars cs sub

/-- Go: `strings.Contains`. -/
def Contains (s substr : String) : Bool := containsChars s.data substr.data

/-- Go: `strings.ToLower`, every character mapped by `unicode.ToLower`; the case table of
Unicode is the argument `lower`. -/
def ToLower (lower : Char → Char) (s : String) : String := String.mk (s.data.map lower)

namespace Service

/-- Go: `Service.Tasks`. -/
def Tasks (s : Service) (listID : String) : List Task :=
  let listID := TrimSpace listID
  if listID = "" then sortTasks s.state.Tasks ""
  else sortTasks (s.state.Tasks.filter (fun t => t.ListID == listID)) listID

/-- Go: `Service.FilteredTasks`; `lower` is the case table `strings.ToLower` reads. -/
def FilteredTasks (s : Service) (lower : Char → Char) : List Task :=
  let q := ToLower lower (TrimSpace s.state.Query)
  (s.Tasks "").filter (fun t =>
    if ¬ matchesFilter s.state.Filter t.Done then false
    else if q ≠ "" ∧ ¬ Contains (ToLower lower t.Text) q then false
    else true)

/-- Go: `Service.ArchivedCompleted`. -/
def ArchivedCompleted (s : Service) : List ArchivedCompletedTask := s.state.ArchivedCompleted

/-- Go: `Service.Lists`. -/
def Lists (s : Service) : List TodoList := s.state.Lists

end Service

/-! ## package tui -/

/-- Go: `Model.paneWidths`; the receiver is not read. The additions and subtractions are those
of Go `int`, the division is the truncating one. -/
def paneWidths (total gap : Int) : Int × Int :=
  if total ≤ 0 then (24, 30)
  else
    let gap := if gap < 0 then 0 else gap
    let minLeft : Int := 20
    let minRight : Int := 30
    if total < wrapInt (wrapInt (minLeft + minRight) + gap) then
      let left := Int.tdiv total 3
      let left := if left < 12 then 12 else left
      let right := wrapInt (wrapInt (total - left) - gap)
      if right < 12 then
        let right := 12
        let left := wrapInt (wrapInt (total - right) - gap)
        let left := if left < 10 then 10 else left
        (left, right)
      else (left, right)
    else
      let left := Int.tdiv total 4
      let left := if left < 22 then 22 else left
      let left := if left > 34 then 34 else left
      let right := wrapInt (wrapInt (total - left) - gap)
      let lr : Int × Int :=
        if right < minRight then (wrapInt (wrapInt (total - minRight) - gap), minRight)
        else (left, right)
      if lr.1 < minLeft then (minLeft, wrapInt (wrapInt (total - minLeft) - gap))
      else lr

/-! ## package store: documents, files and the library

The text layer of `encoding/json` (white space, indentation, escapes) is not modelled: a file
holds either a text that is not JSON or the JSON value its text denotes.

The file system is the set of the regular files, each under the path the package forms for
it; two paths name the same file only when they are equal.
Directories, links and permissions are not modelled, and a call on the file system other than
`filepath.Glob` does not fail on an existing file. Every write of one call of the package
carries the time of that call. -/

/-- A JSON value. A number is an integer literal, or another number literal kept as text. -/
inductive Json where
  | null
  | bool (b : Bool)
  | num (n : Int)
  | real (text : String)
  | str (s : String)
  | arr (items : List Json)
  | obj (members : List (String × Json))

/-- The content of a file as `json.Unmarshal` meets it: a text that is not JSON (malformed or
cut short), or the JSON value the text denotes. -/
inductive Content where
  | garbage (text : String)
  | doc (j : Json)

/-- Go: the kinds of error `json.Unmarshal` ends with on a state file: `*json.SyntaxError`,
`*json.UnmarshalTypeError`, `io.ErrUnexpectedEOF`, and the errors of another type, which are
those `Time.UnmarshalJSON` returns. -/
inductive JsonErr where
  | notJSON
  | typeError
  | unexpectedEOF
  | other
deriving DecidableEq, Repr

/-- A file: what it holds and when it was last written. -/
structure File where
  content : Content
  modTime : Time

/-- The files, by path; of two entries with one path the first is the file. -/
abbrev FileSystem := List (String × File)

/-- Go: `os.Stat`, the file found or nothing. -/
def Stat (fs : FileSystem) (path : String) : Option File := fs.lookup path

/-- Go: `os.ReadFile`; `none` is `os.ErrNotExist`. -/
def ReadFile (fs : FileSystem) (path : String) : Option Content :=
  (fs.lookup path).map (·.content)

/-- Go: `os.WriteFile`: the file is created or replaced. -/
def WriteFile (fs : FileSystem) (path : String) (data : Content) (now : Time) : FileSystem :=
  (path, { content := data, modTime := now }) :: fs.filter (fun e => e.1 != path)

/-- Go: `os.Remove`; a missing file is left missing. -/
def Remove (fs : FileSystem) (path : String) : FileSystem :=
  fs.filter (fun e => e.1 != path)

/-- Go: `os.Rename`: the file moves to the new path and replaces a file found there. -/
def Rename (fs : FileSystem) (oldpath newpath : String) : FileSystem :=
  match fs.lookup oldpath with
  | none => fs
  | some f => (newpath, f) :: fs.filter (fun e => e.1 != oldpath && e.1 != newpath)

/-- Go: `a <= b` on strings, on the characters: Go compares the bytes of the UTF-8 texts,
which orders them as their characters are. -/
def leChars : List Char → List Char → Bool
  | [], _ => true
  | _ :: _, [] => false
  | c :: cs, d :: ds =>
    if c.toNat < d.toNat then true
    else if d.toNat < c.toNat then false
    else leChars cs ds

/-- Go: `sort.Strings`. -/
def sortStrings (l : List String) : List String :=
  l.insertionSort (fun a b => leChars a.data b.data = true)

/-- Go: `hasMeta` of `path/filepath` on Unix: the path holds a character that
`filepath.Match` reads as pattern syntax. -/
def hasMeta (path : String) : Bool :=
  path.data.any (fun c => c == '*' || c == '?' || c == '[' || c == '\\')

/-- The path `n` starts with `pre` and goes on without a separator. -/
def continues (pre n : String) : Bool :=
  startsWith n.data pre.data && (n.data.drop pre.data.length).all (fun c => c != '/')

/-- The paths of the files that start with `pre` and go on without a separator, in
ascending order. -/
def namesWith (fs : FileSystem) (pre : String) : List String :=
  sortStrings (((fs.map (·.1)).filter (continues pre)).dedup)

/-! ## package store: the persisted document -/

/-- Go: `model.AppState` as package store writes and reads it. A Go slice is `nil` or a slice
with its elements, and the JSON text tells the two apart: here `none` is the nil slice.
Package app reads a nil slice as the empty one, and its `AppState` holds the elements only. -/
structure StoredState where
  Lists : Option (List TodoList)
  Tasks : Option (List Task)
  ArchivedCompleted : Option (List ArchivedCompletedTask)
  Filter : Filter
  Query : String
  Metadata : Metadata
deriving DecidableEq, Repr

/-- The state of package app in a stored state. -/
def StoredState.toAppState (s : StoredState) : AppState :=
  { Lists := s.Lists.getD [], Tasks := s.Tasks.getD [],
    ArchivedCompleted := s.ArchivedCompleted.getD [],
    Filter := s.Filter, Query := s.Query, Metadata := s.Metadata }

/-- A state of package app as a stored state whose slices are not nil. -/
def AppState.stored (s : AppState) : StoredState :=
  { Lists := some s.Lists, Tasks := some s.Tasks, ArchivedCompleted := some s.ArchivedCompleted,
    Filter := s.Filter, Query := s.Query, Metadata := s.Metadata }

/-- The integer `n` is in the range of a Go `int`. -/
def InIntRange (n : Int) : Prop := -(2 ^ 63) ≤ n ∧ n < 2 ^ 63

/-- Every `int` field of the state holds a value a Go `int` can hold. -/
def Representable (s : StoredState) : Prop :=
  InIntRange s.Metadata.Version ∧
  (∀ t ∈ s.Tasks.getD [], InIntRange t.Priority ∧ InIntRange t.Position) ∧
  (∀ a ∈ s.ArchivedCompleted.getD [], InIntRange a.Priority)

/-! ## package store: the library -/

/-- What the Go library fixes and the repository only uses.

* `format` and `parse` are `Time.MarshalJSON` and `Time.UnmarshalJSON` (RFC 3339),
  `stampNano` is `Format("20060102-150405.000000000")` and `stampSec` is
  `Format("20060102-150405")`, both on UTC times.
* `foldRune` is the letter-case folding under which `encoding/json` compares the name of a
  member with the name of a field that it does not equal.
* `glob` is `filepath.Glob` on the files, `none` its error `ErrBadPattern`; a path it
  returns is written as the package writes the path of that file.
* `unmarshalRepeated` is `json.Unmarshal` into a zero `model.AppState` on a document that
  gives a slice of the state two members. Go stores the second array through the backing
  array of the first, and what that leaves depends on the capacity the runtime gave it.

The laws are those of the library: a written time reads back; the layout of `stampNano`
sorts as the instants do and has no separator; the layout of `stampSec` has no dot; a
pattern made of a text without pattern characters and a final `*` matches the paths that
start with the text and go on without a separator, returned in ascending order; and an `int`
read from a document is in the range of `int`. How `filepath.Glob` reads a pattern character
is left to the library. -/
structure GoLib where
  format : Time → String
  parse : String → Option Time
  stampNano : Time → String
  stampSec : Time → String
  foldRune : Char → Char
  glob : FileSystem → String → Option (List String)
  unmarshalRepeated : Json → Except JsonErr StoredState
  parse_format : ∀ t, parse (format t) = some t
  stampNano_lt : ∀ a b, a < b → stampNano a < stampNano b
  stampNano_nosep : ∀ t, '/' ∉ (stampNano t).data
  stampSec_nodot : ∀ t, '.' ∉ (stampSec t).data
  glob_plain : ∀ fs pre, hasMeta pre = false → glob fs (pre ++ "*") = some (namesWith fs pre)
  unmarshalRepeated_range : ∀ j s, unmarshalRepeated j = .ok s → Representable s

/-- Go: a member of a struct written by `json.Marshal` under the option `omitempty`: left out
when the value is the empty one. -/
def omitEmpty (name : String) (empty : Bool) (v : Json) : List (String × Json) :=
  if empty then [] else [(name, v)]

/-- Go: `json.Marshal` on a slice: `null` for the nil slice, else the array of the elements. -/
def marshalSlice {α : Type} (f : α → Json) : Option (List α) → Json
  | none => .null
  | some l => .arr (l.map f)

/-- Go: `json.Marshal` on a `model.List`. -/
def marshalList (lib : GoLib) (l : TodoList) : Json :=
  .obj [("id", .str l.ID), ("name", .str l.Name), ("color", .str l.Color),
    ("createdAt", .str (lib.format l.CreatedAt)), ("updatedAt", .str (lib.format l.UpdatedAt))]

/-- Go: `json.Marshal` on a `model.Task`. -/
def marshalTask (lib : GoLib) (t : Task) : Json :=
  .obj ([("id", .str t.ID), ("listId", .str t.ListID), ("text", .str t.Text),
      ("done", .bool t.Done)] ++
    omitEmpty "priority" (decide (t.Priority = 0)) (.num t.Priority) ++
    omitEmpty "position" (decide (t.Position = 0)) (.num t.Position) ++
    [("createdAt", .str (lib.format t.CreatedAt)), ("updatedAt", .str (lib.format t.UpdatedAt))])

/-- Go: `json.Marshal` on a `model.ArchivedCompletedTask`. -/
def marshalArchived (lib : GoLib) (a : ArchivedCompletedTask) : Json :=
  .obj ([("id", .str a.ID), ("taskText", .str a.TaskText)] ++
    omitEmpty "originListId" (decide (a.OriginListID = "")) (.str a.OriginListID) ++
    [("originList", .str a.OriginList)] ++
    omitEmpty "priority" (decide (a.Priority = 0)) (.num a.Priority) ++
    [("doneAt", .str (lib.format a.DoneAt)), ("archivedAt", .str (lib.format a.ArchivedAt))])

/-- Go: `json.Marshal` on a `model.SessionContext`. -/
def marshalSession (c : SessionContext) : Json :=
  .obj (omitEmpty "activeListId" (decide (c.ActiveListID = "")) (.str c.ActiveListID) ++
    omitEmpty "focus" (decide (c.Focus = "")) (.str c.Focus))

/-- Go: `json.Marshal` on a `model.Metadata`; `omitempty` never leaves a struct out. -/
def marshalMetadata (m : Metadata) : Json :=
  .obj ([("version", .num m.Version)] ++
    omitEmpty "firstRun" (!m.FirstRun) (.bool m.FirstRun) ++
    [("session", marshalSession m.Session)])

/-- Go: `json.Marshal`, `json.MarshalIndent` and `Encoder.Encode` on a `model.AppState`, read
as the JSON value written; `omitempty` leaves a slice out when it has no element, nil or
not. -/
def Marshal (lib : GoLib) (s : StoredState) : Json :=
  .obj ([("lists", marshalSlice (marshalList lib) s.Lists),
      ("tasks", marshalSlice (marshalTask lib) s.Tasks)] ++
    omitEmpty "archivedCompleted" (s.ArchivedCompleted.getD []).isEmpty
      (marshalSlice (marshalArchived lib) s.ArchivedCompleted) ++
    omitEmpty "filter" (decide (s.Filter = "")) (.str s.Filter) ++
    omitEmpty "query" (decide (s.Query = "")) (.str s.Query) ++
    [("metadata", marshalMetadata s.Metadata)])

/-- Go: the names of the fields of `model.List` in the JSON text, from its struct tags. -/
def listFields : List String := ["id", "name", "color", "createdAt", "updatedAt"]

/-- Go: the JSON names of the fields of `model.Task`. -/
def taskFields : List String :=
  ["id", "listId", "text", "done", "priority", "position", "createdAt", "updatedAt"]

/-- Go: the JSON names of the fields of `model.ArchivedCompletedTask`. -/
def archivedFields : List String :=
  ["id", "taskText", "originListId", "originList", "priority", "doneAt", "archivedAt"]

/-- Go: the JSON names of the fields of `model.SessionContext`. -/
def sessionFields : List String := ["activeListId", "focus"]

/-- Go: the JSON names of the fields of `model.Metadata`. -/
def metadataFields : List String := ["version", "firstRun", "session"]

/-- Go: the JSON names of the fields of `model.AppState`. -/
def stateFields : List String :=
  ["lists", "tasks", "archivedCompleted", "filter", "query", "metadata"]

/-- Go: `foldName` of `encoding/json`: the name with every letter folded. -/
def foldName (lib : GoLib) (name : String) : List Char := name.data.map lib.foldRune

/-- Go: the field of a struct that `json.Unmarshal` stores the member `key` into: the field
of that name, or else the first field whose folded name is the folded key; a member that
finds no field is skipped. -/
def fieldFor (lib : GoLib) (fields : List String) (key : String) : Option String :=
  if fields.contains key then some key
  else fields.find? (fun f => foldName lib f == foldName lib key)

/-- The values that `json.Unmarshal` stores into the field `name` of a struct with the
fields `fields`: those of the members of the object that go into the field, in the order of
the document. Go stores them in turn, each into what the earlier ones left. -/
def members (lib : GoLib) (fields : List String) (name : String)
    (ms : List (String × Json)) : List Json :=
  (ms.filter (fun e => fieldFor lib fields e.1 == some name)).map (·.2)

/-- The document gives each of the three slices of the state at most one member. With two
members Go stores the second array through the backing array of the first, and what that
leaves depends on the capacity the runtime gave it. -/
def plainDoc (lib : GoLib) : Json → Bool
  | .obj ms =>
    decide ((members lib stateFields "lists" ms).length ≤ 1) &&
      decide ((members lib stateFields "tasks" ms).length ≤ 1) &&
      decide ((members lib stateFields "archivedCompleted" ms).length ≤ 1)
  | _ => true

/-- Go: `json.Unmarshal` storing one value into a string field: `null` leaves the field as
it is, a string is stored, and another value is a type mismatch (`UnmarshalTypeError`), which
is saved and leaves the field as it is. The pair is the field and whether an error was
saved. -/
def storeString (cur : String × Bool) : Json → String × Bool
  | .null => cur
  | .str s => (s, cur.2)
  | _ => (cur.1, true)

/-- Go: the members of a string field stored in turn into the zero value. -/
def storeStrings (vs : List Json) : String × Bool := vs.foldl storeString ("", false)

/-- Go: `json.Unmarshal` storing one value into a bool field. -/
def storeBool (cur : Bool × Bool) : Json → Bool × Bool
  | .null => cur
  | .bool b => (b, cur.2)
  | _ => (cur.1, true)

/-- Go: the members of a bool field stored in turn into the zero value. -/
def storeBools (vs : List Json) : Bool × Bool := vs.foldl storeBool (false, false)

/-- Go: `json.Unmarshal` storing one value into an `int` field; a number that is not an
integer or is outside the 64 bits of `int` is a type mismatch. -/
def storeInt (cur : Int × Bool) : Json → Int × Bool
  | .null => cur
  | .num n => if -(2 ^ 63) ≤ n ∧ n < 2 ^ 63 then (n, cur.2) else (cur.1, true)
  | _ => (cur.1, true)

/-- Go: the members of an `int` field stored in turn into the zero value. -/
def storeInts (vs : List Json) : Int × Bool := vs.foldl storeInt (0, false)

/-- Go: `json.Unmarshal` storing one value into a `time.Time` field, through
`Time.UnmarshalJSON`: `null` leaves the field as it is; `none` when `Time.UnmarshalJSON`
returns an error, which ends the decoding. -/
def storeTime (lib : GoLib) (cur : Time) : Json → Option Time
  | .null => some cur
  | .str s => lib.parse s
  | _ => none

/-- Go: the members of a `time.Time` field stored in turn into the zero time. -/
def storeTimes (lib : GoLib) (vs : List Json) : Option Time :=
  vs.foldl (fun cur v => cur.bind (fun t => storeTime lib t v)) (some 0)

/-- Go: the loop of `json.Unmarshal` over the elements of an array, `f` storing into one
fresh element: `none` when the decoding is ended inside an element, else the elements and
whether a type error was saved. -/
def storeElems {α : Type} (f : Json → Option (α × Bool)) : List Json → Option (List α × Bool)
  | [] => some ([], false)
  | j :: js =>
    match f j, storeElems f js with
    | some a, some rest => some (a.1 :: rest.1, a.2 || rest.2)
    | _, _ => none

/-- Go: `json.Unmarshal` storing the one member of a slice field, if there is one, into the
nil slice: `null` leaves it nil, an array makes a slice, empty when the array is, and another
value is a type mismatch. -/
def storeSlice {α : Type} (f : Json → Option (α × Bool)) :
    Option Json → Option (Option (List α) × Bool)
  | none => some (none, false)
  | some .null => some (none, false)
  | some (.arr items) =>
    match storeElems f items with
    | some r => some (some r.1, r.2)
    | none => none
  | some _ => some (none, true)

/-- Go: the zero value of `model.List`. -/
def zeroList : TodoList :=
  { ID := "", Name := "", Color := "", CreatedAt := 0, UpdatedAt := 0 }

/-- Go: the zero value of `model.Task`. -/
def zeroTask : Task :=
  { ID := "", ListID := "", Text := "", Done := false, Priority := 0, Position := 0,
    CreatedAt := 0, UpdatedAt := 0 }

/-- Go: the zero value of `model.ArchivedCompletedTask`. -/
def zeroArchived : ArchivedCompletedTask :=
  { ID := "", TaskText := "", OriginListID := "", OriginList := "", Priority := 0,
    DoneAt := 0, ArchivedAt := 0 }

/-- Go: the zero value of `model.SessionContext`. -/
def zeroSession : SessionContext := { ActiveListID := "", Focus := "" }

/-- Go: the zero value of `model.Metadata`. -/
def zeroMetadata : Metadata := { Version := 0, FirstRun := false, Session := zeroSession }

/-- Go: the zero value of `model.AppState`, `var state model.AppState`. -/
def zeroState : StoredState :=
  { Lists := none, Tasks := none, ArchivedCompleted := none, Filter := "", Query := "",
    Metadata := zeroMetadata }

/-- Go: `json.Unmarshal` storing into a zero `model.List`. -/
def unmarshalList (lib : GoLib) : Json → Option (TodoList × Bool)
  | .null => some (zeroList, false)
  | .obj ms =>
    match storeTimes lib (members lib listFields "createdAt" ms),
        storeTimes lib (members lib listFields "updatedAt" ms) with
    | some c, some u =>
      let id := storeStrings (members lib listFields "id" ms)
      let name := storeStrings (members lib listFields "name" ms)
      let color := storeStrings (members lib listFields "color" ms)
      some ({ ID := id.1, Name := name.1, Color := color.1, CreatedAt := c, UpdatedAt := u },
        id.2 || name.2 || color.2)
    | _, _ => none
  | _ => some (zeroList, true)

/-- Go: `json.Unmarshal` storing into a zero `model.Task`. -/
def unmarshalTask (lib : GoLib) : Json → Option (Task × Bool)
  | .null => some (zeroTask, false)
  | .obj ms =>
    match storeTimes lib (members lib taskFields "createdAt" ms),
        storeTimes lib (members lib taskFields "updatedAt" ms) with
    | some c, some u =>
      let id := storeStrings (members lib taskFields "id" ms)
      let listId := storeStrings (members lib taskFields "listId" ms)
      let text := storeStrings (members lib taskFields "text" ms)
      let done := storeBools (members lib taskFields "done" ms)
      let priority := storeInts (members lib taskFields "priority" ms)
      let position := storeInts (members lib taskFields "position" ms)
      some (
        { ID := id.1, ListID := listId.1, Text := text.1, Done := done.1,
          Priority := priority.1, Position := position.1, CreatedAt := c, UpdatedAt := u },
        id.2 || listId.2 || text.2 || done.2 || priority.2 || position.2)
    | _, _ => none
  | _ => some (zeroTask, true)

/-- Go: `json.Unmarshal` storing into a zero `model.ArchivedCompletedTask`. -/
def unmarshalArchived (lib : GoLib) : Json → Option (ArchivedCompletedTask × Bool)
  | .null => some (zeroArchived, false)
  | .obj ms =>
    match storeTimes lib (members lib archivedFields "doneAt" ms),
        storeTimes lib (members lib archivedFields "archivedAt" ms) with
    | some d, some a =>
      let id := storeStrings (members lib archivedFields "id" ms)
      let taskText := storeStrings (members lib archivedFields "taskText" ms)
      let originListId := storeStrings (members lib archivedFields "originListId" ms)
      let originList := storeStrings (members lib archivedFields "originList" ms)
      let priority := storeInts (members lib archivedFields "priority" ms)
      some (
        { ID := id.1, TaskText := taskText.1, OriginListID := originListId.1,
          OriginList := originList.1, Priority := priority.1, DoneAt := d, ArchivedAt := a },
        id.2 || taskText.2 || originListId.2 || originList.2 || priority.2)
    | _, _ => none
  | _ => some (zeroArchived, true)

/-- The members of the objects among the values of a struct field, in the order of the
document: Go stores the objects in turn into the one struct, member by member. -/
def objectMembers : List Json → List (String × Json)
  | [] => []
  | .obj ms :: vs => ms ++ objectMembers vs
  | _ :: vs => objectMembers vs

/-- Whether a value of a struct field is neither `null`, which leaves the struct as it is,
nor an object: a type mismatch. -/
def mismatched (vs : List Json) : Bool :=
  vs.any (fun v => match v with
    | .null => false
    | .obj _ => false
    | _ => true)

/-- Go: `json.Unmarshal` storing the members of the `session` field into a zero
`model.SessionContext`. -/
def unmarshalSession (lib : GoLib) (vs : List Json) : SessionContext × Bool :=
  let active := storeStrings (members lib sessionFields "activeListId" (objectMembers vs))
  let focus := storeStrings (members lib sessionFields "focus" (objectMembers vs))
  ({ ActiveListID := active.1, Focus := focus.1 }, mismatched vs || active.2 || focus.2)

/-- Go: `json.Unmarshal` storing the members of the `metadata` field into a zero
`model.Metadata`. -/
def unmarshalMetadata (lib : GoLib) (vs : List Json) : Metadata × Bool :=
  let version := storeInts (members lib metadataFields "version" (objectMembers vs))
  let firstRun := storeBools (members lib metadataFields "firstRun" (objectMembers vs))
  let session := unmarshalSession lib (members lib metadataFields "session" (objectMembers vs))
  ({ Version := version.1, FirstRun := firstRun.1, Session := session.1 },
    mismatched vs || version.2 || firstRun.2 || session.2)

/-- Go: `json.Unmarshal(data, &state)` on a zero `model.AppState`, `data` read as a JSON value
that gives each slice of the state at most one member. An error of `Time.UnmarshalJSON` ends
the decoding and is the error returned; a type mismatch is saved, the decoding goes on, and
the saved error is returned at the end. -/
def unmarshalPlain (lib : GoLib) (j : Json) : Except JsonErr StoredState :=
  match j with
  | .null => .ok zeroState
  | .obj ms =>
    match storeSlice (unmarshalList lib) (members lib stateFields "lists" ms).head?,
        storeSlice (unmarshalTask lib) (members lib stateFields "tasks" ms).head?,
        storeSlice (unmarshalArchived lib)
          (members lib stateFields "archivedCompleted" ms).head? with
    | some lists, some tasks, some archived =>
      let filter := storeStrings (members lib stateFields "filter" ms)
      let query := storeStrings (members lib stateFields "query" ms)
      let metadata := unmarshalMetadata lib (members lib stateFields "metadata" ms)
      if lists.2 || tasks.2 || archived.2 || filter.2 || query.2 || metadata.2 then
        .error .typeError
      else
        .ok
          { Lists := lists.1, Tasks := tasks.1, ArchivedCompleted := archived.1,
            Filter := filter.1, Query := query.1, Metadata := metadata.1 }
    | _, _, _ => .error .other
  | _ => .error .typeError

/-- Go: `json.Unmarshal(data, &state)` on a zero `model.AppState`, `data` read as a JSON
value. -/
def Unmarshal (lib : GoLib) (j : Json) : Except JsonErr StoredState :=
  if plainDoc lib j then unmarshalPlain lib j else lib.unmarshalRepeated j

/-- Go: the statements of `decodeState` after `json.Unmarshal`: a nil slice becomes an empty
one, an empty filter becomes `all`, a zero version becomes `1`, a blank session focus becomes
`lists`. -/
def loadDefaults (state : StoredState) : StoredState :=
  { state with
    Lists := some (state.Lists.getD []),
    Tasks := some (state.Tasks.getD []),
    ArchivedCompleted := some (state.ArchivedCompleted.getD []),
    Filter := if state.Filter = "" then FilterAll else state.Filter,
    Metadata := { state.Metadata with
      Version := if state.Metadata.Version = 0 then 1 else state.Metadata.Version,
      Session := { state.Metadata.Session with
        Focus :=
          if TrimSpace state.Metadata.Session.Focus = "" then SessionFocusLists
          else state.Metadata.Session.Focus } } }

/-- Go: `decodeState`. -/
def decodeState (lib : GoLib) (data : Content) : Except JsonErr StoredState :=
  match data with
  | .garbage _ => .error .notJSON
  | .doc j =>
    match Unmarshal lib j with
    | .error err => .error err
    | .ok state => .ok (loadDefaults state)

/-- Go: `isCorruptStateError`. -/
def isCorruptStateError (err : JsonErr) : Bool :=
  match err with
  | .notJSON => true
  | .typeError => true
  | .unexpectedEOF => true
  | .other => false

/-- Go: the state `json.Unmarshal` reads from what `json.Marshal` wrote of `s`: an archive
without elements was left out and is read as the nil slice. -/
def omitArchive (s : StoredState) : StoredState :=
  { s with
    ArchivedCompleted :=
      if (s.ArchivedCompleted.getD []).isEmpty then none else s.ArchivedCompleted }

/-! ## A library for the examples -/

/-- One piece of a pattern of `filepath.Match`: a character, `?`, `*`, or a class with its
ranges. -/
inductive GlobTok where
  | lit (c : Char)
  | one
  | star
  | cls (negated : Bool) (ranges : List (Char × Char))

/-- Where the reading of a pattern stands: in the text, after a backslash, after the `[` of a
class, before an item of a class, after the backslash of an item, after the low end of a
range, after the `-` of a range, after the backslash of a high end. -/
inductive GlobState where
  | text
  | esc
  | classOpen
  | item (negated : Bool) (ranges : List (Char × Char))
  | itemEsc (negated : Bool) (ranges : List (Char × Char))
  | afterLo (negated : Bool) (ranges : List (Char × Char)) (lo : Char)
  | hiStart (negated : Bool) (ranges : List (Char × Char)) (lo : Char)
  | hiEsc (negated : Bool) (ranges : List (Char × Char)) (lo : Char)

/-- The character `c` where an item of a class or its closing `]` is due; `none` is a
malformed pattern. -/
def classItem (negated : Bool) (ranges : List (Char × Char)) (c : Char) :
    Option (GlobState × List GlobTok) :=
  if c = ']' then (if ranges.isEmpty then none else some (.text, [.cls negated ranges]))
  else if c = '-' then none
  else if c = '\\' then some (.itemEsc negated ranges, [])
  else some (.afterLo negated ranges c, [])

/-- One character of a pattern: the state after it and the pieces it completes. -/
def GlobState.next : GlobState → Char → Option (GlobState × List GlobTok)
  | .text, c =>
    if c = '*' then some (.text, [.star])
    else if c = '?' then some (.text, [.one])
    else if c = '[' then some (.classOpen, [])
    else if c = '\\' then some (.esc, [])
    else some (.text, [.lit c])
  | .esc, c => some (.text, [.lit c])
  | .classOpen, c => if c = '^' then some (.item true [], []) else classItem false [] c
  | .item negated ranges, c => classItem negated ranges c
  | .itemEsc negated ranges, c => some (.afterLo negated ranges c, [])
  | .afterLo negated ranges lo, c =>
    if c = '-' then some (.hiStart negated ranges lo, [])
    else classItem negated (ranges ++ [(lo, lo)]) c
  | .hiStart negated ranges lo, c =>
    if c = ']' ∨ c = '-' then none
    else if c = '\\' then some (.hiEsc negated ranges lo, [])
    else some (.item negated (ranges ++ [(lo, c)]), [])
  | .hiEsc negated ranges lo, c => some (.item negated (ranges ++ [(lo, c)]), [])

/-- The pieces of a pattern; `none` when it is malformed (`ErrBadPattern`). -/
def globToks : GlobState → List Char → Option (List GlobTok)
  | .text, [] => some []
  | _, [] => none
  | st, c :: rest =>
    match st.next c with
    | none => none
    | some r => (globToks r.1 rest).map (fun toks => r.2 ++ toks)

/-- A `*` followed by what `k` accepts: `*` takes any characters but the separator. -/
def starMatch (k : List Char → Bool) : List Char → Bool
  | [] => k []
  | c :: cs => k (c :: cs) || (c != '/' && starMatch k cs)

/-- Whether the pieces match the whole path; `filepath.Glob` matches name by name, so that
only the separator of the pattern matches a separator. -/
def matchToks : List GlobTok → List Char → Bool
  | [], name => name.isEmpty
  | .star :: rest, name => starMatch (matchToks rest) name
  | _ :: _, [] => false
  | .lit c :: rest, n :: ns => c == n && matchToks rest ns
  | .one :: rest, n :: ns => n != '/' && matchToks rest ns
  | .cls negated ranges :: rest, n :: ns =>
    n != '/' && (ranges.any (fun r => decide (r.1 ≤ n) && decide (n ≤ r.2)) != negated) &&
      matchToks rest ns

/-- The paths of the files that a pattern matches, in ascending order; `none` when the
pattern is malformed. -/
def matchingNames (fs : FileSystem) (pattern : String) : Option (List String) :=
  match globToks .text pattern.data with
  | none => none
  | some toks =>
    some (sortStrings (((fs.map (·.1)).filter (fun n => matchToks toks n.data)).dedup))

/-- A library for the examples: the instant `n` is written as `n` strokes, the ASCII small
letters fold to the capital ones, a pattern is read as the documentation of `filepath.Match`
describes it (text followed by one `*` being a prefix), and a document that gives a slice of
the state two members is refused. -/
def strokes : GoLib where
  format := fun n => String.mk (List.replicate n 'I')
  parse := fun s => if s.data.all (· == 'I') then some s.data.length else none
  stampNano := fun n => String.mk (List.replicate n 'I')
  stampSec := fun n => String.mk (List.replicate n 'I')
  foldRune := fun c => if 'a' ≤ c ∧ c ≤ 'z' then Char.ofNat (c.toNat - 32) else c
  glob := fun fs pattern =>
    if pattern.data.getLast? = some '*' ∧ hasMeta (String.mk pattern.data.dropLast) = false then
      some (namesWith fs (String.mk pattern.data.dropLast))
    else matchingNames fs pattern
  unmarshalRepeated := fun _ => .error .typeError
  parse_format := by
    intro t
    simp
  stampNano_lt := by
    intro a b h
    rw [String.lt_iff_toList_lt]
    show List.Lex (· < ·) (List.replicate a 'I') (List.replicate b 'I')
    induction a generalizing b with
    | zero =>
      cases b with
      | zero => exact absurd h (Nat.not_lt_zero _)
      | succ b => exact List.Lex.nil
    | succ a ih =>
      cases b with
      | zero => exact absurd h (Nat.not_lt_zero _)
      | succ b => exact List.Lex.cons (ih b (Nat.lt_of_succ_lt_succ h))
  stampNano_nosep := by
    intro t
    simp
  stampSec_nodot := by
    intro t
    simp
  glob_plain := by
    intro fs pre h
    simp [String.data_append, h]
  unmarshalRepeated_range := by
    intro j s h
    cases h


/-! ## package store: the operations on the files -/

/-- Go: `maxRotatingBackups`. -/
def maxRotatingBackups : Nat := 10

/-- Go: `filepath.Base` on the path of a file: what follows the last separator. -/
def Base (path : String) : String :=
  String.mk (path.data.reverse.takeWhile (fun c => c != '/')).reverse

/-- Go: the directory of the path of a file as the other names of that directory are
written after it: the path up to its last separator, the separator included. -/
def dirPart (path : String) : String :=
  String.mk (path.data.reverse.dropWhile (fun c => c != '/')).reverse

/-- Go: `filepath.Ext` on a base name: the suffix that starts at the last dot, or nothing. -/
def Ext (base : String) : String :=
  if base.data.contains '.' then
    String.mk ('.' :: (base.data.reverse.takeWhile (fun c => c != '.')).reverse)
  else ""

/-- Go: `strings.TrimSuffix`. -/
def TrimSuffix (s suffix : String) : String :=
  if suffix.data.isSuffixOf s.data then String.mk (s.data.take (s.data.length - suffix.data.length))
  else s

/-- Go: the name of the file `os.CreateTemp(filepath.Dir(path), filepath.Base(path)+".tmp-")`
creates, `rnd` the random string: it takes the place of the last `*` of the pattern, or
follows the pattern when that has no `*`. -/
def tempName (path rnd : String) : String :=
  let pattern := (Base path ++ ".tmp-").data
  if pattern.contains '*' then
    dirPart path ++
      String.mk ((pattern.reverse.dropWhile (fun c => c != '*')).reverse.dropLast ++ rnd.data ++
        (pattern.reverse.takeWhile (fun c => c != '*')).reverse)
  else dirPart path ++ String.mk pattern ++ rnd

/-- One call of `Autosave` on the file system, in the order of the source. -/
inductive FsCall where
  | mkdirAll (dir : String)
  | writeFile (path : String) (data : Content)
  | remove (path : String)
  | createTemp (path : String)
  | encode (path : String) (data : Content)
  | sync (path : String)
  | close (path : String)
  | rename (oldpath newpath : String)

/-- The file system after a call made at the time `now` went through. -/
def FsCall.run (now : Time) (fs : FileSystem) : FsCall → FileSystem
  | .mkdirAll _ => fs
  | .writeFile path data => WriteFile fs path data now
  | .remove path => Remove fs path
  | .createTemp path => WriteFile fs path (.garbage "") now
  | .encode path data => WriteFile fs path data now
  | .sync _ => fs
  | .close _ => fs
  | .rename oldpath newpath => Rename fs oldpath newpath

/-- Whether a call writes, removes, moves or replaces the file at `path`. -/
def FsCall.touches (path : String) : FsCall → Bool
  | .mkdirAll _ => false
  | .writeFile p _ => p == path
  | .remove p => p == path
  | .createTemp p => p == path
  | .encode p _ => p == path
  | .sync _ => false
  | .close _ => false
  | .rename oldpath newpath => oldpath == path || newpath == path

/-- Go: the calls of `pruneRotatingBackups`, or `none` when `filepath.Glob` returns its
error. -/
def pruneCalls (lib : GoLib) (fs : FileSystem) (path : String) : Option (List FsCall) :=
  match lib.glob fs (path ++ ".bak.*") with
  | none => none
  | some files =>
    if files.length ≤ maxRotatingBackups then some []
    else some (((sortStrings files).take (files.length - maxRotatingBackups)).map FsCall.remove)

/-- Go: the calls `backup` makes, and whether it returns `nil`. -/
def backupCalls (lib : GoLib) (fs : FileSystem) (path : String) (now : Time) :
    List FsCall × Bool :=
  match ReadFile fs path with
  | none => ([], true)
  | some data =>
    let writes : List FsCall :=
      [.writeFile (path ++ ".bak") data,
       .writeFile (path ++ ".bak." ++ lib.stampNano now) data]
    match pruneCalls lib (writes.foldl (FsCall.run now) fs) path with
    | none => (writes, false)
    | some removes => (writes ++ removes, true)

/-- Go: the calls `Autosave` makes up to `os.Rename`, and whether it gets that far: it
returns before `os.CreateTemp` when `backup` returns an error. -/
def autosaveCalls (lib : GoLib) (fs : FileSystem) (path : String) (state : StoredState)
    (now : Time) (rnd : String) : List FsCall × Bool :=
  let b := backupCalls lib fs path now
  if b.2 then
    ([.mkdirAll (dirPart path)] ++ b.1 ++
      [.createTemp (tempName path rnd),
       .encode (tempName path rnd) (.doc (Marshal lib state)),
       .sync (tempName path rnd),
       .close (tempName path rnd),
       .rename (tempName path rnd) path], true)
  else ([.mkdirAll (dirPart path)] ++ b.1, false)

/-- Go: `Autosave`: whether it returns `nil`, and the files after; the deferred `os.Remove`
comes last, once the temporary file was created. -/
def Autosave (lib : GoLib) (fs : FileSystem) (path : String) (state : StoredState)
    (now : Time) (rnd : String) : Bool × FileSystem :=
  let c := autosaveCalls lib fs path state now rnd
  if c.2 then (true, Remove (c.1.foldl (FsCall.run now) fs) (tempName path rnd))
  else (false, c.1.foldl (FsCall.run now) fs)

/-- Go: `Autosave` stopped after its first `n` calls, by a crash, or by the failure of the call
that comes next, which is followed by the deferred `os.Remove` when `cleanup` is set. -/
def autosaveStopped (lib : GoLib) (fs : FileSystem) (path : String) (state : StoredState)
    (now : Time) (rnd : String) (n : Nat) (cleanup : Bool) : FileSystem :=
  let fs1 := ((autosaveCalls lib fs path state now rnd).1.take n).foldl (FsCall.run now) fs
  if cleanup then Remove fs1 (tempName path rnd) else fs1

/-- Go: successive calls of `Autosave` on one path, each with its state, its time and the
random part of the name of its temporary file: whether every call returned `nil`, and the
files after the last. -/
def autosaveAll (lib : GoLib) (path : String) :
    FileSystem → List (StoredState × Time × String) → Bool × FileSystem
  | fs, [] => (true, fs)
  | fs, c :: rest =>
    let r := Autosave lib fs path c.1 c.2.1 c.2.2
    let rs := autosaveAll lib path r.2 rest
    (r.1 && rs.1, rs.2)

/-- The rotating backups that successive calls of `Autosave` write, in the order written:
`backup` writes one when it can read the file at `path`. -/
def rotatingWritten (lib : GoLib) (path : String) :
    FileSystem → List (StoredState × Time × String) → List String
  | _, [] => []
  | fs, c :: rest =>
    (match ReadFile fs path with
      | none => []
      | some _ => [path ++ ".bak." ++ lib.stampNano c.2.1]) ++
    rotatingWritten lib path (Autosave lib fs path c.1 c.2.1 c.2.2).2 rest

/-- Go: `writeJSON`. -/
def writeJSON (lib : GoLib) (fs : FileSystem) (path : String) (state : StoredState)
    (now : Time) : FileSystem :=
  WriteFile fs path (.doc (Marshal lib state)) now

/-- Go: `Save`. -/
def Save (lib : GoLib) (fs : FileSystem) (path : String) (state : StoredState) (now : Time) :
    FileSystem :=
  writeJSON lib fs path state now

/-- Go: `Load`. -/
def Load (lib : GoLib) (fs : FileSystem) (path : String) : Except JsonErr StoredState :=
  match ReadFile fs path with
  | none => .ok NewState.stored
  | some data => decodeState lib data

/-- Go: the comparator of the sort in `loadLatestValidBackup`. -/
def newerFirst (fs : FileSystem) (a b : String) : Bool :=
  match Stat fs a, Stat fs b with
  | some fa, some fb => decide (fa.modTime > fb.modTime)
  | _, _ => decide (a > b)

/-- Go: the loop of `loadLatestValidBackup` over the sorted candidates. -/
def firstValid (lib : GoLib) (fs : FileSystem) : List String → Option (StoredState × String)
  | [] => none
  | candidate :: rest =>
    match ReadFile fs candidate with
    | none => firstValid lib fs rest
    | some data =>
      match decodeState lib data with
      | .error _ => firstValid lib fs rest
      | .ok state => some (state, candidate)

/-- Go: the errors of `loadLatestValidBackup`: `errNoValidBackup`, and the error of
`filepath.Glob`. -/
inductive BackupErr where
  | noValidBackup
  | badPattern
deriving DecidableEq, Repr

/-- Go: the candidates of `loadLatestValidBackup`, before the sort; `none` when
`filepath.Glob` returns its error. -/
def backupCandidates (lib : GoLib) (fs : FileSystem) (path : String) : Option (List String) :=
  match lib.glob fs (path ++ ".bak.*") with
  | none => none
  | some rotating =>
    some ((if (Stat fs (path ++ ".bak")).isSome then [path ++ ".bak"] else []) ++ rotating)

/-- Go: `loadLatestValidBackup`. -/
def loadLatestValidBackup (lib : GoLib) (fs : FileSystem) (path : String) :
    Except BackupErr (StoredState × String) :=
  match backupCandidates lib fs path with
  | none => .error .badPattern
  | some candidates =>
    if candidates.length = 0 then .error .noValidBackup
    else
      match firstValid lib fs (sortSliceStable (newerFirst fs) candidates) with
      | some found => .ok found
      | none => .error .noValidBackup

/-- Go: the path `moveCorruptFile` moves the file to. -/
def corruptPathOf (lib : GoLib) (path : String) (now : Time) : String :=
  let base := Base path
  let ext := Ext base
  let name := TrimSuffix base ext
  dirPart path ++ (name ++ ".corrupt-" ++ lib.stampSec now ++ ext)

/-- Go: `moveCorruptFile`. -/
def moveCorruptFile (lib : GoLib) (fs : FileSystem) (path : String) (now : Time) :
    String × FileSystem :=
  if (Stat fs path).isNone then ("", fs)
  else (corruptPathOf lib path now, Rename fs path (corruptPathOf lib path now))

/-- Go: the errors of `LoadWithRecovery`: the error of `Load`, and the error of the
inspection of the backups. -/
inductive LoadErr where
  | decode (err : JsonErr)
  | inspectBackups
deriving DecidableEq, Repr

/-- Go: `LoadWithRecovery`: the state and the message or the error, and the files after. -/
def LoadWithRecovery (lib : GoLib) (fs : FileSystem) (path : String) (now : Time) :
    Except LoadErr (StoredState × String) × FileSystem :=
  match Load lib fs path with
  | .ok state => (.ok (state, ""), fs)
  | .error err =>
    if ¬ isCorruptStateError err then (.error (.decode err), fs)
    else
      let moved := moveCorruptFile lib fs path now
      let suffix :=
        if moved.1 ≠ "" then " (arquivo ruim movido para " ++ Base moved.1 ++ ")" else ""
      match loadLatestValidBackup lib moved.2 path with
      | .ok (recoveredState, backupPath) =>
        (.ok (recoveredState,
            "Estado corrompido recuperado de " ++ Base backupPath ++ suffix),
          Save lib moved.2 path recoveredState now)
      | .error .badPattern => (.error .inspectBackups, moved.2)
      | .error .noValidBackup =>
        (.ok (NewState.stored,
            "Estado corrompido sem backup válido; iniciado com estado vazio" ++ suffix),
          Save lib moved.2 path NewState.stored now)

/-- The calls of `pruneRotatingBackups` when `filepath.Glob` returns the rotating backups
of the path: the removal of all but the last `maxRotatingBackups` by name. -/
def pruneRemovals (fs : FileSystem) (path : String) : List FsCall :=
  if (namesWith fs (path ++ ".bak.")).length ≤ maxRotatingBackups then []
  else
    ((sortStrings (namesWith fs (path ++ ".bak."))).take
      ((namesWith fs (path ++ ".bak.")).length - maxRotatingBackups)).map FsCall.remove


/-! ## Example states and files of package store -/

/-- The state of `TestAppStateSerializationRoundTrip`, the time of the test written `4`. -/
def sampleStored : StoredState :=
  { Lists := some [TodoList.mk "l1" "Inbox" "blue" 4 4],
    Tasks := some [Task.mk "t1" "l1" "write tests" true PriorityHigh 3 4 4],
    ArchivedCompleted :=
      some [ArchivedCompletedTask.mk "a1" "old done" "l1" "Inbox" PriorityMedium 4 4],
    Filter := FilterDone, Query := "tests",
    Metadata := Metadata.mk 1 false (SessionContext.mk "l1" SessionFocusTasks) }

/-- The state of `model.NewState` with the filter emptied. -/
def emptyFilterState : StoredState := { NewState.stored with Filter := "" }

/-- The members of the legacy document of `TestLoadLegacyJSONWithoutNewFields`, the times
written as `strokes` writes them. -/
def legacyMembers : List (String × Json) :=
  [("lists", .arr [.obj [("id", .str "l1"), ("name", .str "Inbox"), ("color", .str "blue"),
      ("createdAt", .str "II"), ("updatedAt", .str "II")]]),
   ("tasks", .arr [.obj [("id", .str "t1"), ("listId", .str "l1"),
      ("text", .str "legacy task"), ("done", .bool false),
      ("createdAt", .str "III"), ("updatedAt", .str "III")]])]

/-- A document whose only member is written `Filter`, with a capital letter. -/
def capitalFilterFiles : FileSystem :=
  [("state.json", File.mk (.doc (.obj [("Filter", .str "done")])) 4)]

/-- A document with two members `query` and a member `QUERY` that is `null`. -/
def repeatedQueryFiles : FileSystem :=
  [("state.json",
    File.mk (.doc (.obj [("query", .str "a"), ("query", .str "b"), ("QUERY", .null)])) 4)]

/-- A state file written at the time 1 with the state of `model.NewState`. -/
def previousFiles : FileSystem :=
  [("state.json", File.mk (.doc (Marshal strokes NewState.stored)) 1)]

/-- Successive saves of the state of `model.NewState` at the times `2` to `n + 1`. -/
def savesUpTo (n : Nat) : List (StoredState × Time × String) :=
  (List.range n).map (fun i => (NewState.stored, i + 2, "r"))

/-- A state file, written at the time 1, in a directory whose name holds brackets. -/
def bracketFiles : FileSystem :=
  [("d[1]/state.json", File.mk (.doc (Marshal strokes NewState.stored)) 1)]

/-- A state file whose list has a creation time that does not parse, beside a good latest
backup. -/
def badTimeFiles : FileSystem :=
  [("state.json",
      File.mk (.doc (.obj [("lists",
        .arr [.obj [("id", .str "l1"), ("createdAt", .str "yesterday")]])])) 2),
   ("state.json.bak", File.mk (.doc (Marshal strokes sampleStored)) 1)]

/-- A state file whose list has a number for its name, beside a good latest backup. -/
def badNameFiles : FileSystem :=
  [("state.json",
      File.mk (.doc (.obj [("lists", .arr [.obj [("id", .str "l1"), ("name", .num 5)]])])) 2),
   ("state.json.bak", File.mk (.doc (Marshal strokes sampleStored)) 1)]

/-- A state file that is not JSON, written at the time 6, beside a latest backup that is cut
short, written at the time 5, and two good rotating backups, written at the times 2 and 4. -/
def corruptFiles : FileSystem :=
  [("state.json", File.mk (.garbage "not json") 6),
   ("state.json.bak", File.mk (.garbage "\x7b\"lists\":") 5),
   ("state.json.bak.II", File.mk (.doc (Marshal strokes NewState.stored)) 2),
   ("state.json.bak.IIII", File.mk (.doc (Marshal strokes sampleStored)) 4)]

/-- A state file that is not JSON in a directory whose name holds brackets, beside a good
rotating backup. -/
def bracketCorruptFiles : FileSystem :=
  [("d[1]/state.json", File.mk (.garbage "not json") 6),
   ("d[1]/state.json.bak.II", File.mk (.doc (Marshal strokes sampleStored)) 2)]


/-! ## The service as a transition system -/

/-- One call of a mutating operation of the service, with the values it reads from the
environment. -/
inductive Op where
  | createList (name color : String) (now : Time) (newID : String)
  | updateList (id name color : String) (now : Time)
  | deleteList (id : String)
  | moveListUp (listID : String) (now : Time)
  | moveListDown (listID : String) (now : Time)
  | createTask (listID text : String) (now : Time) (newID : String)
  | updateTask (id text : String) (now : Time)
  | deleteTask (id : String)
  | toggleDone (taskID : String) (now : Time)
  | setTaskPriority (taskID : String) (priority : Priority) (now : Time)
  | moveTaskUp (taskID : String) (now : Time)
  | moveTaskDown (taskID : String) (now : Time)
  | clearCompletedToArchive (listID : String) (now : Time) (ids : Nat → String)
  | archiveAllToArchive (listID : String) (now : Time) (ids : Nat → String)
  | deleteAllTasks (listID : String)
  | setSessionContext (activeListID focus : String)
  | markOnboardingSeen
  | setFilter (filter : Filter)
  | setQuery (query : String)
  | undo
  | undoDelete

/-- The error of a call, if any, and the service after it. -/
def outcome {α : Type} (r : Except Err α × Service) : Option Err × Service :=
  (match r.1 with
   | .ok _ => none
   | .error e => some e, r.2)

/-- The call `op` made on the service `s`. -/
def step (s : Service) : Op → Option Err × Service
  | .createList name color now newID => outcome (s.CreateList name color now newID)
  | .updateList id name color now => outcome (s.UpdateList id name color now)
  | .deleteList id => outcome (s.DeleteList id)
  | .moveListUp listID now => outcome (s.MoveListUp listID now)
  | .moveListDown listID now => outcome (s.MoveListDown listID now)
  | .createTask listID text now newID => outcome (s.CreateTask listID text now newID)
  | .updateTask id text now => outcome (s.UpdateTask id text now)
  | .deleteTask id => outcome (s.DeleteTask id)
  | .toggleDone taskID now => outcome (s.ToggleDone taskID now)
  | .setTaskPriority taskID priority now => outcome (s.SetTaskPriority taskID priority now)
  | .moveTaskUp taskID now => outcome (s.MoveTaskUp taskID now)
  | .moveTaskDown taskID now => outcome (s.MoveTaskDown taskID now)
  | .clearCompletedToArchive listID now ids => outcome (s.ClearCompletedToArchive listID now ids)
  | .archiveAllToArchive listID now ids => outcome (s.ArchiveAllToArchive listID now ids)
  | .deleteAllTasks listID => outcome (s.DeleteAllTasks listID)
  | .setSessionContext activeListID focus => outcome (s.SetSessionContext activeListID focus)
  | .markOnboardingSeen => (none, s.MarkOnboardingSeen)
  | .setFilter filter => outcome (s.SetFilter filter)
  | .setQuery query => (none, s.SetQuery query)
  | .undo => outcome s.Undo
  | .undoDelete => outcome s.UndoDelete

/-- The services reachable from `NewService s0` by calls of the operations. -/
inductive Reachable (s0 : AppState) : Service → Prop
  | init : Reachable s0 (NewService s0)
  | call (s : Service) (op : Op) : Reachable s0 s → Reachable s0 (step s op).2

/-- The service after the calls `ops`, made in order. -/
def run (s : Service) : List Op → Service
  | [] => s
  | op :: ops => run (step s op).2 ops

/-! ## Predicates of the specification -/

/-- The positions of the tasks of list `listID`, in storage order. -/
def positionsOf (tasks : List Task) (listID : String) : List Int :=
  (tasks.filter (fun t => t.ListID == listID)).map (·.Position)

/-- Density and uniqueness: the positions of the tasks of `listID` are exactly `1, ..., N`,
each once, `N` the number of these tasks. -/
def Dense (tasks : List Task) (listID : String) : Prop :=
  List.Perm (positionsOf tasks listID)
    ((List.range' 1 (positionsOf tasks listID).length).map Int.ofNat)

instance (tasks : List Task) (listID : String) : Decidable (Dense tasks listID) := by
  unfold Dense; infer_instance

/-- The result `r` of a call on `s` is atomic: when it carries an error, the service it
carries is `s`. -/
def Atomic {α : Type} (s : Service) (r : Except Err α × Service) : Prop :=
  ∀ e, r.1 = .error e → r.2 = s

/-- The result `r` of a call on `s` records a snapshot: when it carries a value, the undo
stack it carries is the one `pushUndo` leaves. -/
def Records {α : Type} (s : Service) (r : Except Err α × Service) : Prop :=
  ∀ v, r.1 = .ok v → r.2.undo = s.pushUndo.undo

/-- The operations that record an undo snapshot when they succeed. -/
def Op.isRecorded : Op → Bool
  | .createList _ _ _ _ => true
  | .updateList _ _ _ _ => true
  | .deleteList _ => true
  | .moveListUp _ _ => true
  | .moveListDown _ _ => true
  | .createTask _ _ _ _ => true
  | .updateTask _ _ _ => true
  | .deleteTask _ => true
  | .toggleDone _ _ => true
  | .setTaskPriority _ _ _ => true
  | .moveTaskUp _ _ => true
  | .moveTaskDown _ _ => true
  | .clearCompletedToArchive _ _ _ => true
  | .archiveAllToArchive _ _ _ => true
  | .deleteAllTasks _ => true
  | .setSessionContext _ _ => false
  | .markOnboardingSeen => false
  | .setFilter _ => false
  | .setQuery _ => false
  | .undo => false
  | .undoDelete => false

/-- The operations `Undo` and `UndoDelete`. -/
def Op.isUndo : Op → Bool
  | .undo => true
  | .undoDelete => true
  | _ => false

/-- A call of `SetTaskPriority` on `s` asks for a value different from the one the task has;
true of every other call. -/
def changesPriority (s : Service) : Op → Bool
  | .setTaskPriority taskID priority _ =>
    match s.GetTask taskID with
    | .ok t => decide (t.Priority ≠ priority)
    | .error _ => true
  | _ => true

/-- The call `op` on `s` is a successful undo-recorded operation (a `SetTaskPriority` to a
different value). -/
def RecordedCall (s : Service) (op : Op) : Prop :=
  op.isRecorded = true ∧ (step s op).1 = none ∧ changesPriority s op = true

/-- A chain of successful undo-recorded operations, made one after the other from `s`. -/
def ChainOk : Service → List Op → Prop
  | _, [] => True
  | s, op :: ops => RecordedCall s op ∧ ChainOk (step s op).2 ops

/-- The states before each call of the chain `ops` made from `s`, in order. -/
def preStates : Service → List Op → List AppState
  | _, [] => []
  | s, op :: ops => s.state :: preStates (step s op).2 ops

/-- The service after `k` calls of `Undo`. -/
def undoN : Nat → Service → Service
  | 0, s => s
  | k + 1, s => undoN k s.Undo.2

/-- Referential integrity: the list id of every task is the id of a list of the state. -/
def RefIntegrity (st : AppState) : Prop :=
  ∀ t ∈ st.Tasks, listIDExists st.Lists t.ListID = true

instance (st : AppState) : Decidable (RefIntegrity st) := by
  unfold RefIntegrity; infer_instance

/-! ## Example data -/

/-- A fresh service with one list, `Inbox`, of id `L1`. -/
def inboxService : Service :=
  (step (NewService NewState) (.createList "Inbox" "" 5 "L1")).2

/-- Three tasks created in the list `L1`, the second one then completed. -/
def inboxChain : List Op :=
  [.createTask "L1" "A" 6 "a", .createTask "L1" "B" 7 "b", .createTask " L1 " " C " 8 "c",
   .toggleDone "b" 9]

/-- A chain of 22 recorded operations on a fresh service: a list, a task in it, and twenty
toggles of that task; two more than the undo stack holds. -/
def capChain : List Op :=
  [.createList "Inbox" "" 5 "L1", .createTask "L1" "A" 6 "a"] ++
    List.replicate 20 (.toggleDone "a" 7)

/-- A dense state in which two tasks of the list `L1` carry the same identifier `a`: the one
stored first has position 2, the other one position 1. -/
def twinState : AppState :=
  { NewState with
    Lists := [{ ID := "L1", Name := "Inbox", Color := "", CreatedAt := 1, UpdatedAt := 1 }],
    Tasks :=
      [{ ID := "a", ListID := "L1", Text := "X", Done := false, Priority := 0, Position := 2,
         CreatedAt := 2, UpdatedAt := 2 },
       { ID := "a", ListID := "L1", Text := "Y", Done := false, Priority := 0, Position := 1,
         CreatedAt := 3, UpdatedAt := 3 },
       { ID := "b", ListID := "L1", Text := "Z", Done := false, Priority := 0, Position := 3,
         CreatedAt := 4, UpdatedAt := 4 }] }

/-- The service loaded from `twinState` after its task `b` was deleted: the two tasks left
carry the same identifier, and the one stored first is the last of the manual order. -/
def twinService : Service :=
  (step (NewService twinState) (.deleteTask "b")).2

/-- A raw state as a file may hold it: positions missing, repeated and out of order, a task
of a list that does not exist. -/
def rawState : AppState :=
  { NewState with
    Lists := [{ ID := "L1", Name := "Inbox", Color := "", CreatedAt := 1, UpdatedAt := 1 }],
    Tasks :=
      [{ ID := "a", ListID := "L1", Text := "A", Done := false, Priority := 0, Position := 7,
         CreatedAt := 2, UpdatedAt := 2 },
       { ID := "b", ListID := "L1", Text := "B", Done := true, Priority := 9, Position := 0,
         CreatedAt := 3, UpdatedAt := 3 },
       { ID := "c", ListID := "gone", Text := "C", Done := false, Priority := 1, Position := 7,
         CreatedAt := 4, UpdatedAt := 4 },
       { ID := "d", ListID := "L1", Text := "D", Done := false, Priority := 2, Position := 7,
         CreatedAt := 5, UpdatedAt := 5 }] }

/-- The service of `inboxService` after a second list, `Work` of id `L2`, was created. -/
def twoListsService : Service :=
  (step inboxService (.createList "Work" "" 6 "L2")).2

/-- A task with its position blanked: two tasks with the same image differ in their position
at most. -/
def withoutPosition (t : Task) : Task := { t with Position := 0 }

/-- The tasks of the lists other than `listID`, in storage order. -/
def othersOf (tasks : List Task) (listID : String) : List Task :=
  tasks.filter (fun t => t.ListID != listID)

/-- The call that took the service from `s` to `s2` was local to the list `listID`: the tasks of
the other lists are the same, each with all its fields, in the same storage order, and the
sequence of lists is the same. -/
def LocalTo (s s2 : Service) (listID : String) : Prop :=
  othersOf s2.state.Tasks listID = othersOf s.state.Tasks listID ∧
    s2.state.Lists = s.state.Lists

/-- The indexes of the tasks of `listID` in the order in which `normalizeState` numbers them:
the sorted `indexes` of the group of `listID`. -/
def startupIndexes (tasks : List Task) (listID : String) : List Nat :=
  sortSliceStable (startupLess tasks) (indexesWhere (fun t => t.ListID == listID) tasks 0)

/-- The rank of the task at index `j` in the order in which `normalizeState` numbers the tasks
of its list. -/
def startupRankOf (tasks : List Task) (listID : String) (j : Nat) : Nat :=
  (startupIndexes tasks listID).indexOf j

/-- The order `normalizeState` follows inside a list, read on two tasks `a` and `b` stored at
the indexes `j` and `k`: a task with a positive position goes before one without, two tasks with
positive positions go by position and then by index, two tasks without go by index. -/
def StartupBefore (a b : Task) (j k : Nat) : Prop :=
  (0 < a.Position ∧ b.Position ≤ 0) ∨
  (0 < a.Position ∧ 0 < b.Position ∧
    (a.Position < b.Position ∨ (a.Position = b.Position ∧ j < k))) ∨
  (a.Position ≤ 0 ∧ b.Position ≤ 0 ∧ j < k)

/-- The rank of the task at index `j` in the manual order of its list. -/
def rankOf (tasks : List Task) (listID : String) (j : Nat) : Nat :=
  (taskIndexesForList tasks listID).indexOf j

end TodoCli

namespace TodoCli

/-! ## Lemmas on the list primitives -/

section ListPrimitives

variable {α : Type}

theorem length_updateAt (f : α → α) (l : List α) (i : Nat) :
    (updateAt f l i).length = l.length := by
  induction l generalizing i with
  | nil => rfl
  | cons a as ih => cases i <;> simp [updateAt, ih]

theorem getElem?_updateAt (f : α → α) (l : List α) (i j : Nat) :
    (updateAt f l i)[j]? = if j = i then (l[j]?).map f else l[j]? := by
  induction l generalizing i j with
  | nil => simp [updateAt]
  | cons a as ih =>
    cases i with
    | zero => cases j <;> simp [updateAt]
    | succ i => cases j <;> simp [updateAt, ih]

theorem getD_updateAt (f : α → α) (l : List α) (i j : Nat) (d : α) (h : i < l.length) :
    (updateAt f l i).getD j d = if j = i then f (l.getD j d) else l.getD j d := by
  simp only [List.getD_eq_getElem?_getD, getElem?_updateAt]
  split
  · next hj => subst hj; simp [List.getElem?_eq_getElem h]
  · rfl

theorem map_updateAt {β : Type} (g : α → β) (f : α → α) (l : List α) (i : Nat)
    (h : ∀ a, g (f a) = g a) : (updateAt f l i).map g = l.map g := by
  induction l generalizing i with
  | nil => rfl
  | cons a as ih => cases i <;> simp [updateAt, ih, h]

theorem indexWhere_eq_none {p : α → Bool} {l : List α} :
    indexWhere p l = none ↔ ∀ a ∈ l, p a = false := by
  induction l with
  | nil => simp [indexWhere]
  | cons a as ih =>
    by_cases hp : p a = true
    · simp [indexWhere, hp]
    · simp [indexWhere, hp, ih]

theorem indexWhere_eq_some {p : α → Bool} {l : List α} {i : Nat} (h : indexWhere p l = some i) :
    ∃ a, l[i]? = some a ∧ p a = true ∧ l.find? p = some a := by
  induction l generalizing i with
  | nil => simp [indexWhere] at h
  | cons a as ih =>
    by_cases hp : p a = true
    · simp [indexWhere, hp] at h
      subst h
      exact ⟨a, by simp, hp, by simp [hp]⟩
    · simp only [indexWhere, hp, Bool.false_eq_true, if_false, Option.map_eq_some'] at h
      obtain ⟨k, hk, rfl⟩ := h
      obtain ⟨b, hb, hpb, hf⟩ := ih hk
      exact ⟨b, by simpa using hb, hpb, by simp [hp, hf]⟩

theorem indexWhere_lt {p : α → Bool} {l : List α} {i : Nat} (h : indexWhere p l = some i) :
    i < l.length := by
  obtain ⟨a, ha, _⟩ := indexWhere_eq_some h
  exact (List.getElem?_eq_some.1 ha).1

theorem indexWhere_map {β : Type} (g : α → β) (p : β → Bool) (l : List α) :
    indexWhere p (l.map g) = indexWhere (fun a => p (g a)) l := by
  induction l with
  | nil => rfl
  | cons a as ih => simp [indexWhere, ih]

theorem find?_isSome_of_indexWhere {p : α → Bool} {l : List α} {i : Nat}
    (h : indexWhere p l = some i) : (l.find? p).isSome = true := by
  obtain ⟨a, _, _, hf⟩ := indexWhere_eq_some h
  simp [hf]

theorem indexesWhere_map {β : Type} (g : α → β) (p : β → Bool) (l : List α) (k : Nat) :
    indexesWhere p (l.map g) k = indexesWhere (fun a => p (g a)) l k := by
  induction l generalizing k with
  | nil => rfl
  | cons a as ih => simp [indexesWhere, ih]

theorem mem_indexesWhere {p : α → Bool} {l : List α} {k j : Nat} :
    j ∈ indexesWhere p l k ↔ k ≤ j ∧ ∃ a, l[j - k]? = some a ∧ p a = true := by
  induction l generalizing k with
  | nil => simp [indexesWhere]
  | cons a as ih =>
    have key : j ∈ indexesWhere p as (k + 1) ↔
        k + 1 ≤ j ∧ ∃ b, (a :: as)[j - k]? = some b ∧ p b = true := by
      rw [ih]
      constructor
      · rintro ⟨h1, b, hb, hpb⟩
        refine ⟨h1, b, ?_, hpb⟩
        have : j - k = (j - (k + 1)) + 1 := by omega
        rw [this]; simpa using hb
      · rintro ⟨h1, b, hb, hpb⟩
        refine ⟨h1, b, ?_, hpb⟩
        have : j - k = (j - (k + 1)) + 1 := by omega
        rw [this] at hb; simpa using hb
    by_cases hp : p a = true
    · simp only [indexesWhere, hp, if_true, List.mem_cons, key]
      constructor
      · rintro (rfl | ⟨h1, b, hb, hpb⟩)
        · exact ⟨le_refl _, a, by simp, hp⟩
        · exact ⟨by omega, b, hb, hpb⟩
      · rintro ⟨h1, b, hb, hpb⟩
        by_cases hjk : j = k
        · exact Or.inl hjk
        · exact Or.inr ⟨by omega, b, hb, hpb⟩
    · simp only [indexesWhere, hp, Bool.false_eq_true, if_false, key]
      constructor
      · rintro ⟨h1, b, hb, hpb⟩
        exact ⟨by omega, b, hb, hpb⟩
      · rintro ⟨h1, b, hb, hpb⟩
        by_cases hjk : j = k
        · subst hjk
          simp at hb
          subst hb
          exact absurd hpb hp
        · exact ⟨by omega, b, hb, hpb⟩

theorem pairwise_indexesWhere (p : α → Bool) (l : List α) (k : Nat) :
    (indexesWhere p l k).Pairwise (· < ·) := by
  induction l generalizing k with
  | nil => simp [indexesWhere]
  | cons a as ih =>
    by_cases hp : p a = true
    · simp only [indexesWhere, hp, if_true, List.pairwise_cons]
      refine ⟨?_, ih (k + 1)⟩
      intro j hj
      have := (mem_indexesWhere.1 hj).1
      omega
    · simp only [indexesWhere, hp, Bool.false_eq_true, if_false]
      exact ih (k + 1)

theorem nodup_indexesWhere (p : α → Bool) (l : List α) (k : Nat) :
    (indexesWhere p l k).Nodup :=
  (pairwise_indexesWhere p l k).imp (fun h => Nat.ne_of_lt h)

/-- Filtering then mapping reads the same values as mapping over the indexes that pass. -/
theorem filter_map_eq_indexesWhere {β : Type} (p : α → Bool) (g : α → β) (l : List α) (k : Nat)
    (h : Nat → β) (hh : ∀ j a, l[j]? = some a → h (k + j) = g a) :
    (l.filter p).map g = (indexesWhere p l k).map h := by
  induction l generalizing k with
  | nil => rfl
  | cons a as ih =>
    have h0 : h k = g a := by simpa using hh 0 a (by simp)
    have hrec : (as.filter p).map g = (indexesWhere p as (k + 1)).map h := by
      apply ih
      intro j b hb
      have := hh (j + 1) b (by simpa using hb)
      rwa [show k + (j + 1) = k + 1 + j by omega] at this
    by_cases hp : p a = true
    · simp [indexesWhere, hp, h0, hrec]
    · simp [indexesWhere, hp, hrec]

theorem length_indexesWhere (p : α → Bool) (l : List α) (k : Nat) :
    (indexesWhere p l k).length = (l.filter p).length := by
  have := filter_map_eq_indexesWhere p (fun _ => ()) l k (fun _ => ()) (by simp)
  simpa using (congrArg List.length this).symm

end ListPrimitives

end TodoCli

namespace TodoCli

/-! ## Renormalization -/

section Renormalization

theorem length_assignPositions (tasks : List Task) (idxs : List Nat) (k : Nat) :
    (assignPositions tasks idxs k).length = tasks.length := by
  induction idxs generalizing tasks k with
  | nil => rfl
  | cons i rest ih => simp [assignPositions, ih, length_updateAt]

/-- What the assignment loop leaves at index `j`. -/
theorem getElem?_assignPositions (tasks : List Task) (idxs : List Nat) (k : Nat)
    (hnd : idxs.Nodup) (j : Nat) :
    (assignPositions tasks idxs k)[j]? =
      (tasks[j]?).map (fun t =>
        if j ∈ idxs then { t with Position := ((k + idxs.indexOf j : Nat) : Int) + 1 } else t) := by
  induction idxs generalizing tasks k with
  | nil => simp [assignPositions]
  | cons i rest ih =>
    have hi : i ∉ rest := (List.nodup_cons.1 hnd).1
    simp only [assignPositions]
    rw [ih _ _ (List.nodup_cons.1 hnd).2, getElem?_updateAt]
    by_cases hji : j = i
    · subst hji
      simp only [hi, if_false, if_true, List.mem_cons, true_or, List.indexOf_cons_self,
        Nat.add_zero, Option.map_map]
      rfl
    · have hij : i ≠ j := fun h => hji h.symm
      by_cases hjr : j ∈ rest
      · simp only [hji, if_false, hjr, if_true, List.mem_cons, or_true,
          List.indexOf_cons_ne _ hij]
        congr 1
        funext t
        congr 2
        push_cast
        omega
      · simp [hji, hjr]

theorem map_assignPositions {β : Type} (g : Task → β) (tasks : List Task) (idxs : List Nat)
    (k : Nat) (h : ∀ t p, g { t with Position := p } = g t) :
    (assignPositions tasks idxs k).map g = tasks.map g := by
  induction idxs generalizing tasks k with
  | nil => rfl
  | cons i rest ih =>
    simp only [assignPositions]
    rw [ih, map_updateAt]
    intro a
    exact h a _

theorem perm_sortSliceStable {α : Type} (less : α → α → Bool) (l : List α) :
    (sortSliceStable less l).Perm l :=
  List.perm_insertionSort _ l

theorem mem_taskIndexesForList {tasks : List Task} {listID : String} {j : Nat} :
    j ∈ taskIndexesForList tasks listID ↔ ∃ t, tasks[j]? = some t ∧ t.ListID = listID := by
  unfold taskIndexesForList
  rw [(perm_sortSliceStable _ _).mem_iff, mem_indexesWhere]
  simp

theorem nodup_taskIndexesForList (tasks : List Task) (listID : String) :
    (taskIndexesForList tasks listID).Nodup :=
  (perm_sortSliceStable _ _).nodup_iff.2 (nodup_indexesWhere _ _ _)

theorem length_taskIndexesForList (tasks : List Task) (listID : String) :
    (taskIndexesForList tasks listID).length =
      (tasks.filter (fun t => t.ListID == listID)).length := by
  unfold taskIndexesForList
  rw [(perm_sortSliceStable _ _).length_eq, length_indexesWhere]

theorem length_normalizePositions (tasks : List Task) (listID : String) :
    (normalizePositions tasks listID).length = tasks.length :=
  length_assignPositions _ _ _

/-- Renormalization, index by index: a task of the list gets its rank plus one as position,
every other task is untouched. -/
theorem getElem?_normalizePositions (tasks : List Task) (listID : String) (j : Nat) :
    (normalizePositions tasks listID)[j]? =
      (tasks[j]?).map (fun t =>
        if t.ListID = listID then { t with Position := (rankOf tasks listID j : Int) + 1 }
        else t) := by
  unfold normalizePositions
  rw [getElem?_assignPositions _ _ _ (nodup_taskIndexesForList _ _)]
  cases hj : tasks[j]? with
  | none => rfl
  | some t =>
    simp only [Option.map_some', mem_taskIndexesForList, hj, Option.some.injEq, exists_eq_left',
      rankOf, Nat.zero_add]

theorem map_normalizePositions {β : Type} (g : Task → β) (tasks : List Task) (listID : String)
    (h : ∀ t p, g { t with Position := p } = g t) :
    (normalizePositions tasks listID).map g = tasks.map g :=
  map_assignPositions g _ _ _ h

end Renormalization

end TodoCli
namespace TodoCli

section Renormalization

theorem positionsOf_eq_indexes (tasks : List Task) (listID : String) :
    positionsOf tasks listID =
      (indexesWhere (fun t => t.ListID == listID) tasks 0).map
        (fun j => (tasks.getD j default).Position) := by
  unfold positionsOf
  apply filter_map_eq_indexesWhere
  intro j a ha
  simp [ha]

theorem indexesWhere_listID_congr {ts1 ts2 : List Task}
    (h : ts1.map (·.ListID) = ts2.map (·.ListID)) (listID : String) (k : Nat) :
    indexesWhere (fun t => t.ListID == listID) ts1 k =
      indexesWhere (fun t => t.ListID == listID) ts2 k := by
  have e1 := indexesWhere_map (fun t : Task => t.ListID) (fun x => x == listID) ts1 k
  have e2 := indexesWhere_map (fun t : Task => t.ListID) (fun x => x == listID) ts2 k
  rw [← e1, ← e2, h]

/-- Assigning `1, 2, ...` along any arrangement of the indexes of a list makes the list
dense. -/
theorem dense_assignPositions (tasks : List Task) (listID : String) (idxs : List Nat)
    (hp : idxs.Perm (indexesWhere (fun t => t.ListID == listID) tasks 0)) :
    Dense (assignPositions tasks idxs 0) listID := by
  have hnd : idxs.Nodup := hp.nodup_iff.2 (nodup_indexesWhere _ _ _)
  have hids : (assignPositions tasks idxs 0).map (·.ListID) = tasks.map (·.ListID) :=
    map_assignPositions _ _ _ _ (fun _ _ => rfl)
  have hpos : positionsOf (assignPositions tasks idxs 0) listID =
      (indexesWhere (fun t => t.ListID == listID) tasks 0).map
        (fun j => ((assignPositions tasks idxs 0).getD j default).Position) := by
    rw [positionsOf_eq_indexes, indexesWhere_listID_congr hids]
  have hval : idxs.map (fun j => ((assignPositions tasks idxs 0).getD j default).Position) =
      (List.range' 1 idxs.length).map Int.ofNat := by
    apply List.ext_getElem
    · simp
    · intro m h1 h2
      have hm : m < idxs.length := by simpa using h1
      have hmem : idxs[m] ∈ idxs := List.getElem_mem hm
      obtain ⟨_, t, ht, _⟩ := mem_indexesWhere.1 (hp.mem_iff.1 hmem)
      simp only [Nat.sub_zero] at ht
      simp only [List.getElem_map, List.getD_eq_getElem?_getD,
        getElem?_assignPositions _ _ _ hnd, ht, Option.map_some', hmem, if_true,
        Option.getD_some, List.indexOf_getElem hnd, List.getElem_range']
      simp
      omega
  unfold Dense
  have hlen : (positionsOf (assignPositions tasks idxs 0) listID).length = idxs.length := by
    rw [hpos, List.length_map, hp.length_eq]
  rw [hlen, ← hval, hpos]
  exact (hp.map _).symm

/-- Renormalization makes the list dense. -/
theorem dense_normalizePositions (tasks : List Task) (listID : String) :
    Dense (normalizePositions tasks listID) listID :=
  dense_assignPositions tasks listID _ (perm_sortSliceStable _ _)

theorem filter_eq_indexes (tasks : List Task) (p : Task → Bool) :
    tasks.filter p = (indexesWhere p tasks 0).map (fun j => tasks.getD j default) := by
  have := filter_map_eq_indexesWhere p id tasks 0 (fun j => tasks.getD j default)
    (by intro j a ha; simp [ha])
  simpa using this

/-- Renormalization of one list leaves the tasks of every other list as they are. -/
theorem filter_normalizePositions_of_ne (tasks : List Task) {listID other : String}
    (hne : other ≠ listID) :
    (normalizePositions tasks listID).filter (fun t => t.ListID == other) =
      tasks.filter (fun t => t.ListID == other) := by
  have hids : (normalizePositions tasks listID).map (·.ListID) = tasks.map (·.ListID) :=
    map_normalizePositions _ _ _ (fun _ _ => rfl)
  rw [filter_eq_indexes, filter_eq_indexes tasks, indexesWhere_listID_congr hids]
  apply List.map_congr_left
  intro j hj
  obtain ⟨_, t, ht, hpt⟩ := mem_indexesWhere.1 hj
  simp only [Nat.sub_zero, beq_iff_eq] at ht hpt
  have hne2 : t.ListID ≠ listID := by rw [hpt]; exact hne
  simp [List.getD_eq_getElem?_getD, getElem?_normalizePositions, ht, hne2]

theorem positionsOf_normalizePositions_of_ne (tasks : List Task) {listID other : String}
    (hne : other ≠ listID) :
    positionsOf (normalizePositions tasks listID) other = positionsOf tasks other := by
  unfold positionsOf
  rw [filter_normalizePositions_of_ne tasks hne]

theorem dense_of_positionsOf_eq {ts1 ts2 : List Task} {listID : String}
    (h : positionsOf ts1 listID = positionsOf ts2 listID) (hd : Dense ts2 listID) :
    Dense ts1 listID := by
  unfold Dense at *
  rw [h]; exact hd

/-- Renormalization of a list keeps density everywhere. -/
theorem dense_normalizePositions_all (tasks : List Task) (listID : String)
    (h : ∀ other, other ≠ listID → Dense tasks other) (L : String) :
    Dense (normalizePositions tasks listID) L := by
  by_cases hL : L = listID
  · subst hL; exact dense_normalizePositions _ _
  · exact dense_of_positionsOf_eq (positionsOf_normalizePositions_of_ne tasks hL) (h L hL)

end Renormalization

end TodoCli
namespace TodoCli

section Calls

open Service

@[simp] theorem pushUndo_state (s : Service) : s.pushUndo.state = s.state := by
  simp only [pushUndo]; split_ifs <;> rfl

theorem pushUndo_undo (s : Service) :
    s.pushUndo.undo =
      (s.undo ++ [s.state]).drop ((s.undo ++ [s.state]).length - undoStackLimit) := by
  simp only [pushUndo, copyState]
  split_ifs with h
  · rfl
  · have : (s.undo ++ [s.state]).length - undoStackLimit = 0 := by omega
    simp only [this, List.drop_zero]

theorem find?_id_congr {ts1 ts2 : List Task} (h : ts1.map (·.ID) = ts2.map (·.ID))
    (x : String) :
    (ts1.find? (fun t => t.ID == x)).isSome = (ts2.find? (fun t => t.ID == x)).isSome := by
  induction ts1 generalizing ts2 with
  | nil =>
    cases ts2 with
    | nil => rfl
    | cons b bs => simp at h
  | cons a as ih =>
    cases ts2 with
    | nil => simp at h
    | cons b bs =>
      simp only [List.map_cons, List.cons.injEq] at h
      by_cases hx : a.ID = x
      · simp [List.find?_cons, hx, ← h.1]
      · have hx2 : ¬ b.ID = x := by rw [← h.1]; exact hx
        simp [List.find?_cons, hx, hx2, ih h.2]

theorem map_swapPositions {β : Type} (g : Task → β) (tasks : List Task) (a b : Nat) (now : Time)
    (h1 : ∀ t p, g { t with Position := p } = g t)
    (h2 : ∀ t u, g { t with UpdatedAt := u } = g t) :
    (swapPositions tasks a b now).map g = tasks.map g := by
  unfold swapPositions
  simp only
  rw [map_updateAt g _ _ _ (fun t => h2 t _), map_updateAt g _ _ _ (fun t => h2 t _),
    map_updateAt g _ _ _ (fun t => h1 t _), map_updateAt g _ _ _ (fun t => h1 t _)]

/-- The last loop of `moveTask` finds the task again. -/
theorem moveTask_found (tasks : List Task) (taskID : String) (idx : Nat) (now : Time)
    (a b : Nat) (listID : String)
    (h : indexWhere (fun t => t.ID == taskID) tasks = some idx) :
    ((normalizePositions (swapPositions tasks a b now) listID).find?
      (fun t => t.ID == taskID)).isSome = true := by
  have hids : (normalizePositions (swapPositions tasks a b now) listID).map (·.ID) =
      tasks.map (·.ID) := by
    rw [map_normalizePositions (fun t : Task => t.ID) _ _ (fun _ _ => rfl),
      map_swapPositions (fun t : Task => t.ID) _ _ _ _ (fun _ _ => rfl) (fun _ _ => rfl)]
  rw [find?_id_congr hids]
  exact find?_isSome_of_indexWhere h

theorem moveTask_error (s : Service) (taskID : String) (direction : Int) (now : Time) (e : Err)
    (h : (s.moveTask taskID direction now).1 = .error e) :
    (s.moveTask taskID direction now).2 = s := by
  unfold moveTask at h ⊢
  cases hi : indexWhere (fun t => t.ID == taskID) s.state.Tasks with
  | none => simp
  | some idx =>
    simp only [hi] at h ⊢
    split
    · rfl
    · next position hpos =>
      simp only [hpos] at h
      split_ifs at h ⊢ with c1 c2
      · rfl
      · rfl
      · exfalso
        simp only [normalizePositionsForList, withTasks, pushUndo_state] at h
        have hf := moveTask_found s.state.Tasks taskID idx now
          ((taskIndexesForList s.state.Tasks (s.state.Tasks.getD idx default).ListID).getD
              position 0)
          ((taskIndexesForList s.state.Tasks (s.state.Tasks.getD idx default).ListID).getD
              (↑position + direction).toNat 0)
          (s.state.Tasks.getD idx default).ListID hi
        revert h
        cases hfind : List.find? (fun t => t.ID == taskID) (normalizePositions
          (swapPositions s.state.Tasks
            ((taskIndexesForList s.state.Tasks (s.state.Tasks.getD idx default).ListID).getD
              position 0)
            ((taskIndexesForList s.state.Tasks (s.state.Tasks.getD idx default).ListID).getD
              (↑position + direction).toNat 0) now)
          (s.state.Tasks.getD idx default).ListID) with
        | none => rw [hfind] at hf; simp at hf
        | some t => simp

theorem atomic_error {α : Type} (s : Service) (e : Err) :
    Atomic s ((.error e, s) : Except Err α × Service) :=
  fun _ _ => rfl

theorem atomic_ok {α : Type} (s s2 : Service) (v : α) :
    Atomic s ((.ok v, s2) : Except Err α × Service) :=
  fun _ h => by simp at h

theorem atomic_moveTask (s : Service) (taskID : String) (direction : Int) (now : Time) :
    Atomic s (s.moveTask taskID direction now) :=
  fun e h => moveTask_error s taskID direction now e h

theorem atomic_outcome {α : Type} {s : Service} {r : Except Err α × Service} (h : Atomic s r)
    (e : Err) (he : (outcome r).1 = some e) : (outcome r).2 = s := by
  unfold outcome at he ⊢
  cases hr : r.1 with
  | error e2 => exact h e2 hr
  | ok v => simp [hr] at he

theorem atomic_CreateList (s : Service) (name color : String) (now : Time) (newID : String) :
    Atomic s (s.CreateList name color now newID) := by
  simp only [CreateList]
  split_ifs
  all_goals first | exact atomic_error _ _ | exact atomic_ok _ _ _

theorem atomic_UpdateList (s : Service) (id name color : String) (now : Time) :
    Atomic s (s.UpdateList id name color now) := by
  simp only [UpdateList]
  split_ifs
  · exact atomic_error _ _
  · split
    all_goals first | exact atomic_error _ _ | exact atomic_ok _ _ _

theorem atomic_DeleteList (s : Service) (id : String) : Atomic s (s.DeleteList id) := by
  simp only [DeleteList]
  split
  all_goals first | exact atomic_error _ _ | exact atomic_ok _ _ _

theorem atomic_moveList (s : Service) (listID : String) (direction : Int) (now : Time) :
    Atomic s (s.moveList listID direction now) := by
  simp only [moveList]
  split
  · exact atomic_error _ _
  · split_ifs
    all_goals first | exact atomic_error _ _ | exact atomic_ok _ _ _

theorem atomic_CreateTask (s : Service) (listID text : String) (now : Time) (newID : String) :
    Atomic s (s.CreateTask listID text now newID) := by
  simp only [CreateTask]
  split_ifs
  all_goals first | exact atomic_error _ _ | exact atomic_ok _ _ _

theorem atomic_UpdateTask (s : Service) (id text : String) (now : Time) :
    Atomic s (s.UpdateTask id text now) := by
  simp only [UpdateTask]
  split_ifs
  · exact atomic_error _ _
  · split
    all_goals first | exact atomic_error _ _ | exact atomic_ok _ _ _

theorem atomic_DeleteTask (s : Service) (id : String) : Atomic s (s.DeleteTask id) := by
  simp only [DeleteTask]
  split
  all_goals first | exact atomic_error _ _ | exact atomic_ok _ _ _

theorem atomic_ToggleDone (s : Service) (taskID : String) (now : Time) :
    Atomic s (s.ToggleDone taskID now) := by
  simp only [ToggleDone]
  split
  · exact atomic_error _ _
  · split_ifs
    all_goals first | exact atomic_error _ _ | exact atomic_ok _ _ _

theorem atomic_SetTaskPriority (s : Service) (taskID : String) (priority : Priority)
    (now : Time) : Atomic s (s.SetTaskPriority taskID priority now) := by
  simp only [SetTaskPriority]
  split_ifs
  · exact atomic_error _ _
  · split
    · exact atomic_error _ _
    · split_ifs
      all_goals first | exact atomic_error _ _ | exact atomic_ok _ _ _

theorem atomic_ClearCompletedToArchive (s : Service) (listID : String) (now : Time)
    (ids : Nat → String) : Atomic s (s.ClearCompletedToArchive listID now ids) := by
  simp only [ClearCompletedToArchive]
  split_ifs
  · exact atomic_error _ _
  · split
    · exact atomic_error _ _
    · split_ifs
      all_goals first | exact atomic_error _ _ | exact atomic_ok _ _ _

theorem atomic_ArchiveAllToArchive (s : Service) (listID : String) (now : Time)
    (ids : Nat → String) : Atomic s (s.ArchiveAllToArchive listID now ids) := by
  simp only [ArchiveAllToArchive]
  split_ifs
  · exact atomic_error _ _
  · split
    · exact atomic_error _ _
    · split_ifs
      all_goals first | exact atomic_error _ _ | exact atomic_ok _ _ _

theorem atomic_DeleteAllTasks (s : Service) (listID : String) :
    Atomic s (s.DeleteAllTasks listID) := by
  simp only [DeleteAllTasks]
  split_ifs
  all_goals first | exact atomic_error _ _ | exact atomic_ok _ _ _

theorem atomic_SetSessionContext (s : Service) (activeListID focus : String) :
    Atomic s (s.SetSessionContext activeListID focus) := by
  simp only [SetSessionContext]
  split_ifs
  all_goals first | exact atomic_error _ _ | exact atomic_ok _ _ _

theorem atomic_SetFilter (s : Service) (filter : Filter) : Atomic s (s.SetFilter filter) := by
  simp only [SetFilter]
  split_ifs
  all_goals first | exact atomic_error _ _ | exact atomic_ok _ _ _

theorem atomic_Undo (s : Service) : Atomic s s.Undo := by
  simp only [Undo]
  split
  all_goals first | exact atomic_error _ _ | exact atomic_ok _ _ _

/-- A call that returns an error leaves the service as it was. -/
theorem step_error_unchanged (s : Service) (op : Op) (e : Err) (h : (step s op).1 = some e) :
    (step s op).2 = s := by
  cases op with
  | createList name color now newID => exact atomic_outcome (atomic_CreateList _ _ _ _ _) e h
  | updateList id name color now => exact atomic_outcome (atomic_UpdateList _ _ _ _ _) e h
  | deleteList id => exact atomic_outcome (atomic_DeleteList _ _) e h
  | moveListUp listID now => exact atomic_outcome (atomic_moveList _ _ _ _) e h
  | moveListDown listID now => exact atomic_outcome (atomic_moveList _ _ _ _) e h
  | createTask listID text now newID => exact atomic_outcome (atomic_CreateTask _ _ _ _ _) e h
  | updateTask id text now => exact atomic_outcome (atomic_UpdateTask _ _ _ _) e h
  | deleteTask id => exact atomic_outcome (atomic_DeleteTask _ _) e h
  | toggleDone taskID now => exact atomic_outcome (atomic_ToggleDone _ _ _) e h
  | setTaskPriority taskID priority now => exact atomic_outcome (atomic_SetTaskPriority _ _ _ _) e h
  | moveTaskUp taskID now => exact atomic_outcome (atomic_moveTask _ _ _ _) e h
  | moveTaskDown taskID now => exact atomic_outcome (atomic_moveTask _ _ _ _) e h
  | clearCompletedToArchive listID now ids =>
    exact atomic_outcome (atomic_ClearCompletedToArchive _ _ _ _) e h
  | archiveAllToArchive listID now ids => exact atomic_outcome (atomic_ArchiveAllToArchive _ _ _ _) e h
  | deleteAllTasks listID => exact atomic_outcome (atomic_DeleteAllTasks _ _) e h
  | setSessionContext activeListID focus => exact atomic_outcome (atomic_SetSessionContext _ _ _) e h
  | markOnboardingSeen => simp [step] at h
  | setFilter filter => exact atomic_outcome (atomic_SetFilter _ _) e h
  | setQuery query => simp [step] at h
  | undo => exact atomic_outcome (atomic_Undo _) e h
  | undoDelete => exact atomic_outcome (atomic_Undo _) e h

end Calls

end TodoCli
namespace TodoCli

section UndoStack

open Service

@[simp] theorem withTasks_undo (s : Service) (ts : List Task) : (s.withTasks ts).undo = s.undo :=
  rfl

@[simp] theorem withLists_undo (s : Service) (ls : List TodoList) :
    (s.withLists ls).undo = s.undo := rfl

@[simp] theorem normalizePositionsForList_undo (s : Service) (listID : String) :
    (s.normalizePositionsForList listID).undo = s.undo := rfl

@[simp] theorem withTasks_tasks (s : Service) (ts : List Task) :
    (s.withTasks ts).state.Tasks = ts := rfl

@[simp] theorem withTasks_lists (s : Service) (ts : List Task) :
    (s.withTasks ts).state.Lists = s.state.Lists := rfl

@[simp] theorem withLists_tasks (s : Service) (ls : List TodoList) :
    (s.withLists ls).state.Tasks = s.state.Tasks := rfl

@[simp] theorem withLists_lists (s : Service) (ls : List TodoList) :
    (s.withLists ls).state.Lists = ls := rfl

@[simp] theorem normalizePositionsForList_tasks (s : Service) (listID : String) :
    (s.normalizePositionsForList listID).state.Tasks =
      normalizePositions s.state.Tasks listID := rfl

@[simp] theorem normalizePositionsForList_lists (s : Service) (listID : String) :
    (s.normalizePositionsForList listID).state.Lists = s.state.Lists := rfl

theorem records_error {α : Type} (s s2 : Service) (e : Err) :
    Records s ((.error e, s2) : Except Err α × Service) :=
  fun _ h => by simp at h

theorem records_ok {α : Type} (s s2 : Service) (v : α) (h : s2.undo = s.pushUndo.undo) :
    Records s ((.ok v, s2) : Except Err α × Service) :=
  fun _ _ => h

theorem records_CreateList (s : Service) (name color : String) (now : Time) (newID : String) :
    Records s (s.CreateList name color now newID) := by
  simp only [CreateList]
  split_ifs
  all_goals first | exact records_error _ _ _ | exact records_ok _ _ _ rfl

theorem records_UpdateList (s : Service) (id name color : String) (now : Time) :
    Records s (s.UpdateList id name color now) := by
  simp only [UpdateList]
  split_ifs
  · exact records_error _ _ _
  · split
    all_goals first | exact records_error _ _ _ | exact records_ok _ _ _ rfl

theorem records_DeleteList (s : Service) (id : String) : Records s (s.DeleteList id) := by
  simp only [DeleteList]
  split
  all_goals first | exact records_error _ _ _ | exact records_ok _ _ _ rfl

theorem records_moveList (s : Service) (listID : String) (direction : Int) (now : Time) :
    Records s (s.moveList listID direction now) := by
  simp only [moveList]
  split
  · exact records_error _ _ _
  · split_ifs
    all_goals first | exact records_error _ _ _ | exact records_ok _ _ _ rfl

theorem records_CreateTask (s : Service) (listID text : String) (now : Time) (newID : String) :
    Records s (s.CreateTask listID text now newID) := by
  simp only [CreateTask]
  split_ifs
  all_goals first | exact records_error _ _ _ | exact records_ok _ _ _ rfl

theorem records_UpdateTask (s : Service) (id text : String) (now : Time) :
    Records s (s.UpdateTask id text now) := by
  simp only [UpdateTask]
  split_ifs
  · exact records_error _ _ _
  · split
    all_goals first | exact records_error _ _ _ | exact records_ok _ _ _ rfl

theorem records_DeleteTask (s : Service) (id : String) : Records s (s.DeleteTask id) := by
  simp only [DeleteTask]
  split
  all_goals first | exact records_error _ _ _ | exact records_ok _ _ _ rfl

theorem records_ToggleDone (s : Service) (taskID : String) (now : Time) :
    Records s (s.ToggleDone taskID now) := by
  simp only [ToggleDone]
  split
  · exact records_error _ _ _
  · split_ifs
    all_goals first | exact records_error _ _ _ | exact records_ok _ _ _ rfl

theorem records_moveTask (s : Service) (taskID : String) (direction : Int) (now : Time) :
    Records s (s.moveTask taskID direction now) := by
  simp only [moveTask]
  split
  · exact records_error _ _ _
  · split
    · exact records_error _ _ _
    · split_ifs
      · exact records_error _ _ _
      · exact records_error _ _ _
      · intro v _
        rfl

theorem records_ClearCompletedToArchive (s : Service) (listID : String) (now : Time)
    (ids : Nat → String) : Records s (s.ClearCompletedToArchive listID now ids) := by
  simp only [ClearCompletedToArchive]
  split_ifs
  · exact records_error _ _ _
  · split
    · exact records_error _ _ _
    · split_ifs
      all_goals first | exact records_error _ _ _ | exact records_ok _ _ _ rfl

theorem records_ArchiveAllToArchive (s : Service) (listID : String) (now : Time)
    (ids : Nat → String) : Records s (s.ArchiveAllToArchive listID now ids) := by
  simp only [ArchiveAllToArchive]
  split_ifs
  · exact records_error _ _ _
  · split
    · exact records_error _ _ _
    · split_ifs
      all_goals first | exact records_error _ _ _ | exact records_ok _ _ _ rfl

theorem records_DeleteAllTasks (s : Service) (listID : String) :
    Records s (s.DeleteAllTasks listID) := by
  simp only [DeleteAllTasks]
  split_ifs
  all_goals first | exact records_error _ _ _ | exact records_ok _ _ _ rfl

theorem records_SetTaskPriority (s : Service) (taskID : String) (priority : Priority)
    (now : Time) (h : changesPriority s (.setTaskPriority taskID priority now) = true) :
    Records s (s.SetTaskPriority taskID priority now) := by
  simp only [SetTaskPriority]
  split_ifs
  · exact records_error _ _ _
  · split
    · exact records_error _ _ _
    · next i hi =>
      obtain ⟨a, ha, _, hf⟩ := indexWhere_eq_some hi
      have hget : s.state.Tasks.getD i default = a := by
        simp [List.getD_eq_getElem?_getD, ha]
      simp only [changesPriority, GetTask, hf, decide_eq_true_eq] at h
      rw [hget]
      split_ifs with hp
      · exact absurd hp h
      · exact records_ok _ _ _ rfl

theorem records_outcome {α : Type} {s : Service} {r : Except Err α × Service}
    (h : Records s r) (he : (outcome r).1 = none) : (outcome r).2.undo = s.pushUndo.undo := by
  unfold outcome at he ⊢
  cases hr : r.1 with
  | error e2 => simp [hr] at he
  | ok v => exact h v hr

/-- A successful undo-recorded call leaves the undo stack that `pushUndo` makes of the one
before the call. -/
theorem undo_of_recordedCall (s : Service) (op : Op) (h : RecordedCall s op) :
    (step s op).2.undo = s.pushUndo.undo := by
  obtain ⟨hk, hok, hp⟩ := h
  cases op with
  | createList name color now newID => exact records_outcome (records_CreateList _ _ _ _ _) hok
  | updateList id name color now => exact records_outcome (records_UpdateList _ _ _ _ _) hok
  | deleteList id => exact records_outcome (records_DeleteList _ _) hok
  | moveListUp listID now => exact records_outcome (records_moveList _ _ _ _) hok
  | moveListDown listID now => exact records_outcome (records_moveList _ _ _ _) hok
  | createTask listID text now newID => exact records_outcome (records_CreateTask _ _ _ _ _) hok
  | updateTask id text now => exact records_outcome (records_UpdateTask _ _ _ _) hok
  | deleteTask id => exact records_outcome (records_DeleteTask _ _) hok
  | toggleDone taskID now => exact records_outcome (records_ToggleDone _ _ _) hok
  | setTaskPriority taskID priority now =>
    exact records_outcome (records_SetTaskPriority _ _ _ _ hp) hok
  | moveTaskUp taskID now => exact records_outcome (records_moveTask _ _ _ _) hok
  | moveTaskDown taskID now => exact records_outcome (records_moveTask _ _ _ _) hok
  | clearCompletedToArchive listID now ids =>
    exact records_outcome (records_ClearCompletedToArchive _ _ _ _) hok
  | archiveAllToArchive listID now ids =>
    exact records_outcome (records_ArchiveAllToArchive _ _ _ _) hok
  | deleteAllTasks listID => exact records_outcome (records_DeleteAllTasks _ _) hok
  | setSessionContext activeListID focus => simp [Op.isRecorded] at hk
  | markOnboardingSeen => simp [Op.isRecorded] at hk
  | setFilter filter => simp [Op.isRecorded] at hk
  | setQuery query => simp [Op.isRecorded] at hk
  | undo => simp [Op.isRecorded] at hk
  | undoDelete => simp [Op.isRecorded] at hk

end UndoStack

end TodoCli
namespace TodoCli

section UndoStack

open Service Err

/-- The undo stack `pushUndo` leaves: the old one, cut at the front, and the live state on
top. -/
theorem pushUndo_undo_eq (s : Service) :
    s.pushUndo.undo = s.undo.drop (s.undo.length + 1 - undoStackLimit) ++ [s.state] := by
  rw [pushUndo_undo, List.drop_append_eq_append_drop]
  have h1 : (s.undo ++ [s.state]).length = s.undo.length + 1 := by simp
  have h2 : s.undo.length + 1 - undoStackLimit - s.undo.length = 0 := by
    simp only [undoStackLimit]; omega
  rw [h1, h2, List.drop_zero]

theorem Undo_of_append (s : Service) (pre : List AppState) (last : AppState)
    (h : s.undo = pre ++ [last]) : s.Undo = (.ok (), { state := last, undo := pre }) := by
  simp [Undo, h, copyState]

theorem Undo_of_nil (s : Service) (h : s.undo = []) : s.Undo = (.error ErrNothingToUndo, s) := by
  simp [Undo, h]

/-- Undoing `k` of the snapshots `P` on top of the stack. -/
theorem undoN_of_append (k : Nat) (s : Service) (pre P : List AppState)
    (h : s.undo = pre ++ P) (hk : k ≤ P.length) :
    (undoN k s).undo = pre ++ P.take (P.length - k) ∧
      (∀ j, j < k → (undoN j s).Undo.1 = .ok ()) ∧
      (1 ≤ k → some (undoN k s).state = P[P.length - k]?) := by
  induction k generalizing s P with
  | zero => simp [undoN, h]
  | succ k ih =>
    have hne : P ≠ [] := by intro h0; simp [h0] at hk
    obtain ⟨Q, last, rfl⟩ : ∃ Q last, P = Q ++ [last] :=
      ⟨P.dropLast, P.getLast hne, (List.dropLast_append_getLast hne).symm⟩
    have hU : s.Undo = (.ok (), { state := last, undo := pre ++ Q }) :=
      Undo_of_append s (pre ++ Q) last (by rw [h, List.append_assoc])
    have hk2 : k ≤ Q.length := by simpa using hk
    obtain ⟨i1, i2, i3⟩ := ih { state := last, undo := pre ++ Q } Q rfl hk2
    have hlen : (Q ++ [last]).length - (k + 1) = Q.length - k := by simp
    refine ⟨?_, ?_, ?_⟩
    · simp only [undoN, hU, i1, hlen]
      congr 1
      rw [List.take_append_of_le_length (by omega)]
    · intro j hj
      cases j with
      | zero => simp [undoN, hU]
      | succ j =>
        simp only [undoN, hU]
        exact i2 j (by omega)
    · intro _
      simp only [undoN, hU, hlen]
      by_cases hk0 : k = 0
      · subst hk0
        simp [undoN]
      · rw [i3 (by omega), List.getElem?_append_left (by omega)]

theorem run_append (s : Service) (ops1 ops2 : List Op) :
    run s (ops1 ++ ops2) = run (run s ops1) ops2 := by
  induction ops1 generalizing s with
  | nil => rfl
  | cons op ops ih => simp [run, ih]

/-- The state before the call number `j` of a chain is the state after the first `j` calls. -/
theorem getElem?_preStates (s : Service) (ops : List Op) (j : Nat) (hj : j < ops.length) :
    (preStates s ops)[j]? = some (run s (ops.take j)).state := by
  induction ops generalizing s j with
  | nil => simp at hj
  | cons op ops ih =>
    cases j with
    | zero => simp [preStates, run]
    | succ j =>
      simp only [preStates, List.getElem?_cons_succ, List.take_succ_cons, run]
      exact ih _ j (by simpa using hj)

theorem length_preStates (s : Service) (ops : List Op) :
    (preStates s ops).length = ops.length := by
  induction ops generalizing s with
  | nil => rfl
  | cons op ops ih => simp [preStates, ih]

theorem drop_drop_append_undo (x P : List AppState) (a : AppState) :
    ((x.drop (x.length + 1 - undoStackLimit) ++ [a]) ++ P).drop
        (((x.drop (x.length + 1 - undoStackLimit) ++ [a]) ++ P).length - undoStackLimit) =
      ((x ++ [a]) ++ P).drop (((x ++ [a]) ++ P).length - undoStackLimit) := by
  have e1 : x.drop (x.length + 1 - undoStackLimit) ++ [a] =
      (x ++ [a]).drop (x.length + 1 - undoStackLimit) := by
    rw [List.drop_append_eq_append_drop]
    have : x.length + 1 - undoStackLimit - x.length = 0 := by
      simp only [undoStackLimit]; omega
    rw [this, List.drop_zero]
  have e2 : (x ++ [a]).drop (x.length + 1 - undoStackLimit) ++ P =
      ((x ++ [a]) ++ P).drop (x.length + 1 - undoStackLimit) := by
    have hd := @List.drop_append_eq_append_drop _ (x ++ [a]) P (x.length + 1 - undoStackLimit)
    have : x.length + 1 - undoStackLimit - (x ++ [a]).length = 0 := by
      simp only [undoStackLimit, List.length_append, List.length_singleton]; omega
    rw [this, List.drop_zero] at hd
    exact hd.symm
  rw [e1, e2, List.drop_drop]
  congr 1
  simp only [List.length_drop, List.length_append, List.length_singleton, undoStackLimit]
  omega

/-- The undo stack after a non-empty chain of recorded calls: the last `undoStackLimit` of the
old stack followed by the states before each call. -/
theorem undo_run_chain (ops : List Op) (s : Service) (op : Op) (h : ChainOk s (op :: ops)) :
    (run s (op :: ops)).undo =
      (s.undo ++ preStates s (op :: ops)).drop
        ((s.undo ++ preStates s (op :: ops)).length - undoStackLimit) := by
  induction ops generalizing s op with
  | nil =>
    simp only [run, preStates]
    rw [undo_of_recordedCall s op h.1, pushUndo_undo]
  | cons op2 ops ih =>
    have h2 : ChainOk (step s op).2 (op2 :: ops) := h.2
    have := ih (step s op).2 op2 h2
    simp only [run] at this ⊢
    rw [this, undo_of_recordedCall s op h.1, pushUndo_undo_eq]
    have := drop_drop_append_undo s.undo (preStates (step s op).2 (op2 :: ops)) s.state
    simp only [preStates, List.append_assoc, List.singleton_append] at this ⊢
    exact this

end UndoStack

end TodoCli
namespace TodoCli

section Claims

open Service Err

/-- C2. Failure atomicity: a call of any operation of the service that returns an error
leaves the live state and the undo stack equal to what they were before the call. -/
theorem C2_failure_atomicity (s : Service) (op : Op) (e : Err) (h : (step s op).1 = some e) :
    (step s op).2.state = s.state ∧ (step s op).2.undo = s.undo := by
  rw [step_error_unchanged s op e h]
  exact ⟨rfl, rfl⟩

theorem C2_failure_atomicity_witness :
    (step inboxService (.moveTaskUp "missing" 6)).2.state = inboxService.state ∧
      (step inboxService (.moveTaskUp "missing" 6)).2.undo = inboxService.undo :=
  C2_failure_atomicity inboxService (.moveTaskUp "missing" 6) ErrTaskNotFound (by decide)

end Claims

end TodoCli
namespace TodoCli

section UndoStack

open Service Err

theorem step_of_changesPriority_false (s : Service) (op : Op)
    (h : changesPriority s op = false) : (step s op).2 = s := by
  cases op with
  | setTaskPriority taskID priority now =>
    simp only [changesPriority, GetTask] at h
    simp only [step, outcome, SetTaskPriority]
    split_ifs
    · rfl
    · cases hi : indexWhere (fun t => t.ID == taskID) s.state.Tasks with
      | none => rfl
      | some i =>
        obtain ⟨a, ha, _, hf⟩ := indexWhere_eq_some hi
        have hget : s.state.Tasks.getD i default = a := by
          simp [List.getD_eq_getElem?_getD, ha]
        simp only [hf, decide_eq_false_iff_not, not_not] at h
        simp only [hget, h, if_true]
  | _ => simp [changesPriority] at h

/-- `Undo` right after a successful undo-recorded call gives back the state before it. -/
theorem Undo_after_recordedCall (s : Service) (op : Op) (h : RecordedCall s op) :
    (step s op).2.Undo =
      (.ok (), { state := s.state,
                 undo := s.undo.drop (s.undo.length + 1 - undoStackLimit) }) :=
  Undo_of_append _ _ _ (by rw [undo_of_recordedCall s op h, pushUndo_undo_eq])

theorem chain_stack (s : Service) (ops : List Op) (h : ChainOk s ops)
    (hlen : ops.length ≤ undoStackLimit) :
    ∃ pre, (run s ops).undo = pre ++ preStates s ops := by
  cases ops with
  | nil => exact ⟨s.undo, by simp [run, preStates]⟩
  | cons op ops =>
    refine ⟨s.undo.drop ((s.undo ++ preStates s (op :: ops)).length - undoStackLimit), ?_⟩
    rw [undo_run_chain ops s op h, List.drop_append_eq_append_drop]
    have : (s.undo ++ preStates s (op :: ops)).length - undoStackLimit - s.undo.length = 0 := by
      have := length_preStates s (op :: ops)
      simp only [List.length_append]
      omega
    rw [this, List.drop_zero]

end UndoStack

section Claims

open Service Err

/-- C3, refuted as stated: `SetFilter` succeeds on a fresh service and changes the state, and
the `Undo` called right after it fails with `ErrNothingToUndo`. -/
theorem C3_counterexample :
    (Op.setFilter FilterDone).isUndo = false ∧
      (step (NewService NewState) (.setFilter FilterDone)).1 = none ∧
      (step (NewService NewState) (.setFilter FilterDone)).2.state ≠ (NewService NewState).state ∧
      (step (NewService NewState) (.setFilter FilterDone)).2.Undo.1 = .error ErrNothingToUndo :=
  ⟨rfl, by decide, by decide, rfl⟩

/-- C3, amended. Undo exactly reverts a single call of an undo-recorded operation (`CreateList`,
`UpdateList`, `DeleteList`, `MoveListUp`, `MoveListDown`, `CreateTask`, `UpdateTask`,
`DeleteTask`, `ToggleDone`, `SetTaskPriority`, `MoveTaskUp`, `MoveTaskDown`,
`ClearCompletedToArchive`, `ArchiveAllToArchive`, `DeleteAllTasks`): when the call succeeds and
changes the state, `Undo` called right after it succeeds and leaves the state that held
before the call. -/
theorem C3_undo_reverts_recorded_call (s : Service) (op : Op) (hrec : op.isRecorded = true)
    (hok : (step s op).1 = none) (hch : (step s op).2.state ≠ s.state) :
    (step s op).2.Undo.1 = .ok () ∧ (step s op).2.Undo.2.state = s.state := by
  have hp : changesPriority s op = true := by
    by_contra hp
    apply hch
    rw [step_of_changesPriority_false s op (by simpa using hp)]
  rw [Undo_after_recordedCall s op ⟨hrec, hok, hp⟩]
  exact ⟨rfl, rfl⟩

theorem C3_undo_reverts_recorded_call_witness :
    (step inboxService (.createTask "L1" "A" 6 "a")).2.Undo.1 = .ok () ∧
      (step inboxService (.createTask "L1" "A" 6 "a")).2.Undo.2.state = inboxService.state :=
  C3_undo_reverts_recorded_call inboxService (.createTask "L1" "A" 6 "a") rfl (by decide)
    (by decide)

/-- C4. Undo of a chain: after a chain of `N ≤ 20` successful undo-recorded operations made
from any service, `N` calls of `Undo` succeed one after the other, and after `k` of them the
state is the one that held before the operation number `N - k + 1`, that is, after the first
`N - k` operations; after all `N` it is the state before the chain. -/
theorem C4_undo_chain (s : Service) (ops : List Op) (hlen : ops.length ≤ undoStackLimit)
    (h : ChainOk s ops) :
    (∀ k, k < ops.length → (undoN k (run s ops)).Undo.1 = .ok ()) ∧
      (∀ k, k ≤ ops.length →
        (undoN k (run s ops)).state = (run s (ops.take (ops.length - k))).state) ∧
      (undoN ops.length (run s ops)).state = s.state := by
  obtain ⟨pre, hpre⟩ := chain_stack s ops h hlen
  have hP := length_preStates s ops
  have hstate : ∀ k, k ≤ ops.length →
      (undoN k (run s ops)).state = (run s (ops.take (ops.length - k))).state := by
    intro k hk
    by_cases hk0 : k = 0
    · subst hk0
      simp [undoN]
    · obtain ⟨_, _, h3⟩ := undoN_of_append k (run s ops) pre (preStates s ops) hpre (by omega)
      have h4 := h3 (by omega)
      rw [hP, getElem?_preStates s ops _ (by omega)] at h4
      exact Option.some.inj h4
  refine ⟨?_, hstate, ?_⟩
  · intro k hk
    obtain ⟨_, h2, _⟩ :=
      undoN_of_append (k + 1) (run s ops) pre (preStates s ops) hpre (by omega)
    exact h2 k (by omega)
  · have := hstate ops.length (le_refl _)
    simpa [run] using this

theorem C4_undo_chain_witness :
    (∀ k, k < inboxChain.length → (undoN k (run inboxService inboxChain)).Undo.1 = .ok ()) ∧
      (∀ k, k ≤ inboxChain.length →
        (undoN k (run inboxService inboxChain)).state =
          (run inboxService (inboxChain.take (inboxChain.length - k))).state) ∧
      (undoN inboxChain.length (run inboxService inboxChain)).state = inboxService.state :=
  C4_undo_chain inboxService inboxChain (by decide)
    ⟨⟨rfl, by decide, rfl⟩, ⟨rfl, by decide, rfl⟩, ⟨rfl, by decide, rfl⟩,
      ⟨rfl, by decide, rfl⟩, trivial⟩

/-- C5. Undo stack cap of 20: after `n` successful undo-recorded operations on a fresh
service the undo stack holds `min n 20` snapshots; that many calls of `Undo` succeed one
after the other, the next one fails with `ErrNothingToUndo`, and the state is then the one
that held after the first `n - min n 20` operations. -/
theorem C5_undo_stack_cap (s0 : AppState) (ops : List Op) (h : ChainOk (NewService s0) ops) :
    (run (NewService s0) ops).undo.length = min ops.length undoStackLimit ∧
      (∀ k, k < min ops.length undoStackLimit →
        (undoN k (run (NewService s0) ops)).Undo.1 = .ok ()) ∧
      (undoN (min ops.length undoStackLimit) (run (NewService s0) ops)).Undo.1 =
        .error ErrNothingToUndo ∧
      (undoN (min ops.length undoStackLimit) (run (NewService s0) ops)).state =
        (run (NewService s0)
          (ops.take (ops.length - min ops.length undoStackLimit))).state := by
  cases ops with
  | nil =>
    simp [run, undoN, NewService, Undo]
  | cons op ops =>
    have hP := length_preStates (NewService s0) (op :: ops)
    have hstack := undo_run_chain ops (NewService s0) op h
    have hnil : (NewService s0).undo = [] := rfl
    rw [hnil, List.nil_append] at hstack
    set P := preStates (NewService s0) (op :: ops) with hPdef
    set m := min (op :: ops).length undoStackLimit with hm
    have hl : (P.drop (P.length - undoStackLimit)).length = m := by
      simp only [List.length_drop, hP, hm, undoStackLimit]
      omega
    have hm1 : 1 ≤ m := by
      simp only [hm, undoStackLimit, List.length_cons]
      omega
    obtain ⟨h1, h2, h3⟩ := undoN_of_append m (run (NewService s0) (op :: ops)) []
      (P.drop (P.length - undoStackLimit)) (by rw [hstack, List.nil_append]) (by omega)
    refine ⟨by rw [hstack, hl], fun k hk => h2 k hk, ?_, ?_⟩
    · rw [Undo_of_nil _ (by rw [h1, hl]; simp)]
    · have h4 := h3 hm1
      rw [hl, Nat.sub_self, List.getElem?_drop, Nat.add_zero, hP,
        show (op :: ops).length - undoStackLimit = (op :: ops).length - m by
          simp only [hm, undoStackLimit]; omega,
        getElem?_preStates _ _ _ (by omega)] at h4
      exact Option.some.inj h4

theorem C5_undo_stack_cap_witness :
    capChain.length = 22 ∧ min capChain.length undoStackLimit = 20 ∧
    ChainOk (NewService NewState) capChain ∧
    (run (NewService NewState) capChain).undo.length = min capChain.length undoStackLimit ∧
      (∀ k, k < min capChain.length undoStackLimit →
        (undoN k (run (NewService NewState) capChain)).Undo.1 = .ok ()) ∧
      (undoN (min capChain.length undoStackLimit) (run (NewService NewState) capChain)).Undo.1 =
        .error ErrNothingToUndo ∧
      (undoN (min capChain.length undoStackLimit) (run (NewService NewState) capChain)).state =
        (run (NewService NewState)
          (capChain.take (capChain.length - min capChain.length undoStackLimit))).state :=
  have h : ChainOk (NewService NewState) capChain := by
    unfold capChain
    simp only [List.replicate, List.cons_append, List.nil_append]
    repeat (first | exact trivial | refine ⟨⟨rfl, by decide, rfl⟩, ?_⟩)
  ⟨rfl, rfl, h, C5_undo_stack_cap NewState capChain h⟩

end Claims

end TodoCli
namespace TodoCli

section TaskSlices

open Service Err

variable {α : Type}

theorem filter_updateAt_of_false (p : α → Bool) (f : α → α) (l : List α) (i : Nat)
    (h : ∀ a, l[i]? = some a → p a = false ∧ p (f a) = false) :
    (updateAt f l i).filter p = l.filter p := by
  induction l generalizing i with
  | nil => rfl
  | cons a as ih =>
    cases i with
    | zero =>
      obtain ⟨h1, h2⟩ := h a (by simp)
      simp [updateAt, List.filter_cons, h1, h2]
    | succ i =>
      simp only [updateAt, List.filter_cons]
      rw [ih i (fun b hb => h b (by simpa using hb))]

theorem filter_map_updateAt {β : Type} (p : α → Bool) (g : α → β) (f : α → α) (l : List α)
    (i : Nat) (hp : ∀ a, p (f a) = p a) (hg : ∀ a, g (f a) = g a) :
    ((updateAt f l i).filter p).map g = (l.filter p).map g := by
  induction l generalizing i with
  | nil => rfl
  | cons a as ih =>
    cases i with
    | zero =>
      simp only [updateAt, List.filter_cons, hp]
      split <;> simp [hg]
    | succ i =>
      simp only [updateAt, List.filter_cons]
      split <;> simp [ih]

theorem filter_removeAt_of_false (p : α → Bool) (l : List α) (i : Nat)
    (h : ∀ a, l[i]? = some a → p a = false) :
    (l.take i ++ l.drop (i + 1)).filter p = l.filter p := by
  induction l generalizing i with
  | nil => simp
  | cons a as ih =>
    cases i with
    | zero =>
      have := h a (by simp)
      simp [List.filter_cons, this]
    | succ i =>
      simp only [List.take_succ_cons, List.cons_append, List.drop_succ_cons, List.filter_cons]
      rw [ih i (fun b hb => h b (by simpa using hb))]

theorem positionsOf_eq_of_filter_eq {ts1 ts2 : List Task} {L : String}
    (h : ts1.filter (fun t => t.ListID == L) = ts2.filter (fun t => t.ListID == L)) :
    positionsOf ts1 L = positionsOf ts2 L := by
  unfold positionsOf; rw [h]

theorem clearScan_kept (listID : String) (list : TodoList) (now : Time) (ids : Nat → String)
    (ts : List Task) (toArchive : List ArchivedCompletedTask) (kept : List Task) :
    (clearScan listID list now ids ts toArchive kept).2 =
      kept ++ ts.filter (fun t => !(t.ListID == listID && t.Done)) := by
  induction ts generalizing toArchive kept with
  | nil => simp [clearScan]
  | cons t ts ih =>
    simp only [clearScan]
    by_cases h : t.ListID = listID ∧ t.Done = true
    · rw [if_pos h, ih]
      simp [List.filter_cons, h.1, h.2]
    · rw [if_neg h, ih]
      have : (t.ListID == listID && t.Done) = false := by
        simp only [Bool.and_eq_false_imp, beq_iff_eq]
        intro h1
        by_contra h2
        exact h ⟨h1, by simpa using h2⟩
      simp only [List.filter_cons, this, Bool.not_false, if_true, List.append_assoc,
        List.singleton_append]

theorem archiveAllScan_kept (listID : String) (list : TodoList) (now : Time)
    (ids : Nat → String) (ts : List Task) (toArchive : List ArchivedCompletedTask)
    (kept : List Task) :
    (archiveAllScan listID list now ids ts toArchive kept).2 =
      kept ++ ts.filter (fun t => t.ListID != listID) := by
  induction ts generalizing toArchive kept with
  | nil => simp [archiveAllScan]
  | cons t ts ih =>
    simp only [archiveAllScan]
    by_cases h : t.ListID = listID
    · rw [if_pos h, ih]
      simp [List.filter_cons, h]
    · rw [if_neg h, ih]
      simp [List.filter_cons, h]

theorem deleteAllScan_kept (listID : String) (ts kept : List Task) (removed : Int) :
    (deleteAllScan listID ts kept removed).1 =
      kept ++ ts.filter (fun t => t.ListID != listID) := by
  induction ts generalizing kept removed with
  | nil => simp [deleteAllScan]
  | cons t ts ih =>
    simp only [deleteAllScan]
    split_ifs with h
    · rw [ih]
      simp [List.filter_cons, h]
    · rw [ih]
      simp [List.filter_cons, h]

/-- Keeping the tasks that pass `q` keeps every task of a list whose tasks all pass `q`. -/
theorem filter_filter_of_imp (ts : List Task) (q : Task → Bool) (L : String)
    (h : ∀ t ∈ ts, t.ListID = L → q t = true) :
    (ts.filter q).filter (fun t => t.ListID == L) = ts.filter (fun t => t.ListID == L) := by
  rw [List.filter_filter]
  apply List.filter_congr
  intro t ht
  by_cases hL : t.ListID = L
  · simp [hL, h t ht hL]
  · simp [hL]

theorem getD_of_getElem? {l : List α} {i : Nat} {a d : α} (h : l[i]? = some a) :
    l.getD i d = a := by
  simp [List.getD_eq_getElem?_getD, h]

end TaskSlices

end TodoCli
namespace TodoCli

section Density

open Service Err

theorem dense_of_positionsOf_nil {ts : List Task} {L : String} (h : positionsOf ts L = []) :
    Dense ts L := by
  unfold Dense; rw [h]; simp

theorem dense_normalize_of_others (pre tasks : List Task) (listID : String)
    (ho : ∀ other, other ≠ listID →
      pre.filter (fun t => t.ListID == other) = tasks.filter (fun t => t.ListID == other))
    (hd : ∀ L, Dense tasks L) (L : String) : Dense (normalizePositions pre listID) L :=
  dense_normalizePositions_all pre listID
    (fun other hne => dense_of_positionsOf_eq (positionsOf_eq_of_filter_eq (ho other hne))
      (hd other)) L

theorem getElem?_listID_updateAt {f : Task → Task} {ts : List Task} {i j : Nat} {t : Task}
    (h : (updateAt f ts i)[j]? = some t) (hf : ∀ t, (f t).ListID = t.ListID) :
    ∃ t0, ts[j]? = some t0 ∧ t0.ListID = t.ListID := by
  rw [getElem?_updateAt] at h
  split at h
  · cases hj : ts[j]? with
    | none => simp [hj] at h
    | some t0 =>
      simp only [hj, Option.map_some', Option.some.injEq] at h
      exact ⟨t0, rfl, by rw [← h, hf]⟩
  · exact ⟨t, h, rfl⟩

theorem filter_swapPositions_of_ne (tasks : List Task) (a b : Nat) (now : Time)
    (listID other : String) (hne : other ≠ listID)
    (ha : ∀ t, tasks[a]? = some t → t.ListID = listID)
    (hb : ∀ t, tasks[b]? = some t → t.ListID = listID) :
    (swapPositions tasks a b now).filter (fun t => t.ListID == other) =
      tasks.filter (fun t => t.ListID == other) := by
  have hne2 : ¬ listID = other := fun h => hne h.symm
  unfold swapPositions
  simp only
  rw [filter_updateAt_of_false, filter_updateAt_of_false, filter_updateAt_of_false,
    filter_updateAt_of_false]
  · intro t ht
    have := ha t ht
    simp [this, hne2]
  · intro t ht
    obtain ⟨t0, h0, e0⟩ := getElem?_listID_updateAt ht (fun _ => rfl)
    have := hb t0 h0
    simp [← e0, this, hne2]
  · intro t ht
    obtain ⟨t1, h1, e1⟩ := getElem?_listID_updateAt ht (fun _ => rfl)
    obtain ⟨t0, h0, e0⟩ := getElem?_listID_updateAt h1 (fun _ => rfl)
    have := ha t0 h0
    simp [← e1, ← e0, this, hne2]
  · intro t ht
    obtain ⟨t2, h2, e2⟩ := getElem?_listID_updateAt ht (fun _ => rfl)
    obtain ⟨t1, h1, e1⟩ := getElem?_listID_updateAt h2 (fun _ => rfl)
    obtain ⟨t0, h0, e0⟩ := getElem?_listID_updateAt h1 (fun _ => rfl)
    have := hb t0 h0
    simp [← e2, ← e1, ← e0, this, hne2]

theorem listID_of_getD_taskIndexes (tasks : List Task) (listID : String) (k : Nat)
    (hk : k < (taskIndexesForList tasks listID).length) (t : Task)
    (ht : tasks[(taskIndexesForList tasks listID).getD k 0]? = some t) : t.ListID = listID := by
  have hmem : (taskIndexesForList tasks listID).getD k 0 ∈ taskIndexesForList tasks listID := by
    rw [List.getD_eq_getElem _ _ hk]
    exact List.getElem_mem hk
  obtain ⟨t2, h2, e2⟩ := mem_taskIndexesForList.1 hmem
  rw [ht] at h2
  rw [Option.some.inj h2]
  exact e2

theorem dense_moveTask (s : Service) (taskID : String) (direction : Int) (now : Time)
    (hd : ∀ L, Dense s.state.Tasks L) (L : String) :
    Dense (s.moveTask taskID direction now).2.state.Tasks L := by
  simp only [moveTask]
  split
  · exact hd L
  · split
    · exact hd L
    · next idx hidx position hpos =>
      have hlt := indexWhere_lt hpos
      split_ifs with c1 c2
      · exact hd L
      · exact hd L
      · simp only [normalizePositionsForList_tasks, withTasks_tasks, pushUndo_state]
        apply dense_normalize_of_others _ s.state.Tasks _ _ hd
        intro other hne
        apply filter_swapPositions_of_ne _ _ _ _ _ _ hne
        · exact listID_of_getD_taskIndexes _ _ _ hlt
        · apply listID_of_getD_taskIndexes
          omega

theorem dense_ToggleDone (s : Service) (taskID : String) (now : Time)
    (hd : ∀ L, Dense s.state.Tasks L) (L : String) :
    Dense (s.ToggleDone taskID now).2.state.Tasks L := by
  simp only [ToggleDone]
  split
  · exact hd L
  · next i hi =>
    obtain ⟨a, ha, _, _⟩ := indexWhere_eq_some hi
    have hi2 : i < s.state.Tasks.length := indexWhere_lt hi
    have hget : (updateAt (fun t => { t with Done := !t.Done, UpdatedAt := now })
        s.state.Tasks i).getD i default = { a with Done := !a.Done, UpdatedAt := now } := by
      rw [getD_updateAt _ _ _ _ _ hi2, if_pos rfl, getD_of_getElem? ha]
    simp only [pushUndo_state, hget]
    split_ifs
    · simp only [normalizePositionsForList_tasks, withTasks_tasks]
      apply dense_normalize_of_others _ s.state.Tasks _ _ hd
      intro other hne
      have hne2 : ¬ a.ListID = other := fun h => hne h.symm
      rw [filter_updateAt_of_false, filter_updateAt_of_false]
      · intro t ht
        rw [ha] at ht
        simp [← Option.some.inj ht, hne2]
      · intro t ht
        obtain ⟨t0, h0, e0⟩ := getElem?_listID_updateAt ht (fun _ => rfl)
        rw [ha] at h0
        simp [← e0, ← Option.some.inj h0, hne2]
    · simp only [withTasks_tasks]
      apply dense_of_positionsOf_eq _ (hd L)
      exact filter_map_updateAt _ _ _ _ _ (fun _ => rfl) (fun _ => rfl)

theorem filter_shiftPositions_of_ne (tasks : List Task) (listID other : String)
    (insertPos : Int) (hne : other ≠ listID) :
    (shiftPositions tasks listID insertPos).filter (fun t => t.ListID == other) =
      tasks.filter (fun t => t.ListID == other) := by
  unfold shiftPositions
  rw [List.filter_map]
  have hcomp : ((fun t : Task => t.ListID == other) ∘ fun t : Task =>
      if t.ListID = listID ∧ t.Position ≥ insertPos
      then { t with Position := wrapInt (t.Position + 1) } else t) =
      fun t : Task => t.ListID == other := by
    funext t
    simp only [Function.comp]
    split <;> rfl
  rw [hcomp]
  conv_rhs => rw [← List.map_id (List.filter (fun t => t.ListID == other) tasks)]
  apply List.map_congr_left
  intro t ht
  have hto : t.ListID = other := by simpa using (List.mem_filter.1 ht).2
  have : ¬ t.ListID = listID := by rw [hto]; exact hne
  simp [this]

theorem dense_CreateTask (s : Service) (listID text : String) (now : Time) (newID : String)
    (hd : ∀ L, Dense s.state.Tasks L) (L : String) :
    Dense (s.CreateTask listID text now newID).2.state.Tasks L := by
  simp only [CreateTask]
  split_ifs
  any_goals exact hd L
  · simp only [normalizePositionsForList_tasks, withTasks_tasks, pushUndo_state]
    apply dense_normalize_of_others _ s.state.Tasks _ _ hd
    intro other hne
    have hne2 : ¬ TrimSpace listID = other := fun h => hne h.symm
    rw [List.filter_append, filter_shiftPositions_of_ne _ _ _ _ hne]
    simp [List.filter_cons, hne2]

theorem dense_DeleteTask (s : Service) (id : String) (hd : ∀ L, Dense s.state.Tasks L)
    (L : String) : Dense (s.DeleteTask id).2.state.Tasks L := by
  simp only [DeleteTask]
  split
  · exact hd L
  · next i hi =>
    obtain ⟨a, ha, _, _⟩ := indexWhere_eq_some hi
    simp only [normalizePositionsForList_tasks, withTasks_tasks, pushUndo_state,
      getD_of_getElem? ha]
    apply dense_normalize_of_others _ s.state.Tasks _ _ hd
    intro other hne
    apply filter_removeAt_of_false
    intro t ht
    rw [ha] at ht
    have hne2 : ¬ a.ListID = other := fun h => hne h.symm
    simp [← Option.some.inj ht, hne2]

theorem dense_filter_listID (tasks : List Task) (id : String) (hd : ∀ L, Dense tasks L)
    (L : String) : Dense (tasks.filter (fun t => t.ListID != id)) L := by
  by_cases hL : L = id
  · apply dense_of_positionsOf_nil
    unfold positionsOf
    rw [List.filter_filter]
    have : tasks.filter (fun t => t.ListID == L && t.ListID != id) = [] := by
      rw [List.filter_eq_nil_iff]
      intro t _
      simp [hL]
    rw [this]; rfl
  · apply dense_of_positionsOf_eq _ (hd L)
    apply positionsOf_eq_of_filter_eq
    apply filter_filter_of_imp
    intro t _ ht
    simp [ht, hL]

end Density

end TodoCli
namespace TodoCli

section Density

open Service Err

theorem dense_UpdateTask (s : Service) (id text : String) (now : Time)
    (hd : ∀ L, Dense s.state.Tasks L) (L : String) :
    Dense (s.UpdateTask id text now).2.state.Tasks L := by
  simp only [UpdateTask]
  split_ifs
  · exact hd L
  · split
    · exact hd L
    · simp only [withTasks_tasks, pushUndo_state]
      apply dense_of_positionsOf_eq _ (hd L)
      exact filter_map_updateAt _ _ _ _ _ (fun _ => rfl) (fun _ => rfl)

theorem dense_SetTaskPriority (s : Service) (taskID : String) (priority : Priority)
    (now : Time) (hd : ∀ L, Dense s.state.Tasks L) (L : String) :
    Dense (s.SetTaskPriority taskID priority now).2.state.Tasks L := by
  simp only [SetTaskPriority]
  split_ifs
  · exact hd L
  · split
    · exact hd L
    · split_ifs
      · exact hd L
      · simp only [withTasks_tasks, pushUndo_state]
        apply dense_of_positionsOf_eq _ (hd L)
        exact filter_map_updateAt _ _ _ _ _ (fun _ => rfl) (fun _ => rfl)

theorem dense_DeleteList (s : Service) (id : String) (hd : ∀ L, Dense s.state.Tasks L)
    (L : String) : Dense (s.DeleteList id).2.state.Tasks L := by
  simp only [DeleteList]
  split
  · exact hd L
  · simp only [withTasks_tasks, withLists_tasks, pushUndo_state]
    exact dense_filter_listID _ _ hd L

theorem dense_ClearCompletedToArchive (s : Service) (listID : String) (now : Time)
    (ids : Nat → String) (hd : ∀ L, Dense s.state.Tasks L) (L : String) :
    Dense (s.ClearCompletedToArchive listID now ids).2.state.Tasks L := by
  simp only [ClearCompletedToArchive]
  split_ifs
  · exact hd L
  · split
    · exact hd L
    · split_ifs
      · exact hd L
      · simp only [normalizePositionsForList_tasks, withTasks_tasks, pushUndo_state,
          clearScan_kept, List.nil_append]
        apply dense_normalize_of_others _ s.state.Tasks _ _ hd
        intro other hne
        apply filter_filter_of_imp
        intro t _ ht
        have : ¬ t.ListID = TrimSpace listID := by rw [ht]; exact hne
        simp [this]

theorem dense_ArchiveAllToArchive (s : Service) (listID : String) (now : Time)
    (ids : Nat → String) (hd : ∀ L, Dense s.state.Tasks L) (L : String) :
    Dense (s.ArchiveAllToArchive listID now ids).2.state.Tasks L := by
  simp only [ArchiveAllToArchive]
  split_ifs
  · exact hd L
  · split
    · exact hd L
    · split_ifs
      · exact hd L
      · simp only [normalizePositionsForList_tasks, withTasks_tasks, pushUndo_state,
          archiveAllScan_kept, List.nil_append]
        apply dense_normalize_of_others _ s.state.Tasks _ _ hd
        intro other hne
        apply filter_filter_of_imp
        intro t _ ht
        have : ¬ t.ListID = TrimSpace listID := by rw [ht]; exact hne
        simp [this]

theorem dense_DeleteAllTasks (s : Service) (listID : String)
    (hd : ∀ L, Dense s.state.Tasks L) (L : String) :
    Dense (s.DeleteAllTasks listID).2.state.Tasks L := by
  simp only [DeleteAllTasks]
  split_ifs
  any_goals exact hd L
  · simp only [normalizePositionsForList_tasks, withTasks_tasks, pushUndo_state,
      deleteAllScan_kept, List.nil_append]
    apply dense_normalize_of_others _ s.state.Tasks _ _ hd
    intro other hne
    apply filter_filter_of_imp
    intro t _ ht
    have : ¬ t.ListID = TrimSpace listID := by rw [ht]; exact hne
    simp [this]

theorem tasks_CreateList (s : Service) (name color : String) (now : Time) (newID : String) :
    (s.CreateList name color now newID).2.state.Tasks = s.state.Tasks := by
  simp only [CreateList]
  split_ifs <;> simp

theorem tasks_UpdateList (s : Service) (id name color : String) (now : Time) :
    (s.UpdateList id name color now).2.state.Tasks = s.state.Tasks := by
  simp only [UpdateList]
  split_ifs
  · rfl
  · split <;> simp

theorem tasks_moveList (s : Service) (listID : String) (direction : Int) (now : Time) :
    (s.moveList listID direction now).2.state.Tasks = s.state.Tasks := by
  simp only [moveList]
  split
  · rfl
  · split_ifs <;> simp

theorem tasks_SetSessionContext (s : Service) (activeListID focus : String) :
    (s.SetSessionContext activeListID focus).2.state.Tasks = s.state.Tasks := by
  simp only [SetSessionContext]
  split_ifs <;> rfl

theorem tasks_SetFilter (s : Service) (filter : Filter) :
    (s.SetFilter filter).2.state.Tasks = s.state.Tasks := by
  simp only [SetFilter]
  split_ifs <;> rfl

theorem outcome_snd {α : Type} (r : Except Err α × Service) : (outcome r).2 = r.2 := rfl

/-- Every operation other than `Undo` keeps the live state dense. -/
theorem dense_step (s : Service) (op : Op) (hu : op.isUndo = false)
    (hd : ∀ L, Dense s.state.Tasks L) (L : String) : Dense (step s op).2.state.Tasks L := by
  cases op with
  | createList name color now newID =>
    simp only [step, outcome_snd, tasks_CreateList]; exact hd L
  | updateList id name color now =>
    simp only [step, outcome_snd, tasks_UpdateList]; exact hd L
  | deleteList id => exact dense_DeleteList s id hd L
  | moveListUp listID now =>
    simp only [step, outcome_snd, MoveListUp, tasks_moveList]; exact hd L
  | moveListDown listID now =>
    simp only [step, outcome_snd, MoveListDown, tasks_moveList]; exact hd L
  | createTask listID text now newID => exact dense_CreateTask s listID text now newID hd L
  | updateTask id text now => exact dense_UpdateTask s id text now hd L
  | deleteTask id => exact dense_DeleteTask s id hd L
  | toggleDone taskID now => exact dense_ToggleDone s taskID now hd L
  | setTaskPriority taskID priority now => exact dense_SetTaskPriority s taskID priority now hd L
  | moveTaskUp taskID now => exact dense_moveTask s taskID (-1) now hd L
  | moveTaskDown taskID now => exact dense_moveTask s taskID 1 now hd L
  | clearCompletedToArchive listID now ids =>
    exact dense_ClearCompletedToArchive s listID now ids hd L
  | archiveAllToArchive listID now ids => exact dense_ArchiveAllToArchive s listID now ids hd L
  | deleteAllTasks listID => exact dense_DeleteAllTasks s listID hd L
  | setSessionContext activeListID focus =>
    simp only [step, outcome_snd, tasks_SetSessionContext]; exact hd L
  | markOnboardingSeen => exact hd L
  | setFilter filter => simp only [step, outcome_snd, tasks_SetFilter]; exact hd L
  | setQuery query => exact hd L
  | undo => simp [Op.isUndo] at hu
  | undoDelete => simp [Op.isUndo] at hu

/-- The snapshots on the undo stack after a call were on it before, or are the state before
the call. -/
theorem undo_step_subset (s : Service) (op : Op) (u : AppState)
    (hu : u ∈ (step s op).2.undo) : u ∈ s.undo ∨ u = s.state := by
  have hpush : ∀ x, x ∈ s.pushUndo.undo → x ∈ s.undo ∨ x = s.state := by
    intro x hx
    rw [pushUndo_undo_eq] at hx
    rcases List.mem_append.1 hx with h | h
    · exact Or.inl (List.mem_of_mem_drop h)
    · exact Or.inr (by simpa using h)
  have hUndo : ∀ x, x ∈ s.Undo.2.undo → x ∈ s.undo := by
    intro x hx
    simp only [Undo] at hx
    split at hx
    · exact hx
    · exact List.mem_of_mem_dropLast hx
  cases hop : (step s op).1 with
  | some e => rw [step_error_unchanged s op e hop] at hu; exact Or.inl hu
  | none =>
    by_cases hrec : op.isRecorded = true
    · by_cases hp : changesPriority s op = true
      · rw [undo_of_recordedCall s op ⟨hrec, hop, hp⟩] at hu
        exact hpush u hu
      · rw [step_of_changesPriority_false s op (by simpa using hp)] at hu
        exact Or.inl hu
    · cases op with
      | setSessionContext activeListID focus =>
        left
        simp only [step, outcome_snd, SetSessionContext] at hu
        split_ifs at hu <;> exact hu
      | markOnboardingSeen => exact Or.inl hu
      | setFilter filter =>
        left
        simp only [step, outcome_snd, SetFilter] at hu
        split_ifs at hu <;> exact hu
      | setQuery query => exact Or.inl hu
      | undo => exact Or.inl (hUndo u hu)
      | undoDelete => exact Or.inl (hUndo u hu)
      | _ => simp [Op.isRecorded] at hrec

/-- The state `Undo` installs was a snapshot on the undo stack, or `Undo` changed nothing. -/
theorem state_Undo (s : Service) : s.Undo.2.state ∈ s.undo ∨ s.Undo.2 = s := by
  simp only [Undo]
  split
  · exact Or.inr rfl
  · next last hl =>
    left
    exact List.mem_of_getLast?_eq_some hl

end Density

end TodoCli
namespace TodoCli

section Density

open Service Err

theorem filter_assignPositions_of_ne (tasks : List Task) (idxs : List Nat)
    {listID other : String}
    (hp : idxs.Perm (indexesWhere (fun t => t.ListID == listID) tasks 0))
    (hne : other ≠ listID) :
    (assignPositions tasks idxs 0).filter (fun t => t.ListID == other) =
      tasks.filter (fun t => t.ListID == other) := by
  have hnd : idxs.Nodup := hp.nodup_iff.2 (nodup_indexesWhere _ _ _)
  have hids : (assignPositions tasks idxs 0).map (·.ListID) = tasks.map (·.ListID) :=
    map_assignPositions _ _ _ _ (fun _ _ => rfl)
  rw [filter_eq_indexes, filter_eq_indexes tasks, indexesWhere_listID_congr hids]
  apply List.map_congr_left
  intro j hj
  obtain ⟨_, t, ht, hpt⟩ := mem_indexesWhere.1 hj
  simp only [Nat.sub_zero, beq_iff_eq] at ht hpt
  have hnot : j ∉ idxs := by
    intro hmem
    obtain ⟨_, t2, ht2, hpt2⟩ := mem_indexesWhere.1 (hp.mem_iff.1 hmem)
    simp only [Nat.sub_zero, beq_iff_eq] at ht2 hpt2
    rw [ht] at ht2
    rw [← Option.some.inj ht2, hpt] at hpt2
    exact hne hpt2
  simp [List.getD_eq_getElem?_getD, getElem?_assignPositions _ _ _ hnd, ht, hnot]

theorem dense_startupAssign (ts : List Task) (k : String) (L : String)
    (h : Dense ts L ∨ L = k) : Dense (startupAssign ts k) L := by
  by_cases hL : L = k
  · subst hL
    exact dense_assignPositions ts L _ (perm_sortSliceStable _ _)
  · rcases h with h | h
    · apply dense_of_positionsOf_eq _ h
      apply positionsOf_eq_of_filter_eq
      exact filter_assignPositions_of_ne ts _ (perm_sortSliceStable _ _) hL
    · exact absurd h hL

theorem dense_foldl_startupAssign (keys : List String) (ts : List Task) (L : String)
    (h : Dense ts L ∨ L ∈ keys) : Dense (keys.foldl startupAssign ts) L := by
  induction keys generalizing ts with
  | nil =>
    rcases h with h | h
    · exact h
    · simp at h
  | cons k rest ih =>
    simp only [List.foldl_cons]
    apply ih
    rcases h with h | h
    · by_cases hL : L = k
      · exact Or.inl (dense_startupAssign ts k L (Or.inr hL))
      · exact Or.inl (dense_startupAssign ts k L (Or.inl h))
    · rcases List.mem_cons.1 h with h | h
      · exact Or.inl (dense_startupAssign ts k L (Or.inr h))
      · exact Or.inr h

/-- The state `normalizeState` returns is dense in every list. -/
theorem dense_normalizeState (state : AppState) (L : String) :
    Dense (normalizeState state).Tasks L := by
  simp only [normalizeState]
  apply dense_foldl_startupAssign
  by_cases hL : L ∈ (state.Tasks.map (fun t =>
      if priorityOutOfRange t.Priority = true then { t with Priority := PriorityNone }
      else t)).map (·.ListID)
  · exact Or.inr (List.mem_dedup.2 hL)
  · left
    apply dense_of_positionsOf_nil
    unfold positionsOf
    rw [List.map_eq_nil_iff, List.filter_eq_nil_iff]
    intro t ht hp
    apply hL
    simp only [beq_iff_eq] at hp
    exact List.mem_map.2 ⟨t, ht, hp⟩

/-- Density of the live state and of every snapshot on the undo stack. -/
theorem dense_of_reachable (s0 : AppState) (s : Service) (h : Reachable s0 s) :
    (∀ L, Dense s.state.Tasks L) ∧ ∀ u ∈ s.undo, ∀ L, Dense u.Tasks L := by
  induction h with
  | init =>
    refine ⟨fun L => dense_normalizeState s0 L, ?_⟩
    intro u hu
    simp [NewService] at hu
  | call s op _ ih =>
    obtain ⟨hlive, hundo⟩ := ih
    constructor
    · by_cases hu : op.isUndo = true
      · have hst : (step s op).2 = s.Undo.2 := by
          cases op <;> first | rfl | simp [Op.isUndo] at hu
        rw [hst]
        rcases state_Undo s with h | h
        · exact hundo _ h
        · rw [h]; exact hlive
      · exact dense_step s op (by simpa using hu) hlive
    · intro u hu
      rcases undo_step_subset s op u hu with h | h
      · exact hundo u h
      · rw [h]; exact hlive

end Density

section Claims

open Service Err

/-- C1. Density and uniqueness invariant: in every state reachable from `NewService s0`, for any
initial state `s0`, by any sequence of calls of the operations of the service, the positions of
the tasks of a list `L` are exactly `1, ..., N`, each once, `N` the number of tasks of `L`. -/
theorem C1_density_invariant (s0 : AppState) (s : Service) (h : Reachable s0 s) (L : String) :
    Dense s.state.Tasks L :=
  (dense_of_reachable s0 s h).1 L

theorem C1_density_invariant_witness :
    Dense (step (NewService rawState) (.deleteTask "a")).2.state.Tasks "L1" :=
  C1_density_invariant rawState _ (Reachable.call _ _ Reachable.init) "L1"

end Claims

end TodoCli
namespace TodoCli

section Integrity

open Service Err

theorem listIDExists_iff {lists : List TodoList} {id : String} :
    listIDExists lists id = true ↔ id ∈ lists.map (·.ID) := by
  simp [listIDExists, List.any_eq_true, List.mem_map]

theorem refIntegrity_iff (st : AppState) :
    RefIntegrity st ↔ ∀ x ∈ st.Tasks.map (·.ListID), x ∈ st.Lists.map (·.ID) := by
  unfold RefIntegrity
  constructor
  · intro h x hx
    obtain ⟨t, ht, rfl⟩ := List.mem_map.1 hx
    exact listIDExists_iff.1 (h t ht)
  · intro h t ht
    exact listIDExists_iff.2 (h _ (List.mem_map.2 ⟨t, ht, rfl⟩))

/-- Integrity goes over to a state whose tasks carry list ids that the old tasks carried or
that the new lists have, and whose lists keep the ids the old tasks carry. -/
theorem refIntegrity_of_subset {st st2 : AppState} (h : RefIntegrity st)
    (ht : ∀ x ∈ st2.Tasks.map (·.ListID),
      x ∈ st.Tasks.map (·.ListID) ∨ x ∈ st2.Lists.map (·.ID))
    (hl : ∀ x, x ∈ st2.Tasks.map (·.ListID) → x ∈ st.Lists.map (·.ID) →
      x ∈ st2.Lists.map (·.ID)) :
    RefIntegrity st2 := by
  rw [refIntegrity_iff] at h ⊢
  intro x hx
  rcases ht x hx with h1 | h1
  · exact hl x hx (h x h1)
  · exact h1

theorem refIntegrity_of_tasks_lists {st st2 : AppState} (h : RefIntegrity st)
    (ht : st2.Tasks.map (·.ListID) = st.Tasks.map (·.ListID))
    (hl : st2.Lists.map (·.ID) = st.Lists.map (·.ID)) : RefIntegrity st2 :=
  refIntegrity_of_subset h (fun _ hx => Or.inl (ht ▸ hx)) (fun _ _ hx => hl ▸ hx)

theorem getElem?_swap {α : Type} (l : List α) (i j : Nat) (d : α) (hi : i < l.length)
    (hj : j < l.length) (k : Nat) :
    ((l.set i (l.getD j d)).set j (l.getD i d))[k]? =
      if k = j then l[i]? else if k = i then l[j]? else l[k]? := by
  rw [List.getD_eq_getElem _ _ hi, List.getD_eq_getElem _ _ hj]
  simp only [List.getElem?_set, List.length_set]
  by_cases hkj : k = j
  · subst hkj
    simp [hi, hj, List.getElem?_eq_getElem hi]
  · have hjk : ¬ j = k := fun h => hkj h.symm
    by_cases hki : k = i
    · subst hki
      simp [hjk, hkj, hi, List.getElem?_eq_getElem hj]
    · have hik : ¬ i = k := fun h => hki h.symm
      simp [hjk, hik, hkj, hki]

theorem mem_swap {α : Type} (l : List α) (i j : Nat) (d : α) (hi : i < l.length)
    (hj : j < l.length) (x : α) :
    x ∈ (l.set i (l.getD j d)).set j (l.getD i d) ↔ x ∈ l := by
  simp only [List.mem_iff_getElem?, getElem?_swap l i j d hi hj]
  constructor
  · rintro ⟨k, hk⟩
    split_ifs at hk
    exacts [⟨i, hk⟩, ⟨j, hk⟩, ⟨k, hk⟩]
  · rintro ⟨k, hk⟩
    by_cases hki : k = i
    · subst hki
      exact ⟨j, by simp [hk]⟩
    · by_cases hkj : k = j
      · subst hkj
        refine ⟨i, ?_⟩
        have : ¬ i = k := fun h => hki h.symm
        simp [this, hk]
      · exact ⟨k, by simp [hki, hkj, hk]⟩

theorem lists_ids_moveList (s : Service) (listID : String) (direction : Int) (now : Time)
    (x : String) :
    x ∈ (s.moveList listID direction now).2.state.Lists.map (·.ID) ↔
      x ∈ s.state.Lists.map (·.ID) := by
  simp only [moveList]
  split
  · rfl
  · next idx hidx =>
    have hlt := indexWhere_lt hidx
    split_ifs with c1 c2
    · rfl
    · rfl
    · simp only [withLists_lists, pushUndo_state]
      rw [map_updateAt (fun l : TodoList => l.ID) (fun l => { l with UpdatedAt := now }) _ _
          (fun _ => rfl),
        map_updateAt (fun l : TodoList => l.ID) (fun l => { l with UpdatedAt := now }) _ _
          (fun _ => rfl)]
      simp only [List.mem_map]
      constructor
      · rintro ⟨a, ha, rfl⟩
        exact ⟨a, (mem_swap _ _ _ _ hlt (by omega) a).1 ha, rfl⟩
      · rintro ⟨a, ha, rfl⟩
        exact ⟨a, (mem_swap _ _ _ _ hlt (by omega) a).2 ha, rfl⟩

theorem refIntegrity_DeleteList (s : Service) (id : String) (h : RefIntegrity s.state) :
    RefIntegrity (s.DeleteList id).2.state := by
  simp only [DeleteList]
  split
  · exact h
  · next i hi =>
    obtain ⟨a, ha, hpa, _⟩ := indexWhere_eq_some hi
    have hlt := indexWhere_lt hi
    have hsplit : s.state.Lists = s.state.Lists.take i ++ a :: s.state.Lists.drop (i + 1) := by
      have h1 : s.state.Lists[i] = a := by
        have := List.getElem?_eq_getElem hlt
        rw [ha] at this
        exact (Option.some.inj this).symm
      rw [← h1, ← List.drop_eq_getElem_cons hlt, List.take_append_drop]
    rw [refIntegrity_iff] at h ⊢
    simp only [withTasks_tasks, withTasks_lists, withLists_lists, withLists_tasks,
      pushUndo_state]
    intro x hx
    obtain ⟨t, ht, rfl⟩ := List.mem_map.1 hx
    obtain ⟨ht1, ht2⟩ := List.mem_filter.1 ht
    have hx2 := h _ (List.mem_map.2 ⟨t, ht1, rfl⟩)
    obtain ⟨l, hl, hle⟩ := List.mem_map.1 hx2
    rw [hsplit] at hl
    simp only [List.mem_append, List.mem_cons] at hl
    have hne : l ≠ a := by
      intro hla
      rw [hla] at hle
      simp only [beq_iff_eq] at hpa
      simp only [bne_iff_ne, ne_eq] at ht2
      exact ht2 (by rw [← hle, hpa])
    apply List.mem_map.2
    refine ⟨l, ?_, hle⟩
    rcases hl with hl | hl | hl
    · exact List.mem_append.2 (Or.inl hl)
    · exact absurd hl hne
    · exact List.mem_append.2 (Or.inr hl)

theorem refIntegrity_of_tasks_subset {st st2 : AppState} (h : RefIntegrity st)
    (hl : st2.Lists = st.Lists)
    (ht : ∀ x ∈ st2.Tasks.map (·.ListID), x ∈ st.Tasks.map (·.ListID)) : RefIntegrity st2 :=
  refIntegrity_of_subset h (fun x hx => Or.inl (ht x hx)) (fun _ _ hx => hl ▸ hx)

theorem listIDs_normalizePositions (ts : List Task) (listID : String) :
    (normalizePositions ts listID).map (·.ListID) = ts.map (·.ListID) :=
  map_normalizePositions _ _ _ (fun _ _ => rfl)

theorem refIntegrity_CreateList (s : Service) (name color : String) (now : Time)
    (newID : String) (h : RefIntegrity s.state) :
    RefIntegrity (s.CreateList name color now newID).2.state := by
  simp only [CreateList]
  split_ifs
  · exact h
  · dsimp only
    refine refIntegrity_of_subset h ?_ ?_
    · intro x hx
      exact Or.inl (by simpa using hx)
    · intro x _ hx
      simp only [withLists_lists, pushUndo_state, List.map_append, List.mem_append]
      exact Or.inl hx

theorem refIntegrity_UpdateList (s : Service) (id name color : String) (now : Time)
    (h : RefIntegrity s.state) : RefIntegrity (s.UpdateList id name color now).2.state := by
  simp only [UpdateList]
  split_ifs
  · exact h
  · split
    · exact h
    · dsimp only
      refine refIntegrity_of_tasks_lists h ?_ ?_
      · simp
      · simp only [withLists_lists, pushUndo_state]
        exact map_updateAt (fun l : TodoList => l.ID) _ _ _ (fun _ => rfl)

theorem refIntegrity_moveList (s : Service) (listID : String) (direction : Int) (now : Time)
    (h : RefIntegrity s.state) : RefIntegrity (s.moveList listID direction now).2.state := by
  refine refIntegrity_of_subset h ?_ ?_
  · intro x hx
    rw [tasks_moveList] at hx
    exact Or.inl hx
  · intro x _ hx
    exact (lists_ids_moveList s listID direction now x).2 hx

theorem refIntegrity_CreateTask (s : Service) (listID text : String) (now : Time)
    (newID : String) (h : RefIntegrity s.state) :
    RefIntegrity (s.CreateTask listID text now newID).2.state := by
  simp only [CreateTask]
  split_ifs with c1 c2 c3
  any_goals exact h
  · dsimp only
    refine refIntegrity_of_subset h ?_ ?_
    · intro x hx
      simp only [normalizePositionsForList_tasks, withTasks_tasks, pushUndo_state,
        listIDs_normalizePositions, shiftPositions, List.map_append, List.map_map,
        List.mem_append, List.map_cons, List.map_nil, List.mem_singleton] at hx
      rcases hx with hx | hx
      · left
        obtain ⟨t, ht, rfl⟩ := List.mem_map.1 hx
        refine List.mem_map.2 ⟨t, ht, ?_⟩
        simp only [Function.comp]
        split <;> rfl
      · right
        rw [hx]
        simp only [normalizePositionsForList_lists, withTasks_lists, pushUndo_state]
        apply listIDExists_iff.1
        simpa [hasList, listIDExists] using c3
    · intro x _ hx
      simpa using hx

theorem refIntegrity_UpdateTask (s : Service) (id text : String) (now : Time)
    (h : RefIntegrity s.state) : RefIntegrity (s.UpdateTask id text now).2.state := by
  simp only [UpdateTask]
  split_ifs
  · exact h
  · split
    · exact h
    · dsimp only
      refine refIntegrity_of_tasks_lists h ?_ ?_
      · simp only [withTasks_tasks, pushUndo_state]
        exact map_updateAt (fun t : Task => t.ListID) _ _ _ (fun _ => rfl)
      · simp

theorem refIntegrity_SetTaskPriority (s : Service) (taskID : String) (priority : Priority)
    (now : Time) (h : RefIntegrity s.state) :
    RefIntegrity (s.SetTaskPriority taskID priority now).2.state := by
  simp only [SetTaskPriority]
  split_ifs
  · exact h
  · split
    · exact h
    · split_ifs
      · exact h
      · dsimp only
        refine refIntegrity_of_tasks_lists h ?_ ?_
        · simp only [withTasks_tasks, pushUndo_state]
          exact map_updateAt (fun t : Task => t.ListID) _ _ _ (fun _ => rfl)
        · simp

theorem refIntegrity_ToggleDone (s : Service) (taskID : String) (now : Time)
    (h : RefIntegrity s.state) : RefIntegrity (s.ToggleDone taskID now).2.state := by
  simp only [ToggleDone]
  split
  · exact h
  · split_ifs
    · dsimp only
      refine refIntegrity_of_tasks_lists h ?_ ?_
      · simp only [normalizePositionsForList_tasks, withTasks_tasks, pushUndo_state,
          listIDs_normalizePositions]
        refine (map_updateAt (fun t : Task => t.ListID) _ _ _ ?_).trans ?_
        · intro a; rfl
        · exact map_updateAt (fun t : Task => t.ListID) _ _ _ (fun _ => rfl)
      · simp
    · dsimp only
      refine refIntegrity_of_tasks_lists h ?_ ?_
      · simp only [withTasks_tasks, pushUndo_state]
        exact map_updateAt (fun t : Task => t.ListID) _ _ _ (fun _ => rfl)
      · simp

theorem refIntegrity_moveTask (s : Service) (taskID : String) (direction : Int) (now : Time)
    (h : RefIntegrity s.state) : RefIntegrity (s.moveTask taskID direction now).2.state := by
  simp only [moveTask]
  split
  · exact h
  · split
    · exact h
    · split_ifs
      · exact h
      · exact h
      · dsimp only
        refine refIntegrity_of_tasks_lists h ?_ ?_
        · simp only [normalizePositionsForList_tasks, withTasks_tasks, pushUndo_state,
            listIDs_normalizePositions]
          exact map_swapPositions (fun t : Task => t.ListID) _ _ _ _ (fun _ _ => rfl)
            (fun _ _ => rfl)
        · simp

theorem refIntegrity_DeleteTask (s : Service) (id : String) (h : RefIntegrity s.state) :
    RefIntegrity (s.DeleteTask id).2.state := by
  simp only [DeleteTask]
  split
  · exact h
  · dsimp only
    refine refIntegrity_of_tasks_subset h (by simp) ?_
    intro x hx
    simp only [normalizePositionsForList_tasks, withTasks_tasks, pushUndo_state,
      listIDs_normalizePositions] at hx
    obtain ⟨t, ht, rfl⟩ := List.mem_map.1 hx
    refine List.mem_map.2 ⟨t, ?_, rfl⟩
    rcases List.mem_append.1 ht with ht | ht
    · exact List.mem_of_mem_take ht
    · exact List.mem_of_mem_drop ht

theorem refIntegrity_ClearCompletedToArchive (s : Service) (listID : String) (now : Time)
    (ids : Nat → String) (h : RefIntegrity s.state) :
    RefIntegrity (s.ClearCompletedToArchive listID now ids).2.state := by
  simp only [ClearCompletedToArchive]
  split_ifs
  · exact h
  · split
    · exact h
    · split_ifs
      · exact h
      · dsimp only
        refine refIntegrity_of_tasks_subset h (by simp) ?_
        intro x hx
        simp only [normalizePositionsForList_tasks, withTasks_tasks, pushUndo_state,
          listIDs_normalizePositions, clearScan_kept, List.nil_append] at hx
        obtain ⟨t, ht, rfl⟩ := List.mem_map.1 hx
        exact List.mem_map.2 ⟨t, (List.mem_filter.1 ht).1, rfl⟩

theorem refIntegrity_ArchiveAllToArchive (s : Service) (listID : String) (now : Time)
    (ids : Nat → String) (h : RefIntegrity s.state) :
    RefIntegrity (s.ArchiveAllToArchive listID now ids).2.state := by
  simp only [ArchiveAllToArchive]
  split_ifs
  · exact h
  · split
    · exact h
    · split_ifs
      · exact h
      · dsimp only
        refine refIntegrity_of_tasks_subset h (by simp) ?_
        intro x hx
        simp only [normalizePositionsForList_tasks, withTasks_tasks, pushUndo_state,
          listIDs_normalizePositions, archiveAllScan_kept, List.nil_append] at hx
        obtain ⟨t, ht, rfl⟩ := List.mem_map.1 hx
        exact List.mem_map.2 ⟨t, (List.mem_filter.1 ht).1, rfl⟩

theorem refIntegrity_DeleteAllTasks (s : Service) (listID : String)
    (h : RefIntegrity s.state) : RefIntegrity (s.DeleteAllTasks listID).2.state := by
  simp only [DeleteAllTasks]
  split_ifs
  any_goals exact h
  · dsimp only
    refine refIntegrity_of_tasks_subset h (by simp) ?_
    intro x hx
    simp only [normalizePositionsForList_tasks, withTasks_tasks, pushUndo_state,
      listIDs_normalizePositions, deleteAllScan_kept, List.nil_append] at hx
    obtain ⟨t, ht, rfl⟩ := List.mem_map.1 hx
    exact List.mem_map.2 ⟨t, (List.mem_filter.1 ht).1, rfl⟩

theorem refIntegrity_SetSessionContext (s : Service) (activeListID focus : String)
    (h : RefIntegrity s.state) :
    RefIntegrity (s.SetSessionContext activeListID focus).2.state := by
  simp only [SetSessionContext]
  split_ifs <;> exact h

theorem refIntegrity_SetFilter (s : Service) (filter : Filter) (h : RefIntegrity s.state) :
    RefIntegrity (s.SetFilter filter).2.state := by
  simp only [SetFilter]
  split_ifs <;> exact h

/-- Every operation other than `Undo` keeps the referential integrity of the live state. -/
theorem refIntegrity_step (s : Service) (op : Op) (hu : op.isUndo = false)
    (h : RefIntegrity s.state) : RefIntegrity (step s op).2.state := by
  cases op with
  | createList name color now newID => exact refIntegrity_CreateList s name color now newID h
  | updateList id name color now => exact refIntegrity_UpdateList s id name color now h
  | deleteList id => exact refIntegrity_DeleteList s id h
  | moveListUp listID now => exact refIntegrity_moveList s listID (-1) now h
  | moveListDown listID now => exact refIntegrity_moveList s listID 1 now h
  | createTask listID text now newID => exact refIntegrity_CreateTask s listID text now newID h
  | updateTask id text now => exact refIntegrity_UpdateTask s id text now h
  | deleteTask id => exact refIntegrity_DeleteTask s id h
  | toggleDone taskID now => exact refIntegrity_ToggleDone s taskID now h
  | setTaskPriority taskID priority now =>
    exact refIntegrity_SetTaskPriority s taskID priority now h
  | moveTaskUp taskID now => exact refIntegrity_moveTask s taskID (-1) now h
  | moveTaskDown taskID now => exact refIntegrity_moveTask s taskID 1 now h
  | clearCompletedToArchive listID now ids =>
    exact refIntegrity_ClearCompletedToArchive s listID now ids h
  | archiveAllToArchive listID now ids =>
    exact refIntegrity_ArchiveAllToArchive s listID now ids h
  | deleteAllTasks listID => exact refIntegrity_DeleteAllTasks s listID h
  | setSessionContext activeListID focus =>
    exact refIntegrity_SetSessionContext s activeListID focus h
  | markOnboardingSeen => exact h
  | setFilter filter => exact refIntegrity_SetFilter s filter h
  | setQuery query => exact h
  | undo => simp [Op.isUndo] at hu
  | undoDelete => simp [Op.isUndo] at hu

/-- Every operation keeps the referential integrity of the live state and of the snapshots on
the undo stack, taken together. -/
theorem refIntegrity_step_all (s : Service) (op : Op) (h : RefIntegrity s.state)
    (hs : ∀ u ∈ s.undo, RefIntegrity u) :
    RefIntegrity (step s op).2.state ∧ ∀ u ∈ (step s op).2.undo, RefIntegrity u := by
  constructor
  · by_cases hu : op.isUndo = true
    · have hst : (step s op).2 = s.Undo.2 := by
        cases op <;> first | rfl | simp [Op.isUndo] at hu
      rw [hst]
      rcases state_Undo s with h1 | h1
      · exact hs _ h1
      · rw [h1]; exact h
    · exact refIntegrity_step s op (by simpa using hu) h
  · intro u hu
    rcases undo_step_subset s op u hu with h1 | h1
    · exact hs u h1
    · rw [h1]; exact h

theorem refIntegrity_of_reachable (s : Service) (h : Reachable NewState s) :
    RefIntegrity s.state ∧ ∀ u ∈ s.undo, RefIntegrity u := by
  induction h with
  | init => exact ⟨by decide, by decide⟩
  | call s op _ ih => exact refIntegrity_step_all s op ih.1 ih.2

end Integrity

section Claims

open Service Err

/-- C6, refuted as stated: in the service reached from `NewService rawState` by deleting
the one task of a missing list, every task belongs to an existing list; `Undo` succeeds on it
and brings that task back. -/
theorem C6_counterexample :
    RefIntegrity (step (NewService rawState) (.deleteTask "c")).2.state ∧
      (step (step (NewService rawState) (.deleteTask "c")).2 .undo).1 = none ∧
      ¬ RefIntegrity (step (step (NewService rawState) (.deleteTask "c")).2 .undo).2.state := by
  refine ⟨by decide, by decide, by decide⟩

/-- C6, amended. Referential integrity is preserved: an operation other than `Undo` keeps
every task of the live state in an existing list; when the same holds of every snapshot on
the undo stack, every operation, `Undo` too, keeps it both of the live state and of the
snapshots; hence it holds in every state reachable from `NewService NewState`. -/
theorem C6_referential_integrity :
    (∀ (s : Service) (op : Op), op.isUndo = false → RefIntegrity s.state →
      RefIntegrity (step s op).2.state) ∧
    (∀ (s : Service) (op : Op), RefIntegrity s.state → (∀ u ∈ s.undo, RefIntegrity u) →
      RefIntegrity (step s op).2.state ∧ ∀ u ∈ (step s op).2.undo, RefIntegrity u) ∧
    (∀ s : Service, Reachable NewState s → RefIntegrity s.state) :=
  ⟨refIntegrity_step, refIntegrity_step_all, fun s h => (refIntegrity_of_reachable s h).1⟩

theorem C6_referential_integrity_witness :
    (run inboxService inboxChain).state.Tasks.map (fun t => (t.ID, t.ListID)) =
        [("a", "L1"), ("b", "L1"), ("c", "L1")] ∧
      RefIntegrity (run inboxService inboxChain).state ∧
      (∀ u ∈ (run inboxService inboxChain).undo, RefIntegrity u) ∧
      RefIntegrity (step (run inboxService inboxChain) (.createTask "L1" "D" 11 "d")).2.state ∧
      RefIntegrity (step (run inboxService inboxChain) (.deleteList "L1")).2.state ∧
      (RefIntegrity (step (run inboxService inboxChain) .undo).2.state ∧
        ∀ u ∈ (step (run inboxService inboxChain) .undo).2.undo, RefIntegrity u) ∧
      RefIntegrity (step (run inboxService inboxChain) (.deleteTask "a")).2.state :=
  ⟨by decide, by decide, by decide,
    C6_referential_integrity.1 (run inboxService inboxChain) (.createTask "L1" "D" 11 "d") rfl
      (by decide),
    C6_referential_integrity.1 (run inboxService inboxChain) (.deleteList "L1") rfl (by decide),
    C6_referential_integrity.2.1 (run inboxService inboxChain) .undo (by decide) (by decide),
    C6_referential_integrity.2.2 _
      (Reachable.call _ (.deleteTask "a")
        (Reachable.call _ (.toggleDone "b" 9)
          (Reachable.call _ (.createTask " L1 " " C " 8 "c")
            (Reachable.call _ (.createTask "L1" "B" 7 "b")
              (Reachable.call _ (.createTask "L1" "A" 6 "a")
                (Reachable.call _ (.createList "Inbox" "" 5 "L1") Reachable.init))))))⟩

end Claims

end TodoCli
namespace TodoCli

section ManualOrder

open Service Err

theorem taskLess_iff (tasks : List Task) (i j : Nat) :
    taskLess tasks i j = true ↔
      (tasks.getD i default).Position < (tasks.getD j default).Position ∨
        ((tasks.getD i default).Position = (tasks.getD j default).Position ∧
          (tasks.getD i default).ID < (tasks.getD j default).ID) := by
  simp only [taskLess]
  split_ifs with h
  · simp only [decide_eq_true_eq]
    constructor
    · exact fun h1 => Or.inl h1
    · rintro (h1 | ⟨h1, _⟩)
      · exact h1
      · exact absurd h1 h
  · simp only [decide_eq_true_eq]
    simp only [ne_eq, not_not] at h
    constructor
    · exact fun h1 => Or.inr ⟨h, h1⟩
    · rintro (h1 | ⟨_, h1⟩)
      · omega
      · exact h1

theorem taskLess_false_iff (tasks : List Task) (i j : Nat) :
    taskLess tasks j i = false ↔
      (tasks.getD i default).Position < (tasks.getD j default).Position ∨
        ((tasks.getD i default).Position = (tasks.getD j default).Position ∧
          (tasks.getD i default).ID ≤ (tasks.getD j default).ID) := by
  rw [← Bool.not_eq_true, taskLess_iff]
  constructor
  · intro h
    rcases lt_trichotomy (tasks.getD i default).Position (tasks.getD j default).Position
      with h1 | h1 | h1
    · exact Or.inl h1
    · right
      refine ⟨h1, ?_⟩
      by_contra h2
      exact h (Or.inr ⟨h1.symm, not_le.1 h2⟩)
    · exact absurd (Or.inl h1) h
  · rintro (h1 | ⟨h1, h2⟩) (h3 | ⟨h3, h4⟩)
    · omega
    · omega
    · omega
    · exact absurd h2 (not_le.2 h4)

/-- The manual order of a list, the output of `taskIndexesForList`, is sorted by the
comparator. -/
theorem sorted_taskIndexesForList (tasks : List Task) (listID : String) :
    (taskIndexesForList tasks listID).Pairwise (fun a b => taskLess tasks b a = false) := by
  haveI : IsTotal Nat (fun a b => taskLess tasks b a = false) := by
    constructor
    intro a b
    simp only [taskLess_false_iff]
    rcases lt_trichotomy (tasks.getD a default).Position (tasks.getD b default).Position
      with h1 | h1 | h1
    · exact Or.inl (Or.inl h1)
    · rcases le_total (tasks.getD a default).ID (tasks.getD b default).ID with h2 | h2
      · exact Or.inl (Or.inr ⟨h1, h2⟩)
      · exact Or.inr (Or.inr ⟨h1.symm, h2⟩)
    · exact Or.inr (Or.inl h1)
  haveI : IsTrans Nat (fun a b => taskLess tasks b a = false) := by
    constructor
    intro a b c
    simp only [taskLess_false_iff]
    rintro (h1 | ⟨h1, h2⟩) (h3 | ⟨h3, h4⟩)
    · exact Or.inl (by omega)
    · exact Or.inl (by omega)
    · exact Or.inl (by omega)
    · exact Or.inr ⟨by omega, le_trans h2 h4⟩
  exact List.sorted_insertionSort _ _

/-- Renormalization follows the comparator: a task of the list that is less than another one
gets the smaller rank. -/
theorem rankOf_lt_of_taskLess (tasks : List Task) (listID : String) (j k : Nat)
    (hj : j ∈ taskIndexesForList tasks listID) (hk : k ∈ taskIndexesForList tasks listID)
    (h : taskLess tasks j k = true) : rankOf tasks listID j < rankOf tasks listID k := by
  unfold rankOf
  have hlj := List.indexOf_lt_length.2 hj
  have hlk := List.indexOf_lt_length.2 hk
  by_contra hnot
  have hle : List.indexOf k (taskIndexesForList tasks listID) ≤
      List.indexOf j (taskIndexesForList tasks listID) := by omega
  rcases Nat.lt_or_ge (List.indexOf k (taskIndexesForList tasks listID))
      (List.indexOf j (taskIndexesForList tasks listID)) with hlt | hge
  · have := List.pairwise_iff_getElem.1 (sorted_taskIndexesForList tasks listID) _ _ hlk hlj hlt
    rw [List.getElem_indexOf hlk, List.getElem_indexOf hlj] at this
    rw [this] at h
    exact Bool.false_ne_true h
  · have heq : List.indexOf k (taskIndexesForList tasks listID) =
        List.indexOf j (taskIndexesForList tasks listID) := by omega
    have hjk : j = k := by
      have e1 := List.getElem_indexOf hlj
      have e2 := List.getElem_indexOf hlk
      simp only [heq] at e2
      rw [← e1, ← e2]
    subst hjk
    rw [taskLess_iff] at h
    rcases h with h | ⟨_, h⟩
    · omega
    · exact absurd h (lt_irrefl _)

end ManualOrder

end TodoCli
namespace TodoCli

section ManualOrder

open Service Err

theorem nodup_target (n : Nat) : ((List.range' 1 n).map Int.ofNat).Nodup :=
  (List.nodup_range' 1 n).map (fun _ _ h => Int.ofNat.inj h)

theorem mem_target {n : Nat} {p : Int} :
    p ∈ (List.range' 1 n).map Int.ofNat ↔ 1 ≤ p ∧ p ≤ n := by
  simp only [List.mem_map, List.mem_range'_1]
  constructor
  · rintro ⟨k, ⟨h1, h2⟩, rfl⟩
    constructor
    · exact Int.ofNat_le.2 h1
    · have : k ≤ n := by omega
      exact Int.ofNat_le.2 this
  · rintro ⟨h1, h2⟩
    refine ⟨p.toNat, ⟨by omega, by omega⟩, ?_⟩
    simp only [Int.ofNat_eq_coe]
    omega

/-- A list of `n` distinct integers between `1` and `n` is an arrangement of `1, ..., n`. -/
theorem perm_target_of_nodup (l : List Int) (hnd : l.Nodup)
    (hb : ∀ p ∈ l, 1 ≤ p ∧ p ≤ l.length) : l.Perm ((List.range' 1 l.length).map Int.ofNat) := by
  apply List.perm_of_nodup_nodup_toFinset_eq hnd (nodup_target _)
  apply Finset.eq_of_subset_of_card_le
  · intro p hp
    rw [List.mem_toFinset] at hp ⊢
    exact mem_target.2 (hb p hp)
  · rw [List.toFinset_card_of_nodup hnd, List.toFinset_card_of_nodup (nodup_target _)]
    simp

/-- Density, said without an arrangement: the positions are distinct and lie between `1` and
their number. -/
theorem dense_iff (tasks : List Task) (listID : String) :
    Dense tasks listID ↔
      (positionsOf tasks listID).Nodup ∧
        ∀ p ∈ positionsOf tasks listID, 1 ≤ p ∧ p ≤ (positionsOf tasks listID).length := by
  constructor
  · intro h
    refine ⟨h.nodup_iff.2 (nodup_target _), ?_⟩
    intro p hp
    exact mem_target.1 (h.mem_iff.1 hp)
  · rintro ⟨h1, h2⟩
    exact perm_target_of_nodup _ h1 h2

theorem sorted_target (n : Nat) : ((List.range' 1 n).map Int.ofNat).Pairwise (· ≤ ·) := by
  rw [List.pairwise_map]
  exact (List.pairwise_lt_range' 1 n).imp (fun h => Int.ofNat_le.2 (Nat.le_of_lt h))

/-- A dense list is a fixed point of renormalization. -/
theorem normalizePositions_of_dense (tasks : List Task) (listID : String)
    (hd : Dense tasks listID) : normalizePositions tasks listID = tasks := by
  have hperm : ((taskIndexesForList tasks listID).map
      (fun j => (tasks.getD j default).Position)).Perm
      ((List.range' 1 (positionsOf tasks listID).length).map Int.ofNat) := by
    refine List.Perm.trans ?_ hd
    rw [positionsOf_eq_indexes]
    exact (perm_sortSliceStable _ _).map _
  have hsorted : ((taskIndexesForList tasks listID).map
      (fun j => (tasks.getD j default).Position)).Pairwise (· ≤ ·) := by
    rw [List.pairwise_map]
    refine (sorted_taskIndexesForList tasks listID).imp ?_
    intro a b hab
    rcases (taskLess_false_iff tasks a b).1 hab with h | ⟨h, _⟩
    · exact le_of_lt h
    · exact le_of_eq h
  have heq := List.eq_of_perm_of_sorted hperm hsorted (sorted_target _)
  apply List.ext_getElem?
  intro j
  rw [getElem?_normalizePositions]
  cases hj : tasks[j]? with
  | none => rfl
  | some t =>
    simp only [Option.map_some', Option.some.injEq]
    split_ifs with hL
    · have hmem : j ∈ taskIndexesForList tasks listID :=
        mem_taskIndexesForList.2 ⟨t, hj, hL⟩
      have hlt := List.indexOf_lt_length.2 hmem
      have h1 := congrArg (fun l => l[rankOf tasks listID j]?) heq
      simp only [rankOf, List.getElem?_map, List.getElem?_eq_getElem hlt,
        List.getElem_indexOf hlt, Option.map_some', getD_of_getElem? hj] at h1
      have hlen : (positionsOf tasks listID).length =
          (taskIndexesForList tasks listID).length := by
        rw [length_taskIndexesForList]; simp [positionsOf]
      rw [List.getElem?_eq_getElem (by rw [List.length_range', hlen]; exact hlt)] at h1
      simp only [Option.map_some', Option.some.injEq, List.getElem_range', Int.ofNat_eq_coe] at h1
      have hp : ((rankOf tasks listID j : Nat) : Int) + 1 = t.Position := by
        rw [h1]; simp [rankOf]; omega
      rw [hp]
    · rfl

end ManualOrder

end TodoCli
namespace TodoCli

section Toggle

open Service Err

/-- The task slice `ToggleDone` works on, after the flag is flipped and the time stamped. -/
theorem ToggleDone_tasks (s : Service) (taskID : String) (now : Time) (i : Nat) (t : Task)
    (hi : indexWhere (fun t => t.ID == taskID) s.state.Tasks = some i)
    (ht : s.state.Tasks[i]? = some t) :
    (s.ToggleDone taskID now).1 = .ok ((s.ToggleDone taskID now).2.state.Tasks.getD i default) ∧
    (s.ToggleDone taskID now).2.state.Tasks =
      if t.Done = false then
        normalizePositions
          (updateAt (fun x => { x with Position := wrapInt (maxPosExcept t.ListID i
              (updateAt (fun x => { x with Done := !x.Done, UpdatedAt := now }) s.state.Tasks i)
              0 0 + 1) })
            (updateAt (fun x => { x with Done := !x.Done, UpdatedAt := now }) s.state.Tasks i) i)
          t.ListID
      else updateAt (fun x => { x with Done := !x.Done, UpdatedAt := now }) s.state.Tasks i := by
  have hi2 : i < s.state.Tasks.length := indexWhere_lt hi
  have hget : (updateAt (fun t => { t with Done := !t.Done, UpdatedAt := now })
      s.state.Tasks i).getD i default = { t with Done := !t.Done, UpdatedAt := now } := by
    rw [getD_updateAt _ _ _ _ _ hi2, if_pos rfl, getD_of_getElem? ht]
  simp only [ToggleDone, hi, pushUndo_state, hget]
  by_cases hdone : t.Done = false
  · simp [hdone]
  · have : t.Done = true := by simpa using hdone
    simp [this, getElem?_updateAt, ht]

theorem ids_ToggleDone (s : Service) (taskID : String) (now : Time) :
    (s.ToggleDone taskID now).2.state.Tasks.map (·.ID) = s.state.Tasks.map (·.ID) := by
  cases hi : indexWhere (fun t => t.ID == taskID) s.state.Tasks with
  | none => simp [ToggleDone, hi]
  | some i =>
    obtain ⟨t, ht, _, _⟩ := indexWhere_eq_some hi
    rw [(ToggleDone_tasks s taskID now i t hi ht).2]
    split_ifs
    · rw [map_normalizePositions (fun x : Task => x.ID) _ _ (fun _ _ => rfl)]
      refine (map_updateAt (fun x : Task => x.ID) _ _ _ ?_).trans ?_
      · intro a; rfl
      · exact map_updateAt (fun x : Task => x.ID) _ _ _ (fun _ => rfl)
    · exact map_updateAt (fun x : Task => x.ID) _ _ _ (fun _ => rfl)

/-- What `ToggleDone` leaves at an index: the flag flipped and the time stamped at the index
of the task, and nothing but positions changed elsewhere. -/
theorem getElem?_ToggleDone (s : Service) (taskID : String) (now : Time) (i : Nat) (t : Task)
    (hi : indexWhere (fun t => t.ID == taskID) s.state.Tasks = some i)
    (ht : s.state.Tasks[i]? = some t) (j : Nat) :
    ∃ p : Task → Int, (s.ToggleDone taskID now).2.state.Tasks[j]? =
      (s.state.Tasks[j]?).map (fun a =>
        if j = i then { a with Done := !a.Done, UpdatedAt := now, Position := p a }
        else { a with Position := p a }) := by
  rw [(ToggleDone_tasks s taskID now i t hi ht).2]
  by_cases hdone : t.Done = false
  · rw [if_pos hdone]
    refine ⟨fun a => if a.ListID = t.ListID then
      ((rankOf (updateAt (fun x => { x with Position := wrapInt (maxPosExcept t.ListID i
              (updateAt (fun x => { x with Done := !x.Done, UpdatedAt := now }) s.state.Tasks i)
              0 0 + 1) })
            (updateAt (fun x => { x with Done := !x.Done, UpdatedAt := now }) s.state.Tasks i) i)
          t.ListID j : Nat) : Int) + 1 else a.Position, ?_⟩
    rw [getElem?_normalizePositions, getElem?_updateAt, getElem?_updateAt]
    cases hj : s.state.Tasks[j]? with
    | none => simp
    | some a =>
      by_cases hji : j = i
      · subst hji
        rw [ht] at hj
        have := Option.some.inj hj
        subst this
        simp
      · by_cases hL : a.ListID = t.ListID
        · simp [hji, hL]
        · simp [hji, hL]
  · rw [if_neg hdone]
    refine ⟨fun a => a.Position, ?_⟩
    rw [getElem?_updateAt]
    cases hj : s.state.Tasks[j]? with
    | none => simp
    | some a =>
      by_cases hji : j = i
      · simp [hji]
      · simp [hji]

theorem indexWhere_congr_ids {ts1 ts2 : List Task} (h : ts1.map (·.ID) = ts2.map (·.ID))
    (x : String) :
    indexWhere (fun t => t.ID == x) ts1 = indexWhere (fun t => t.ID == x) ts2 := by
  have e1 := indexWhere_map (fun t : Task => t.ID) (fun y => y == x) ts1
  have e2 := indexWhere_map (fun t : Task => t.ID) (fun y => y == x) ts2
  rw [← e1, ← e2, h]

theorem GetTask_of_indexWhere (s : Service) (taskID : String) (i : Nat) (t : Task)
    (hi : indexWhere (fun t => t.ID == taskID) s.state.Tasks = some i)
    (ht : s.state.Tasks[i]? = some t) : s.GetTask taskID = .ok t := by
  obtain ⟨a, ha, _, hf⟩ := indexWhere_eq_some hi
  rw [ht] at ha
  simp only [GetTask, hf, Option.some.inj ha]

theorem indexWhere_of_GetTask (s : Service) (taskID : String) (t : Task)
    (h : s.GetTask taskID = .ok t) :
    ∃ i, indexWhere (fun t => t.ID == taskID) s.state.Tasks = some i ∧
      s.state.Tasks[i]? = some t := by
  cases hi : indexWhere (fun t => t.ID == taskID) s.state.Tasks with
  | none =>
    have := indexWhere_eq_none.1 hi
    have hf : s.state.Tasks.find? (fun t => t.ID == taskID) = none := by
      rw [List.find?_eq_none]
      intro a ha
      simp [this a ha]
    simp [GetTask, hf] at h
  | some i =>
    obtain ⟨a, ha, _, hf⟩ := indexWhere_eq_some hi
    simp only [GetTask, hf, Except.ok.injEq] at h
    exact ⟨i, rfl, by rw [ha, h]⟩

end Toggle

end TodoCli
namespace TodoCli

section Toggle

open Service Err

/-- One call of `ToggleDone` on the task found at index `i`: the value returned is the task
left at index `i`, that of before with the flag flipped, the time stamped and possibly another
position, and the identifier is found at index `i` afterwards too. -/
theorem ToggleDone_once (s : Service) (taskID : String) (now : Time) (i : Nat) (t : Task)
    (hi : indexWhere (fun t => t.ID == taskID) s.state.Tasks = some i)
    (ht : s.state.Tasks[i]? = some t) :
    ∃ p : Int,
      (s.ToggleDone taskID now).1 =
          .ok { t with Done := !t.Done, UpdatedAt := now, Position := p } ∧
        (s.ToggleDone taskID now).2.state.Tasks[i]? =
          some { t with Done := !t.Done, UpdatedAt := now, Position := p } ∧
        indexWhere (fun t => t.ID == taskID) (s.ToggleDone taskID now).2.state.Tasks = some i := by
  obtain ⟨p, hp⟩ := getElem?_ToggleDone s taskID now i t hi ht i
  rw [ht] at hp
  simp only [Option.map_some', if_true] at hp
  refine ⟨p t, ?_, hp, ?_⟩
  · rw [(ToggleDone_tasks s taskID now i t hi ht).1, getD_of_getElem? hp]
  · rw [indexWhere_congr_ids (ids_ToggleDone s taskID now), hi]

end Toggle

section Claims

open Service Err

/-- C8. Toggling twice: for every state and every task `t` the service finds under an
identifier, two calls of `ToggleDone` in a row succeed, the first one flips the done flag of
the task, the second one gives it back its original value, and neither call changes the text
or the priority of the task. -/
theorem C8_toggle_twice (s : Service) (taskID : String) (now1 now2 : Time) (t : Task)
    (h : s.GetTask taskID = .ok t) :
    ∃ t1 t2,
      (s.ToggleDone taskID now1).1 = .ok t1 ∧
      (s.ToggleDone taskID now1).2.GetTask taskID = .ok t1 ∧
      ((s.ToggleDone taskID now1).2.ToggleDone taskID now2).1 = .ok t2 ∧
      ((s.ToggleDone taskID now1).2.ToggleDone taskID now2).2.GetTask taskID = .ok t2 ∧
      t1.Done = !t.Done ∧ t2.Done = t.Done ∧
      t1.Text = t.Text ∧ t1.Priority = t.Priority ∧
      t2.Text = t.Text ∧ t2.Priority = t.Priority := by
  obtain ⟨i, hi, ht⟩ := indexWhere_of_GetTask s taskID t h
  obtain ⟨p1, h1, h2, h3⟩ := ToggleDone_once s taskID now1 i t hi ht
  obtain ⟨p2, h4, h5, h6⟩ := ToggleDone_once (s.ToggleDone taskID now1).2 taskID now2 i _ h3 h2
  refine ⟨_, _, h1, GetTask_of_indexWhere _ taskID i _ h3 h2, h4,
    GetTask_of_indexWhere _ taskID i _ h6 h5, rfl, ?_, rfl, rfl, rfl, rfl⟩
  simp

theorem C8_toggle_twice_witness :
    ∃ t1 t2,
      ((run inboxService inboxChain).ToggleDone "a" 10).1 = .ok t1 ∧
      ((run inboxService inboxChain).ToggleDone "a" 10).2.GetTask "a" = .ok t1 ∧
      (((run inboxService inboxChain).ToggleDone "a" 10).2.ToggleDone "a" 11).1 = .ok t2 ∧
      (((run inboxService inboxChain).ToggleDone "a" 10).2.ToggleDone "a" 11).2.GetTask "a" =
        .ok t2 ∧
      t1.Done = !(Task.mk "a" "L1" "A" false 0 1 6 6).Done ∧
      t2.Done = (Task.mk "a" "L1" "A" false 0 1 6 6).Done ∧
      t1.Text = (Task.mk "a" "L1" "A" false 0 1 6 6).Text ∧
      t1.Priority = (Task.mk "a" "L1" "A" false 0 1 6 6).Priority ∧
      t2.Text = (Task.mk "a" "L1" "A" false 0 1 6 6).Text ∧
      t2.Priority = (Task.mk "a" "L1" "A" false 0 1 6 6).Priority :=
  C8_toggle_twice (run inboxService inboxChain) "a" 10 11 (Task.mk "a" "L1" "A" false 0 1 6 6)
    rfl

end Claims

end TodoCli
namespace TodoCli

section Create

open Service Err

/-- A call of `CreateTask` that passes the three checks. -/
theorem CreateTask_ok (s : Service) (listID text : String) (now : Time) (newID : String)
    (h1 : TrimSpace listID ≠ "") (h2 : TrimSpace text ≠ "")
    (h3 : s.hasList (TrimSpace listID) = true) :
    s.CreateTask listID text now newID =
      (.ok (Task.mk newID (TrimSpace listID) (TrimSpace text) false PriorityNone
             (s.nextTodoInsertPosition (TrimSpace listID)) now now),
       (s.pushUndo.withTasks
          (shiftPositions s.state.Tasks (TrimSpace listID)
              (s.nextTodoInsertPosition (TrimSpace listID)) ++
            [Task.mk newID (TrimSpace listID) (TrimSpace text) false PriorityNone
              (s.nextTodoInsertPosition (TrimSpace listID)) now now])).normalizePositionsForList
          (TrimSpace listID)) := by
  simp only [CreateTask, h1, h2, h3, if_false, not_true_eq_false, pushUndo_state]

theorem getElem?_last_CreateTask (tasks : List Task) (task : Task) :
    (normalizePositions (tasks ++ [task]) task.ListID)[tasks.length]? =
      some { task with
        Position := (rankOf (tasks ++ [task]) task.ListID tasks.length : Int) + 1 } := by
  rw [getElem?_normalizePositions, List.getElem?_append_right (le_refl _)]
  simp

theorem length_shiftPositions (tasks : List Task) (listID : String) (insertPos : Int) :
    (shiftPositions tasks listID insertPos).length = tasks.length := by
  simp [shiftPositions]

theorem hasList_iff (s : Service) (listID : String) :
    s.hasList listID = true ↔ ∃ l ∈ s.state.Lists, l.ID = listID := by
  simp [hasList, List.any_eq_true]

end Create

section Claims

open Service Err

/-- C10. `CreateTask` validation: the call fails with `ErrInvalidListRef` when the list id is
blank after trimming; otherwise with `ErrInvalidTask` when the text is empty after trimming;
otherwise with `ErrListNotFound` when no list has the trimmed id; in every other case it
succeeds, returns a task with the trimmed text and the trimmed list id, and stores that task,
not done and of priority none, at the end of the task slice, the other tasks keeping their
index and all their fields but the position. -/
theorem C10_createTask_validation (s : Service) (listID text : String) (now : Time)
    (newID : String) :
    (TrimSpace listID = "" →
      (s.CreateTask listID text now newID).1 = .error ErrInvalidListRef) ∧
    (TrimSpace listID ≠ "" → TrimSpace text = "" →
      (s.CreateTask listID text now newID).1 = .error ErrInvalidTask) ∧
    (TrimSpace listID ≠ "" → TrimSpace text ≠ "" →
      (∀ l ∈ s.state.Lists, l.ID ≠ TrimSpace listID) →
      (s.CreateTask listID text now newID).1 = .error ErrListNotFound) ∧
    (TrimSpace listID ≠ "" → TrimSpace text ≠ "" →
      (∃ l ∈ s.state.Lists, l.ID = TrimSpace listID) →
      ∃ task stored : Task,
        (s.CreateTask listID text now newID).1 = .ok task ∧
        task.Text = TrimSpace text ∧ task.ListID = TrimSpace listID ∧ task.ID = newID ∧
        (s.CreateTask listID text now newID).2.state.Tasks.length = s.state.Tasks.length + 1 ∧
        (s.CreateTask listID text now newID).2.state.Tasks[s.state.Tasks.length]? = some stored ∧
        stored = { task with Position := stored.Position } ∧
        stored.Done = false ∧ stored.Priority = PriorityNone ∧
        (s.CreateTask listID text now newID).2.state.Tasks.map withoutPosition =
          s.state.Tasks.map withoutPosition ++ [withoutPosition task]) := by
  refine ⟨?_, ?_, ?_, ?_⟩
  · intro h1
    simp [CreateTask, h1]
  · intro h1 h2
    simp [CreateTask, h1, h2]
  · intro h1 h2 h3
    have : ¬ s.hasList (TrimSpace listID) = true := by
      rw [hasList_iff]
      rintro ⟨l, hl, he⟩
      exact h3 l hl he
    simp [CreateTask, h1, h2, this]
  · intro h1 h2 h3
    have h4 := (hasList_iff s (TrimSpace listID)).2 h3
    rw [CreateTask_ok s listID text now newID h1 h2 h4]
    have hget := getElem?_last_CreateTask
      (shiftPositions s.state.Tasks (TrimSpace listID)
        (s.nextTodoInsertPosition (TrimSpace listID)))
      (Task.mk newID (TrimSpace listID) (TrimSpace text) false PriorityNone
        (s.nextTodoInsertPosition (TrimSpace listID)) now now)
    rw [length_shiftPositions] at hget
    refine ⟨_, _, rfl, rfl, rfl, rfl, ?_, hget, rfl, rfl, rfl, ?_⟩
    · simp [length_normalizePositions, length_shiftPositions]
    · simp only [normalizePositionsForList_tasks, withTasks_tasks]
      rw [map_normalizePositions withoutPosition _ _ (fun _ _ => rfl)]
      simp only [shiftPositions, List.map_append, List.map_map, List.map_cons, List.map_nil]
      congr 1
      apply List.map_congr_left
      intro t _
      simp only [Function.comp]
      split <;> rfl

theorem C10_createTask_validation_witness :
    ∃ task stored : Task,
      (inboxService.CreateTask " L1 " " C " 8 "c").1 = .ok task ∧
      task.Text = TrimSpace " C " ∧ task.ListID = TrimSpace " L1 " ∧ task.ID = "c" ∧
      (inboxService.CreateTask " L1 " " C " 8 "c").2.state.Tasks.length =
        inboxService.state.Tasks.length + 1 ∧
      (inboxService.CreateTask " L1 " " C " 8 "c").2.state.Tasks[inboxService.state.Tasks.length]? =
        some stored ∧
      stored = { task with Position := stored.Position } ∧
      stored.Done = false ∧ stored.Priority = PriorityNone ∧
      (inboxService.CreateTask " L1 " " C " 8 "c").2.state.Tasks.map withoutPosition =
        inboxService.state.Tasks.map withoutPosition ++ [withoutPosition task] :=
  (C10_createTask_validation inboxService " L1 " " C " 8 "c").2.2.2 (by decide) (by decide)
    ⟨_, List.mem_singleton.2 rfl, by decide⟩

end Claims

end TodoCli
namespace TodoCli

section ManualOrder

open Service Err

theorem mem_positionsOf {tasks : List Task} {listID : String} {p : Int} :
    p ∈ positionsOf tasks listID ↔
      ∃ (k : Nat) (a : Task), tasks[k]? = some a ∧ a.ListID = listID ∧ a.Position = p := by
  simp only [positionsOf, List.mem_map, List.mem_filter, beq_iff_eq]
  constructor
  · rintro ⟨a, ⟨hm, hl⟩, hp⟩
    obtain ⟨k, hk⟩ := List.mem_iff_getElem?.1 hm
    exact ⟨k, a, hk, hl, hp⟩
  · rintro ⟨k, a, hk, hl, hp⟩
    exact ⟨a, ⟨List.mem_iff_getElem?.2 ⟨k, hk⟩, hl⟩, hp⟩

theorem position_bounds_of_dense {tasks : List Task} {listID : String}
    (hd : Dense tasks listID) {j : Nat} {a : Task} (hj : tasks[j]? = some a)
    (ha : a.ListID = listID) :
    1 ≤ a.Position ∧ a.Position ≤ (positionsOf tasks listID).length :=
  ((dense_iff tasks listID).1 hd).2 _ (mem_positionsOf.2 ⟨j, a, hj, ha, rfl⟩)

theorem position_ne_of_dense {tasks : List Task} {listID : String}
    (hd : Dense tasks listID) {j k : Nat} {a b : Task} (hj : tasks[j]? = some a)
    (hk : tasks[k]? = some b) (ha : a.ListID = listID) (hb : b.ListID = listID)
    (hjk : j ≠ k) : a.Position ≠ b.Position := by
  have hnd := ((dense_iff tasks listID).1 hd).1
  rw [positionsOf_eq_indexes] at hnd
  have hinj := List.inj_on_of_nodup_map hnd
  have hjm : j ∈ indexesWhere (fun t => t.ListID == listID) tasks 0 :=
    mem_indexesWhere.2 ⟨Nat.zero_le _, a, by simpa using hj, by simpa using ha⟩
  have hkm : k ∈ indexesWhere (fun t => t.ListID == listID) tasks 0 :=
    mem_indexesWhere.2 ⟨Nat.zero_le _, b, by simpa using hk, by simpa using hb⟩
  intro heq
  apply hjk
  apply hinj hjm hkm
  rw [getD_of_getElem? hj, getD_of_getElem? hk]
  exact heq

theorem length_positionsOf_congr {ts1 ts2 : List Task}
    (h : ts1.map (·.ListID) = ts2.map (·.ListID)) (listID : String) :
    (positionsOf ts1 listID).length = (positionsOf ts2 listID).length := by
  rw [positionsOf_eq_indexes, positionsOf_eq_indexes, List.length_map, List.length_map,
    indexesWhere_listID_congr h]

theorem length_positionsOf_le (tasks : List Task) (listID : String) :
    (positionsOf tasks listID).length ≤ tasks.length := by
  simp only [positionsOf, List.length_map]
  exact List.length_filter_le _ _

/-- The position renormalization gives: the rank plus one. -/
theorem position_normalizePositions {tasks : List Task} {listID : String} {j : Nat} {a : Task}
    (hj : tasks[j]? = some a) (ha : a.ListID = listID) :
    (normalizePositions tasks listID)[j]? =
      some { a with Position := (rankOf tasks listID j : Int) + 1 } := by
  rw [getElem?_normalizePositions, hj]
  simp [ha]

/-- Renormalization keeps the order of the positions of a list. -/
theorem rankOf_lt_of_position_lt {tasks : List Task} {listID : String} {j k : Nat}
    {a b : Task} (hj : tasks[j]? = some a) (hk : tasks[k]? = some b) (ha : a.ListID = listID)
    (hb : b.ListID = listID) (hlt : a.Position < b.Position) :
    rankOf tasks listID j < rankOf tasks listID k := by
  apply rankOf_lt_of_taskLess
  · exact mem_taskIndexesForList.2 ⟨a, hj, ha⟩
  · exact mem_taskIndexesForList.2 ⟨b, hk, hb⟩
  · rw [taskLess_iff, getD_of_getElem? hj, getD_of_getElem? hk]
    exact Or.inl hlt

theorem maxPosExcept_ge (listID : String) (i : Nat) (ts : List Task) (j0 : Nat) (m0 : Int) :
    m0 ≤ maxPosExcept listID i ts j0 m0 ∧
      ∀ (k : Nat) (a : Task), ts[k]? = some a → j0 + k ≠ i → a.ListID = listID →
        a.Position ≤ maxPosExcept listID i ts j0 m0 := by
  induction ts generalizing j0 m0 with
  | nil => simp [maxPosExcept]
  | cons t ts ih =>
    simp only [maxPosExcept]
    by_cases hc : j0 = i ∨ t.ListID ≠ listID
    · rw [if_pos hc]
      obtain ⟨h1, h2⟩ := ih (j0 + 1) m0
      refine ⟨h1, ?_⟩
      intro k a hk hne ha
      cases k with
      | zero =>
        simp only [List.getElem?_cons_zero, Option.some.injEq] at hk
        subst hk
        rcases hc with hc | hc
        · exact absurd hc (by simpa using hne)
        · exact absurd ha hc
      | succ k =>
        exact h2 k a (by simpa using hk) (by omega) ha
    · rw [if_neg hc]
      obtain ⟨h1, h2⟩ := ih (j0 + 1) (if t.Position > m0 then t.Position else m0)
      have hm : m0 ≤ (if t.Position > m0 then t.Position else m0) ∧
          t.Position ≤ (if t.Position > m0 then t.Position else m0) := by
        split_ifs <;> omega
      refine ⟨le_trans hm.1 h1, ?_⟩
      intro k a hk hne ha
      cases k with
      | zero =>
        simp only [List.getElem?_cons_zero, Option.some.injEq] at hk
        subst hk
        exact le_trans hm.2 h1
      | succ k =>
        exact h2 k a (by simpa using hk) (by omega) ha

theorem maxPosExcept_le (listID : String) (i : Nat) (ts : List Task) (j0 : Nat) (m0 B : Int)
    (hm : m0 ≤ B) (hb : ∀ (k : Nat) (a : Task), ts[k]? = some a → a.ListID = listID → a.Position ≤ B) :
    maxPosExcept listID i ts j0 m0 ≤ B := by
  induction ts generalizing j0 m0 with
  | nil => simpa [maxPosExcept] using hm
  | cons t ts ih =>
    simp only [maxPosExcept]
    have hb2 : ∀ (k : Nat) (a : Task), ts[k]? = some a → a.ListID = listID → a.Position ≤ B :=
      fun k a hk ha => hb (k + 1) a (by simpa using hk) ha
    by_cases hc : j0 = i ∨ t.ListID ≠ listID
    · rw [if_pos hc]
      exact ih (j0 + 1) m0 hm hb2
    · rw [if_neg hc]
      apply ih _ _ _ hb2
      have ht : t.ListID = listID := by
        by_contra h
        exact hc (Or.inr h)
      have := hb 0 t (by simp) ht
      split_ifs <;> omega

theorem wrapInt_of_bounds (x : Int) (h1 : -(2 ^ 63) ≤ x) (h2 : x < 2 ^ 63) : wrapInt x = x := by
  unfold wrapInt
  omega

end ManualOrder

end TodoCli
namespace TodoCli

section Toggle

open Service Err

/-- Completing a task of a dense list: where the task lands and how the others stay. -/
theorem ToggleDone_sinks (s : Service) (taskID : String) (now : Time) (i : Nat) (t : Task)
    (hi : indexWhere (fun t => t.ID == taskID) s.state.Tasks = some i)
    (ht : s.state.Tasks[i]? = some t) (hnd : t.Done = false)
    (hd : Dense s.state.Tasks t.ListID)
    (hlen : (s.state.Tasks.length : Int) < 2 ^ 63 - 1) :
    (s.ToggleDone taskID now).2.state.Tasks[i]? =
        some { t with Done := true, UpdatedAt := now,
                      Position := ((positionsOf s.state.Tasks t.ListID).length : Int) } ∧
      ∀ (j k : Nat) (a b a2 b2 : Task), j ≠ i → k ≠ i →
        s.state.Tasks[j]? = some a → s.state.Tasks[k]? = some b →
        a.ListID = t.ListID → b.ListID = t.ListID →
        (s.ToggleDone taskID now).2.state.Tasks[j]? = some a2 →
        (s.ToggleDone taskID now).2.state.Tasks[k]? = some b2 →
        (a2.Position < b2.Position ↔ a.Position < b.Position) := by
  have hi2 : i < s.state.Tasks.length := indexWhere_lt hi
  rw [(ToggleDone_tasks s taskID now i t hi ht).2, if_pos hnd]
  -- the slice after the flag is flipped, and after the task is put past the others
  set ts1 := updateAt (fun x => { x with Done := !x.Done, UpdatedAt := now }) s.state.Tasks i
    with hts1
  set M := maxPosExcept t.ListID i ts1 0 0 with hM
  set tm := updateAt (fun x => { x with Position := wrapInt (M + 1) }) ts1 i with htm
  have hN := length_positionsOf_le s.state.Tasks t.ListID
  have hts1_ne : ∀ j, j ≠ i → ts1[j]? = s.state.Tasks[j]? := by
    intro j hj
    rw [hts1, getElem?_updateAt, if_neg hj]
  have hts1_i : ts1[i]? = some { t with Done := !t.Done, UpdatedAt := now } := by
    rw [hts1, getElem?_updateAt, if_pos rfl, ht]; rfl
  have hts1_pos : ∀ (k : Nat) (a : Task), ts1[k]? = some a → a.ListID = t.ListID →
      a.Position ≤ ((positionsOf s.state.Tasks t.ListID).length : Int) := by
    intro k a hk ha
    by_cases hki : k = i
    · subst hki
      rw [hts1_i] at hk
      have := Option.some.inj hk
      subst this
      exact (position_bounds_of_dense hd ht rfl).2
    · rw [hts1_ne k hki] at hk
      exact (position_bounds_of_dense hd hk ha).2
  have hM0 : 0 ≤ M := (maxPosExcept_ge t.ListID i ts1 0 0).1
  have hMN : M ≤ ((positionsOf s.state.Tasks t.ListID).length : Int) :=
    maxPosExcept_le _ _ _ _ _ _ (by omega) hts1_pos
  have hwrap : wrapInt (M + 1) = M + 1 := wrapInt_of_bounds _ (by omega) (by omega)
  have htm_ne : ∀ j, j ≠ i → tm[j]? = s.state.Tasks[j]? := by
    intro j hj
    rw [htm, getElem?_updateAt, if_neg hj, hts1_ne j hj]
  have htm_i : tm[i]? = some { t with Done := true, UpdatedAt := now, Position := M + 1 } := by
    rw [htm, getElem?_updateAt, if_pos rfl, hts1_i, hwrap]
    simp [hnd]
  have hother : ∀ (j : Nat) (a : Task), j ≠ i → s.state.Tasks[j]? = some a →
      a.ListID = t.ListID → rankOf tm t.ListID j < rankOf tm t.ListID i := by
    intro j a hj ha hL
    apply rankOf_lt_of_position_lt (htm_ne j hj ▸ ha) htm_i hL rfl
    have := (maxPosExcept_ge t.ListID i ts1 0 0).2 j a (hts1_ne j hj ▸ ha) (by omega) hL
    show a.Position < M + 1
    omega
  have hids : tm.map (·.ListID) = s.state.Tasks.map (·.ListID) := by
    rw [htm, hts1]
    refine (map_updateAt (fun x : Task => x.ListID) _ _ _ ?_).trans ?_
    · intro a; rfl
    · exact map_updateAt (fun x : Task => x.ListID) _ _ _ (fun _ => rfl)
  have hdense := dense_normalizePositions tm t.ListID
  have hlenN : (positionsOf (normalizePositions tm t.ListID) t.ListID).length =
      (positionsOf s.state.Tasks t.ListID).length := by
    rw [length_positionsOf_congr (listIDs_normalizePositions tm t.ListID),
      length_positionsOf_congr hids]
  have hpos_i := @position_normalizePositions _ t.ListID _ _ htm_i rfl
  constructor
  · -- the completed task is last
    rw [hpos_i]
    have hb := position_bounds_of_dense hdense hpos_i rfl
    rw [hlenN] at hb
    have hN1 : 1 ≤ (positionsOf s.state.Tasks t.ListID).length := by
      have := position_bounds_of_dense hd ht rfl
      omega
    have hmemN : ((positionsOf s.state.Tasks t.ListID).length : Int) ∈
        positionsOf (normalizePositions tm t.ListID) t.ListID := by
      apply hdense.mem_iff.2
      rw [hlenN]
      exact mem_target.2 ⟨by omega, le_refl _⟩
    obtain ⟨k, b, hk, hbL, hbp⟩ := mem_positionsOf.1 hmemN
    by_cases hki : k = i
    · subst hki
      rw [hpos_i] at hk
      have := Option.some.inj hk
      rw [← this] at hbp
      simp only at hbp
      simp only [hbp]
    · exfalso
      rw [getElem?_normalizePositions, htm_ne k hki] at hk
      cases hsk : s.state.Tasks[k]? with
      | none => simp [hsk] at hk
      | some a =>
        simp only [hsk, Option.map_some', Option.some.injEq] at hk
        have haL : a.ListID = t.ListID := by
          rw [← hk] at hbL
          split at hbL <;> exact hbL
        rw [if_pos haL] at hk
        rw [← hk] at hbp
        simp only at hbp
        have := hother k a hki hsk haL
        simp only at hb
        omega
  · -- the other tasks keep their order
    intro j k a b a2 b2 hj hk ha hb haL hbL ha2 hb2
    have hpa := @position_normalizePositions _ t.ListID _ _ (htm_ne j hj ▸ ha) haL
    have hpb := @position_normalizePositions _ t.ListID _ _ (htm_ne k hk ▸ hb) hbL
    rw [hpa] at ha2
    rw [hpb] at hb2
    rw [← Option.some.inj ha2, ← Option.some.inj hb2]
    simp only
    constructor
    · intro hlt
      by_contra hnot
      by_cases hjk : j = k
      · subst hjk
        omega
      · have hne := position_ne_of_dense hd ha hb haL hbL hjk
        have hgt : b.Position < a.Position := by omega
        have := rankOf_lt_of_position_lt (htm_ne k hk ▸ hb) (htm_ne j hj ▸ ha) hbL haL hgt
        omega
    · intro hlt
      have := rankOf_lt_of_position_lt (htm_ne j hj ▸ ha) (htm_ne k hk ▸ hb) haL hbL hlt
      omega

end Toggle

section Claims

open Service Err

theorem listIDs_ToggleDone (s : Service) (taskID : String) (now : Time) (i : Nat) (t : Task)
    (hi : indexWhere (fun t => t.ID == taskID) s.state.Tasks = some i)
    (ht : s.state.Tasks[i]? = some t) :
    (s.ToggleDone taskID now).2.state.Tasks.map (·.ListID) = s.state.Tasks.map (·.ListID) := by
  apply List.ext_getElem?
  intro j
  obtain ⟨p, hp⟩ := getElem?_ToggleDone s taskID now i t hi ht j
  rw [List.getElem?_map, List.getElem?_map, hp]
  cases s.state.Tasks[j]? with
  | none => rfl
  | some a =>
    simp only [Option.map_some']
    split <;> rfl

/-- C7. `ToggleDone` sinks a completed task: in a state whose list of the task is dense (and
whose task slice has a length a Go slice can have), `ToggleDone` on a task `t` that is not done
succeeds, sets its done flag, gives it the last position `N` of its list, `N` the number of
tasks of the list, and keeps every other task of the list as it is but for its position, the
positions of any two of them standing in the same order as before; the list is dense
afterwards, so that the other tasks hold the positions `1` to `N - 1`, each below `N`. -/
theorem C7_toggleDone_sinks (s : Service) (taskID : String) (now : Time) (t : Task)
    (hd : Dense s.state.Tasks t.ListID) (hlen : (s.state.Tasks.length : Int) < 2 ^ 63 - 1)
    (ht : s.GetTask taskID = .ok t) (hnd : t.Done = false) :
    ∃ (i : Nat) (t1 : Task),
      s.state.Tasks[i]? = some t ∧
      (s.ToggleDone taskID now).1 = .ok t1 ∧
      (s.ToggleDone taskID now).2.state.Tasks[i]? = some t1 ∧
      (s.ToggleDone taskID now).2.GetTask taskID = .ok t1 ∧
      t1 = { t with
        Done := true, UpdatedAt := now,
        Position := ((s.state.Tasks.filter (fun x => x.ListID == t.ListID)).length : Int) } ∧
      (∀ (j k : Nat) (a b : Task), j ≠ i → k ≠ i →
        s.state.Tasks[j]? = some a → s.state.Tasks[k]? = some b →
        a.ListID = t.ListID → b.ListID = t.ListID →
        ∃ a2 b2 : Task,
          (s.ToggleDone taskID now).2.state.Tasks[j]? = some a2 ∧
          (s.ToggleDone taskID now).2.state.Tasks[k]? = some b2 ∧
          withoutPosition a2 = withoutPosition a ∧ withoutPosition b2 = withoutPosition b ∧
          (a2.Position < b2.Position ↔ a.Position < b.Position)) ∧
      Dense (s.ToggleDone taskID now).2.state.Tasks t.ListID ∧
      ((s.ToggleDone taskID now).2.state.Tasks.filter (fun x => x.ListID == t.ListID)).length =
        (s.state.Tasks.filter (fun x => x.ListID == t.ListID)).length ∧
      (∀ (j : Nat) (a2 : Task), j ≠ i →
        (s.ToggleDone taskID now).2.state.Tasks[j]? = some a2 → a2.ListID = t.ListID →
        1 ≤ a2.Position ∧
          a2.Position <
            ((s.state.Tasks.filter (fun x => x.ListID == t.ListID)).length : Int)) := by
  obtain ⟨i, hi, hti⟩ := indexWhere_of_GetTask s taskID t ht
  obtain ⟨h1, h2⟩ := ToggleDone_sinks s taskID now i t hi hti hnd hd hlen
  obtain ⟨p, h3, h4, h5⟩ := ToggleDone_once s taskID now i t hi hti
  have hN : (positionsOf s.state.Tasks t.ListID).length =
      (s.state.Tasks.filter (fun x => x.ListID == t.ListID)).length := by
    simp [positionsOf]
  have hN2 : (positionsOf (s.ToggleDone taskID now).2.state.Tasks t.ListID).length =
      ((s.ToggleDone taskID now).2.state.Tasks.filter
        (fun x => x.ListID == t.ListID)).length := by
    simp [positionsOf]
  have hcount := length_positionsOf_congr (listIDs_ToggleDone s taskID now i t hi hti) t.ListID
  have hdense : Dense (s.ToggleDone taskID now).2.state.Tasks t.ListID := by
    rw [(ToggleDone_tasks s taskID now i t hi hti).2, if_pos hnd]
    exact dense_normalizePositions _ _
  rw [hN] at h1
  refine ⟨i, _, hti, ?_, h1, GetTask_of_indexWhere _ taskID i _ h5 h1, rfl, ?_, hdense,
    by rw [← hN2, hcount, hN], ?_⟩
  · rw [(ToggleDone_tasks s taskID now i t hi hti).1, getD_of_getElem? h1]
  · intro j k a b hj hk ha hb haL hbL
    obtain ⟨pj, hpj⟩ := getElem?_ToggleDone s taskID now i t hi hti j
    obtain ⟨pk, hpk⟩ := getElem?_ToggleDone s taskID now i t hi hti k
    rw [ha] at hpj
    rw [hb] at hpk
    simp only [Option.map_some', if_neg hj] at hpj
    simp only [Option.map_some', if_neg hk] at hpk
    exact ⟨_, _, hpj, hpk, rfl, rfl, h2 j k a b _ _ hj hk ha hb haL hbL hpj hpk⟩
  · intro j a2 hj ha2 haL
    have hb := position_bounds_of_dense hdense ha2 haL
    have hne := position_ne_of_dense hdense ha2 h1 haL rfl hj
    rw [hcount, hN] at hb
    simp only at hne
    omega

theorem C7_toggleDone_sinks_witness :
    ∃ (i : Nat) (t1 : Task),
      (run inboxService inboxChain).state.Tasks[i]? = some (Task.mk "a" "L1" "A" false 0 1 6 6) ∧
      ((run inboxService inboxChain).ToggleDone "a" 10).1 = .ok t1 ∧
      ((run inboxService inboxChain).ToggleDone "a" 10).2.state.Tasks[i]? = some t1 ∧
      ((run inboxService inboxChain).ToggleDone "a" 10).2.GetTask "a" = .ok t1 ∧
      t1 = { Task.mk "a" "L1" "A" false 0 1 6 6 with
        Done := true, UpdatedAt := 10,
        Position := (((run inboxService inboxChain).state.Tasks.filter
          (fun x => x.ListID == (Task.mk "a" "L1" "A" false 0 1 6 6).ListID)).length : Int) } ∧
      (∀ (j k : Nat) (a b : Task), j ≠ i → k ≠ i →
        (run inboxService inboxChain).state.Tasks[j]? = some a →
        (run inboxService inboxChain).state.Tasks[k]? = some b →
        a.ListID = (Task.mk "a" "L1" "A" false 0 1 6 6).ListID →
        b.ListID = (Task.mk "a" "L1" "A" false 0 1 6 6).ListID →
        ∃ a2 b2 : Task,
          ((run inboxService inboxChain).ToggleDone "a" 10).2.state.Tasks[j]? = some a2 ∧
          ((run inboxService inboxChain).ToggleDone "a" 10).2.state.Tasks[k]? = some b2 ∧
          withoutPosition a2 = withoutPosition a ∧ withoutPosition b2 = withoutPosition b ∧
          (a2.Position < b2.Position ↔ a.Position < b.Position)) ∧
      Dense ((run inboxService inboxChain).ToggleDone "a" 10).2.state.Tasks
        (Task.mk "a" "L1" "A" false 0 1 6 6).ListID ∧
      (((run inboxService inboxChain).ToggleDone "a" 10).2.state.Tasks.filter
          (fun x => x.ListID == (Task.mk "a" "L1" "A" false 0 1 6 6).ListID)).length =
        ((run inboxService inboxChain).state.Tasks.filter
          (fun x => x.ListID == (Task.mk "a" "L1" "A" false 0 1 6 6).ListID)).length ∧
      (∀ (j : Nat) (a2 : Task), j ≠ i →
        ((run inboxService inboxChain).ToggleDone "a" 10).2.state.Tasks[j]? = some a2 →
        a2.ListID = (Task.mk "a" "L1" "A" false 0 1 6 6).ListID →
        1 ≤ a2.Position ∧
          a2.Position <
            (((run inboxService inboxChain).state.Tasks.filter
              (fun x => x.ListID == (Task.mk "a" "L1" "A" false 0 1 6 6).ListID)).length :
              Int)) :=
  C7_toggleDone_sinks (run inboxService inboxChain) "a" 10 (Task.mk "a" "L1" "A" false 0 1 6 6)
    (by decide) (by decide) rfl rfl

end Claims

end TodoCli
namespace TodoCli

section Create

open Service Err

/-- What the loop of `nextTodoInsertPosition` computes, the positions of the list being
positive: in `maxPos` an upper bound of the positions that is one of them or the initial
value, in `firstDonePos` the least position of a done task, `0` standing for none. -/
theorem insertScan_spec (listID : String) (ts : List Task) (fd0 mx0 : Int) (hfd0 : 0 ≤ fd0)
    (hpos : ∀ (k : Nat) (a : Task), ts[k]? = some a → a.ListID = listID → 1 ≤ a.Position) :
    (mx0 ≤ (insertScan listID ts fd0 mx0).2 ∧
      (∀ (k : Nat) (a : Task), ts[k]? = some a → a.ListID = listID →
        a.Position ≤ (insertScan listID ts fd0 mx0).2) ∧
      ((insertScan listID ts fd0 mx0).2 = mx0 ∨
        ∃ (k : Nat) (a : Task), ts[k]? = some a ∧ a.ListID = listID ∧
          a.Position = (insertScan listID ts fd0 mx0).2)) ∧
    (0 ≤ (insertScan listID ts fd0 mx0).1 ∧
      (fd0 ≠ 0 → (insertScan listID ts fd0 mx0).1 ≠ 0 ∧ (insertScan listID ts fd0 mx0).1 ≤ fd0) ∧
      (∀ (k : Nat) (a : Task), ts[k]? = some a → a.ListID = listID → a.Done = true →
        (insertScan listID ts fd0 mx0).1 ≠ 0 ∧ (insertScan listID ts fd0 mx0).1 ≤ a.Position) ∧
      ((insertScan listID ts fd0 mx0).1 = fd0 ∨
        ∃ (k : Nat) (a : Task), ts[k]? = some a ∧ a.ListID = listID ∧ a.Done = true ∧
          a.Position = (insertScan listID ts fd0 mx0).1)) := by
  induction ts generalizing fd0 mx0 with
  | nil => simp [insertScan, hfd0]
  | cons t ts ih =>
    have hpos2 : ∀ (k : Nat) (a : Task), ts[k]? = some a → a.ListID = listID →
        1 ≤ a.Position := fun k a hk ha => hpos (k + 1) a (by simpa using hk) ha
    simp only [insertScan]
    by_cases hL : t.ListID ≠ listID
    · rw [if_pos hL]
      obtain ⟨⟨m1, m2, m3⟩, ⟨f0, f1, f2, f3⟩⟩ := ih fd0 mx0 hfd0 hpos2
      refine ⟨⟨m1, ?_, ?_⟩, ⟨f0, f1, ?_, ?_⟩⟩
      · intro k a hk ha
        cases k with
        | zero =>
          simp only [List.getElem?_cons_zero, Option.some.injEq] at hk
          subst hk
          exact absurd ha hL
        | succ k => exact m2 k a (by simpa using hk) ha
      · rcases m3 with h | ⟨k, a, hk, ha, hp⟩
        · exact Or.inl h
        · exact Or.inr ⟨k + 1, a, by simpa using hk, ha, hp⟩
      · intro k a hk ha hdone
        cases k with
        | zero =>
          simp only [List.getElem?_cons_zero, Option.some.injEq] at hk
          subst hk
          exact absurd ha hL
        | succ k => exact f2 k a (by simpa using hk) ha hdone
      · rcases f3 with h | ⟨k, a, hk, ha, hdone, hp⟩
        · exact Or.inl h
        · exact Or.inr ⟨k + 1, a, by simpa using hk, ha, hdone, hp⟩
    · rw [if_neg hL]
      have hL2 : t.ListID = listID := by simpa using hL
      have ht1 : 1 ≤ t.Position := hpos 0 t (by simp) hL2
      generalize hfdn : (if t.Done = true ∧ (fd0 = 0 ∨ t.Position < fd0) then t.Position
          else fd0) = fdn
      generalize hmxn : (if t.Position > mx0 then t.Position else mx0) = mxn
      have hfact : (t.Done = true ∧ (fd0 = 0 ∨ t.Position < fd0) ∧ fdn = t.Position) ∨
          (¬ (t.Done = true ∧ (fd0 = 0 ∨ t.Position < fd0)) ∧ fdn = fd0) := by
        by_cases hc : t.Done = true ∧ (fd0 = 0 ∨ t.Position < fd0)
        · rw [if_pos hc] at hfdn
          exact Or.inl ⟨hc.1, hc.2, hfdn.symm⟩
        · rw [if_neg hc] at hfdn
          exact Or.inr ⟨hc, hfdn.symm⟩
      have hmfact : (t.Position > mx0 ∧ mxn = t.Position) ∨ (¬ t.Position > mx0 ∧ mxn = mx0) := by
        by_cases hc : t.Position > mx0
        · rw [if_pos hc] at hmxn
          exact Or.inl ⟨hc, hmxn.symm⟩
        · rw [if_neg hc] at hmxn
          exact Or.inr ⟨hc, hmxn.symm⟩
      have hfdnew : 0 ≤ fdn := by
        rcases hfact with ⟨_, _, h⟩ | ⟨_, h⟩ <;> omega
      obtain ⟨⟨m1, m2, m3⟩, ⟨f0, f1, f2, f3⟩⟩ := ih fdn mxn hfdnew hpos2
      have hmx : mx0 ≤ mxn ∧ t.Position ≤ mxn := by
        rcases hmfact with ⟨h1, h2⟩ | ⟨h1, h2⟩ <;> omega
      refine ⟨⟨le_trans hmx.1 m1, ?_, ?_⟩, ⟨f0, ?_, ?_, ?_⟩⟩
      · intro k a hk ha
        cases k with
        | zero =>
          simp only [List.getElem?_cons_zero, Option.some.injEq] at hk
          subst hk
          exact le_trans hmx.2 m1
        | succ k => exact m2 k a (by simpa using hk) ha
      · rcases m3 with h | ⟨k, a, hk, ha, hp⟩
        · rcases hmfact with ⟨h1, h2⟩ | ⟨h1, h2⟩
          · right
            exact ⟨0, t, by simp, hL2, by rw [h, h2]⟩
          · left
            rw [h, h2]
        · exact Or.inr ⟨k + 1, a, by simpa using hk, ha, hp⟩
      · intro hne
        rcases hfact with ⟨_, h2, h3⟩ | ⟨_, h3⟩
        · have := f1 (by omega)
          rcases h2 with h | h
          · exact absurd h hne
          · exact ⟨this.1, by omega⟩
        · subst h3
          exact f1 hne
      · intro k a hk ha hdone
        cases k with
        | zero =>
          simp only [List.getElem?_cons_zero, Option.some.injEq] at hk
          subst hk
          rcases hfact with ⟨_, _, h3⟩ | ⟨hc, h3⟩
          · have := f1 (by omega)
            exact ⟨this.1, by omega⟩
          · have hfd : fd0 ≠ 0 ∧ fd0 ≤ t.Position := by
              by_contra hcon
              apply hc
              refine ⟨hdone, ?_⟩
              by_cases h0 : fd0 = 0
              · exact Or.inl h0
              · right
                by_contra h1
                exact hcon ⟨h0, by omega⟩
            have := f1 (by omega)
            exact ⟨this.1, by omega⟩
        | succ k => exact f2 k a (by simpa using hk) ha hdone
      · rcases f3 with h | ⟨k, a, hk, ha, hdone, hp⟩
        · rcases hfact with ⟨h1, _, h3⟩ | ⟨_, h3⟩
          · right
            exact ⟨0, t, by simp, hL2, h1, by rw [h, h3]⟩
          · left
            rw [h, h3]
        · exact Or.inr ⟨k + 1, a, by simpa using hk, ha, hdone, hp⟩

end Create

end TodoCli
namespace TodoCli

section Create

open Service Err

/-- The insertion position in a dense list: the position of the first done task, or one past
the last position when no task of the list is done. -/
theorem nextTodoInsertPosition_spec (s : Service) (listID : String)
    (hd : Dense s.state.Tasks listID) (hlen : (s.state.Tasks.length : Int) < 2 ^ 63 - 1) :
    1 ≤ s.nextTodoInsertPosition listID ∧
      s.nextTodoInsertPosition listID ≤ (positionsOf s.state.Tasks listID).length + 1 ∧
      (∀ (k : Nat) (e : Task), s.state.Tasks[k]? = some e → e.ListID = listID →
        e.Done = true → s.nextTodoInsertPosition listID ≤ e.Position) ∧
      ((∃ (k : Nat) (e : Task), s.state.Tasks[k]? = some e ∧ e.ListID = listID ∧
          e.Done = true ∧ e.Position = s.nextTodoInsertPosition listID) ∨
        ((∀ (k : Nat) (e : Task), s.state.Tasks[k]? = some e → e.ListID = listID →
            e.Done = false) ∧
          s.nextTodoInsertPosition listID = (positionsOf s.state.Tasks listID).length + 1)) := by
  have hN := length_positionsOf_le s.state.Tasks listID
  obtain ⟨⟨m1, m2, m3⟩, ⟨f0, _, f2, f3⟩⟩ := insertScan_spec listID s.state.Tasks 0 0 (le_refl _)
    (fun k a hk ha => (position_bounds_of_dense hd hk ha).1)
  simp only [nextTodoInsertPosition]
  by_cases hfd : (insertScan listID s.state.Tasks 0 0).1 > 0
  · rw [if_pos hfd]
    rcases f3 with h | ⟨k, a, hk, ha, hdone, hp⟩
    · omega
    · have hb := position_bounds_of_dense hd hk ha
      refine ⟨by omega, by omega, fun k e hk he hdo => (f2 k e hk he hdo).2, ?_⟩
      exact Or.inl ⟨k, a, hk, ha, hdone, hp⟩
  · rw [if_neg hfd]
    have hnone : ∀ (k : Nat) (e : Task), s.state.Tasks[k]? = some e → e.ListID = listID →
        e.Done = false := by
      intro k e hk he
      by_contra hdo
      have := (f2 k e hk he (by simpa using hdo)).1
      omega
    have hmaxle : (insertScan listID s.state.Tasks 0 0).2 ≤
        (positionsOf s.state.Tasks listID).length := by
      rcases m3 with h | ⟨k, a, hk, ha, hp⟩
      · omega
      · rw [← hp]
        exact (position_bounds_of_dense hd hk ha).2
    have hmaxge : ((positionsOf s.state.Tasks listID).length : Int) ≤
        (insertScan listID s.state.Tasks 0 0).2 := by
      by_cases h0 : (positionsOf s.state.Tasks listID).length = 0
      · rw [h0]
        exact m1
      · have hmem : ((positionsOf s.state.Tasks listID).length : Int) ∈
            positionsOf s.state.Tasks listID := by
          apply hd.mem_iff.2
          exact mem_target.2 ⟨by omega, le_refl _⟩
        obtain ⟨k, a, hk, ha, hp⟩ := mem_positionsOf.1 hmem
        rw [← hp]
        exact m2 k a hk ha
    have hmax : (insertScan listID s.state.Tasks 0 0).2 =
        (positionsOf s.state.Tasks listID).length := le_antisymm hmaxle hmaxge
    rw [hmax, wrapInt_of_bounds _ (by omega) (by omega)]
    refine ⟨by omega, le_refl _, ?_, Or.inr ⟨hnone, rfl⟩⟩
    intro k e hk he hdo
    rw [hnone k e hk he] at hdo
    exact absurd hdo (by simp)

theorem positionsOf_append_singleton (tasks : List Task) (task : Task) :
    positionsOf (tasks ++ [task]) task.ListID =
      positionsOf tasks task.ListID ++ [task.Position] := by
  simp [positionsOf, List.filter_append, List.filter_cons]

theorem positionsOf_shiftPositions (tasks : List Task) (listID : String) (insertPos : Int) :
    positionsOf (shiftPositions tasks listID insertPos) listID =
      (positionsOf tasks listID).map
        (fun p => if p ≥ insertPos then wrapInt (p + 1) else p) := by
  induction tasks with
  | nil => rfl
  | cons t ts ih =>
    simp only [shiftPositions, positionsOf, List.map_cons] at ih ⊢
    by_cases hL : t.ListID = listID
    · by_cases hp : t.Position ≥ insertPos
      · simp [List.filter_cons, hL, hp, ih]
      · simp [List.filter_cons, hL, hp, ih]
    · simp [List.filter_cons, hL, ih]

theorem getElem?_shiftPositions (tasks : List Task) (listID : String) (insertPos : Int)
    (j : Nat) :
    (shiftPositions tasks listID insertPos)[j]? =
      (tasks[j]?).map (fun t =>
        if t.ListID = listID ∧ t.Position ≥ insertPos then
          { t with Position := wrapInt (t.Position + 1) }
        else t) := by
  simp [shiftPositions]

theorem listIDs_shiftPositions (tasks : List Task) (listID : String) (insertPos : Int) :
    (shiftPositions tasks listID insertPos).map (·.ListID) = tasks.map (·.ListID) := by
  simp only [shiftPositions, List.map_map]
  apply List.map_congr_left
  intro t _
  simp only [Function.comp]
  split <;> rfl

/-- Making room at `insertPos` in a dense list and putting the new task there gives a dense
list. -/
theorem dense_shift_append (tasks : List Task) (task : Task)
    (hd : Dense tasks task.ListID) (hlen : (tasks.length : Int) < 2 ^ 63 - 1)
    (h1 : 1 ≤ task.Position)
    (h2 : task.Position ≤ (positionsOf tasks task.ListID).length + 1) :
    Dense (shiftPositions tasks task.ListID task.Position ++ [task]) task.ListID := by
  have hN := length_positionsOf_le tasks task.ListID
  obtain ⟨hnd, hb⟩ := (dense_iff tasks task.ListID).1 hd
  have hmap : (positionsOf tasks task.ListID).map
      (fun p => if p ≥ task.Position then wrapInt (p + 1) else p) =
      (positionsOf tasks task.ListID).map (fun p => if p ≥ task.Position then p + 1 else p) := by
    apply List.map_congr_left
    intro p hp
    have := hb p hp
    rw [wrapInt_of_bounds _ (by omega) (by omega)]
  rw [dense_iff, positionsOf_append_singleton, positionsOf_shiftPositions, hmap]
  constructor
  · rw [List.nodup_append]
    refine ⟨?_, List.nodup_singleton _, ?_⟩
    · apply hnd.map
      intro p q hpq
      simp only at hpq
      split_ifs at hpq <;> omega
    · intro p hp hq
      simp only [List.mem_singleton] at hq
      obtain ⟨q, _, hqp⟩ := List.mem_map.1 hp
      rw [hq] at hqp
      split_ifs at hqp <;> omega
  · intro p hp
    simp only [List.length_append, List.length_map, List.length_singleton]
    rcases List.mem_append.1 hp with hp | hp
    · obtain ⟨q, hq, hqp⟩ := List.mem_map.1 hp
      have := hb q hq
      push_cast
      split_ifs at hqp <;> omega
    · simp only [List.mem_singleton] at hp
      push_cast
      omega

end Create

end TodoCli
namespace TodoCli

section Create

open Service Err

theorem CreateTask_checks (s : Service) (listID text : String) (now : Time) (newID : String)
    (task : Task) (hok : (s.CreateTask listID text now newID).1 = .ok task) :
    TrimSpace listID ≠ "" ∧ TrimSpace text ≠ "" ∧ s.hasList (TrimSpace listID) = true := by
  refine ⟨?_, ?_, ?_⟩
  · intro h
    simp [CreateTask, h] at hok
  · intro h
    by_cases h1 : TrimSpace listID = ""
    · simp [CreateTask, h1] at hok
    · simp [CreateTask, h1, h] at hok
  · by_contra h
    by_cases h1 : TrimSpace listID = ""
    · simp [CreateTask, h1] at hok
    · by_cases h2 : TrimSpace text = ""
      · simp [CreateTask, h1, h2] at hok
      · simp [CreateTask, h1, h2, h] at hok

/-- The task slice a successful `CreateTask` leaves when the list was dense: the old tasks, those
of the list at or after the insertion position moved one down, then the new task. -/
theorem CreateTask_tasks_of_dense (s : Service) (listID text : String) (now : Time)
    (newID : String) (task : Task) (hd : Dense s.state.Tasks (TrimSpace listID))
    (hlen : (s.state.Tasks.length : Int) < 2 ^ 63 - 1)
    (hok : (s.CreateTask listID text now newID).1 = .ok task) :
    task = Task.mk newID (TrimSpace listID) (TrimSpace text) false PriorityNone
        (s.nextTodoInsertPosition (TrimSpace listID)) now now ∧
      (s.CreateTask listID text now newID).2.state.Tasks =
        shiftPositions s.state.Tasks (TrimSpace listID)
          (s.nextTodoInsertPosition (TrimSpace listID)) ++ [task] := by
  obtain ⟨h1, h2, h3⟩ := CreateTask_checks s listID text now newID task hok
  rw [CreateTask_ok s listID text now newID h1 h2 h3] at hok ⊢
  simp only [Except.ok.injEq] at hok
  subst hok
  refine ⟨rfl, ?_⟩
  simp only [normalizePositionsForList_tasks, withTasks_tasks]
  obtain ⟨hp1, hp2, _, _⟩ := nextTodoInsertPosition_spec s (TrimSpace listID) hd hlen
  exact normalizePositions_of_dense _ _
    (dense_shift_append s.state.Tasks
      (Task.mk newID (TrimSpace listID) (TrimSpace text) false PriorityNone
        (s.nextTodoInsertPosition (TrimSpace listID)) now now) hd hlen hp1 hp2)

end Create

section Claims

open Service Err

/-- C9. Insert-before-done rule: in a state whose list `L` is dense (and whose task slice has a
length a Go slice can have), a successful `CreateTask` on `L` stores the new task, not done and
of priority none, after the old ones; every old task of `L` keeps all its fields but the
position, which goes up by one exactly when it was at or after the position of the new task,
so that the old tasks keep their relative order; the task that was the first done task of `L`
by position gets the position right after the new task; and when `L` had no done task the new
task gets the position `N + 1`, `N` the number of tasks `L` had. -/
theorem C9_insert_before_done (s : Service) (listID text : String) (now : Time)
    (newID : String) (task : Task) (hd : Dense s.state.Tasks (TrimSpace listID))
    (hlen : (s.state.Tasks.length : Int) < 2 ^ 63 - 1)
    (hok : (s.CreateTask listID text now newID).1 = .ok task) :
    (s.CreateTask listID text now newID).2.state.Tasks.length = s.state.Tasks.length + 1 ∧
    (s.CreateTask listID text now newID).2.state.Tasks[s.state.Tasks.length]? = some task ∧
    task.ListID = TrimSpace listID ∧ task.Done = false ∧ task.Priority = PriorityNone ∧
    (∀ (j : Nat) (a : Task), s.state.Tasks[j]? = some a → a.ListID = TrimSpace listID →
      ∃ a2 : Task, (s.CreateTask listID text now newID).2.state.Tasks[j]? = some a2 ∧
        withoutPosition a2 = withoutPosition a ∧
        a2.Position = if task.Position ≤ a.Position then a.Position + 1 else a.Position) ∧
    (∀ (j k : Nat) (a b : Task), s.state.Tasks[j]? = some a → s.state.Tasks[k]? = some b →
      a.ListID = TrimSpace listID → b.ListID = TrimSpace listID →
      ∃ a2 b2 : Task, (s.CreateTask listID text now newID).2.state.Tasks[j]? = some a2 ∧
        (s.CreateTask listID text now newID).2.state.Tasks[k]? = some b2 ∧
        (a2.Position < b2.Position ↔ a.Position < b.Position)) ∧
    (∀ (j : Nat) (d : Task), s.state.Tasks[j]? = some d → d.ListID = TrimSpace listID →
      d.Done = true →
      (∀ (k : Nat) (e : Task), s.state.Tasks[k]? = some e → e.ListID = TrimSpace listID →
        e.Done = true → d.Position ≤ e.Position) →
      task.Position = d.Position ∧
      ∃ d2 : Task, (s.CreateTask listID text now newID).2.state.Tasks[j]? = some d2 ∧
        d2.Position = task.Position + 1) ∧
    ((∀ (k : Nat) (e : Task), s.state.Tasks[k]? = some e → e.ListID = TrimSpace listID →
        e.Done = false) →
      task.Position =
        ((s.state.Tasks.filter (fun x => x.ListID == TrimSpace listID)).length : Int) + 1) := by
  obtain ⟨htask, hts⟩ := CreateTask_tasks_of_dense s listID text now newID task hd hlen hok
  obtain ⟨hp1, hp2, hp3, hp4⟩ := nextTodoInsertPosition_spec s (TrimSpace listID) hd hlen
  have hN := length_positionsOf_le s.state.Tasks (TrimSpace listID)
  have hNf : (positionsOf s.state.Tasks (TrimSpace listID)).length =
      (s.state.Tasks.filter (fun x => x.ListID == TrimSpace listID)).length := by
    simp [positionsOf]
  have hpos : task.Position = s.nextTodoInsertPosition (TrimSpace listID) := by rw [htask]
  have hold : ∀ (j : Nat) (a : Task), s.state.Tasks[j]? = some a →
      a.ListID = TrimSpace listID →
      (s.CreateTask listID text now newID).2.state.Tasks[j]? =
        some { a with
          Position := if task.Position ≤ a.Position then a.Position + 1 else a.Position } := by
    intro j a hj ha
    have hjlt : j < (shiftPositions s.state.Tasks (TrimSpace listID)
        (s.nextTodoInsertPosition (TrimSpace listID))).length := by
      rw [length_shiftPositions]
      exact (List.getElem?_eq_some.1 hj).1
    rw [hts, List.getElem?_append_left hjlt, getElem?_shiftPositions, hj, hpos]
    have hb := position_bounds_of_dense hd hj ha
    simp only [Option.map_some', Option.some.injEq]
    by_cases hc : s.nextTodoInsertPosition (TrimSpace listID) ≤ a.Position
    · rw [if_pos ⟨ha, hc⟩, if_pos hc, wrapInt_of_bounds _ (by omega) (by omega)]
    · rw [if_neg (fun h => hc h.2), if_neg hc]
  refine ⟨?_, ?_, ?_, ?_, ?_, ?_, ?_, ?_, ?_⟩
  · rw [hts]
    simp [length_shiftPositions]
  · rw [hts, List.getElem?_append_right (by rw [length_shiftPositions]), length_shiftPositions]
    simp
  · rw [htask]
  · rw [htask]
  · rw [htask]
  · intro j a hj ha
    exact ⟨_, hold j a hj ha, rfl, rfl⟩
  · intro j k a b hj hk ha hb
    refine ⟨_, _, hold j a hj ha, hold k b hk hb, ?_⟩
    simp only
    split_ifs <;> omega
  · intro j d hj hdL hdone hmin
    have hle := hp3 j d hj hdL hdone
    have heq : task.Position = d.Position := by
      rcases hp4 with ⟨k, e, hk, he, hedone, hep⟩ | ⟨hnone, _⟩
      · have := hmin k e hk he hedone
        omega
      · rw [hnone j d hj hdL] at hdone
        exact absurd hdone (by simp)
    refine ⟨heq, _, hold j d hj hdL, ?_⟩
    simp only
    rw [if_pos (by omega)]
    omega
  · intro hnone
    rcases hp4 with ⟨k, e, hk, he, hedone, _⟩ | ⟨_, h⟩
    · rw [hnone k e hk he] at hedone
      exact absurd hedone (by simp)
    · rw [hpos, h, hNf]

set_option maxRecDepth 8000 in
theorem C9_insert_before_done_witness :
    ((run inboxService inboxChain).CreateTask "L1" "Nova" 11 "n").2.state.Tasks.length =
        (run inboxService inboxChain).state.Tasks.length + 1 ∧
      ((run inboxService inboxChain).CreateTask "L1" "Nova" 11 "n").2.state.Tasks[
          (run inboxService inboxChain).state.Tasks.length]? =
        some (Task.mk "n" "L1" "Nova" false 0 3 11 11) :=
  ⟨(C9_insert_before_done (run inboxService inboxChain) "L1" "Nova" 11 "n"
      (Task.mk "n" "L1" "Nova" false 0 3 11 11) (by decide) (by decide) rfl).1,
    (C9_insert_before_done (run inboxService inboxChain) "L1" "Nova" 11 "n"
      (Task.mk "n" "L1" "Nova" false 0 3 11 11) (by decide) (by decide) rfl).2.1⟩

end Claims

end TodoCli

namespace TodoCli

section SetPriority

open Service Err

/-- C15. `SetTaskPriority` validation and no-op: the call fails with `ErrInvalidPriority`
whenever the priority is outside `0..3`, whether or not the task exists; with a valid priority
it fails with `ErrTaskNotFound` when no task has the identifier; when the task found already
has the priority it succeeds and leaves the state and the undo stack as they were; otherwise it
succeeds, records one undo snapshot, the state before the call, and changes nothing in the state
but the priority, set to the value asked, and the update time of the task. -/
theorem C15_setTaskPriority (s : Service) (taskID : String) (priority : Int) (now : Time) :
    ((priority < 0 ∨ 3 < priority) →
      s.SetTaskPriority taskID priority now = (.error ErrInvalidPriority, s)) ∧
    (0 ≤ priority → priority ≤ 3 → (∀ t ∈ s.state.Tasks, t.ID ≠ taskID) →
      s.SetTaskPriority taskID priority now = (.error ErrTaskNotFound, s)) ∧
    (∀ t : Task, 0 ≤ priority → priority ≤ 3 → s.GetTask taskID = .ok t →
      t.Priority = priority → s.SetTaskPriority taskID priority now = (.ok t, s)) ∧
    (∀ t : Task, 0 ≤ priority → priority ≤ 3 → s.GetTask taskID = .ok t →
      t.Priority ≠ priority →
      ∃ i : Nat, s.state.Tasks[i]? = some t ∧
        (s.SetTaskPriority taskID priority now).1 =
          .ok { t with Priority := priority, UpdatedAt := now } ∧
        (s.SetTaskPriority taskID priority now).2.undo = s.pushUndo.undo ∧
        s.pushUndo.undo.getLast? = some s.state ∧
        (s.SetTaskPriority taskID priority now).2.state =
          { s.state with
            Tasks := s.state.Tasks.set i { t with Priority := priority, UpdatedAt := now } }) := by
  have hrange : ∀ p : Int, 0 ≤ p → p ≤ 3 → priorityOutOfRange p = false := by
    intro p h1 h2
    have e1 : PriorityNone = (0 : Int) := rfl
    have e2 : PriorityHigh = (3 : Int) := rfl
    simp only [priorityOutOfRange, e1, e2, Bool.or_eq_false_iff, decide_eq_false_iff_not]
    exact ⟨Int.not_lt.mpr h1, Int.not_lt.mpr h2⟩
  refine ⟨?_, ?_, ?_, ?_⟩
  · intro h
    have : priorityOutOfRange priority = true := by
      have e1 : PriorityNone = (0 : Int) := rfl
      have e2 : PriorityHigh = (3 : Int) := rfl
      simp only [priorityOutOfRange, e1, e2, Bool.or_eq_true, decide_eq_true_eq]
      exact h
    simp [SetTaskPriority, this]
  · intro h1 h2 h3
    have hnone : indexWhere (fun t => t.ID == taskID) s.state.Tasks = none := by
      rw [indexWhere_eq_none]
      intro a ha
      simpa using h3 a ha
    simp [SetTaskPriority, hrange priority h1 h2, hnone]
  · intro t h1 h2 ht hp
    obtain ⟨i, hi, hti⟩ := indexWhere_of_GetTask s taskID t ht
    simp [SetTaskPriority, hrange priority h1 h2, hi, hti, hp]
  · intro t h1 h2 ht hp
    obtain ⟨i, hi, hti⟩ := indexWhere_of_GetTask s taskID t ht
    have hlt : i < s.state.Tasks.length := indexWhere_lt hi
    have hupd : updateAt (fun t => { t with Priority := priority, UpdatedAt := now })
        s.state.Tasks i =
        s.state.Tasks.set i { t with Priority := priority, UpdatedAt := now } := by
      apply List.ext_getElem?
      intro j
      rw [getElem?_updateAt, List.getElem?_set]
      by_cases hji : j = i
      · subst hji
        simp [hti, hlt]
      · have : ¬ i = j := fun h => hji h.symm
        simp [hji, this]
    refine ⟨i, hti, ?_, ?_, ?_, ?_⟩
    · simp [SetTaskPriority, hrange priority h1 h2, hi, hti, hp, getElem?_updateAt]
    · simp [SetTaskPriority, hrange priority h1 h2, hi, hti, hp]
    · rw [pushUndo_undo_eq]
      simp
    · simp only [SetTaskPriority, hrange priority h1 h2, hi, getD_of_getElem? hti, hp,
        Bool.false_eq_true, if_false, pushUndo_state, hupd, withTasks]

theorem C15_setTaskPriority_witness :
    (inboxService.CreateTask "L1" "A" 6 "a").2.SetTaskPriority "a" 99 7 =
      (.error ErrInvalidPriority, (inboxService.CreateTask "L1" "A" 6 "a").2) :=
  (C15_setTaskPriority (inboxService.CreateTask "L1" "A" 6 "a").2 "a" 99 7).1
    (Or.inr (by decide))

end SetPriority

end TodoCli

namespace TodoCli

section Session

open Service Err

/-- C20. `SetSessionContext a f` fails exactly when the trimmed `f` is none of the empty
string, `lists` and `tasks`, and the failure is `ErrInvalidSessionFocus`; when it succeeds the
stored active list id is `a` if some list of the state has the id `a` and the empty string
otherwise, the stored focus is the trimmed `f` when that is not empty and the focus stored
before otherwise, and the rest of the state and the undo stack are as before the call. -/
theorem C20_setSessionContext (s : Service) (a f : String) :
    ((s.SetSessionContext a f).1 = .error ErrInvalidSessionFocus ↔
      (TrimSpace f ≠ "" ∧ TrimSpace f ≠ "lists" ∧ TrimSpace f ≠ "tasks")) ∧
    ((s.SetSessionContext a f).1 = .ok () ↔
      (TrimSpace f = "" ∨ TrimSpace f = "lists" ∨ TrimSpace f = "tasks")) ∧
    ((s.SetSessionContext a f).1 = .ok () →
      (s.SetSessionContext a f).2.state.Metadata.Session.ActiveListID =
        (if ∃ l ∈ s.state.Lists, l.ID = a then a else "") ∧
      (s.SetSessionContext a f).2.state.Metadata.Session.Focus =
        (if TrimSpace f ≠ "" then TrimSpace f else s.state.Metadata.Session.Focus) ∧
      (s.SetSessionContext a f).2 =
        { s with state := { s.state with
            Metadata := { s.state.Metadata with
              Session := (s.SetSessionContext a f).2.state.Metadata.Session } } }) := by
  have e1 : SessionFocusLists = "lists" := rfl
  have e2 : SessionFocusTasks = "tasks" := rfl
  by_cases hf : TrimSpace f ≠ "" ∧ TrimSpace f ≠ "lists" ∧ TrimSpace f ≠ "tasks"
  · have h1 : s.SetSessionContext a f = (.error ErrInvalidSessionFocus, s) := by
      simp only [SetSessionContext, e1, e2]
      rw [if_pos hf]
    rw [h1]
    refine ⟨⟨fun _ => hf, fun _ => rfl⟩, ⟨fun h => (by cases h), fun h => ?_⟩, fun h => (by cases h)⟩
    rcases h with h | h | h
    · exact absurd h hf.1
    · exact absurd h hf.2.1
    · exact absurd h hf.2.2
  · have h1 : s.SetSessionContext a f =
        (.ok (), { s with state := { s.state with
          Metadata := { s.state.Metadata with
            Session :=
              { ActiveListID := if a ≠ "" ∧ ¬ s.hasList a then "" else a,
                Focus := if TrimSpace f ≠ "" then TrimSpace f
                  else s.state.Metadata.Session.Focus } } } }) := by
      simp only [SetSessionContext, e1, e2]
      rw [if_neg hf]
    rw [h1]
    refine ⟨⟨fun h => (by cases h), fun h => absurd h hf⟩, ⟨fun _ => ?_, fun _ => rfl⟩, fun _ => ?_⟩
    · by_contra hc
      push_neg at hc
      exact hf hc
    · refine ⟨?_, rfl, rfl⟩
      show (if a ≠ "" ∧ ¬ s.hasList a then "" else a) = _
      by_cases hl : ∃ l ∈ s.state.Lists, l.ID = a
      · rw [if_pos hl, if_neg]
        rintro ⟨_, h⟩
        exact h ((hasList_iff s a).mpr hl)
      · rw [if_neg hl]
        by_cases ha : a = ""
        · subst ha
          simp
        · rw [if_pos]
          exact ⟨ha, fun h => hl ((hasList_iff s a).mp h)⟩

theorem C20_setSessionContext_witness :
    (inboxService.SetSessionContext "L9" " tasks ").1 = .ok () ∧
    (inboxService.SetSessionContext "L9" " tasks ").2.state.Metadata.Session.ActiveListID =
        (if ∃ l ∈ inboxService.state.Lists, l.ID = "L9" then "L9" else "") ∧
      (inboxService.SetSessionContext "L9" " tasks ").2.state.Metadata.Session.Focus =
        (if TrimSpace " tasks " ≠ "" then TrimSpace " tasks "
          else inboxService.state.Metadata.Session.Focus) ∧
      (inboxService.SetSessionContext "L9" " tasks ").2 =
        { inboxService with state := { inboxService.state with
            Metadata := { inboxService.state.Metadata with
              Session :=
                (inboxService.SetSessionContext "L9" " tasks ").2.state.Metadata.Session } } } :=
  ⟨rfl, (C20_setSessionContext inboxService "L9" " tasks ").2.2 rfl⟩

end Session

end TodoCli

namespace TodoCli

section MoveListSwap

open Service Err

theorem moveList_swap (s : Service) (listID : String) (d : Int) (now : Time) (i tgt : Nat)
    (l nb : TodoList)
    (hi : indexWhere (fun l => l.ID == listID) s.state.Lists = some i)
    (ht : (i : Int) + d = (tgt : Int))
    (hl : s.state.Lists[i]? = some l) (hnb : s.state.Lists[tgt]? = some nb) (hne : i ≠ tgt) :
    (s.moveList listID d now).1 = .ok { l with UpdatedAt := now } ∧
    (s.moveList listID d now).2.undo = s.pushUndo.undo ∧
    ∀ j : Nat, (s.moveList listID d now).2.state.Lists[j]? =
      if j = tgt then some { l with UpdatedAt := now }
      else if j = i then some { nb with UpdatedAt := now }
      else s.state.Lists[j]? := by
  have hilt : i < s.state.Lists.length := (List.getElem?_eq_some.1 hl).1
  have htlt : tgt < s.state.Lists.length := (List.getElem?_eq_some.1 hnb).1
  have h1 : ¬ ((i : Int) + d < 0) := by omega
  have h2 : ¬ ((i : Int) + d ≥ (s.state.Lists.length : Int)) := by omega
  have h3 : ((i : Int) + d).toNat = tgt := by omega
  have key : ∀ j : Nat,
      (updateAt (fun l : TodoList => { l with UpdatedAt := now })
        (updateAt (fun l : TodoList => { l with UpdatedAt := now })
          ((s.state.Lists.set i (s.state.Lists.getD tgt default)).set tgt
            (s.state.Lists.getD i default)) i) tgt)[j]? =
      if j = tgt then some { l with UpdatedAt := now }
      else if j = i then some { nb with UpdatedAt := now }
      else s.state.Lists[j]? := by
    intro j
    rw [getElem?_updateAt, getElem?_updateAt, getElem?_swap _ _ _ _ hilt htlt]
    by_cases hjt : j = tgt
    · subst hjt
      have : ¬ j = i := fun h => hne h.symm
      simp [this, hl]
    · by_cases hji : j = i
      · subst hji
        simp [hjt, hnb]
      · simp [hjt, hji]
  refine ⟨?_, ?_, ?_⟩
  · simp only [moveList, hi, if_neg h1, if_neg h2, h3, pushUndo_state]
    have := key tgt
    rw [if_pos rfl] at this
    rw [getD_of_getElem? this]
  · simp only [moveList, hi, if_neg h1, if_neg h2, h3, pushUndo_state, withLists_undo]
  · intro j
    simp only [moveList, hi, if_neg h1, if_neg h2, h3, pushUndo_state, withLists_lists]
    exact key j

end MoveListSwap

section ClaimsMoveList

open Service Err

/-- C13. `MoveListDown` and `MoveListUp` exchange adjacent lists: when the list the service
finds for the identifier stands at index `i` and has a neighbour at index `i + 1`
(respectively `i - 1`), the call succeeds and returns the moved list with its update time set;
after it the moved list stands at the neighbour's index and the neighbour at index `i`, both
with the update time set to the time of the call and no other field changed, every other index
holds the list it held before, and the tasks are as before. -/
theorem C13_moveList_swaps (s : Service) (listID : String) (now : Time) (i : Nat) (l : TodoList)
    (hi : indexWhere (fun l => l.ID == listID) s.state.Lists = some i)
    (hl : s.state.Lists[i]? = some l) :
    (∀ nb : TodoList, s.state.Lists[i + 1]? = some nb →
      (s.MoveListDown listID now).1 = .ok { l with UpdatedAt := now } ∧
      (s.MoveListDown listID now).2.state.Lists[i + 1]? = some { l with UpdatedAt := now } ∧
      (s.MoveListDown listID now).2.state.Lists[i]? = some { nb with UpdatedAt := now } ∧
      (∀ j : Nat, j ≠ i → j ≠ i + 1 →
        (s.MoveListDown listID now).2.state.Lists[j]? = s.state.Lists[j]?) ∧
      (s.MoveListDown listID now).2.state.Tasks = s.state.Tasks) ∧
    (∀ (k : Nat) (nb : TodoList), i = k + 1 → s.state.Lists[k]? = some nb →
      (s.MoveListUp listID now).1 = .ok { l with UpdatedAt := now } ∧
      (s.MoveListUp listID now).2.state.Lists[k]? = some { l with UpdatedAt := now } ∧
      (s.MoveListUp listID now).2.state.Lists[i]? = some { nb with UpdatedAt := now } ∧
      (∀ j : Nat, j ≠ i → j ≠ k →
        (s.MoveListUp listID now).2.state.Lists[j]? = s.state.Lists[j]?) ∧
      (s.MoveListUp listID now).2.state.Tasks = s.state.Tasks) := by
  constructor
  · intro nb hnb
    obtain ⟨h1, _, h3⟩ := moveList_swap s listID 1 now i (i + 1) l nb hi (by push_cast; ring) hl hnb
      (by omega)
    refine ⟨h1, ?_, ?_, ?_, tasks_moveList s listID 1 now⟩
    · have := h3 (i + 1)
      rwa [if_pos rfl] at this
    · have := h3 i
      rwa [if_neg (by omega), if_pos rfl] at this
    · intro j hj1 hj2
      have := h3 j
      rwa [if_neg hj2, if_neg hj1] at this
  · intro k nb hk hnb
    obtain ⟨h1, _, h3⟩ := moveList_swap s listID (-1) now i k l nb hi (by omega) hl hnb
      (by omega)
    refine ⟨h1, ?_, ?_, ?_, tasks_moveList s listID (-1) now⟩
    · have := h3 k
      rwa [if_pos rfl] at this
    · have := h3 i
      rwa [if_neg (by omega), if_pos rfl] at this
    · intro j hj1 hj2
      have := h3 j
      rwa [if_neg hj2, if_neg hj1] at this

end ClaimsMoveList

end TodoCli

namespace TodoCli

theorem C13_moveList_swaps_witness :
    (twoListsService.MoveListDown "L1" 9).1 = .ok (TodoList.mk "L1" "Inbox" "" 5 9) ∧
    (twoListsService.MoveListDown "L1" 9).2.state.Lists[0 + 1]? =
      some (TodoList.mk "L1" "Inbox" "" 5 9) ∧
    (twoListsService.MoveListDown "L1" 9).2.state.Lists[0]? =
      some (TodoList.mk "L2" "Work" "" 6 9) ∧
    (∀ j : Nat, j ≠ 0 → j ≠ 0 + 1 →
      (twoListsService.MoveListDown "L1" 9).2.state.Lists[j]? = twoListsService.state.Lists[j]?) ∧
    (twoListsService.MoveListDown "L1" 9).2.state.Tasks = twoListsService.state.Tasks :=
  (C13_moveList_swaps twoListsService "L1" 9 0 (TodoList.mk "L1" "Inbox" "" 5 5) rfl rfl).1
    (TodoList.mk "L2" "Work" "" 6 6) rfl

end TodoCli

namespace TodoCli

section FirstIndex

variable {α : Type}

theorem indexWhere_take {p : α → Bool} {l : List α} {i : Nat} (h : indexWhere p l = some i) :
    ∀ x ∈ l.take i, p x = false := by
  induction l generalizing i with
  | nil => simp [indexWhere] at h
  | cons a as ih =>
    by_cases hp : p a = true
    · simp [indexWhere, hp] at h
      subst h
      simp
    · simp only [indexWhere, hp, Bool.false_eq_true, if_false, Option.map_eq_some'] at h
      obtain ⟨k, hk, rfl⟩ := h
      intro x hx
      rw [List.take_succ_cons, List.mem_cons] at hx
      rcases hx with rfl | hx
      · simpa using hp
      · exact ih hk x hx

theorem indexWhere_of_first {p : α → Bool} {l : List α} {i : Nat} {a : α}
    (ha : l[i]? = some a) (hp : p a = true)
    (hb : ∀ (j : Nat) (b : α), j < i → l[j]? = some b → p b = false) :
    indexWhere p l = some i := by
  induction l generalizing i with
  | nil => simp at ha
  | cons x xs ih =>
    cases i with
    | zero =>
      simp only [List.getElem?_cons_zero, Option.some.injEq] at ha
      subst ha
      simp [indexWhere, hp]
    | succ i =>
      have hx : p x = false := hb 0 x (Nat.succ_pos i) (by simp)
      simp only [List.getElem?_cons_succ] at ha
      have := ih ha (fun j b hj hjb => hb (j + 1) b (Nat.succ_lt_succ hj) (by simpa using hjb))
      simp [indexWhere, hx, this]

theorem split_of_indexWhere {p : α → Bool} {l : List α} {i : Nat}
    (h : indexWhere p l = some i) :
    ∃ a, l = l.take i ++ a :: l.drop (i + 1) ∧ p a = true ∧ ∀ x ∈ l.take i, p x = false := by
  obtain ⟨a, ha, hpa, _⟩ := indexWhere_eq_some h
  obtain ⟨hlt, hget⟩ := List.getElem?_eq_some.1 ha
  refine ⟨a, ?_, hpa, indexWhere_take h⟩
  rw [← hget, ← List.drop_eq_getElem_cons hlt, List.take_append_drop]

end FirstIndex

section ClaimsDeleteList

open Service Err

/-- C14. `DeleteList id` fails with `ErrListNotFound` exactly when no list has the identifier
and then leaves the service as it was; otherwise it succeeds, and the state after the call is
the state before it with the first list of that identifier taken out of the list sequence,
the other lists kept as they were and in their order, and with the task sequence reduced to
the tasks of other lists, each as it was and in the storage order; the archive, the filter, the
query and the metadata are unchanged. -/
theorem C14_deleteList (s : Service) (id : String) :
    ((s.DeleteList id).1 = .error ErrListNotFound ↔ ∀ l ∈ s.state.Lists, l.ID ≠ id) ∧
    ((s.DeleteList id).1 = .ok () ↔ ∃ l ∈ s.state.Lists, l.ID = id) ∧
    ((s.DeleteList id).1 = .error ErrListNotFound → (s.DeleteList id).2 = s) ∧
    ((s.DeleteList id).1 = .ok () →
      (∃ (before : List TodoList) (l : TodoList) (after : List TodoList),
        s.state.Lists = before ++ l :: after ∧ l.ID = id ∧ (∀ x ∈ before, x.ID ≠ id) ∧
        (s.DeleteList id).2.state =
          { s.state with
            Lists := before ++ after,
            Tasks := s.state.Tasks.filter (fun t => t.ListID != id) }) ∧
      (∀ t ∈ (s.DeleteList id).2.state.Tasks, t.ListID ≠ id) ∧
      (s.DeleteList id).2.state.ArchivedCompleted = s.state.ArchivedCompleted ∧
      (s.DeleteList id).2.state.Filter = s.state.Filter ∧
      (s.DeleteList id).2.state.Query = s.state.Query) := by
  cases hidx : indexWhere (fun l : TodoList => l.ID == id) s.state.Lists with
  | none =>
    have hno : ∀ l ∈ s.state.Lists, l.ID ≠ id := by
      intro l hl
      simpa using (indexWhere_eq_none.1 hidx) l hl
    have h1 : s.DeleteList id = (.error ErrListNotFound, s) := by
      simp only [DeleteList, hidx]
    rw [h1]
    refine ⟨⟨fun _ => hno, fun _ => rfl⟩, ⟨fun h => (by cases h), ?_⟩, fun _ => rfl,
      fun h => (by cases h)⟩
    rintro ⟨l, hl, hid⟩
    exact absurd hid (hno l hl)
  | some i =>
    obtain ⟨a, hsplit, hpa, hpre⟩ := split_of_indexWhere hidx
    have hlt : i < s.state.Lists.length := indexWhere_lt hidx
    have ha : a ∈ s.state.Lists := by
      rw [hsplit]
      simp
    have hida : a.ID = id := by simpa using hpa
    have h1 : s.DeleteList id =
        (.ok (), (s.pushUndo.withLists (s.state.Lists.take i ++ s.state.Lists.drop (i + 1))).withTasks
          (s.state.Tasks.filter (fun t => t.ListID != id))) := by
      simp only [DeleteList, hidx, pushUndo_state, withLists_tasks]
    rw [h1]
    refine ⟨⟨fun h => (by cases h), fun h => absurd hida (h a ha)⟩, ⟨fun _ => ⟨a, ha, hida⟩,
      fun _ => rfl⟩, fun h => (by cases h), fun _ => ⟨?_, ?_, ?_, ?_, ?_⟩⟩
    · refine ⟨s.state.Lists.take i, a, s.state.Lists.drop (i + 1), hsplit, hida, ?_, ?_⟩
      · intro x hx
        simpa using hpre x hx
      · simp [withTasks, withLists]
    · intro t ht
      simp only [withTasks_tasks, List.mem_filter, bne_iff_ne] at ht
      exact ht.2
    · simp [withTasks, withLists]
    · simp [withTasks, withLists]
    · simp [withTasks, withLists]

theorem C14_deleteList_witness :
    (∃ (before : List TodoList) (l : TodoList) (after : List TodoList),
        twoListsService.state.Lists = before ++ l :: after ∧ l.ID = "L1" ∧
        (∀ x ∈ before, x.ID ≠ "L1") ∧
        (twoListsService.DeleteList "L1").2.state =
          { twoListsService.state with
            Lists := before ++ after,
            Tasks := twoListsService.state.Tasks.filter (fun t => t.ListID != "L1") }) ∧
      (∀ t ∈ (twoListsService.DeleteList "L1").2.state.Tasks, t.ListID ≠ "L1") ∧
      (twoListsService.DeleteList "L1").2.state.ArchivedCompleted =
        twoListsService.state.ArchivedCompleted ∧
      (twoListsService.DeleteList "L1").2.state.Filter = twoListsService.state.Filter ∧
      (twoListsService.DeleteList "L1").2.state.Query = twoListsService.state.Query :=
  (C14_deleteList twoListsService "L1").2.2.2 rfl

end ClaimsDeleteList

end TodoCli

namespace TodoCli

section ArchiveFrame

open Service Err

@[simp] theorem withTasks_archive (s : Service) (ts : List Task) :
    (s.withTasks ts).state.ArchivedCompleted = s.state.ArchivedCompleted := rfl

@[simp] theorem withLists_archive (s : Service) (ls : List TodoList) :
    (s.withLists ls).state.ArchivedCompleted = s.state.ArchivedCompleted := rfl

@[simp] theorem normalizePositionsForList_archive (s : Service) (listID : String) :
    (s.normalizePositionsForList listID).state.ArchivedCompleted = s.state.ArchivedCompleted :=
  rfl

theorem archive_CreateList (s : Service) (name color : String) (now : Time) (newID : String) :
    (s.CreateList name color now newID).2.state.ArchivedCompleted =
      s.state.ArchivedCompleted := by
  simp only [CreateList]
  split_ifs <;> simp

theorem archive_UpdateList (s : Service) (id name color : String) (now : Time) :
    (s.UpdateList id name color now).2.state.ArchivedCompleted = s.state.ArchivedCompleted := by
  simp only [UpdateList]
  split_ifs
  · rfl
  · split <;> simp

theorem archive_DeleteList (s : Service) (id : String) :
    (s.DeleteList id).2.state.ArchivedCompleted = s.state.ArchivedCompleted := by
  simp only [DeleteList]
  split <;> simp

theorem archive_moveList (s : Service) (listID : String) (direction : Int) (now : Time) :
    (s.moveList listID direction now).2.state.ArchivedCompleted = s.state.ArchivedCompleted := by
  simp only [moveList]
  split
  · rfl
  · split_ifs <;> simp

theorem archive_CreateTask (s : Service) (listID text : String) (now : Time) (newID : String) :
    (s.CreateTask listID text now newID).2.state.ArchivedCompleted =
      s.state.ArchivedCompleted := by
  simp only [CreateTask]
  split_ifs <;> simp

theorem archive_UpdateTask (s : Service) (id text : String) (now : Time) :
    (s.UpdateTask id text now).2.state.ArchivedCompleted = s.state.ArchivedCompleted := by
  simp only [UpdateTask]
  split_ifs
  · rfl
  · split <;> simp

theorem archive_DeleteTask (s : Service) (id : String) :
    (s.DeleteTask id).2.state.ArchivedCompleted = s.state.ArchivedCompleted := by
  simp only [DeleteTask]
  split <;> simp

theorem archive_ToggleDone (s : Service) (taskID : String) (now : Time) :
    (s.ToggleDone taskID now).2.state.ArchivedCompleted = s.state.ArchivedCompleted := by
  simp only [ToggleDone]
  split
  · rfl
  · split_ifs <;> simp only [normalizePositionsForList_archive, withTasks_archive, pushUndo_state]

theorem archive_SetTaskPriority (s : Service) (taskID : String) (priority : Priority)
    (now : Time) :
    (s.SetTaskPriority taskID priority now).2.state.ArchivedCompleted =
      s.state.ArchivedCompleted := by
  simp only [SetTaskPriority]
  split_ifs
  · rfl
  · split
    · rfl
    · split_ifs <;> simp

theorem archive_moveTask (s : Service) (taskID : String) (direction : Int) (now : Time) :
    (s.moveTask taskID direction now).2.state.ArchivedCompleted = s.state.ArchivedCompleted := by
  simp only [moveTask]
  split
  · rfl
  · split
    · rfl
    · split_ifs <;> simp

theorem archive_DeleteAllTasks (s : Service) (listID : String) :
    (s.DeleteAllTasks listID).2.state.ArchivedCompleted = s.state.ArchivedCompleted := by
  simp only [DeleteAllTasks]
  split_ifs <;> simp

theorem archive_SetSessionContext (s : Service) (activeListID focus : String) :
    (s.SetSessionContext activeListID focus).2.state.ArchivedCompleted =
      s.state.ArchivedCompleted := by
  simp only [SetSessionContext]
  split_ifs <;> rfl

theorem archive_SetFilter (s : Service) (filter : Filter) :
    (s.SetFilter filter).2.state.ArchivedCompleted = s.state.ArchivedCompleted := by
  simp only [SetFilter]
  split_ifs <;> rfl

theorem archive_ClearCompletedToArchive (s : Service) (listID : String) (now : Time)
    (ids : Nat → String) :
    ∃ added, (s.ClearCompletedToArchive listID now ids).2.state.ArchivedCompleted =
      s.state.ArchivedCompleted ++ added := by
  simp only [ClearCompletedToArchive]
  split_ifs
  · exact ⟨[], by simp⟩
  · split
    · exact ⟨[], by simp⟩
    · split_ifs
      · exact ⟨[], by simp⟩
      · next list _ _ =>
        exact ⟨(clearScan (TrimSpace listID) list now ids s.state.Tasks [] []).1, by simp⟩

theorem archive_ArchiveAllToArchive (s : Service) (listID : String) (now : Time)
    (ids : Nat → String) :
    ∃ added, (s.ArchiveAllToArchive listID now ids).2.state.ArchivedCompleted =
      s.state.ArchivedCompleted ++ added := by
  simp only [ArchiveAllToArchive]
  split_ifs
  · exact ⟨[], by simp⟩
  · split
    · exact ⟨[], by simp⟩
    · split_ifs
      · exact ⟨[], by simp⟩
      · next list _ _ =>
        exact ⟨(archiveAllScan (TrimSpace listID) list now ids s.state.Tasks [] []).1, by simp⟩

end ArchiveFrame

end TodoCli

namespace TodoCli

section ClaimsArchive

open Service Err

theorem archive_step (s : Service) (op : Op) (hu : op.isUndo = false) :
    ∃ added : List ArchivedCompletedTask,
      (step s op).2.state.ArchivedCompleted = s.state.ArchivedCompleted ++ added := by
  cases op with
  | createList name color now newID =>
    exact ⟨[], by simp only [step, outcome_snd, archive_CreateList, List.append_nil]⟩
  | updateList id name color now =>
    exact ⟨[], by simp only [step, outcome_snd, archive_UpdateList, List.append_nil]⟩
  | deleteList id =>
    exact ⟨[], by simp only [step, outcome_snd, archive_DeleteList, List.append_nil]⟩
  | moveListUp listID now =>
    exact ⟨[], by simp only [step, outcome_snd, MoveListUp, archive_moveList, List.append_nil]⟩
  | moveListDown listID now =>
    exact ⟨[], by simp only [step, outcome_snd, MoveListDown, archive_moveList, List.append_nil]⟩
  | createTask listID text now newID =>
    exact ⟨[], by simp only [step, outcome_snd, archive_CreateTask, List.append_nil]⟩
  | updateTask id text now =>
    exact ⟨[], by simp only [step, outcome_snd, archive_UpdateTask, List.append_nil]⟩
  | deleteTask id =>
    exact ⟨[], by simp only [step, outcome_snd, archive_DeleteTask, List.append_nil]⟩
  | toggleDone taskID now =>
    exact ⟨[], by simp only [step, outcome_snd, archive_ToggleDone, List.append_nil]⟩
  | setTaskPriority taskID priority now =>
    exact ⟨[], by simp only [step, outcome_snd, archive_SetTaskPriority, List.append_nil]⟩
  | moveTaskUp taskID now =>
    exact ⟨[], by simp only [step, outcome_snd, MoveTaskUp, archive_moveTask, List.append_nil]⟩
  | moveTaskDown taskID now =>
    exact ⟨[], by simp only [step, outcome_snd, MoveTaskDown, archive_moveTask, List.append_nil]⟩
  | clearCompletedToArchive listID now ids =>
    exact archive_ClearCompletedToArchive s listID now ids
  | archiveAllToArchive listID now ids => exact archive_ArchiveAllToArchive s listID now ids
  | deleteAllTasks listID =>
    exact ⟨[], by simp only [step, outcome_snd, archive_DeleteAllTasks, List.append_nil]⟩
  | setSessionContext activeListID focus =>
    exact ⟨[], by simp only [step, outcome_snd, archive_SetSessionContext, List.append_nil]⟩
  | markOnboardingSeen => exact ⟨[], by simp [step, MarkOnboardingSeen]⟩
  | setFilter filter =>
    exact ⟨[], by simp only [step, outcome_snd, archive_SetFilter, List.append_nil]⟩
  | setQuery query => exact ⟨[], by simp [step, SetQuery]⟩
  | undo => simp [Op.isUndo] at hu
  | undoDelete => simp [Op.isUndo] at hu

/-- C18. The archive is append-only: after a call of any operation other than `Undo` and
`UndoDelete`, and hence after any sequence of such calls, the archive sequence is the archive
sequence before followed by the entries added; the entries present before are all there, in
the same places and with the same fields, whatever became of their origin list. -/
theorem C18_archive_append_only (s : Service) :
    (∀ op : Op, op.isUndo = false →
      ∃ added : List ArchivedCompletedTask,
        (step s op).2.state.ArchivedCompleted = s.state.ArchivedCompleted ++ added) ∧
    (∀ ops : List Op, (∀ op ∈ ops, op.isUndo = false) →
      ∃ added : List ArchivedCompletedTask,
        (run s ops).state.ArchivedCompleted = s.state.ArchivedCompleted ++ added) := by
  refine ⟨archive_step s, ?_⟩
  intro ops
  induction ops generalizing s with
  | nil => intro _; exact ⟨[], by simp [run]⟩
  | cons op ops ih =>
    intro h
    obtain ⟨a1, h1⟩ := archive_step s op (h op (List.mem_cons_self _ _))
    obtain ⟨a2, h2⟩ := ih (step s op).2 (fun o ho => h o (List.mem_cons_of_mem _ ho))
    refine ⟨a1 ++ a2, ?_⟩
    simp only [run] at h2 ⊢
    rw [h2, h1, List.append_assoc]

theorem C18_archive_append_only_witness :
    ∃ added : List ArchivedCompletedTask,
      (run (run inboxService inboxChain)
        [.clearCompletedToArchive "L1" 10 (fun _ => "z"), .updateList "L1" "Home" "" 11,
         .archiveAllToArchive "L1" 12 (fun _ => "y"), .deleteList "L1"]).state.ArchivedCompleted
        = (run inboxService inboxChain).state.ArchivedCompleted ++ added :=
  (C18_archive_append_only (run inboxService inboxChain)).2
    [.clearCompletedToArchive "L1" 10 (fun _ => "z"), .updateList "L1" "Home" "" 11,
     .archiveAllToArchive "L1" 12 (fun _ => "y"), .deleteList "L1"] (by decide)

end ClaimsArchive

end TodoCli

namespace TodoCli

section ClaimsBoundary

open Service Err

theorem moveTask_at_rank (s : Service) (taskID : String) (idx r : Nat) (t : Task)
    (hi : indexWhere (fun t => t.ID == taskID) s.state.Tasks = some idx)
    (ht : s.state.Tasks[idx]? = some t)
    (hr : (taskIndexesForList s.state.Tasks t.ListID)[r]? = some idx)
    (huniq : r = 0 ∨ ∀ (j : Nat) (u : Task), s.state.Tasks[j]? = some u → u.ListID = t.ListID →
      u.ID = taskID → j = idx) :
    indexWhere (fun taskIdx => (s.state.Tasks.getD taskIdx default).ID == taskID)
      (taskIndexesForList s.state.Tasks (s.state.Tasks.getD idx default).ListID) = some r := by
  rw [getD_of_getElem? ht]
  obtain ⟨a, ha, hpa, _⟩ := indexWhere_eq_some hi
  rw [ht] at ha
  cases ha
  apply indexWhere_of_first hr
  · show ((s.state.Tasks.getD idx default).ID == taskID) = true
    rw [getD_of_getElem? ht]
    exact hpa
  · intro j b hj hb
    rcases huniq with h0 | hu
    · omega
    · by_contra hc
      have hbm : b ∈ taskIndexesForList s.state.Tasks t.ListID := List.mem_iff_getElem?.2 ⟨j, hb⟩
      obtain ⟨u, hu1, hu2⟩ := mem_taskIndexesForList.1 hbm
      have hid : u.ID = taskID := by
        have : ((s.state.Tasks.getD b default).ID == taskID) = true := by simpa using hc
        rw [getD_of_getElem? hu1] at this
        simpa using this
      have hbi : b = idx := hu b u hu1 hu2 hid
      subst hbi
      have hnd := nodup_taskIndexesForList s.state.Tasks t.ListID
      have hjlt := (List.getElem?_eq_some.1 hb).1
      have hrlt := (List.getElem?_eq_some.1 hr).1
      have e1 := (List.getElem?_eq_some.1 hb).2
      have e2 := (List.getElem?_eq_some.1 hr).2
      have := (List.Nodup.getElem_inj_iff hnd).1 (e1.trans e2.symm)
      omega

/-- C11. Moves at the boundary fail and change nothing: `MoveTaskUp` on the task the service
finds for the identifier, when it is the first of the manual order of its list, fails with
`ErrTaskAlreadyAtTop`; `MoveTaskDown` on that task, when it is the last of the manual order and
no other task of the list carries the same identifier, fails with `ErrTaskAlreadyAtBottom`;
`MoveListUp` on the list found for the identifier, when it is the first list, fails with
`ErrListAlreadyAtTop`, and `MoveListDown` on it, when it is the last list, fails with
`ErrListAlreadyAtBottom`; in each case the service after the call is the service before it. -/
theorem C11_boundary_moves (s : Service) (now : Time) :
    (∀ (taskID : String) (idx : Nat) (t : Task),
      indexWhere (fun t => t.ID == taskID) s.state.Tasks = some idx →
      s.state.Tasks[idx]? = some t →
      (taskIndexesForList s.state.Tasks t.ListID)[0]? = some idx →
      s.MoveTaskUp taskID now = (.error ErrTaskAlreadyAtTop, s)) ∧
    (∀ (taskID : String) (idx : Nat) (t : Task),
      indexWhere (fun t => t.ID == taskID) s.state.Tasks = some idx →
      s.state.Tasks[idx]? = some t →
      (taskIndexesForList s.state.Tasks t.ListID).getLast? = some idx →
      (∀ (j : Nat) (u : Task), s.state.Tasks[j]? = some u → u.ListID = t.ListID →
        u.ID = taskID → j = idx) →
      s.MoveTaskDown taskID now = (.error ErrTaskAlreadyAtBottom, s)) ∧
    (∀ listID : String, indexWhere (fun l => l.ID == listID) s.state.Lists = some 0 →
      s.MoveListUp listID now = (.error ErrListAlreadyAtTop, s)) ∧
    (∀ (listID : String) (i : Nat), indexWhere (fun l => l.ID == listID) s.state.Lists = some i →
      i + 1 = s.state.Lists.length →
      s.MoveListDown listID now = (.error ErrListAlreadyAtBottom, s)) := by
  refine ⟨?_, ?_, ?_, ?_⟩
  · intro taskID idx t hi ht h0
    have hpos := moveTask_at_rank s taskID idx 0 t hi ht h0 (Or.inl rfl)
    simp only [MoveTaskUp, moveTask, hi, hpos]
    simp
  · intro taskID idx t hi ht hlast hu
    have hlen : 0 < (taskIndexesForList s.state.Tasks t.ListID).length := by
      cases hl : taskIndexesForList s.state.Tasks t.ListID with
      | nil => rw [hl] at hlast; simp at hlast
      | cons x xs => simp
    have hr : (taskIndexesForList s.state.Tasks t.ListID)[
        (taskIndexesForList s.state.Tasks t.ListID).length - 1]? = some idx := by
      rw [← hlast, List.getLast?_eq_getElem?]
    have hpos := moveTask_at_rank s taskID idx _ t hi ht hr (Or.inr hu)
    simp only [MoveTaskDown, moveTask, hi, hpos]
    rw [getD_of_getElem? ht]
    have h1 : ¬ (((taskIndexesForList s.state.Tasks t.ListID).length - 1 : Nat) : Int) + 1 < 0 := by
      omega
    have h2 : (((taskIndexesForList s.state.Tasks t.ListID).length - 1 : Nat) : Int) + 1 ≥
        ((taskIndexesForList s.state.Tasks t.ListID).length : Int) := by omega
    rw [if_neg h1, if_pos h2]
  · intro listID hi
    simp only [MoveListUp, moveList, hi]
    simp
  · intro listID i hi hlen
    have h1 : ¬ ((i : Int) + 1 < 0) := by omega
    have h2 : (i : Int) + 1 ≥ (s.state.Lists.length : Int) := by omega
    simp only [MoveListDown, moveList, hi, if_neg h1, if_pos h2]

end ClaimsBoundary

end TodoCli

namespace TodoCli

section ClaimsBoundaryExamples

open Service Err

/-- C11, a state in which the claim fails: the two tasks of the list carry the identifier
`a`; the one the service finds for `a` is the last of the manual order, and `MoveTaskDown`
succeeds on it and reorders the list. -/
theorem C11_counterexample :
    indexWhere (fun t => t.ID == "a") twinService.state.Tasks = some 0 ∧
    twinService.state.Tasks[0]? = some (Task.mk "a" "L1" "X" false 0 2 2 2) ∧
    (taskIndexesForList twinService.state.Tasks "L1").getLast? = some 0 ∧
    (twinService.MoveTaskDown "a" 9).1 = .ok (Task.mk "a" "L1" "X" false 0 1 2 9) ∧
    (twinService.MoveTaskDown "a" 9).2.state.Tasks =
      [Task.mk "a" "L1" "X" false 0 1 2 9, Task.mk "a" "L1" "Y" false 0 2 3 9] :=
  ⟨by decide, by decide, by decide, rfl, by decide⟩

theorem C11_boundary_moves_witness :
    (run inboxService inboxChain).MoveTaskUp "a" 10 =
      (.error ErrTaskAlreadyAtTop, run inboxService inboxChain) ∧
    (run inboxService inboxChain).MoveTaskDown "b" 10 =
      (.error ErrTaskAlreadyAtBottom, run inboxService inboxChain) :=
  ⟨(C11_boundary_moves (run inboxService inboxChain) 10).1 "a" 0
      (Task.mk "a" "L1" "A" false 0 1 6 6) (by decide) (by decide) (by decide),
   (C11_boundary_moves (run inboxService inboxChain) 10).2.1 "b" 1
      (Task.mk "b" "L1" "B" true 0 3 7 9) (by decide) (by decide) (by decide)
      (by
        have hT : (run inboxService inboxChain).state.Tasks =
            [Task.mk "a" "L1" "A" false 0 1 6 6, Task.mk "b" "L1" "B" true 0 3 7 9,
             Task.mk "c" "L1" "C" false 0 2 8 8] := by decide
        intro j u hj _ hid
        rw [hT] at hj
        match j, hj with
        | 0, hj =>
          simp only [List.getElem?_cons_zero, Option.some.injEq] at hj
          subst hj
          exact absurd hid (by decide)
        | 1, _ => rfl
        | 2, hj =>
          simp only [List.getElem?_cons_succ, List.getElem?_cons_zero, Option.some.injEq] at hj
          subst hj
          exact absurd hid (by decide)
        | n + 3, hj => simp at hj)⟩

end ClaimsBoundaryExamples

end TodoCli

namespace TodoCli

section SwapNeighbours

open Service Err

theorem position_eq_rank_of_dense {tasks : List Task} {listID : String}
    (hd : Dense tasks listID) {j : Nat} {a : Task} (hj : tasks[j]? = some a)
    (ha : a.ListID = listID) : a.Position = (rankOf tasks listID j : Int) + 1 := by
  have h1 := position_normalizePositions hj ha
  rw [normalizePositions_of_dense tasks listID hd, hj] at h1
  simp only [Option.some.injEq] at h1
  exact congrArg Task.Position h1

theorem getElem?_rankOf {tasks : List Task} {listID : String} {j : Nat}
    (hj : j ∈ taskIndexesForList tasks listID) :
    (taskIndexesForList tasks listID)[rankOf tasks listID j]? = some j := by
  have hlt := List.indexOf_lt_length.2 hj
  simp only [rankOf]
  rw [List.getElem?_eq_getElem hlt, List.getElem_indexOf hlt]

theorem getElem?_swapPositions (tasks : List Task) (a b : Nat) (now : Time) (t nb : Task)
    (ha : tasks[a]? = some t) (hb : tasks[b]? = some nb) (hab : a ≠ b) (j : Nat) :
    (swapPositions tasks a b now)[j]? =
      if j = a then some { t with Position := nb.Position, UpdatedAt := now }
      else if j = b then some { nb with Position := t.Position, UpdatedAt := now }
      else tasks[j]? := by
  simp only [swapPositions, getElem?_updateAt, getD_of_getElem? ha, getD_of_getElem? hb]
  by_cases hja : j = a
  · subst hja
    simp [hab, ha]
  · by_cases hjb : j = b
    · subst hjb
      simp [hja, hb]
    · simp [hja, hjb]

theorem perm_positionsOf_swapPositions (tasks : List Task) (a b : Nat) (now : Time)
    (t nb : Task) (listID : String)
    (ha : tasks[a]? = some t) (hb : tasks[b]? = some nb) (hab : a ≠ b)
    (hta : t.ListID = listID) (htb : nb.ListID = listID) :
    (positionsOf (swapPositions tasks a b now) listID).Perm (positionsOf tasks listID) := by
  have hmap : (swapPositions tasks a b now).map (·.ListID) = tasks.map (·.ListID) :=
    map_swapPositions _ tasks a b now (fun _ _ => rfl) (fun _ _ => rfl)
  rw [positionsOf_eq_indexes, positionsOf_eq_indexes, indexesWhere_listID_congr hmap]
  have hpos : ∀ j : Nat, ((swapPositions tasks a b now).getD j default).Position =
      (tasks.getD (Equiv.swap a b j) default).Position := by
    intro j
    simp only [List.getD_eq_getElem?_getD, getElem?_swapPositions tasks a b now t nb ha hb hab]
    by_cases hja : j = a
    · subst hja
      simp [hb]
    · by_cases hjb : j = b
      · subst hjb
        simp [hja, ha]
      · simp [hja, hjb, Equiv.swap_apply_of_ne_of_ne hja hjb]
  have hfun : (fun j => ((swapPositions tasks a b now).getD j default).Position) =
      (fun j => (tasks.getD j default).Position) ∘ (Equiv.swap a b) := by
    funext j
    exact hpos j
  rw [hfun, ← List.map_map]
  apply List.Perm.map
  have hnd := nodup_indexesWhere (fun t : Task => t.ListID == listID) tasks 0
  have hma : a ∈ indexesWhere (fun t : Task => t.ListID == listID) tasks 0 :=
    mem_indexesWhere.2 ⟨Nat.zero_le _, t, by simpa using ha, by simpa using hta⟩
  have hmb : b ∈ indexesWhere (fun t : Task => t.ListID == listID) tasks 0 :=
    mem_indexesWhere.2 ⟨Nat.zero_le _, nb, by simpa using hb, by simpa using htb⟩
  rw [List.perm_ext_iff_of_nodup (hnd.map (Equiv.swap a b).injective) hnd]
  intro x
  rw [List.mem_map]
  constructor
  · rintro ⟨j, hj, rfl⟩
    by_cases hja : j = a
    · subst hja
      simpa using hmb
    · by_cases hjb : j = b
      · subst hjb
        simpa using hma
      · rw [Equiv.swap_apply_of_ne_of_ne hja hjb]
        exact hj
  · intro hx
    refine ⟨Equiv.swap a b x, ?_, by simp⟩
    by_cases hja : x = a
    · subst hja
      simpa using hmb
    · by_cases hjb : x = b
      · subst hjb
        simpa using hma
      · rw [Equiv.swap_apply_of_ne_of_ne hja hjb]
        exact hx

theorem dense_swapPositions (tasks : List Task) (a b : Nat) (now : Time)
    (t nb : Task) (listID : String)
    (ha : tasks[a]? = some t) (hb : tasks[b]? = some nb) (hab : a ≠ b)
    (hta : t.ListID = listID) (htb : nb.ListID = listID) (hd : Dense tasks listID) :
    Dense (swapPositions tasks a b now) listID := by
  have hp := perm_positionsOf_swapPositions tasks a b now t nb listID ha hb hab hta htb
  unfold Dense at hd ⊢
  rw [hp.length_eq]
  exact hp.trans hd

end SwapNeighbours

end TodoCli
namespace TodoCli

section MoveTaskSwap

open Service Err

theorem moveTask_swap (s : Service) (taskID : String) (d : Int) (now : Time) (idx k : Nat)
    (t nb : Task)
    (hi : indexWhere (fun t => t.ID == taskID) s.state.Tasks = some idx)
    (ht : s.state.Tasks[idx]? = some t)
    (hd : Dense s.state.Tasks t.ListID)
    (hk : s.state.Tasks[k]? = some nb) (hnl : nb.ListID = t.ListID)
    (hnp : nb.Position = t.Position + d) (hd0 : d ≠ 0)
    (huniq : ∀ (j : Nat) (u : Task), s.state.Tasks[j]? = some u → u.ListID = t.ListID →
      u.ID = taskID → j = idx) :
    s.moveTask taskID d now =
      (.ok { t with Position := nb.Position, UpdatedAt := now },
        s.pushUndo.withTasks (swapPositions s.state.Tasks idx k now)) := by
  have hik : idx ≠ k := by
    rintro rfl
    rw [ht] at hk
    cases hk
    omega
  have hmi : idx ∈ taskIndexesForList s.state.Tasks t.ListID :=
    mem_taskIndexesForList.2 ⟨t, ht, rfl⟩
  have hmk : k ∈ taskIndexesForList s.state.Tasks t.ListID :=
    mem_taskIndexesForList.2 ⟨nb, hk, hnl⟩
  have hri := getElem?_rankOf hmi
  have hrk := getElem?_rankOf hmk
  have hpi := position_eq_rank_of_dense hd ht rfl
  have hpk := position_eq_rank_of_dense hd hk hnl
  have hpos := moveTask_at_rank s taskID idx _ t hi ht hri (Or.inr huniq)
  have hklt := (List.getElem?_eq_some.1 hrk).1
  have htgt : ((rankOf s.state.Tasks t.ListID idx : Nat) : Int) + d =
      ((rankOf s.state.Tasks t.ListID k : Nat) : Int) := by omega
  have h1 : ¬ (((rankOf s.state.Tasks t.ListID idx : Nat) : Int) + d < 0) := by omega
  have h2 : ¬ (((rankOf s.state.Tasks t.ListID idx : Nat) : Int) + d ≥
      ((taskIndexesForList s.state.Tasks t.ListID).length : Int)) := by omega
  have h3 : (((rankOf s.state.Tasks t.ListID idx : Nat) : Int) + d).toNat =
      rankOf s.state.Tasks t.ListID k := by omega
  have hds := dense_swapPositions s.state.Tasks idx k now t nb t.ListID ht hk hik rfl hnl hd
  have hnorm := normalizePositions_of_dense _ _ hds
  have hmapid : (swapPositions s.state.Tasks idx k now).map (·.ID) = s.state.Tasks.map (·.ID) :=
    map_swapPositions _ _ idx k now (fun _ _ => rfl) (fun _ _ => rfl)
  have hi2 : indexWhere (fun t => t.ID == taskID) (swapPositions s.state.Tasks idx k now) =
      some idx := by
    rw [indexWhere_congr_ids hmapid, hi]
  obtain ⟨a, ha1, _, ha3⟩ := indexWhere_eq_some hi2
  rw [getElem?_swapPositions _ idx k now t nb ht hk hik, if_pos rfl] at ha1
  simp only [Option.some.injEq] at ha1
  subst ha1
  simp only [moveTask, hi, hpos]
  rw [getD_of_getElem? ht] at hpos ⊢
  simp only [if_neg h1, if_neg h2, h3, getD_of_getElem? hri, getD_of_getElem? hrk,
    pushUndo_state]
  have hst : (s.pushUndo.withTasks (swapPositions s.state.Tasks idx k now)).normalizePositionsForList
      t.ListID = s.pushUndo.withTasks (swapPositions s.state.Tasks idx k now) := by
    simp only [Service.normalizePositionsForList, withTasks_tasks, hnorm]
    rfl
  rw [hst]
  simp only [withTasks_tasks, ha3]

end MoveTaskSwap

end TodoCli
namespace TodoCli

section ClaimsMoveTask

open Service Err

theorem moveTask_swap_post (s : Service) (taskID : String) (d : Int) (now : Time) (idx k : Nat)
    (t nb : Task)
    (hi : indexWhere (fun t => t.ID == taskID) s.state.Tasks = some idx)
    (ht : s.state.Tasks[idx]? = some t)
    (hd : Dense s.state.Tasks t.ListID)
    (hk : s.state.Tasks[k]? = some nb) (hnl : nb.ListID = t.ListID)
    (hnp : nb.Position = t.Position + d) (hd0 : d ≠ 0)
    (huniq : ∀ (j : Nat) (u : Task), s.state.Tasks[j]? = some u → u.ListID = t.ListID →
      u.ID = taskID → j = idx) :
    (s.moveTask taskID d now).1 = .ok { t with Position := t.Position + d, UpdatedAt := now } ∧
    (s.moveTask taskID d now).2.state.Tasks[idx]? =
      some { t with Position := t.Position + d, UpdatedAt := now } ∧
    (s.moveTask taskID d now).2.state.Tasks[k]? =
      some { nb with Position := t.Position, UpdatedAt := now } ∧
    (∀ j : Nat, j ≠ idx → j ≠ k →
      (s.moveTask taskID d now).2.state.Tasks[j]? = s.state.Tasks[j]?) ∧
    Dense (s.moveTask taskID d now).2.state.Tasks t.ListID ∧
    rankOf (s.moveTask taskID d now).2.state.Tasks t.ListID idx =
      rankOf s.state.Tasks t.ListID k ∧
    rankOf (s.moveTask taskID d now).2.state.Tasks t.ListID k =
      rankOf s.state.Tasks t.ListID idx ∧
    (∀ (j : Nat) (u : Task), j ≠ idx → j ≠ k → s.state.Tasks[j]? = some u →
      u.ListID = t.ListID →
      rankOf (s.moveTask taskID d now).2.state.Tasks t.ListID j =
        rankOf s.state.Tasks t.ListID j) ∧
    (s.moveTask taskID d now).2.state.Lists = s.state.Lists := by
  have hik : idx ≠ k := by
    rintro rfl
    rw [ht] at hk
    cases hk
    omega
  have hki : ¬ k = idx := fun h => hik h.symm
  have hsw := moveTask_swap s taskID d now idx k t nb hi ht hd hk hnl hnp hd0 huniq
  have hds := dense_swapPositions s.state.Tasks idx k now t nb t.ListID ht hk hik rfl hnl hd
  have hget := getElem?_swapPositions s.state.Tasks idx k now t nb ht hk hik
  have hgi := hget idx
  have hgk := hget k
  rw [if_pos rfl] at hgi
  rw [if_neg hki, if_pos rfl] at hgk
  rw [hsw]
  simp only [withTasks_tasks, withTasks_lists, pushUndo_state, ← hnp]
  refine ⟨trivial, hgi, hgk, ?_, hds, ?_, ?_, ?_, trivial⟩
  · intro j h1 h2
    rw [hget j, if_neg h1, if_neg h2]
  · have e1 := position_eq_rank_of_dense hds hgi rfl
    have e2 := position_eq_rank_of_dense hd hk hnl
    simp only at e1
    omega
  · have e1 := position_eq_rank_of_dense hds hgk hnl
    have e2 := position_eq_rank_of_dense hd ht rfl
    simp only at e1
    omega
  · intro j u h1 h2 hj hu
    have hj2 : (swapPositions s.state.Tasks idx k now)[j]? = some u := by
      rw [hget j, if_neg h1, if_neg h2, hj]
    have e1 := position_eq_rank_of_dense hds hj2 hu
    have e2 := position_eq_rank_of_dense hd hj hu
    omega

/-- C12. `MoveTaskDown` and `MoveTaskUp` exchange neighbours: in a state whose list of the
task is dense, for the task `t` the service finds for the identifier, when no other task of
the list of `t` carries that identifier and a task of the list stands at the position next
after (respectively next before) the one of `t`, the call succeeds and returns `t` with the
position of the neighbour and the update time set; after it `t` has the position and the rank
in the manual order the neighbour had, the neighbour has those of `t`, both carry the time of the
call as update time, every other task is as it was, position and rank included, and the list
is dense. -/
theorem C12_moveTask_swaps (s : Service) (taskID : String) (now : Time) (idx k : Nat)
    (t nb : Task)
    (hi : indexWhere (fun t => t.ID == taskID) s.state.Tasks = some idx)
    (ht : s.state.Tasks[idx]? = some t)
    (hd : Dense s.state.Tasks t.ListID)
    (hk : s.state.Tasks[k]? = some nb) (hnl : nb.ListID = t.ListID)
    (huniq : ∀ (j : Nat) (u : Task), s.state.Tasks[j]? = some u → u.ListID = t.ListID →
      u.ID = taskID → j = idx) :
    (nb.Position = t.Position + 1 →
      (s.MoveTaskDown taskID now).1 =
        .ok { t with Position := t.Position + 1, UpdatedAt := now } ∧
      (s.MoveTaskDown taskID now).2.state.Tasks[idx]? =
        some { t with Position := t.Position + 1, UpdatedAt := now } ∧
      (s.MoveTaskDown taskID now).2.state.Tasks[k]? =
        some { nb with Position := t.Position, UpdatedAt := now } ∧
      (∀ j : Nat, j ≠ idx → j ≠ k →
        (s.MoveTaskDown taskID now).2.state.Tasks[j]? = s.state.Tasks[j]?) ∧
      Dense (s.MoveTaskDown taskID now).2.state.Tasks t.ListID ∧
      rankOf (s.MoveTaskDown taskID now).2.state.Tasks t.ListID idx =
        rankOf s.state.Tasks t.ListID k ∧
      rankOf (s.MoveTaskDown taskID now).2.state.Tasks t.ListID k =
        rankOf s.state.Tasks t.ListID idx ∧
      (∀ (j : Nat) (u : Task), j ≠ idx → j ≠ k → s.state.Tasks[j]? = some u →
        u.ListID = t.ListID →
        rankOf (s.MoveTaskDown taskID now).2.state.Tasks t.ListID j =
          rankOf s.state.Tasks t.ListID j) ∧
      (s.MoveTaskDown taskID now).2.state.Lists = s.state.Lists) ∧
    (nb.Position = t.Position + -1 →
      (s.MoveTaskUp taskID now).1 =
        .ok { t with Position := t.Position + -1, UpdatedAt := now } ∧
      (s.MoveTaskUp taskID now).2.state.Tasks[idx]? =
        some { t with Position := t.Position + -1, UpdatedAt := now } ∧
      (s.MoveTaskUp taskID now).2.state.Tasks[k]? =
        some { nb with Position := t.Position, UpdatedAt := now } ∧
      (∀ j : Nat, j ≠ idx → j ≠ k →
        (s.MoveTaskUp taskID now).2.state.Tasks[j]? = s.state.Tasks[j]?) ∧
      Dense (s.MoveTaskUp taskID now).2.state.Tasks t.ListID ∧
      rankOf (s.MoveTaskUp taskID now).2.state.Tasks t.ListID idx =
        rankOf s.state.Tasks t.ListID k ∧
      rankOf (s.MoveTaskUp taskID now).2.state.Tasks t.ListID k =
        rankOf s.state.Tasks t.ListID idx ∧
      (∀ (j : Nat) (u : Task), j ≠ idx → j ≠ k → s.state.Tasks[j]? = some u →
        u.ListID = t.ListID →
        rankOf (s.MoveTaskUp taskID now).2.state.Tasks t.ListID j =
          rankOf s.state.Tasks t.ListID j) ∧
      (s.MoveTaskUp taskID now).2.state.Lists = s.state.Lists) :=
  ⟨fun hnp => moveTask_swap_post s taskID 1 now idx k t nb hi ht hd hk hnl hnp (by decide) huniq,
   fun hnp => moveTask_swap_post s taskID (-1) now idx k t nb hi ht hd hk hnl hnp (by decide)
     huniq⟩

/-- C12, a state in which the claim fails: the list `L1` is dense, the task the service finds
for `a` has position 2 and a neighbour at position 3, and `MoveTaskDown` returns it with
position 1, having exchanged it with the other task of identifier `a`; the neighbour at
position 3 is not touched. -/
theorem C12_counterexample :
    Dense (NewService twinState).state.Tasks "L1" ∧
    indexWhere (fun t => t.ID == "a") (NewService twinState).state.Tasks = some 0 ∧
    (NewService twinState).state.Tasks[0]? = some (Task.mk "a" "L1" "X" false 0 2 2 2) ∧
    (NewService twinState).state.Tasks[2]? = some (Task.mk "b" "L1" "Z" false 0 3 4 4) ∧
    ((NewService twinState).MoveTaskDown "a" 9).1 =
      .ok (Task.mk "a" "L1" "X" false 0 1 2 9) ∧
    ((NewService twinState).MoveTaskDown "a" 9).2.state.Tasks =
      [Task.mk "a" "L1" "X" false 0 1 2 9, Task.mk "a" "L1" "Y" false 0 2 3 9,
       Task.mk "b" "L1" "Z" false 0 3 4 4] :=
  ⟨by decide, by decide, by decide, by decide, rfl, by decide⟩

set_option maxRecDepth 8000 in
theorem C12_moveTask_swaps_witness :
    ((run inboxService inboxChain).MoveTaskDown "a" 10).1 =
        .ok (Task.mk "a" "L1" "A" false 0 (1 + 1) 6 10) ∧
    ((run inboxService inboxChain).MoveTaskDown "a" 10).2.state.Tasks[0]? =
        some (Task.mk "a" "L1" "A" false 0 (1 + 1) 6 10) ∧
    ((run inboxService inboxChain).MoveTaskDown "a" 10).2.state.Tasks[2]? =
        some (Task.mk "c" "L1" "C" false 0 1 8 10) :=
  have h := (C12_moveTask_swaps (run inboxService inboxChain) "a" 10 0 2
    (Task.mk "a" "L1" "A" false 0 1 6 6) (Task.mk "c" "L1" "C" false 0 2 8 8)
    (by decide) (by decide) (by decide) (by decide) (by decide)
    (by
      have hT : (run inboxService inboxChain).state.Tasks =
          [Task.mk "a" "L1" "A" false 0 1 6 6, Task.mk "b" "L1" "B" true 0 3 7 9,
           Task.mk "c" "L1" "C" false 0 2 8 8] := by decide
      intro j u hj _ hid
      rw [hT] at hj
      match j, hj with
      | 0, _ => rfl
      | 1, hj =>
        simp only [List.getElem?_cons_succ, List.getElem?_cons_zero, Option.some.injEq] at hj
        subst hj
        exact absurd hid (by decide)
      | 2, hj =>
        simp only [List.getElem?_cons_succ, List.getElem?_cons_zero, Option.some.injEq] at hj
        subst hj
        exact absurd hid (by decide)
      | n + 3, hj => simp at hj)).1 (by decide)
  ⟨h.1, h.2.1, h.2.2.1⟩

end ClaimsMoveTask

end TodoCli

namespace TodoCli

section ArchiveScans

open Service Err

theorem GetList_ok {s : Service} {id : String} {l : TodoList} (h : s.GetList id = .ok l) :
    l ∈ s.state.Lists ∧ l.ID = id := by
  simp only [GetList] at h
  split at h
  · next l0 hl =>
    cases h
    exact ⟨List.mem_of_find?_eq_some hl, by simpa using List.find?_some hl⟩
  · cases h

theorem GetList_error {s : Service} {id : String} {e : Err} (h : s.GetList id = .error e) :
    e = ErrListNotFound ∧ ∀ l ∈ s.state.Lists, l.ID ≠ id := by
  simp only [GetList] at h
  split at h
  · cases h
  · next hl =>
    cases h
    refine ⟨rfl, ?_⟩
    intro l hl2
    simpa using (List.find?_eq_none.1 hl) l hl2

theorem GetList_of_mem {s : Service} {id : String} {l : TodoList} (hl : l ∈ s.state.Lists)
    (hid : l.ID = id) : ∃ l0, s.GetList id = .ok l0 := by
  cases h : s.GetList id with
  | ok l0 => exact ⟨l0, rfl⟩
  | error e => exact absurd hid ((GetList_error h).2 l hl)

theorem clearScan_fst_length (listID : String) (list : TodoList) (now : Time)
    (ids : Nat → String) (ts : List Task) (toArchive : List ArchivedCompletedTask)
    (kept : List Task) :
    (clearScan listID list now ids ts toArchive kept).1.length =
      toArchive.length + (ts.filter (fun t => t.ListID == listID && t.Done)).length := by
  induction ts generalizing toArchive kept with
  | nil => simp [clearScan]
  | cons t ts ih =>
    by_cases hp : t.ListID = listID ∧ t.Done = true
    · have hp2 : (t.ListID == listID && t.Done) = true := by simp [hp.1, hp.2]
      simp only [clearScan, if_pos hp, ih, List.filter_cons, hp2, if_true, List.length_append,
        List.length_singleton, List.length_cons, List.length_nil]
      omega
    · have hp2 : (t.ListID == listID && t.Done) = false := by
        simpa using hp
      simp only [clearScan, if_neg hp, ih, List.filter_cons, hp2, Bool.false_eq_true, if_false]

theorem clearScan_fst_getElem? (listID : String) (list : TodoList) (now : Time)
    (ids : Nat → String) (ts : List Task) (toArchive : List ArchivedCompletedTask)
    (kept : List Task) (i : Nat) :
    (clearScan listID list now ids ts toArchive kept).1[i]? =
      if i < toArchive.length then toArchive[i]?
      else ((ts.filter (fun t => t.ListID == listID && t.Done))[i - toArchive.length]?).map
        (fun t => archiveEntry list t (if t.UpdatedAt = 0 then now else t.UpdatedAt) now
          (ids i)) := by
  induction ts generalizing toArchive kept with
  | nil =>
    simp only [clearScan, List.filter_nil, List.getElem?_nil, Option.map_none']
    split_ifs with h
    · rfl
    · exact List.getElem?_eq_none (by omega)
  | cons t ts ih =>
    by_cases hp : t.ListID = listID ∧ t.Done = true
    · have hp2 : (t.ListID == listID && t.Done) = true := by simp [hp.1, hp.2]
      simp only [clearScan, if_pos hp, ih, List.filter_cons, hp2, if_true, List.length_append,
        List.length_singleton]
      by_cases h1 : i < toArchive.length
      · rw [if_pos (by omega), if_pos h1, List.getElem?_append_left h1]
      · by_cases h2 : i = toArchive.length
        · subst h2
          rw [if_pos (by omega), if_neg h1, List.getElem?_append_right (le_refl _)]
          simp
        · rw [if_neg (by omega), if_neg h1]
          have : i - toArchive.length = (i - (toArchive.length + 1)) + 1 := by omega
          rw [this, List.getElem?_cons_succ]
    · have hp2 : (t.ListID == listID && t.Done) = false := by
        simpa using hp
      simp only [clearScan, if_neg hp, ih, List.filter_cons, hp2, Bool.false_eq_true, if_false]

theorem archiveAllScan_fst_length (listID : String) (list : TodoList) (now : Time)
    (ids : Nat → String) (ts : List Task) (toArchive : List ArchivedCompletedTask)
    (kept : List Task) :
    (archiveAllScan listID list now ids ts toArchive kept).1.length =
      toArchive.length + (ts.filter (fun t => t.ListID == listID)).length := by
  induction ts generalizing toArchive kept with
  | nil => simp [archiveAllScan]
  | cons t ts ih =>
    by_cases hp : t.ListID = listID
    · have hp2 : (t.ListID == listID) = true := by simp [hp]
      simp only [archiveAllScan, if_pos hp, ih, List.filter_cons, hp2, if_true,
        List.length_append, List.length_singleton, List.length_cons, List.length_nil]
      omega
    · have hp2 : (t.ListID == listID) = false := by
        simpa using hp
      simp only [archiveAllScan, if_neg hp, ih, List.filter_cons, hp2, Bool.false_eq_true,
        if_false]

theorem archiveAllScan_fst_getElem? (listID : String) (list : TodoList) (now : Time)
    (ids : Nat → String) (ts : List Task) (toArchive : List ArchivedCompletedTask)
    (kept : List Task) (i : Nat) :
    (archiveAllScan listID list now ids ts toArchive kept).1[i]? =
      if i < toArchive.length then toArchive[i]?
      else ((ts.filter (fun t => t.ListID == listID))[i - toArchive.length]?).map
        (fun t => archiveEntry list t
          (if t.UpdatedAt = 0 ∨ t.Done = false then now else t.UpdatedAt) now (ids i)) := by
  induction ts generalizing toArchive kept with
  | nil =>
    simp only [archiveAllScan, List.filter_nil, List.getElem?_nil, Option.map_none']
    split_ifs with h
    · rfl
    · exact List.getElem?_eq_none (by omega)
  | cons t ts ih =>
    by_cases hp : t.ListID = listID
    · have hp2 : (t.ListID == listID) = true := by simp [hp]
      simp only [archiveAllScan, if_pos hp, ih, List.filter_cons, hp2, if_true,
        List.length_append, List.length_singleton]
      by_cases h1 : i < toArchive.length
      · rw [if_pos (by omega), if_pos h1, List.getElem?_append_left h1]
      · by_cases h2 : i = toArchive.length
        · subst h2
          rw [if_pos (by omega), if_neg h1, List.getElem?_append_right (le_refl _)]
          simp
        · rw [if_neg (by omega), if_neg h1]
          have : i - toArchive.length = (i - (toArchive.length + 1)) + 1 := by omega
          rw [this, List.getElem?_cons_succ]
    · have hp2 : (t.ListID == listID) = false := by
        simpa using hp
      simp only [archiveAllScan, if_neg hp, ih, List.filter_cons, hp2, Bool.false_eq_true,
        if_false]

end ArchiveScans

end TodoCli
namespace TodoCli

section ClearCompleted

open Service Err

theorem ClearCompletedToArchive_ok (s : Service) (listID : String) (now : Time)
    (ids : Nat → String) (list : TodoList)
    (hL : TrimSpace listID ≠ "") (hg : s.GetList (TrimSpace listID) = .ok list)
    (hne : (s.state.Tasks.filter (fun t => t.ListID == TrimSpace listID && t.Done)) ≠ []) :
    s.ClearCompletedToArchive listID now ids =
      (.ok ((s.state.Tasks.filter (fun t => t.ListID == TrimSpace listID && t.Done)).length : Int),
        { state := { s.state with
            Tasks := normalizePositions
              (s.state.Tasks.filter (fun t => !(t.ListID == TrimSpace listID && t.Done)))
              (TrimSpace listID),
            ArchivedCompleted := s.state.ArchivedCompleted ++
              (clearScan (TrimSpace listID) list now ids s.state.Tasks [] []).1 },
          undo := s.pushUndo.undo }) := by
  have hlen := clearScan_fst_length (TrimSpace listID) list now ids s.state.Tasks [] []
  simp only [List.length_nil, Nat.zero_add] at hlen
  have hne2 : ¬ (clearScan (TrimSpace listID) list now ids s.state.Tasks [] []).1.length = 0 := by
    rw [hlen]
    exact fun h => hne (List.length_eq_zero.1 h)
  simp only [ClearCompletedToArchive, if_neg hL, hg, if_neg hne2, clearScan_kept,
    List.nil_append]
  simp only [hlen, Service.normalizePositionsForList, withTasks, pushUndo_state]

theorem ClearCompletedToArchive_none (s : Service) (listID : String) (now : Time)
    (ids : Nat → String) (list : TodoList)
    (hL : TrimSpace listID ≠ "") (hg : s.GetList (TrimSpace listID) = .ok list)
    (hne : (s.state.Tasks.filter (fun t => t.ListID == TrimSpace listID && t.Done)) = []) :
    s.ClearCompletedToArchive listID now ids = (.error ErrNoCompletedToClear, s) := by
  have hlen := clearScan_fst_length (TrimSpace listID) list now ids s.state.Tasks [] []
  simp only [List.length_nil, Nat.zero_add, hne] at hlen
  simp only [ClearCompletedToArchive, if_neg hL, hg, if_pos hlen]

theorem order_normalizePositions (K : List Task) (L : String) (j k : Nat) (a b : Task)
    (hj : K[j]? = some a) (hk : K[k]? = some b) (ha : a.ListID = L) (hb : b.ListID = L)
    (hlt : a.Position < b.Position) :
    ∃ a1 b1 : Task, (normalizePositions K L)[j]? = some a1 ∧
      (normalizePositions K L)[k]? = some b1 ∧ a1.Position < b1.Position := by
  refine ⟨_, _, position_normalizePositions hj ha, position_normalizePositions hk hb, ?_⟩
  have := rankOf_lt_of_position_lt hj hk ha hb hlt
  simp only
  omega

end ClearCompleted

end TodoCli
namespace TodoCli

section ClaimsClearCompleted

open Service Err

/-- C16. `ClearCompletedToArchive` on an argument that, trimmed, is not empty and is the
identifier of a list `L`: when `L` has `k ≥ 1` done tasks the call returns `k`; the tasks after
it are the tasks before without the done tasks of `L`, in the storage order and with their
fields, positions apart; the tasks of other lists keep their positions too; the tasks left in
`L` are numbered `1..N` and a task that was before another of `L` is still before it; the
archive is the archive before followed by `k` entries, the one of rank `i` made from the
`i`-th done task of `L` in storage order, with its text and priority, the identifier and the
name of `L`, the update time of the task as completion time, or the time of the call when that
is the zero time, and the time of the call as archival time. The call fails with
`ErrNoCompletedToClear` exactly when the trimmed argument is not empty, is the identifier of
a list, and no task of that list is done. -/
theorem C16_clearCompletedToArchive (s : Service) (listID : String) (now : Time)
    (ids : Nat → String) :
    ((s.ClearCompletedToArchive listID now ids).1 = .error ErrNoCompletedToClear ↔
      (TrimSpace listID ≠ "" ∧ (∃ l ∈ s.state.Lists, l.ID = TrimSpace listID) ∧
        ∀ t ∈ s.state.Tasks, t.ListID = TrimSpace listID → t.Done = false)) ∧
    (∀ list : TodoList, TrimSpace listID ≠ "" → s.GetList (TrimSpace listID) = .ok list →
      s.state.Tasks.filter (fun t => t.ListID == TrimSpace listID && t.Done) ≠ [] →
      (s.ClearCompletedToArchive listID now ids).1 =
        .ok ((s.state.Tasks.filter
          (fun t => t.ListID == TrimSpace listID && t.Done)).length : Int) ∧
      (s.ClearCompletedToArchive listID now ids).2.state.Tasks.map withoutPosition =
        (s.state.Tasks.filter
          (fun t => !(t.ListID == TrimSpace listID && t.Done))).map withoutPosition ∧
      (∀ other : String, other ≠ TrimSpace listID →
        (s.ClearCompletedToArchive listID now ids).2.state.Tasks.filter
            (fun t => t.ListID == other) =
          s.state.Tasks.filter (fun t => t.ListID == other)) ∧
      Dense (s.ClearCompletedToArchive listID now ids).2.state.Tasks (TrimSpace listID) ∧
      (∀ (j k : Nat) (a b : Task),
        (s.state.Tasks.filter
          (fun t => !(t.ListID == TrimSpace listID && t.Done)))[j]? = some a →
        (s.state.Tasks.filter
          (fun t => !(t.ListID == TrimSpace listID && t.Done)))[k]? = some b →
        a.ListID = TrimSpace listID → b.ListID = TrimSpace listID → a.Position < b.Position →
        ∃ a1 b1 : Task,
          (s.ClearCompletedToArchive listID now ids).2.state.Tasks[j]? = some a1 ∧
          (s.ClearCompletedToArchive listID now ids).2.state.Tasks[k]? = some b1 ∧
          a1.Position < b1.Position) ∧
      (∃ added : List ArchivedCompletedTask,
        (s.ClearCompletedToArchive listID now ids).2.state.ArchivedCompleted =
          s.state.ArchivedCompleted ++ added ∧
        added.length =
          (s.state.Tasks.filter (fun t => t.ListID == TrimSpace listID && t.Done)).length ∧
        ∀ (i : Nat) (t : Task),
          (s.state.Tasks.filter
            (fun t => t.ListID == TrimSpace listID && t.Done))[i]? = some t →
          added[i]? = some
            { ID := ids i, TaskText := t.Text, OriginListID := TrimSpace listID,
              OriginList := list.Name, Priority := t.Priority,
              DoneAt := if t.UpdatedAt = 0 then now else t.UpdatedAt, ArchivedAt := now }) ∧
      (s.ClearCompletedToArchive listID now ids).2.state.Lists = s.state.Lists) := by
  have hfilter : s.state.Tasks.filter (fun t => t.ListID == TrimSpace listID && t.Done) = [] ↔
      ∀ t ∈ s.state.Tasks, t.ListID = TrimSpace listID → t.Done = false := by
    simp [List.filter_eq_nil_iff]
  constructor
  · constructor
    · intro h
      by_cases hL : TrimSpace listID = ""
      · simp only [ClearCompletedToArchive, if_pos hL] at h
        cases h
      · cases hg : s.GetList (TrimSpace listID) with
        | error e =>
          simp only [ClearCompletedToArchive, if_neg hL, hg] at h
          have := (GetList_error hg).1
          subst this
          cases h
        | ok list =>
          obtain ⟨hm, hid⟩ := GetList_ok hg
          refine ⟨hL, ⟨list, hm, hid⟩, ?_⟩
          rw [← hfilter]
          by_contra hne
          rw [ClearCompletedToArchive_ok s listID now ids list hL hg hne] at h
          cases h
    · rintro ⟨hL, ⟨l, hl, hid⟩, hno⟩
      obtain ⟨list, hg⟩ := GetList_of_mem hl hid
      rw [ClearCompletedToArchive_none s listID now ids list hL hg (hfilter.2 hno)]
  · intro list hL hg hne
    obtain ⟨_, hid⟩ := GetList_ok hg
    rw [ClearCompletedToArchive_ok s listID now ids list hL hg hne]
    refine ⟨rfl, ?_, ?_, ?_, ?_, ?_, rfl⟩
    · exact map_normalizePositions _ _ _ (fun _ _ => rfl)
    · intro other hne2
      show (normalizePositions _ _).filter _ = _
      rw [filter_normalizePositions_of_ne _ hne2]
      apply filter_filter_of_imp
      intro t _ ht
      have : ¬ t.ListID = TrimSpace listID := by
        have : t.ListID = other := by simpa using ht
        rw [this]
        exact hne2
      simp [this]
    · exact dense_normalizePositions _ _
    · intro j k a b hj hk ha hb hlt
      exact order_normalizePositions _ _ j k a b hj hk ha hb hlt
    · refine ⟨(clearScan (TrimSpace listID) list now ids s.state.Tasks [] []).1, rfl, ?_, ?_⟩
      · rw [clearScan_fst_length]
        simp
      · intro i t hit
        rw [clearScan_fst_getElem?]
        simp only [List.length_nil, Nat.not_lt_zero, if_false, Nat.sub_zero, hit,
          Option.map_some', archiveEntry, hid]

theorem C16_clearCompletedToArchive_witness :
    ((run inboxService inboxChain).ClearCompletedToArchive " L1 " 10 (fun _ => "z")).1 =
        .ok 1 ∧
    ((run inboxService inboxChain).ClearCompletedToArchive " L1 " 10
        (fun _ => "z")).2.state.ArchivedCompleted =
      [ArchivedCompletedTask.mk "z" "B" "L1" "Inbox" 0 9 10] ∧
    ((run inboxService inboxChain).ClearCompletedToArchive " L1 " 10
        (fun _ => "z")).2.state.Tasks =
      [Task.mk "a" "L1" "A" false 0 1 6 6, Task.mk "c" "L1" "C" false 0 2 8 8] ∧
    Dense ((run inboxService inboxChain).ClearCompletedToArchive " L1 " 10
        (fun _ => "z")).2.state.Tasks (TrimSpace " L1 ") :=
  ⟨((C16_clearCompletedToArchive (run inboxService inboxChain) " L1 " 10 (fun _ => "z")).2
      (TodoList.mk "L1" "Inbox" "" 5 5) (by decide) rfl (by decide)).1,
   by decide, by decide,
   ((C16_clearCompletedToArchive (run inboxService inboxChain) " L1 " 10 (fun _ => "z")).2
      (TodoList.mk "L1" "Inbox" "" 5 5) (by decide) rfl (by decide)).2.2.2.1⟩

end ClaimsClearCompleted

end TodoCli

namespace TodoCli

section ClaimsArchiveAll

open Service Err

theorem normalizePositions_of_absent (K : List Task) (L : String)
    (h : ∀ t ∈ K, t.ListID ≠ L) : normalizePositions K L = K := by
  apply normalizePositions_of_dense
  apply dense_of_positionsOf_nil
  simp only [positionsOf, List.map_eq_nil_iff, List.filter_eq_nil_iff]
  intro t ht
  simpa using h t ht

theorem ArchiveAllToArchive_ok (s : Service) (listID : String) (now : Time)
    (ids : Nat → String) (list : TodoList)
    (hL : TrimSpace listID ≠ "") (hg : s.GetList (TrimSpace listID) = .ok list)
    (hne : (s.state.Tasks.filter (fun t => t.ListID == TrimSpace listID)) ≠ []) :
    s.ArchiveAllToArchive listID now ids =
      (.ok ((s.state.Tasks.filter (fun t => t.ListID == TrimSpace listID)).length : Int),
        { state := { s.state with
            Tasks := s.state.Tasks.filter (fun t => t.ListID != TrimSpace listID),
            ArchivedCompleted := s.state.ArchivedCompleted ++
              (archiveAllScan (TrimSpace listID) list now ids s.state.Tasks [] []).1 },
          undo := s.pushUndo.undo }) := by
  have hlen := archiveAllScan_fst_length (TrimSpace listID) list now ids s.state.Tasks [] []
  simp only [List.length_nil, Nat.zero_add] at hlen
  have hne2 : ¬ (archiveAllScan (TrimSpace listID) list now ids s.state.Tasks [] []).1.length
      = 0 := by
    rw [hlen]
    exact fun h => hne (List.length_eq_zero.1 h)
  have hnorm : normalizePositions (s.state.Tasks.filter (fun t => t.ListID != TrimSpace listID))
      (TrimSpace listID) = s.state.Tasks.filter (fun t => t.ListID != TrimSpace listID) := by
    apply normalizePositions_of_absent
    intro t ht
    simpa using (List.mem_filter.1 ht).2
  simp only [ArchiveAllToArchive, if_neg hL, hg, if_neg hne2, archiveAllScan_kept,
    List.nil_append]
  simp only [hlen, Service.normalizePositionsForList, withTasks, pushUndo_state, hnorm]

theorem ArchiveAllToArchive_none (s : Service) (listID : String) (now : Time)
    (ids : Nat → String) (list : TodoList)
    (hL : TrimSpace listID ≠ "") (hg : s.GetList (TrimSpace listID) = .ok list)
    (hne : (s.state.Tasks.filter (fun t => t.ListID == TrimSpace listID)) = []) :
    s.ArchiveAllToArchive listID now ids = (.error ErrNoTasksInList, s) := by
  have hlen := archiveAllScan_fst_length (TrimSpace listID) list now ids s.state.Tasks [] []
  simp only [List.length_nil, Nat.zero_add, hne] at hlen
  simp only [ArchiveAllToArchive, if_neg hL, hg, if_pos hlen]

/-- C17. `ArchiveAllToArchive` on an argument that, trimmed, is not empty and is the
identifier of a list `L` with `n ≥ 1` tasks returns `n`; after it no task has the list `L` and
the tasks of the other lists are as before, in the storage order; the archive is the archive
before followed by `n` entries, the one of rank `i` made from the `i`-th task of `L` in
storage order, with its text and priority, the identifier and the name of `L` and the time of
the call as archival time; its completion time is the time of the call when the task was not
done or had the zero update time, and the update time of the task when it was done with
another update time. The call fails with `ErrNoTasksInList` exactly when the trimmed
argument is not empty, is the identifier of a list, and no task has that list. -/
theorem C17_archiveAllToArchive (s : Service) (listID : String) (now : Time)
    (ids : Nat → String) :
    ((s.ArchiveAllToArchive listID now ids).1 = .error ErrNoTasksInList ↔
      (TrimSpace listID ≠ "" ∧ (∃ l ∈ s.state.Lists, l.ID = TrimSpace listID) ∧
        ∀ t ∈ s.state.Tasks, t.ListID ≠ TrimSpace listID)) ∧
    (∀ list : TodoList, TrimSpace listID ≠ "" → s.GetList (TrimSpace listID) = .ok list →
      s.state.Tasks.filter (fun t => t.ListID == TrimSpace listID) ≠ [] →
      (s.ArchiveAllToArchive listID now ids).1 =
        .ok ((s.state.Tasks.filter (fun t => t.ListID == TrimSpace listID)).length : Int) ∧
      (∀ t ∈ (s.ArchiveAllToArchive listID now ids).2.state.Tasks,
        t.ListID ≠ TrimSpace listID) ∧
      (s.ArchiveAllToArchive listID now ids).2.state.Tasks =
        s.state.Tasks.filter (fun t => t.ListID != TrimSpace listID) ∧
      (∃ added : List ArchivedCompletedTask,
        (s.ArchiveAllToArchive listID now ids).2.state.ArchivedCompleted =
          s.state.ArchivedCompleted ++ added ∧
        added.length = (s.state.Tasks.filter (fun t => t.ListID == TrimSpace listID)).length ∧
        ∀ (i : Nat) (t : Task),
          (s.state.Tasks.filter (fun t => t.ListID == TrimSpace listID))[i]? = some t →
          ∃ e : ArchivedCompletedTask, added[i]? = some e ∧
            e.ID = ids i ∧ e.TaskText = t.Text ∧ e.Priority = t.Priority ∧
            e.OriginListID = TrimSpace listID ∧ e.OriginList = list.Name ∧
            e.ArchivedAt = now ∧
            (t.Done = false → e.DoneAt = now) ∧
            (t.Done = true → t.UpdatedAt ≠ 0 → e.DoneAt = t.UpdatedAt) ∧
            (t.UpdatedAt = 0 → e.DoneAt = now)) ∧
      (s.ArchiveAllToArchive listID now ids).2.state.Lists = s.state.Lists) := by
  have hfilter : s.state.Tasks.filter (fun t => t.ListID == TrimSpace listID) = [] ↔
      ∀ t ∈ s.state.Tasks, t.ListID ≠ TrimSpace listID := by
    simp [List.filter_eq_nil_iff]
  constructor
  · constructor
    · intro h
      by_cases hL : TrimSpace listID = ""
      · simp only [ArchiveAllToArchive, if_pos hL] at h
        cases h
      · cases hg : s.GetList (TrimSpace listID) with
        | error e =>
          simp only [ArchiveAllToArchive, if_neg hL, hg] at h
          have := (GetList_error hg).1
          subst this
          cases h
        | ok list =>
          obtain ⟨hm, hid⟩ := GetList_ok hg
          refine ⟨hL, ⟨list, hm, hid⟩, ?_⟩
          rw [← hfilter]
          by_contra hne
          rw [ArchiveAllToArchive_ok s listID now ids list hL hg hne] at h
          cases h
    · rintro ⟨hL, ⟨l, hl, hid⟩, hno⟩
      obtain ⟨list, hg⟩ := GetList_of_mem hl hid
      rw [ArchiveAllToArchive_none s listID now ids list hL hg (hfilter.2 hno)]
  · intro list hL hg hne
    obtain ⟨_, hid⟩ := GetList_ok hg
    rw [ArchiveAllToArchive_ok s listID now ids list hL hg hne]
    refine ⟨rfl, ?_, rfl, ?_, rfl⟩
    · intro t ht
      simpa using (List.mem_filter.1 ht).2
    · refine ⟨(archiveAllScan (TrimSpace listID) list now ids s.state.Tasks [] []).1, rfl, ?_, ?_⟩
      · rw [archiveAllScan_fst_length]
        simp
      · intro i t hit
        refine ⟨archiveEntry list t
          (if t.UpdatedAt = 0 ∨ t.Done = false then now else t.UpdatedAt) now (ids i), ?_,
          rfl, rfl, rfl, hid, rfl, rfl, ?_, ?_, ?_⟩
        · rw [archiveAllScan_fst_getElem?]
          simp only [List.length_nil, Nat.not_lt_zero, if_false, Nat.sub_zero, hit,
            Option.map_some']
        · intro hd
          simp [archiveEntry, hd]
        · intro hd hu
          simp [archiveEntry, hd, hu]
        · intro hu
          simp [archiveEntry, hu]

theorem C17_archiveAllToArchive_witness :
    ((run inboxService inboxChain).ArchiveAllToArchive "L1" 10 (fun _ => "z")).1 = .ok 3 ∧
    ((run inboxService inboxChain).ArchiveAllToArchive "L1" 10
        (fun _ => "z")).2.state.ArchivedCompleted =
      [ArchivedCompletedTask.mk "z" "A" "L1" "Inbox" 0 10 10,
       ArchivedCompletedTask.mk "z" "B" "L1" "Inbox" 0 9 10,
       ArchivedCompletedTask.mk "z" "C" "L1" "Inbox" 0 10 10] ∧
    ((run inboxService inboxChain).ArchiveAllToArchive "L1" 10 (fun _ => "z")).2.state.Tasks =
      (run inboxService inboxChain).state.Tasks.filter (fun t => t.ListID != TrimSpace "L1") :=
  ⟨((C17_archiveAllToArchive (run inboxService inboxChain) "L1" 10 (fun _ => "z")).2
      (TodoList.mk "L1" "Inbox" "" 5 5) (by decide) rfl (by decide)).1,
   by decide,
   ((C17_archiveAllToArchive (run inboxService inboxChain) "L1" 10 (fun _ => "z")).2
      (TodoList.mk "L1" "Inbox" "" 5 5) (by decide) rfl (by decide)).2.2.1⟩

end ClaimsArchiveAll

end TodoCli

namespace TodoCli

section ReadSide

open Service Err

theorem startsWith_iff (l sub : List Char) :
    startsWith l sub = true ↔ ∃ post, l = sub ++ post := by
  induction l generalizing sub with
  | nil =>
    cases sub with
    | nil => simp [startsWith]
    | cons d ds => simp [startsWith]
  | cons c cs ih =>
    cases sub with
    | nil => simp [startsWith]
    | cons d ds =>
      simp only [startsWith, Bool.and_eq_true, beq_iff_eq, ih, List.cons_append,
        List.cons.injEq]
      constructor
      · rintro ⟨h1, post, h2⟩
        exact ⟨post, h1, h2⟩
      · rintro ⟨post, h1, h2⟩
        exact ⟨h1, post, h2⟩

theorem containsChars_iff (l sub : List Char) :
    containsChars l sub = true ↔ ∃ pre post, l = pre ++ sub ++ post := by
  induction l with
  | nil =>
    simp only [containsChars, startsWith_iff]
    constructor
    · rintro ⟨post, h⟩
      exact ⟨[], post, by simpa using h⟩
    · rintro ⟨pre, post, h⟩
      have h1 := congrArg List.length h
      simp only [List.length_nil, List.length_append] at h1
      have hp : pre = [] := List.length_eq_zero.1 (by omega)
      subst hp
      exact ⟨post, by simpa using h⟩
  | cons c cs ih =>
    simp only [containsChars, Bool.or_eq_true, startsWith_iff, ih]
    constructor
    · rintro (⟨post, h⟩ | ⟨pre, post, h⟩)
      · exact ⟨[], post, by simpa using h⟩
      · exact ⟨c :: pre, post, by simp [h]⟩
    · rintro ⟨pre, post, h⟩
      cases pre with
      | nil => exact Or.inl ⟨post, by simpa using h⟩
      | cons p pre =>
        simp only [List.cons_append, List.cons.injEq] at h
        exact Or.inr ⟨pre, post, h.2⟩

theorem sortTasksLess_iff (a b : Task) :
    sortTasksLess "" a b = true ↔
      a.ListID < b.ListID ∨ (a.ListID = b.ListID ∧
        (a.Position < b.Position ∨ (a.Position = b.Position ∧ a.ID < b.ID))) := by
  simp only [sortTasksLess, true_and]
  by_cases h1 : a.ListID = b.ListID
  · have hn : ¬ a.ListID < b.ListID := by rw [h1]; exact lt_irrefl _
    by_cases h2 : a.Position = b.Position
    · simp [h1, h2]
    · simp only [ne_eq, h1, not_true_eq_false, if_false, h2, not_false_eq_true, if_true,
        decide_eq_true_eq, true_and, false_and, or_false]
      constructor
      · exact fun h => Or.inr h
      · rintro (h | h)
        · exact absurd h (lt_irrefl _)
        · exact h
  · simp only [ne_eq, h1, not_false_eq_true, if_true, decide_eq_true_eq, false_and, or_false]

theorem sortTasksLess_false_iff (a b : Task) :
    sortTasksLess "" b a = false ↔
      a.ListID < b.ListID ∨ (a.ListID = b.ListID ∧
        (a.Position < b.Position ∨ (a.Position = b.Position ∧ a.ID ≤ b.ID))) := by
  rw [← Bool.not_eq_true, sortTasksLess_iff]
  constructor
  · intro h
    rcases lt_trichotomy a.ListID b.ListID with h1 | h1 | h1
    · exact Or.inl h1
    · right
      refine ⟨h1, ?_⟩
      rcases lt_trichotomy a.Position b.Position with h2 | h2 | h2
      · exact Or.inl h2
      · right
        refine ⟨h2, ?_⟩
        by_contra h3
        exact h (Or.inr ⟨h1.symm, Or.inr ⟨h2.symm, not_le.1 h3⟩⟩)
      · exact absurd (Or.inr ⟨h1.symm, Or.inl h2⟩) h
    · exact absurd (Or.inl h1) h
  · rintro (h1 | ⟨h1, h2⟩) (h3 | ⟨h3, h4⟩)
    · exact lt_asymm h1 h3
    · rw [h3] at h1
      exact lt_irrefl _ h1
    · rw [h1] at h3
      exact lt_irrefl _ h3
    · rcases h2 with h2 | ⟨h2, h5⟩ <;> rcases h4 with h4 | ⟨h4, h6⟩
      · omega
      · omega
      · omega
      · exact absurd h5 (not_le.2 h6)

theorem sorted_sortTasks (tasks : List Task) :
    (sortTasks tasks "").Pairwise (fun a b => sortTasksLess "" b a = false) := by
  haveI : IsTotal Task (fun a b => sortTasksLess "" b a = false) := by
    constructor
    intro a b
    simp only [sortTasksLess_false_iff]
    rcases lt_trichotomy a.ListID b.ListID with h1 | h1 | h1
    · exact Or.inl (Or.inl h1)
    · rcases lt_trichotomy a.Position b.Position with h2 | h2 | h2
      · exact Or.inl (Or.inr ⟨h1, Or.inl h2⟩)
      · rcases le_total a.ID b.ID with h3 | h3
        · exact Or.inl (Or.inr ⟨h1, Or.inr ⟨h2, h3⟩⟩)
        · exact Or.inr (Or.inr ⟨h1.symm, Or.inr ⟨h2.symm, h3⟩⟩)
      · exact Or.inr (Or.inr ⟨h1.symm, Or.inl h2⟩)
    · exact Or.inr (Or.inl h1)
  haveI : IsTrans Task (fun a b => sortTasksLess "" b a = false) := by
    constructor
    intro a b c
    simp only [sortTasksLess_false_iff]
    rintro (h1 | ⟨h1, h2⟩) (h3 | ⟨h3, h4⟩)
    · exact Or.inl (lt_trans h1 h3)
    · exact Or.inl (h3 ▸ h1)
    · exact Or.inl (h1 ▸ h3)
    · right
      refine ⟨h1.trans h3, ?_⟩
      rcases h2 with h2 | ⟨h2, h5⟩ <;> rcases h4 with h4 | ⟨h4, h6⟩
      · exact Or.inl (by omega)
      · exact Or.inl (by omega)
      · exact Or.inl (by omega)
      · exact Or.inr ⟨by omega, le_trans h5 h6⟩
  exact List.sorted_insertionSort _ _

theorem Tasks_all (s : Service) : s.Tasks "" = sortTasks s.state.Tasks "" := by
  have h : TrimSpace "" = "" := by decide
  simp only [Service.Tasks, h, if_true]

/-- C19. `FilteredTasks` returns the tasks of all lists that match the filter (done tasks
for the filter `done`, tasks not done for `todo`, every task otherwise) and whose text has a
run of characters equal, case ignored, to the trimmed query (any task when the trimmed query is
empty): each such task as many times as it is stored, no other task, in ascending order of
list identifier, then position, then identifier. -/
theorem C19_filteredTasks (s : Service) (lower : Char → Char) :
    (∃ p : Task → Bool,
      (∀ t : Task, p t = true ↔
        ((s.state.Filter = FilterDone → t.Done = true) ∧
          (s.state.Filter = FilterTodo → t.Done = false) ∧
          ∃ before mid after : List Char, t.Text.data = before ++ mid ++ after ∧
            mid.map lower = (TrimSpace s.state.Query).data.map lower)) ∧
      (s.FilteredTasks lower).Perm (s.state.Tasks.filter p)) ∧
    (TrimSpace s.state.Query = "" →
      (s.FilteredTasks lower).Perm
        (s.state.Tasks.filter (fun t => matchesFilter s.state.Filter t.Done))) ∧
    (s.FilteredTasks lower).Pairwise (fun a b =>
      a.ListID < b.ListID ∨ (a.ListID = b.ListID ∧
        (a.Position < b.Position ∨ (a.Position = b.Position ∧ a.ID ≤ b.ID)))) := by
  refine ⟨⟨fun t =>
      if ¬ matchesFilter s.state.Filter t.Done then false
      else if ToLower lower (TrimSpace s.state.Query) ≠ "" ∧
          ¬ Contains (ToLower lower t.Text) (ToLower lower (TrimSpace s.state.Query)) then false
      else true, ?_, ?_⟩, ?_, ?_⟩
  · intro t
    have hmf : matchesFilter s.state.Filter t.Done = true ↔
        ((s.state.Filter = FilterDone → t.Done = true) ∧
          (s.state.Filter = FilterTodo → t.Done = false)) := by
      have hdt : ¬ FilterDone = FilterTodo := by decide
      have htd : ¬ FilterTodo = FilterDone := by decide
      simp only [matchesFilter]
      by_cases h1 : s.state.Filter = FilterDone
      · simp [h1, hdt]
      · by_cases h2 : s.state.Filter = FilterTodo
        · simp [h2, htd]
        · simp [h1, h2]
    have hct : Contains (ToLower lower t.Text) (ToLower lower (TrimSpace s.state.Query)) = true ↔
        ∃ before mid after : List Char, t.Text.data = before ++ mid ++ after ∧
            mid.map lower = (TrimSpace s.state.Query).data.map lower := by
      simp only [Contains, ToLower, containsChars_iff]
      constructor
      · rintro ⟨pre, post, h⟩
        obtain ⟨l1, l2, h1, h2, h3⟩ := List.map_eq_append_iff.1 h
        obtain ⟨l3, l4, h4, h5, h6⟩ := List.map_eq_append_iff.1 h2
        exact ⟨l3, l4, l2, by rw [h1, h4], h6⟩
      · rintro ⟨pre, mid, post, h1, h2⟩
        exact ⟨pre.map lower, post.map lower, by rw [h1, ← h2]; simp⟩
    have hempty : ToLower lower (TrimSpace s.state.Query) = "" →
        Contains (ToLower lower t.Text) (ToLower lower (TrimSpace s.state.Query)) = true := by
      intro h
      rw [h]
      simp only [Contains, containsChars_iff]
      exact ⟨[], (ToLower lower t.Text).data, by simp⟩
    rw [← hct, ← and_assoc, ← hmf]
    by_cases hm : matchesFilter s.state.Filter t.Done = true
    · by_cases hc : Contains (ToLower lower t.Text) (ToLower lower (TrimSpace s.state.Query))
          = true
      · simp [hm, hc]
      · have hq : ¬ ToLower lower (TrimSpace s.state.Query) = "" := fun h => hc (hempty h)
        simp [hm, hc, hq]
    · simp [hm]
  · simp only [FilteredTasks, Tasks_all]
    exact (perm_sortSliceStable _ _).filter _
  · intro hq
    simp only [FilteredTasks, Tasks_all, hq]
    have hq2 : ToLower lower "" = "" := rfl
    simp only [hq2, ne_eq, not_true_eq_false, false_and, if_false]
    refine ((perm_sortSliceStable _ _).filter _).trans ?_
    apply List.Perm.of_eq
    apply List.filter_congr
    intro t _
    cases matchesFilter s.state.Filter t.Done <;> simp
  · simp only [FilteredTasks, Tasks_all]
    refine List.Pairwise.sublist (List.filter_sublist _) ?_
    exact (sorted_sortTasks s.state.Tasks).imp (fun h => (sortTasksLess_false_iff _ _).1 h)

theorem C19_filteredTasks_witness :
    ((run inboxService inboxChain).FilteredTasks Char.toLower).Perm
      ((run inboxService inboxChain).state.Tasks.filter
        (fun t => matchesFilter (run inboxService inboxChain).state.Filter t.Done)) :=
  (C19_filteredTasks (run inboxService inboxChain) Char.toLower).2.1 rfl

end ReadSide

end TodoCli

namespace TodoCli

section Panes

/-- C30, a viewport on which the claim fails: for `total = 10` and `gap = 0` the widths
returned are the two minima, `10` and `12`, and their sum exceeds the viewport. -/
theorem C30_counterexample :
    (0 : Int) < 10 ∧ (10 : Int) < 50 + 0 ∧ paneWidths 10 0 = (10, 12) ∧
      ¬ ((paneWidths 10 0).1 + (paneWidths 10 0).2 + 0 ≤ 10) := by
  decide

/-- C30. Pane widths on a viewport too small for the preferred layout, `0 < total < 50 + gap`
with `0 ≤ gap` and `50 + gap` in the range of `int`: the left width is at least `10` and the right
width at least `12`; when `22 + gap ≤ total` the panes and the gap fill the viewport exactly,
`left + right + gap = total`; when `total < 22 + gap` the widths are the minima `10` and `12`,
which with the gap exceed the viewport. -/
theorem C30_paneWidths_small (total gap : Int) (h0 : 0 < total) (hg : 0 ≤ gap)
    (hlt : total < 50 + gap) (hmax : 50 + gap < 2 ^ 63) :
    10 ≤ (paneWidths total gap).1 ∧ 12 ≤ (paneWidths total gap).2 ∧
    (22 + gap ≤ total →
      (paneWidths total gap).1 + (paneWidths total gap).2 + gap = total) ∧
    (total < 22 + gap → paneWidths total gap = (10, 12)) := by
  have hw : ∀ x : Int, -(2 ^ 63) ≤ x → x < 2 ^ 63 → wrapInt x = x := wrapInt_of_bounds
  have hd : Int.tdiv total 3 ≤ total ∧ 0 ≤ Int.tdiv total 3 := by
    constructor
    · rw [Int.tdiv_eq_ediv (le_of_lt h0) (by decide)]
      omega
    · exact Int.tdiv_nonneg (le_of_lt h0) (by decide)
  obtain ⟨hd1, hd2⟩ := hd
  generalize hq : Int.tdiv total 3 = q at hd1 hd2
  have e1 : wrapInt (wrapInt (20 + 30) + gap) = 50 + gap := by
    rw [hw (20 + 30) (by decide) (by decide), hw _ (by omega) (by omega)]
    omega
  have hng : ¬ gap < 0 := by omega
  have hnt : ¬ total ≤ 0 := by omega
  simp only [paneWidths, if_neg hnt, if_neg hng, e1, if_pos hlt, hq]
  by_cases hq12 : q < 12
  · simp only [if_pos hq12]
    rw [hw (total - 12) (by omega) (by omega), hw (total - 12 - gap) (by omega) (by omega)]
    by_cases hr : total - 12 - gap < 12
    · simp only [if_pos hr]
      by_cases hl : total - 12 - gap < 10
      · simp only [if_pos hl]
        refine ⟨by omega, by omega, fun h => by omega, fun _ => trivial⟩
      · simp only [if_neg hl]
        refine ⟨by omega, by omega, fun _ => by omega, fun h => by omega⟩
    · simp only [if_neg hr]
      refine ⟨by omega, by omega, fun _ => by omega, fun h => by omega⟩
  · simp only [if_neg hq12]
    rw [hw (total - q) (by omega) (by omega), hw (total - q - gap) (by omega) (by omega)]
    by_cases hr : total - q - gap < 12
    · simp only [if_pos hr]
      rw [hw (total - 12) (by omega) (by omega), hw (total - 12 - gap) (by omega) (by omega)]
      by_cases hl : total - 12 - gap < 10
      · simp only [if_pos hl]
        refine ⟨by omega, by omega, fun h => by omega, fun _ => trivial⟩
      · simp only [if_neg hl]
        refine ⟨by omega, by omega, fun _ => by omega, fun h => by omega⟩
    · simp only [if_neg hr]
      refine ⟨by omega, by omega, fun _ => by omega, fun h => by omega⟩

theorem C30_paneWidths_small_witness :
    (0 : Int) < 47 ∧ (47 : Int) < 50 + 1 ∧
    10 ≤ (paneWidths 47 1).1 ∧ 12 ≤ (paneWidths 47 1).2 ∧
    ((22 : Int) + 1 ≤ 47 → (paneWidths 47 1).1 + (paneWidths 47 1).2 + 1 = 47) ∧
    ((47 : Int) < 22 + 1 → paneWidths 47 1 = (10, 12)) :=
  ⟨by decide, by decide, C30_paneWidths_small 47 1 (by decide) (by decide) (by decide)
    (by decide)⟩

end Panes

end TodoCli

namespace TodoCli

section Startup

theorem map_startupAssign {β : Type} (g : Task → β) (ts : List Task) (k : String)
    (h : ∀ t p, g { t with Position := p } = g t) :
    (startupAssign ts k).map g = ts.map g :=
  map_assignPositions g _ _ _ h

theorem map_foldl_startupAssign {β : Type} (g : Task → β) (keys : List String)
    (ts : List Task) (h : ∀ t p, g { t with Position := p } = g t) :
    (keys.foldl startupAssign ts).map g = ts.map g := by
  induction keys generalizing ts with
  | nil => rfl
  | cons k rest ih =>
    simp only [List.foldl_cons]
    rw [ih, map_startupAssign g ts k h]

theorem priorityOutOfRange_iff (p : Int) :
    priorityOutOfRange p = false ↔ 0 ≤ p ∧ p ≤ 3 := by
  have e1 : PriorityNone = (0 : Int) := rfl
  have e2 : PriorityHigh = (3 : Int) := rfl
  simp only [priorityOutOfRange, e1, e2, Bool.or_eq_false_iff, decide_eq_false_iff_not,
    Int.not_lt, gt_iff_lt]

/-- C22. The soft corrections of `NewService`: in the state of `NewService s` every task has
the priority it had in `s` when that is in `0..3` and the priority `0` otherwise, and likewise
every archive entry, which is changed in nothing else; the session focus is the one of `s`
when that is `lists` or `tasks` and `lists` otherwise; the active list of the session is the
one of `s` when a list of `s` has that identifier and is empty otherwise; the filter is the one
of `s` when that is not empty and `all` otherwise, hence not empty; the metadata version is
the one of `s` when that is not zero and `1` otherwise, hence not zero. -/
theorem C22_startup_soft_corrections (s : AppState) :
    ((NewService s).state.Tasks.map (·.Priority) =
        s.Tasks.map (fun t => if 0 ≤ t.Priority ∧ t.Priority ≤ 3 then t.Priority else 0)) ∧
    (∀ t ∈ (NewService s).state.Tasks, 0 ≤ t.Priority ∧ t.Priority ≤ 3) ∧
    ((NewService s).state.ArchivedCompleted =
        s.ArchivedCompleted.map
          (fun a => if 0 ≤ a.Priority ∧ a.Priority ≤ 3 then a else { a with Priority := 0 })) ∧
    (∀ a ∈ (NewService s).state.ArchivedCompleted, 0 ≤ a.Priority ∧ a.Priority ≤ 3) ∧
    ((NewService s).state.Metadata.Session.Focus =
        (if s.Metadata.Session.Focus = "lists" ∨ s.Metadata.Session.Focus = "tasks"
          then s.Metadata.Session.Focus else "lists")) ∧
    ((NewService s).state.Metadata.Session.Focus = "lists" ∨
      (NewService s).state.Metadata.Session.Focus = "tasks") ∧
    ((NewService s).state.Lists = s.Lists) ∧
    ((NewService s).state.Metadata.Session.ActiveListID =
        (if ∃ l ∈ s.Lists, l.ID = s.Metadata.Session.ActiveListID
          then s.Metadata.Session.ActiveListID else "")) ∧
    ((NewService s).state.Metadata.Session.ActiveListID = "" ∨
      ∃ l ∈ (NewService s).state.Lists,
        l.ID = (NewService s).state.Metadata.Session.ActiveListID) ∧
    ((NewService s).state.Filter = (if s.Filter = "" then "all" else s.Filter)) ∧
    ((NewService s).state.Filter ≠ "") ∧
    ((NewService s).state.Metadata.Version =
        (if s.Metadata.Version = 0 then 1 else s.Metadata.Version)) ∧
    ((NewService s).state.Metadata.Version ≠ 0) := by
  have htp : (NewService s).state.Tasks.map (·.Priority) =
      s.Tasks.map (fun t => if 0 ≤ t.Priority ∧ t.Priority ≤ 3 then t.Priority else 0) := by
    simp only [NewService, normalizeState]
    rw [map_foldl_startupAssign (fun t : Task => t.Priority) _ _ (fun _ _ => rfl), List.map_map]
    apply List.map_congr_left
    intro t _
    simp only [Function.comp]
    by_cases h : 0 ≤ t.Priority ∧ t.Priority ≤ 3
    · rw [if_pos h, (priorityOutOfRange_iff _).2 h]
      simp
    · rw [if_neg h]
      have : priorityOutOfRange t.Priority = true := by
        rw [← Bool.not_eq_false, priorityOutOfRange_iff]
        exact h
      rw [this]
      rfl
  have hap : (NewService s).state.ArchivedCompleted =
      s.ArchivedCompleted.map
        (fun a => if 0 ≤ a.Priority ∧ a.Priority ≤ 3 then a else { a with Priority := 0 }) := by
    simp only [NewService, normalizeState]
    apply List.map_congr_left
    intro a _
    by_cases h : 0 ≤ a.Priority ∧ a.Priority ≤ 3
    · rw [if_pos h, (priorityOutOfRange_iff _).2 h]
      simp
    · rw [if_neg h]
      have : priorityOutOfRange a.Priority = true := by
        rw [← Bool.not_eq_false, priorityOutOfRange_iff]
        exact h
      rw [this]
      rfl
  have hfocus : (NewService s).state.Metadata.Session.Focus =
      (if s.Metadata.Session.Focus = "lists" ∨ s.Metadata.Session.Focus = "tasks"
        then s.Metadata.Session.Focus else "lists") := by
    have e1 : SessionFocusLists = "lists" := rfl
    have e2 : SessionFocusTasks = "tasks" := rfl
    have t1 : ¬ TrimSpace "lists" = "" := by decide
    have t2 : ¬ TrimSpace "tasks" = "" := by decide
    simp only [NewService, normalizeState, e1, e2]
    by_cases h1 : s.Metadata.Session.Focus = "lists"
    · simp [h1, t1]
    · by_cases h2 : s.Metadata.Session.Focus = "tasks"
      · simp [h2, t2]
      · by_cases h3 : TrimSpace s.Metadata.Session.Focus = ""
        · simp [h1, h2, h3]
        · simp [h1, h2, h3]
  have hactive : (NewService s).state.Metadata.Session.ActiveListID =
      (if ∃ l ∈ s.Lists, l.ID = s.Metadata.Session.ActiveListID
        then s.Metadata.Session.ActiveListID else "") := by
    simp only [NewService, normalizeState]
    by_cases hl : ∃ l ∈ s.Lists, l.ID = s.Metadata.Session.ActiveListID
    · rw [if_pos hl, if_neg]
      rintro ⟨_, h⟩
      refine h (listIDExists_iff.2 ?_)
      obtain ⟨l, hl1, hl2⟩ := hl
      exact List.mem_map.2 ⟨l, hl1, hl2⟩
    · rw [if_neg hl]
      by_cases ha : s.Metadata.Session.ActiveListID = ""
      · simp [ha]
      · rw [if_pos]
        refine ⟨ha, fun h => hl ?_⟩
        obtain ⟨l, hl1, hl2⟩ := List.mem_map.1 (listIDExists_iff.1 h)
        exact ⟨l, hl1, hl2⟩
  have hfilter : (NewService s).state.Filter = (if s.Filter = "" then "all" else s.Filter) := by
    simp only [NewService, normalizeState]
    rfl
  have hversion : (NewService s).state.Metadata.Version =
      (if s.Metadata.Version = 0 then 1 else s.Metadata.Version) := by
    simp only [NewService, normalizeState]
  refine ⟨htp, ?_, hap, ?_, hfocus, ?_, rfl, hactive, ?_, hfilter, ?_, hversion, ?_⟩
  · intro t ht
    have hm : t.Priority ∈ (NewService s).state.Tasks.map (·.Priority) :=
      List.mem_map_of_mem _ ht
    rw [htp, List.mem_map] at hm
    obtain ⟨u, _, hu⟩ := hm
    rw [← hu]
    split_ifs with h
    · exact h
    · exact ⟨le_refl _, by decide⟩
  · intro a ha
    rw [hap, List.mem_map] at ha
    obtain ⟨u, _, hu⟩ := ha
    rw [← hu]
    split_ifs with h
    · exact h
    · show (0 : Int) ≤ 0 ∧ (0 : Int) ≤ 3
      decide
  · rw [hfocus]
    split_ifs with h
    · exact h
    · exact Or.inl rfl
  · rw [hactive]
    split_ifs with h
    · exact Or.inr h
    · exact Or.inl rfl
  · rw [hfilter]
    split_ifs with h
    · decide
    · exact h
  · rw [hversion]
    split_ifs with h
    · decide
    · exact h

theorem C22_startup_soft_corrections_witness :
    (NewService rawState).state.Tasks.map (·.Priority) = [0, 0, 1, 2] ∧
    (NewService rawState).state.Filter ≠ "" ∧
    (NewService rawState).state.Metadata.Version ≠ 0 :=
  ⟨(C22_startup_soft_corrections rawState).1.trans (by decide),
   (C22_startup_soft_corrections rawState).2.2.2.2.2.2.2.2.2.2.1,
   (C22_startup_soft_corrections rawState).2.2.2.2.2.2.2.2.2.2.2.2⟩

end Startup

end TodoCli

namespace TodoCli

section StartupOrder

theorem orderedInsert_congr {α : Type} (r r2 : α → α → Prop) [DecidableRel r] [DecidableRel r2]
    (a : α) (m : List α) (h : ∀ b ∈ m, (r a b ↔ r2 a b)) :
    List.orderedInsert r a m = List.orderedInsert r2 a m := by
  induction m with
  | nil => rfl
  | cons b m ih =>
    have hb := h b (List.mem_cons_self _ _)
    simp only [List.orderedInsert]
    by_cases hr : r a b
    · rw [if_pos hr, if_pos (hb.1 hr)]
    · rw [if_neg hr, if_neg (fun h2 => hr (hb.2 h2)),
        ih (fun c hc => h c (List.mem_cons_of_mem _ hc))]

theorem insertionSort_congr {α : Type} (r r2 : α → α → Prop) [DecidableRel r] [DecidableRel r2]
    (l : List α) (h : ∀ a ∈ l, ∀ b ∈ l, (r a b ↔ r2 a b)) :
    List.insertionSort r l = List.insertionSort r2 l := by
  induction l with
  | nil => rfl
  | cons a l ih =>
    have ih2 := ih (fun x hx y hy => h x (List.mem_cons_of_mem _ hx) y (List.mem_cons_of_mem _ hy))
    simp only [List.insertionSort]
    rw [← ih2]
    apply orderedInsert_congr
    intro b hb
    have hb2 : b ∈ l := (List.perm_insertionSort r l).mem_iff.1 hb
    exact h a (List.mem_cons_self _ _) b (List.mem_cons_of_mem _ hb2)

theorem startupLess_congr {ts1 ts2 : List Task} {i j : Nat}
    (hi : (ts1.getD i default).Position = (ts2.getD i default).Position)
    (hj : (ts1.getD j default).Position = (ts2.getD j default).Position) :
    startupLess ts1 i j = startupLess ts2 i j := by
  simp only [startupLess, hi, hj]

theorem mem_startupIndexes {tasks : List Task} {listID : String} {j : Nat} :
    j ∈ startupIndexes tasks listID ↔ ∃ t, tasks[j]? = some t ∧ t.ListID = listID := by
  unfold startupIndexes
  rw [(perm_sortSliceStable _ _).mem_iff, mem_indexesWhere]
  simp

theorem nodup_startupIndexes (tasks : List Task) (listID : String) :
    (startupIndexes tasks listID).Nodup :=
  (perm_sortSliceStable _ _).nodup_iff.2 (nodup_indexesWhere _ _ _)

theorem startupIndexes_congr {ts1 ts2 : List Task} {listID : String}
    (hl : ts1.map (·.ListID) = ts2.map (·.ListID))
    (hp : ∀ (j : Nat) (t : Task), ts2[j]? = some t → t.ListID = listID →
      (ts1.getD j default).Position = t.Position) :
    startupIndexes ts1 listID = startupIndexes ts2 listID := by
  unfold startupIndexes sortSliceStable
  rw [indexesWhere_listID_congr hl]
  apply insertionSort_congr
  intro a ha b hb
  obtain ⟨_, ta, hta, hpa⟩ := mem_indexesWhere.1 ha
  obtain ⟨_, tb, htb, hpb⟩ := mem_indexesWhere.1 hb
  simp only [Nat.sub_zero] at hta htb
  have e1 := hp a ta hta (by simpa using hpa)
  have e2 := hp b tb htb (by simpa using hpb)
  rw [← getD_of_getElem? hta] at e1
  rw [← getD_of_getElem? htb] at e2
  rw [startupLess_congr e2 e1]

theorem getElem?_startupAssign (tasks : List Task) (listID : String) (j : Nat) :
    (startupAssign tasks listID)[j]? =
      (tasks[j]?).map (fun t =>
        if t.ListID = listID then
          { t with Position := (startupRankOf tasks listID j : Int) + 1 }
        else t) := by
  have h : startupAssign tasks listID = assignPositions tasks (startupIndexes tasks listID) 0 :=
    rfl
  rw [h, getElem?_assignPositions _ _ _ (nodup_startupIndexes _ _)]
  cases hj : tasks[j]? with
  | none => rfl
  | some t =>
    simp only [Option.map_some', mem_startupIndexes, hj, Option.some.injEq, exists_eq_left',
      startupRankOf, Nat.zero_add]

theorem getElem?_foldl_startupAssign (keys : List String) (hnd : keys.Nodup)
    (tasks : List Task) (j : Nat) :
    (keys.foldl startupAssign tasks)[j]? =
      (tasks[j]?).map (fun t =>
        if t.ListID ∈ keys then
          { t with Position := (startupRankOf tasks t.ListID j : Int) + 1 }
        else t) := by
  induction keys generalizing tasks with
  | nil => simp
  | cons k rest ih =>
    obtain ⟨hk, hrest⟩ := List.nodup_cons.1 hnd
    simp only [List.foldl_cons]
    rw [ih hrest, getElem?_startupAssign]
    cases hj : tasks[j]? with
    | none => rfl
    | some t =>
      simp only [Option.map_some', Option.some.injEq]
      by_cases htk : t.ListID = k
      · have hnr : ¬ k ∈ rest := hk
        simp [htk, hnr]
      · rw [if_neg htk]
        by_cases htr : t.ListID ∈ rest
        · have hmem : t.ListID ∈ k :: rest := List.mem_cons_of_mem _ htr
          rw [if_pos htr, if_pos hmem]
          have hcongr : startupIndexes (startupAssign tasks k) t.ListID =
              startupIndexes tasks t.ListID := by
            apply startupIndexes_congr (map_startupAssign _ _ _ (fun _ _ => rfl))
            intro i u hu hul
            have := getElem?_startupAssign tasks k i
            rw [hu] at this
            simp only [Option.map_some'] at this
            rw [getD_of_getElem? this, if_neg (by rw [hul]; exact htk)]
          simp only [startupRankOf, hcongr]
        · have hmem : ¬ t.ListID ∈ k :: rest := by
            simp only [List.mem_cons, not_or]
            exact ⟨htk, htr⟩
          rw [if_neg htr, if_neg hmem]

end StartupOrder

end TodoCli
namespace TodoCli

section StartupOrder2

theorem startupLess_iff (ts : List Task) (i j : Nat) :
    startupLess ts i j = true ↔
      StartupBefore (ts.getD i default) (ts.getD j default) i j := by
  simp only [startupLess, StartupBefore]
  generalize (ts.getD i default).Position = p
  generalize (ts.getD j default).Position = q
  by_cases ha : 0 < p <;> by_cases hb : 0 < q
  · by_cases hne : p = q
    · simp [ha, hb, hne]
      try omega
    · simp [ha, hb, hne]
      try omega
  · simp [ha, hb]
    try omega
  · simp [ha, hb]
    try omega
  · simp [ha, hb]
    try omega

theorem startupLess_false_iff (ts : List Task) (i j : Nat) :
    startupLess ts j i = false ↔
      (StartupBefore (ts.getD i default) (ts.getD j default) i j ∨ i = j) := by
  rw [← Bool.not_eq_true, startupLess_iff]
  by_cases hij : i = j
  · subst hij
    constructor
    · exact fun _ => Or.inr rfl
    · intro _ hB
      simp only [StartupBefore] at hB
      omega
  · simp only [StartupBefore]
    omega

theorem sorted_startupIndexes (tasks : List Task) (listID : String) :
    (startupIndexes tasks listID).Pairwise (fun a b => startupLess tasks b a = false) := by
  haveI : IsTotal Nat (fun a b => startupLess tasks b a = false) := by
    constructor
    intro a b
    by_cases hab : a = b
    · subst hab
      exact Or.inl ((startupLess_false_iff tasks a a).2 (Or.inr rfl))
    · simp only [startupLess_false_iff, StartupBefore]
      omega
  haveI : IsTrans Nat (fun a b => startupLess tasks b a = false) := by
    constructor
    intro a b c
    by_cases hab : a = b
    · subst hab
      exact fun _ h => h
    · by_cases hbc : b = c
      · subst hbc
        exact fun h _ => h
      · simp only [startupLess_false_iff, StartupBefore]
        omega
  exact List.sorted_insertionSort _ _

theorem startupRankOf_lt (tasks : List Task) (listID : String) (j k : Nat)
    (hj : j ∈ startupIndexes tasks listID) (hk : k ∈ startupIndexes tasks listID)
    (h : StartupBefore (tasks.getD j default) (tasks.getD k default) j k) :
    startupRankOf tasks listID j < startupRankOf tasks listID k := by
  unfold startupRankOf
  have hlj := List.indexOf_lt_length.2 hj
  have hlk := List.indexOf_lt_length.2 hk
  rcases Nat.lt_trichotomy (List.indexOf j (startupIndexes tasks listID))
      (List.indexOf k (startupIndexes tasks listID)) with hlt | heq | hgt
  · exact hlt
  · exfalso
    have hjk : j = k := by
      have e1 := List.getElem_indexOf hlj
      have e2 := List.getElem_indexOf hlk
      simp only [← heq] at e2
      rw [← e1, ← e2]
    subst hjk
    simp only [StartupBefore] at h
    omega
  · exfalso
    have := List.pairwise_iff_getElem.1 (sorted_startupIndexes tasks listID) _ _ hlk hlj hgt
    rw [List.getElem_indexOf hlk, List.getElem_indexOf hlj, startupLess_false_iff] at this
    rcases this with h2 | h2
    · simp only [StartupBefore] at h h2
      omega
    · subst h2
      omega

end StartupOrder2

end TodoCli
namespace TodoCli

section ClaimsStartup

theorem getElem?_normalizeState (s : AppState) (j : Nat) (a : Task)
    (ha : s.Tasks[j]? = some a) :
    ∃ c : Task, c.ListID = a.ListID ∧ c.Position = a.Position ∧
      (s.Tasks.map (fun t =>
        if priorityOutOfRange t.Priority then { t with Priority := PriorityNone } else t))[j]?
        = some c ∧
      (normalizeState s).Tasks[j]? =
        some { c with Position := (startupRankOf (s.Tasks.map (fun t =>
          if priorityOutOfRange t.Priority then { t with Priority := PriorityNone } else t))
            a.ListID j : Int) + 1 } := by
  refine ⟨if priorityOutOfRange a.Priority then { a with Priority := PriorityNone } else a,
    ?_, ?_, ?_, ?_⟩
  · split_ifs <;> rfl
  · split_ifs <;> rfl
  · rw [List.getElem?_map, ha]
    rfl
  · have hc : (s.Tasks.map (fun t =>
        if priorityOutOfRange t.Priority then { t with Priority := PriorityNone } else t))[j]?
        = some (if priorityOutOfRange a.Priority then { a with Priority := PriorityNone }
          else a) := by
      rw [List.getElem?_map, ha]
      rfl
    have hL : (if priorityOutOfRange a.Priority then { a with Priority := PriorityNone }
        else a).ListID = a.ListID := by
      split_ifs <;> rfl
    simp only [normalizeState]
    rw [getElem?_foldl_startupAssign _ (List.nodup_dedup _), hc]
    simp only [Option.map_some', Option.some.injEq]
    rw [if_pos, hL]
    rw [List.mem_dedup, hL]
    exact List.mem_map.2 ⟨_, List.mem_iff_getElem?.2 ⟨j, hc⟩, hL⟩

/-- C21. Startup renormalization honours the positions found: in the state of `NewService s`
the tasks are those of `s` in the same storage order with every field but the position and the
priority as in `s`; the tasks of every list carry the positions `1..N`, each once; and of two
tasks of one list the one that goes first in the startup order, which puts the tasks with a
positive position before the others, those by ascending position and then by the order of
storage, and the tasks without a positive position in the order of storage, gets the smaller
position. -/
theorem C21_startup_renormalization (s : AppState) :
    ((NewService s).state.Tasks.map (fun t => { t with Position := 0, Priority := 0 }) =
      s.Tasks.map (fun t => { t with Position := 0, Priority := 0 })) ∧
    (∀ L : String, Dense (NewService s).state.Tasks L) ∧
    (∀ (j k : Nat) (a b : Task), s.Tasks[j]? = some a → s.Tasks[k]? = some b →
      a.ListID = b.ListID → StartupBefore a b j k →
      ∃ a1 b1 : Task, (NewService s).state.Tasks[j]? = some a1 ∧
        (NewService s).state.Tasks[k]? = some b1 ∧ a1.Position < b1.Position) := by
  refine ⟨?_, fun L => dense_normalizeState s L, ?_⟩
  · simp only [NewService, normalizeState]
    refine (map_foldl_startupAssign _ _ _ ?_).trans ?_
    · intro _ _
      rfl
    · rw [List.map_map]
      apply List.map_congr_left
      intro t _
      simp only [Function.comp]
      split_ifs <;> rfl
  · intro j k a b ha hb hab hbefore
    obtain ⟨ca, hca1, hca2, hca3, hca4⟩ := getElem?_normalizeState s j a ha
    obtain ⟨cb, hcb1, hcb2, hcb3, hcb4⟩ := getElem?_normalizeState s k b hb
    refine ⟨_, _, hca4, hcb4, ?_⟩
    have hlt := startupRankOf_lt _ a.ListID j k
      (mem_startupIndexes.2 ⟨ca, hca3, hca1⟩)
      (mem_startupIndexes.2 ⟨cb, hcb3, by rw [hcb1, hab]⟩)
      (by
        rw [getD_of_getElem? hca3, getD_of_getElem? hcb3]
        simp only [StartupBefore, hca2, hcb2]
        exact hbefore)
    rw [← hab]
    show ((startupRankOf _ a.ListID j : Nat) : Int) + 1 < ((startupRankOf _ a.ListID k : Nat) : Int) + 1
    omega

set_option maxRecDepth 8000 in
theorem C21_startup_renormalization_witness :
    ∃ a1 b1 : Task, (NewService rawState).state.Tasks[3]? = some a1 ∧
      (NewService rawState).state.Tasks[1]? = some b1 ∧ a1.Position < b1.Position :=
  (C21_startup_renormalization rawState).2.2 3 1
    (Task.mk "d" "L1" "D" false 2 7 5 5) (Task.mk "b" "L1" "B" true 9 0 3 3)
    (by decide) (by decide) (by decide) (by unfold StartupBefore; decide)

end ClaimsStartup

end TodoCli

namespace TodoCli

section Idempotence

theorem startupAssign_of_dense (tasks : List Task) (listID : String)
    (hd : Dense tasks listID) : startupAssign tasks listID = tasks := by
  have hperm : ((startupIndexes tasks listID).map
      (fun j => (tasks.getD j default).Position)).Perm
      ((List.range' 1 (positionsOf tasks listID).length).map Int.ofNat) := by
    refine List.Perm.trans ?_ hd
    rw [positionsOf_eq_indexes]
    exact (perm_sortSliceStable _ _).map _
  have hpos : ∀ a ∈ startupIndexes tasks listID, 1 ≤ (tasks.getD a default).Position := by
    intro a ha
    obtain ⟨t, ht, hL⟩ := mem_startupIndexes.1 ha
    rw [getD_of_getElem? ht]
    exact (position_bounds_of_dense hd ht hL).1
  have hsorted : ((startupIndexes tasks listID).map
      (fun j => (tasks.getD j default).Position)).Pairwise (· ≤ ·) := by
    rw [List.pairwise_map]
    refine List.Pairwise.imp_of_mem ?_ (sorted_startupIndexes tasks listID)
    intro a b ha hb hab
    have h1 := hpos a ha
    have h2 := hpos b hb
    rcases (startupLess_false_iff tasks a b).1 hab with h | h
    · simp only [StartupBefore] at h
      omega
    · subst h
      exact le_refl _
  have heq := List.eq_of_perm_of_sorted hperm hsorted (sorted_target _)
  apply List.ext_getElem?
  intro j
  rw [getElem?_startupAssign]
  cases hj : tasks[j]? with
  | none => rfl
  | some t =>
    simp only [Option.map_some', Option.some.injEq]
    split_ifs with hL
    · have hmem : j ∈ startupIndexes tasks listID := mem_startupIndexes.2 ⟨t, hj, hL⟩
      have hlt := List.indexOf_lt_length.2 hmem
      have h1 := congrArg (fun l => l[startupRankOf tasks listID j]?) heq
      simp only [startupRankOf, List.getElem?_map, List.getElem?_eq_getElem hlt,
        List.getElem_indexOf hlt, Option.map_some', getD_of_getElem? hj] at h1
      have hlen : (positionsOf tasks listID).length = (startupIndexes tasks listID).length := by
        have := (perm_sortSliceStable (startupLess tasks)
          (indexesWhere (fun t => t.ListID == listID) tasks 0)).length_eq
        rw [positionsOf_eq_indexes, List.length_map]
        exact this.symm
      rw [List.getElem?_eq_getElem (by rw [List.length_range', hlen]; exact hlt)] at h1
      simp only [Option.map_some', Option.some.injEq, List.getElem_range', Int.ofNat_eq_coe] at h1
      have hp : ((startupRankOf tasks listID j : Nat) : Int) + 1 = t.Position := by
        rw [h1]; simp [startupRankOf]; omega
      rw [hp]
    · rfl

theorem foldl_startupAssign_of_dense (keys : List String) (tasks : List Task)
    (hd : ∀ L, Dense tasks L) : keys.foldl startupAssign tasks = tasks := by
  induction keys with
  | nil => rfl
  | cons k rest ih =>
    simp only [List.foldl_cons]
    rw [startupAssign_of_dense tasks k (hd k)]
    exact ih

end Idempotence

end TodoCli
namespace TodoCli

section Idempotence2

theorem normalizeState_fixed (n : AppState)
    (hT : ∀ t ∈ n.Tasks, priorityOutOfRange t.Priority = false)
    (hA : ∀ a ∈ n.ArchivedCompleted, priorityOutOfRange a.Priority = false)
    (hF : n.Filter ≠ "") (hV : n.Metadata.Version ≠ 0)
    (hFo : n.Metadata.Session.Focus = "lists" ∨ n.Metadata.Session.Focus = "tasks")
    (hAct : n.Metadata.Session.ActiveListID = "" ∨
      listIDExists n.Lists n.Metadata.Session.ActiveListID = true)
    (hD : ∀ L, Dense n.Tasks L) : normalizeState n = n := by
  have h1 : n.Tasks.map (fun t =>
      if priorityOutOfRange t.Priority then { t with Priority := PriorityNone } else t)
      = n.Tasks := by
    conv_rhs => rw [← List.map_id n.Tasks]
    apply List.map_congr_left
    intro t ht
    simp [hT t ht]
  have h2 : n.ArchivedCompleted.map (fun a =>
      if priorityOutOfRange a.Priority then { a with Priority := PriorityNone } else a)
      = n.ArchivedCompleted := by
    conv_rhs => rw [← List.map_id n.ArchivedCompleted]
    apply List.map_congr_left
    intro a ha
    simp [hA a ha]
  have e1 : SessionFocusLists = "lists" := rfl
  have e2 : SessionFocusTasks = "tasks" := rfl
  have t1 : ¬ TrimSpace "lists" = "" := by decide
  have t2 : ¬ TrimSpace "tasks" = "" := by decide
  have h3 : (if (if TrimSpace n.Metadata.Session.Focus = "" then SessionFocusLists
        else n.Metadata.Session.Focus) ≠ SessionFocusLists ∧
      (if TrimSpace n.Metadata.Session.Focus = "" then SessionFocusLists
        else n.Metadata.Session.Focus) ≠ SessionFocusTasks then SessionFocusLists
      else (if TrimSpace n.Metadata.Session.Focus = "" then SessionFocusLists
        else n.Metadata.Session.Focus)) = n.Metadata.Session.Focus := by
    rcases hFo with h | h
    · rw [h, if_neg t1, e1]
      simp
    · rw [h, if_neg t2, e1, e2]
      simp
  have h4 : (if n.Metadata.Session.ActiveListID ≠ "" ∧
        ¬ listIDExists n.Lists n.Metadata.Session.ActiveListID = true
      then "" else n.Metadata.Session.ActiveListID) = n.Metadata.Session.ActiveListID := by
    rcases hAct with h | h
    · rw [h]
      simp
    · rw [if_neg]
      exact fun hc => hc.2 h
  simp only [normalizeState, h1, h2, h3, h4, if_neg hF, if_neg hV,
    foldl_startupAssign_of_dense _ _ hD]

theorem priorityOutOfRange_clamp (p : Priority) :
    priorityOutOfRange (if priorityOutOfRange p then PriorityNone else p) = false := by
  by_cases h : priorityOutOfRange p = true
  · rw [if_pos h]
    decide
  · rw [if_neg h]
    simpa using h

theorem normalizeState_normal (s : AppState) :
    (∀ t ∈ (normalizeState s).Tasks, priorityOutOfRange t.Priority = false) ∧
    (∀ a ∈ (normalizeState s).ArchivedCompleted, priorityOutOfRange a.Priority = false) ∧
    (normalizeState s).Filter ≠ "" ∧ (normalizeState s).Metadata.Version ≠ 0 ∧
    ((normalizeState s).Metadata.Session.Focus = "lists" ∨
      (normalizeState s).Metadata.Session.Focus = "tasks") ∧
    ((normalizeState s).Metadata.Session.ActiveListID = "" ∨
      listIDExists (normalizeState s).Lists (normalizeState s).Metadata.Session.ActiveListID
        = true) := by
  refine ⟨?_, ?_, ?_, ?_, ?_, ?_⟩
  · intro t ht
    have hm : t.Priority ∈ (normalizeState s).Tasks.map (·.Priority) :=
      List.mem_map_of_mem _ ht
    simp only [normalizeState] at hm
    rw [map_foldl_startupAssign (fun t : Task => t.Priority) _ _ (fun _ _ => rfl),
      List.map_map, List.mem_map] at hm
    obtain ⟨u, _, hu⟩ := hm
    rw [← hu]
    simp only [Function.comp]
    have := priorityOutOfRange_clamp u.Priority
    split_ifs with h
    · rw [if_pos h] at this
      exact this
    · rw [if_neg h] at this
      exact this
  · intro a ha
    simp only [normalizeState, List.mem_map] at ha
    obtain ⟨u, _, hu⟩ := ha
    rw [← hu]
    have := priorityOutOfRange_clamp u.Priority
    split_ifs with h
    · rw [if_pos h] at this
      exact this
    · rw [if_neg h] at this
      exact this
  · simp only [normalizeState]
    split_ifs with h
    · decide
    · exact h
  · simp only [normalizeState]
    split_ifs with h
    · decide
    · exact h
  · have e1 : SessionFocusLists = "lists" := rfl
    have e2 : SessionFocusTasks = "tasks" := rfl
    simp only [normalizeState, e1, e2]
    by_cases h1 : TrimSpace s.Metadata.Session.Focus = ""
    · simp [h1]
    · simp only [if_neg h1]
      by_cases h2 : s.Metadata.Session.Focus = "lists"
      · simp [h2]
      · by_cases h3 : s.Metadata.Session.Focus = "tasks"
        · simp [h3]
        · simp [h2, h3]
  · simp only [normalizeState]
    split_ifs with h
    · exact Or.inl rfl
    · by_cases ha : s.Metadata.Session.ActiveListID = ""
      · exact Or.inl ha
      · right
        by_contra hc
        exact h ⟨ha, hc⟩

/-- C29. Startup normalization is idempotent: `normalizeState` leaves the state it returned
as it is, and the service built from the state of the service built from `s` is that
service. -/
theorem C29_normalizeState_idempotent (s : AppState) :
    normalizeState (normalizeState s) = normalizeState s ∧
    NewService (NewService s).State = NewService s := by
  obtain ⟨h1, h2, h3, h4, h5, h6⟩ := normalizeState_normal s
  have h := normalizeState_fixed (normalizeState s) h1 h2 h3 h4 h5 h6
    (fun L => dense_normalizeState s L)
  refine ⟨h, ?_⟩
  simp only [NewService, Service.State, copyState, h]

end Idempotence2

end TodoCli

namespace TodoCli

section Locality

open Service Err

theorem localTo_refl (s : Service) (L : String) : LocalTo s s L := ⟨rfl, rfl⟩

theorem othersOf_normalizePositions (tasks : List Task) (L : String) :
    othersOf (normalizePositions tasks L) L = othersOf tasks L := by
  have hids : (normalizePositions tasks L).map (·.ListID) = tasks.map (·.ListID) :=
    map_normalizePositions _ _ _ (fun _ _ => rfl)
  have hidx : indexesWhere (fun t : Task => t.ListID != L) (normalizePositions tasks L) 0 =
      indexesWhere (fun t : Task => t.ListID != L) tasks 0 := by
    rw [← indexesWhere_map (fun t : Task => t.ListID) (fun x => x != L),
      ← indexesWhere_map (fun t : Task => t.ListID) (fun x => x != L), hids]
  unfold othersOf
  rw [filter_eq_indexes, filter_eq_indexes tasks, hidx]
  apply List.map_congr_left
  intro j hj
  obtain ⟨_, t, ht, hpt⟩ := mem_indexesWhere.1 hj
  simp only [Nat.sub_zero, bne_iff_ne, ne_eq] at ht hpt
  simp [List.getD_eq_getElem?_getD, getElem?_normalizePositions, ht, hpt]

theorem othersOf_updateAt (f : Task → Task) (tasks : List Task) (i : Nat) (L : String)
    (hi : ∀ a, tasks[i]? = some a → a.ListID = L) (hf : ∀ a, (f a).ListID = a.ListID) :
    othersOf (updateAt f tasks i) L = othersOf tasks L := by
  unfold othersOf
  apply filter_updateAt_of_false
  intro a ha
  have := hi a ha
  simp [hf, this]

theorem getElem?_updateAt_listID {f : Task → Task} {tasks : List Task} {i j : Nat} {L : String}
    (hf : ∀ a, (f a).ListID = a.ListID)
    (hi : ∀ a, tasks[j]? = some a → a.ListID = L) :
    ∀ a, (updateAt f tasks i)[j]? = some a → a.ListID = L := by
  intro a ha
  obtain ⟨t0, h0, e0⟩ := getElem?_listID_updateAt ha hf
  rw [← e0]
  exact hi t0 h0

theorem othersOf_swapPositions (tasks : List Task) (a b : Nat) (now : Time) (L : String)
    (ha : ∀ t, tasks[a]? = some t → t.ListID = L)
    (hb : ∀ t, tasks[b]? = some t → t.ListID = L) :
    othersOf (swapPositions tasks a b now) L = othersOf tasks L := by
  unfold swapPositions
  simp only
  rw [othersOf_updateAt, othersOf_updateAt, othersOf_updateAt, othersOf_updateAt]
  · exact ha
  · exact fun _ => rfl
  · exact getElem?_updateAt_listID (fun _ => rfl) hb
  · exact fun _ => rfl
  · exact getElem?_updateAt_listID (fun _ => rfl)
      (getElem?_updateAt_listID (fun _ => rfl) ha)
  · exact fun _ => rfl
  · exact getElem?_updateAt_listID (fun _ => rfl)
      (getElem?_updateAt_listID (fun _ => rfl) (getElem?_updateAt_listID (fun _ => rfl) hb))
  · exact fun _ => rfl

theorem othersOf_shiftPositions (tasks : List Task) (L : String) (insertPos : Int) :
    othersOf (shiftPositions tasks L insertPos) L = othersOf tasks L := by
  unfold othersOf shiftPositions
  rw [List.filter_map]
  have hcomp : ((fun t : Task => t.ListID != L) ∘ fun t : Task =>
      if t.ListID = L ∧ t.Position ≥ insertPos
      then { t with Position := wrapInt (t.Position + 1) } else t) =
      fun t : Task => t.ListID != L := by
    funext t
    simp only [Function.comp]
    split <;> rfl
  rw [hcomp]
  conv_rhs => rw [← List.map_id (List.filter (fun t => t.ListID != L) tasks)]
  apply List.map_congr_left
  intro t ht
  have hto : ¬ t.ListID = L := by simpa using (List.mem_filter.1 ht).2
  simp [hto]

theorem othersOf_append_own (tasks : List Task) (t : Task) (L : String) (h : t.ListID = L) :
    othersOf (tasks ++ [t]) L = othersOf tasks L := by
  unfold othersOf
  rw [List.filter_append]
  simp [List.filter_cons, h]

theorem othersOf_removeAt (tasks : List Task) (i : Nat) (L : String)
    (hi : ∀ a, tasks[i]? = some a → a.ListID = L) :
    othersOf (tasks.take i ++ tasks.drop (i + 1)) L = othersOf tasks L := by
  unfold othersOf
  apply filter_removeAt_of_false
  intro a ha
  simp [hi a ha]

theorem othersOf_filter (tasks : List Task) (q : Task → Bool) (L : String)
    (h : ∀ t ∈ tasks, t.ListID ≠ L → q t = true) :
    othersOf (tasks.filter q) L = othersOf tasks L := by
  unfold othersOf
  rw [List.filter_filter]
  apply List.filter_congr
  intro t ht
  by_cases hL : t.ListID = L
  · simp [hL]
  · simp [hL, h t ht hL]

end Locality

end TodoCli
namespace TodoCli

section Locality2

open Service Err

theorem local_CreateTask (s : Service) (listID text : String) (now : Time) (newID : String) :
    LocalTo s (s.CreateTask listID text now newID).2 (TrimSpace listID) := by
  simp only [CreateTask]
  split_ifs
  any_goals exact localTo_refl s _
  · refine ⟨?_, ?_⟩
    · simp only [normalizePositionsForList_tasks, withTasks_tasks, pushUndo_state]
      rw [othersOf_normalizePositions, othersOf_append_own _ _ _ rfl, othersOf_shiftPositions]
    · simp

theorem local_UpdateTask (s : Service) (id text : String) (now : Time) (i : Nat) (a : Task)
    (hi : indexWhere (fun t => t.ID == id) s.state.Tasks = some i)
    (ha : s.state.Tasks[i]? = some a) :
    LocalTo s (s.UpdateTask id text now).2 a.ListID := by
  simp only [UpdateTask, hi]
  split_ifs
  · exact localTo_refl s _
  · refine ⟨?_, ?_⟩
    · simp only [withTasks_tasks, pushUndo_state]
      apply othersOf_updateAt
      · intro b hb
        rw [ha] at hb
        cases hb
        rfl
      · exact fun _ => rfl
    · simp

theorem local_DeleteTask (s : Service) (id : String) (i : Nat) (a : Task)
    (hi : indexWhere (fun t => t.ID == id) s.state.Tasks = some i)
    (ha : s.state.Tasks[i]? = some a) :
    LocalTo s (s.DeleteTask id).2 a.ListID := by
  simp only [DeleteTask, hi, getD_of_getElem? ha]
  refine ⟨?_, ?_⟩
  · simp only [normalizePositionsForList_tasks, withTasks_tasks, pushUndo_state]
    rw [othersOf_normalizePositions]
    apply othersOf_removeAt
    intro b hb
    rw [ha] at hb
    cases hb
    rfl
  · simp

theorem local_ToggleDone (s : Service) (id : String) (now : Time) (i : Nat) (a : Task)
    (hi : indexWhere (fun t => t.ID == id) s.state.Tasks = some i)
    (ha : s.state.Tasks[i]? = some a) :
    LocalTo s (s.ToggleDone id now).2 a.ListID := by
  have hi2 : i < s.state.Tasks.length := indexWhere_lt hi
  have hget : (updateAt (fun t => { t with Done := !t.Done, UpdatedAt := now })
      s.state.Tasks i).getD i default = { a with Done := !a.Done, UpdatedAt := now } := by
    rw [getD_updateAt _ _ _ _ _ hi2, if_pos rfl, getD_of_getElem? ha]
  have hown : ∀ b, s.state.Tasks[i]? = some b → b.ListID = a.ListID := by
    intro b hb
    rw [ha] at hb
    cases hb
    rfl
  simp only [ToggleDone, hi, pushUndo_state, hget]
  split_ifs
  · refine ⟨?_, ?_⟩
    · simp only [normalizePositionsForList_tasks, withTasks_tasks]
      rw [othersOf_normalizePositions, othersOf_updateAt, othersOf_updateAt]
      · exact hown
      · exact fun _ => rfl
      · exact getElem?_updateAt_listID (fun _ => rfl) hown
      · exact fun _ => rfl
    · simp
  · refine ⟨?_, ?_⟩
    · simp only [withTasks_tasks]
      exact othersOf_updateAt _ _ _ _ hown (fun _ => rfl)
    · simp

theorem local_SetTaskPriority (s : Service) (id : String) (priority : Priority) (now : Time)
    (i : Nat) (a : Task)
    (hi : indexWhere (fun t => t.ID == id) s.state.Tasks = some i)
    (ha : s.state.Tasks[i]? = some a) :
    LocalTo s (s.SetTaskPriority id priority now).2 a.ListID := by
  simp only [SetTaskPriority, hi]
  split_ifs
  · exact localTo_refl s _
  · exact localTo_refl s _
  · refine ⟨?_, ?_⟩
    · simp only [withTasks_tasks, pushUndo_state]
      apply othersOf_updateAt
      · intro b hb
        rw [ha] at hb
        cases hb
        rfl
      · exact fun _ => rfl
    · simp

theorem local_moveTask (s : Service) (id : String) (direction : Int) (now : Time)
    (i : Nat) (a : Task)
    (hi : indexWhere (fun t => t.ID == id) s.state.Tasks = some i)
    (ha : s.state.Tasks[i]? = some a) :
    LocalTo s (s.moveTask id direction now).2 a.ListID := by
  simp only [moveTask, hi, getD_of_getElem? ha]
  split
  · exact localTo_refl s _
  · next position hpos =>
    have hlt := indexWhere_lt hpos
    split_ifs with c1 c2
    · exact localTo_refl s _
    · exact localTo_refl s _
    · refine ⟨?_, ?_⟩
      · simp only [normalizePositionsForList_tasks, withTasks_tasks, pushUndo_state]
        rw [othersOf_normalizePositions]
        apply othersOf_swapPositions
        · exact listID_of_getD_taskIndexes _ _ _ hlt
        · apply listID_of_getD_taskIndexes
          omega
      · simp

theorem local_ClearCompletedToArchive (s : Service) (listID : String) (now : Time)
    (ids : Nat → String) :
    LocalTo s (s.ClearCompletedToArchive listID now ids).2 (TrimSpace listID) := by
  simp only [ClearCompletedToArchive]
  split_ifs
  · exact localTo_refl s _
  · split
    · exact localTo_refl s _
    · split_ifs
      · exact localTo_refl s _
      · refine ⟨?_, ?_⟩
        · simp only [normalizePositionsForList_tasks, withTasks_tasks, pushUndo_state,
            clearScan_kept, List.nil_append]
          rw [othersOf_normalizePositions]
          apply othersOf_filter
          intro t _ ht
          simp [ht]
        · simp

theorem local_ArchiveAllToArchive (s : Service) (listID : String) (now : Time)
    (ids : Nat → String) :
    LocalTo s (s.ArchiveAllToArchive listID now ids).2 (TrimSpace listID) := by
  simp only [ArchiveAllToArchive]
  split_ifs
  · exact localTo_refl s _
  · split
    · exact localTo_refl s _
    · split_ifs
      · exact localTo_refl s _
      · refine ⟨?_, ?_⟩
        · simp only [normalizePositionsForList_tasks, withTasks_tasks, pushUndo_state,
            archiveAllScan_kept, List.nil_append]
          rw [othersOf_normalizePositions]
          apply othersOf_filter
          intro t _ ht
          simp [ht]
        · simp

theorem local_DeleteAllTasks (s : Service) (listID : String) :
    LocalTo s (s.DeleteAllTasks listID).2 (TrimSpace listID) := by
  simp only [DeleteAllTasks]
  split_ifs
  any_goals exact localTo_refl s _
  · refine ⟨?_, ?_⟩
    · simp only [normalizePositionsForList_tasks, withTasks_tasks, pushUndo_state,
        deleteAllScan_kept, List.nil_append]
      rw [othersOf_normalizePositions]
      apply othersOf_filter
      intro t _ ht
      simp [ht]
    · simp

theorem local_of_task (s s2 : Service) (id : String) (L : String)
    (hL : ∀ t : Task, s.GetTask id = .ok t → t.ListID = L)
    (hnone : indexWhere (fun t => t.ID == id) s.state.Tasks = none → s2 = s)
    (hsome : ∀ (i : Nat) (a : Task), indexWhere (fun t => t.ID == id) s.state.Tasks = some i →
      s.state.Tasks[i]? = some a → LocalTo s s2 a.ListID) : LocalTo s s2 L := by
  cases hidx : indexWhere (fun t => t.ID == id) s.state.Tasks with
  | none =>
    rw [hnone hidx]
    exact localTo_refl s L
  | some i =>
    obtain ⟨a, ha, _, _⟩ := indexWhere_eq_some hidx
    have := hL a (GetTask_of_indexWhere s id i a hidx ha)
    rw [← this]
    exact hsome i a hidx ha

end Locality2

end TodoCli
namespace TodoCli

section ClaimsLocality

open Service Err

/-- C28. Task operations are local to one list: a call of `CreateTask`,
`ClearCompletedToArchive`, `ArchiveAllToArchive` or `DeleteAllTasks` whose trimmed argument is
`L`, and a call of `UpdateTask`, `DeleteTask`, `ToggleDone`, `SetTaskPriority`, `MoveTaskUp` or
`MoveTaskDown` on an identifier for which the service finds a task of the list `L`, leaves the
tasks of the lists other than `L` as they were, every field and the position included, in the
same storage order, and leaves the sequence of lists as it was; this holds whether the call
succeeds or fails. -/
theorem C28_task_operations_local (s : Service) (L : String) :
    (∀ (listID text : String) (now : Time) (newID : String), TrimSpace listID = L →
      LocalTo s (s.CreateTask listID text now newID).2 L) ∧
    (∀ (id text : String) (now : Time), (∀ t : Task, s.GetTask id = .ok t → t.ListID = L) →
      LocalTo s (s.UpdateTask id text now).2 L) ∧
    (∀ id : String, (∀ t : Task, s.GetTask id = .ok t → t.ListID = L) →
      LocalTo s (s.DeleteTask id).2 L) ∧
    (∀ (id : String) (now : Time), (∀ t : Task, s.GetTask id = .ok t → t.ListID = L) →
      LocalTo s (s.ToggleDone id now).2 L) ∧
    (∀ (id : String) (priority : Priority) (now : Time),
      (∀ t : Task, s.GetTask id = .ok t → t.ListID = L) →
      LocalTo s (s.SetTaskPriority id priority now).2 L) ∧
    (∀ (id : String) (now : Time), (∀ t : Task, s.GetTask id = .ok t → t.ListID = L) →
      LocalTo s (s.MoveTaskUp id now).2 L) ∧
    (∀ (id : String) (now : Time), (∀ t : Task, s.GetTask id = .ok t → t.ListID = L) →
      LocalTo s (s.MoveTaskDown id now).2 L) ∧
    (∀ (listID : String) (now : Time) (ids : Nat → String), TrimSpace listID = L →
      LocalTo s (s.ClearCompletedToArchive listID now ids).2 L) ∧
    (∀ (listID : String) (now : Time) (ids : Nat → String), TrimSpace listID = L →
      LocalTo s (s.ArchiveAllToArchive listID now ids).2 L) ∧
    (∀ listID : String, TrimSpace listID = L → LocalTo s (s.DeleteAllTasks listID).2 L) := by
  refine ⟨?_, ?_, ?_, ?_, ?_, ?_, ?_, ?_, ?_, ?_⟩
  · intro listID text now newID h
    rw [← h]
    exact local_CreateTask s listID text now newID
  · intro id text now hL
    refine local_of_task s _ id L hL ?_ (fun i a hi ha => local_UpdateTask s id text now i a hi ha)
    intro h
    simp only [UpdateTask, h]
    split_ifs <;> rfl
  · intro id hL
    refine local_of_task s _ id L hL ?_ (fun i a hi ha => local_DeleteTask s id i a hi ha)
    intro h
    simp only [DeleteTask, h]
  · intro id now hL
    refine local_of_task s _ id L hL ?_ (fun i a hi ha => local_ToggleDone s id now i a hi ha)
    intro h
    simp only [ToggleDone, h]
  · intro id priority now hL
    refine local_of_task s _ id L hL ?_
      (fun i a hi ha => local_SetTaskPriority s id priority now i a hi ha)
    intro h
    simp only [SetTaskPriority, h]
    split_ifs <;> rfl
  · intro id now hL
    refine local_of_task s _ id L hL ?_ (fun i a hi ha => local_moveTask s id (-1) now i a hi ha)
    intro h
    simp only [MoveTaskUp, moveTask, h]
  · intro id now hL
    refine local_of_task s _ id L hL ?_ (fun i a hi ha => local_moveTask s id 1 now i a hi ha)
    intro h
    simp only [MoveTaskDown, moveTask, h]
  · intro listID now ids h
    rw [← h]
    exact local_ClearCompletedToArchive s listID now ids
  · intro listID now ids h
    rw [← h]
    exact local_ArchiveAllToArchive s listID now ids
  · intro listID h
    rw [← h]
    exact local_DeleteAllTasks s listID

theorem C28_task_operations_local_witness :
    LocalTo (run twoListsService [.createTask "L1" "A" 7 "a", .createTask "L2" "B" 8 "b"])
      ((run twoListsService [.createTask "L1" "A" 7 "a", .createTask "L2" "B" 8 "b"]).CreateTask
        " L1 " "C" 9 "c").2 "L1" :=
  (C28_task_operations_local
    (run twoListsService [.createTask "L1" "A" 7 "a", .createTask "L2" "B" 8 "b"]) "L1").1
    " L1 " "C" 9 "c" (by decide)

end ClaimsLocality

end TodoCli


namespace TodoCli

section RoundTrip

theorem fieldFor_of_mem (lib : GoLib) (fields : List String) (key : String)
    (h : key ∈ fields) : fieldFor lib fields key = some key := by
  unfold fieldFor
  rw [if_pos (by simpa using h)]

theorem members_nil (lib : GoLib) (fields : List String) (name : String) :
    members lib fields name [] = [] := rfl

theorem members_cons (lib : GoLib) (fields : List String) (name k : String) (v : Json)
    (ms : List (String × Json)) (h : k ∈ fields) :
    members lib fields name ((k, v) :: ms) =
      if k = name then v :: members lib fields name ms else members lib fields name ms := by
  unfold members
  by_cases e : k = name
  · subst e
    simp [List.filter, fieldFor_of_mem lib fields k h]
  · have e2 : (k == name) = false := by simpa using e
    simp [List.filter, fieldFor_of_mem lib fields k h, e, e2]

theorem storeElems_map {α : Type} (g : α → Json) (f : Json → Option (α × Bool)) (l : List α)
    (hf : ∀ x ∈ l, f (g x) = some (x, false)) :
    storeElems f (l.map g) = some (l, false) := by
  induction l with
  | nil => rfl
  | cons a l ih =>
    have h1 := hf a (List.mem_cons_self _ _)
    have h2 := ih (fun x hx => hf x (List.mem_cons_of_mem _ hx))
    simp only [List.map_cons, storeElems, h1, h2, Bool.or_self]

theorem storeSlice_marshalSlice {α : Type} (g : α → Json) (f : Json → Option (α × Bool))
    (l : Option (List α)) (hf : ∀ x ∈ l.getD [], f (g x) = some (x, false)) :
    storeSlice f (some (marshalSlice g l)) = some (l, false) := by
  cases l with
  | none => rfl
  | some l =>
    simp only [marshalSlice, storeSlice]
    rw [storeElems_map g f l hf]

theorem storeStrings_one (s : String) : storeStrings [.str s] = (s, false) := rfl

theorem storeBools_one (b : Bool) : storeBools [.bool b] = (b, false) := rfl

theorem storeInts_one (n : Int) (h : InIntRange n) : storeInts [.num n] = (n, false) := by
  unfold InIntRange at h
  simp only [storeInts, List.foldl, storeInt]
  rw [if_pos h]

theorem storeTimes_one (lib : GoLib) (t : Time) :
    storeTimes lib [.str (lib.format t)] = some t := by
  simp only [storeTimes, List.foldl, Option.bind, storeTime, lib.parse_format]

theorem unmarshalList_marshalList (lib : GoLib) (l : TodoList) :
    unmarshalList lib (marshalList lib l) = some (l, false) := by
  simp [unmarshalList, marshalList, members_cons, members_nil, listFields, storeTimes_one,
    storeStrings_one]

theorem unmarshalTask_marshalTask (lib : GoLib) (t : Task)
    (h1 : InIntRange t.Priority) (h2 : InIntRange t.Position) :
    unmarshalTask lib (marshalTask lib t) = some (t, false) := by
  obtain ⟨id, lid, text, done, pr, pos, c, u⟩ := t
  simp only at h1 h2
  have e1 := storeInts_one pr h1
  have e2 := storeInts_one pos h2
  have e0 : storeInts [] = (0, false) := rfl
  by_cases hp : pr = 0 <;> by_cases hq : pos = 0
  · subst hp; subst hq
    simp [unmarshalTask, marshalTask, members_cons, members_nil, taskFields, storeTimes_one,
      storeStrings_one, storeBools_one, omitEmpty, e0]
  · subst hp
    simp [unmarshalTask, marshalTask, members_cons, members_nil, taskFields, storeTimes_one,
      storeStrings_one, storeBools_one, omitEmpty, hq, e2, e0]
  · subst hq
    simp [unmarshalTask, marshalTask, members_cons, members_nil, taskFields, storeTimes_one,
      storeStrings_one, storeBools_one, omitEmpty, hp, e1, e0]
  · simp [unmarshalTask, marshalTask, members_cons, members_nil, taskFields, storeTimes_one,
      storeStrings_one, storeBools_one, omitEmpty, hp, hq, e1, e2]

theorem unmarshalArchived_marshalArchived (lib : GoLib) (a : ArchivedCompletedTask)
    (h1 : InIntRange a.Priority) :
    unmarshalArchived lib (marshalArchived lib a) = some (a, false) := by
  obtain ⟨id, text, olid, ol, pr, d, ar⟩ := a
  simp only at h1
  have e1 := storeInts_one pr h1
  have e0 : storeInts [] = (0, false) := rfl
  have s0 : storeStrings [] = ("", false) := rfl
  by_cases hp : pr = 0 <;> by_cases hq : olid = ""
  · subst hp; subst hq
    simp [unmarshalArchived, marshalArchived, members_cons, members_nil, archivedFields,
      storeTimes_one, storeStrings_one, omitEmpty, e0, s0]
  · subst hp
    simp [unmarshalArchived, marshalArchived, members_cons, members_nil, archivedFields,
      storeTimes_one, storeStrings_one, omitEmpty, hq, e0]
  · subst hq
    simp [unmarshalArchived, marshalArchived, members_cons, members_nil, archivedFields,
      storeTimes_one, storeStrings_one, omitEmpty, hp, e1, s0]
  · simp [unmarshalArchived, marshalArchived, members_cons, members_nil, archivedFields,
      storeTimes_one, storeStrings_one, omitEmpty, hp, hq, e1]

theorem unmarshalSession_marshalSession (lib : GoLib) (c : SessionContext) :
    unmarshalSession lib [marshalSession c] = (c, false) := by
  obtain ⟨a, f⟩ := c
  have s0 : storeStrings [] = ("", false) := rfl
  by_cases hp : a = "" <;> by_cases hq : f = ""
  · subst hp; subst hq
    simp [unmarshalSession, marshalSession, objectMembers, mismatched, members_cons,
      members_nil, sessionFields, storeStrings_one, omitEmpty, s0]
  · subst hp
    simp [unmarshalSession, marshalSession, objectMembers, mismatched, members_cons,
      members_nil, sessionFields, storeStrings_one, omitEmpty, hq, s0]
  · subst hq
    simp [unmarshalSession, marshalSession, objectMembers, mismatched, members_cons,
      members_nil, sessionFields, storeStrings_one, omitEmpty, hp, s0]
  · simp [unmarshalSession, marshalSession, objectMembers, mismatched, members_cons,
      members_nil, sessionFields, storeStrings_one, omitEmpty, hp, hq]

theorem unmarshalMetadata_marshalMetadata (lib : GoLib) (m : Metadata)
    (h : InIntRange m.Version) :
    unmarshalMetadata lib [marshalMetadata m] = (m, false) := by
  obtain ⟨v, fr, c⟩ := m
  simp only at h
  have e1 := storeInts_one v h
  have e2 := unmarshalSession_marshalSession lib c
  have b0 : storeBools [] = (false, false) := rfl
  cases fr
  · simp [unmarshalMetadata, marshalMetadata, objectMembers, mismatched, members_cons,
      members_nil, metadataFields, storeBools_one, omitEmpty, e1, e2, b0]
  · simp [unmarshalMetadata, marshalMetadata, objectMembers, mismatched, members_cons,
      members_nil, metadataFields, storeBools_one, omitEmpty, e1, e2]

theorem unmarshalPlain_Marshal (lib : GoLib) (s : StoredState) (h : Representable s) :
    unmarshalPlain lib (Marshal lib s) = .ok (omitArchive s) := by
  obtain ⟨hv, ht, ha⟩ := h
  obtain ⟨lists, tasks, archived, filter, query, metadata⟩ := s
  simp only at hv ht ha
  have h1 := storeSlice_marshalSlice (marshalList lib) (unmarshalList lib) lists
    (fun x _ => unmarshalList_marshalList lib x)
  have h2 := storeSlice_marshalSlice (marshalTask lib) (unmarshalTask lib) tasks
    (fun x hx => unmarshalTask_marshalTask lib x (ht x hx).1 (ht x hx).2)
  have h3 := storeSlice_marshalSlice (marshalArchived lib) (unmarshalArchived lib) archived
    (fun x hx => unmarshalArchived_marshalArchived lib x (ha x hx))
  have h4 := unmarshalMetadata_marshalMetadata lib metadata hv
  have h5 : storeSlice (unmarshalArchived lib) none =
      some ((none : Option (List ArchivedCompletedTask)), false) := rfl
  have s0 : storeStrings [] = ("", false) := rfl
  by_cases ea : (archived.getD []).isEmpty = true <;> by_cases ef : filter = "" <;>
    by_cases eq : query = ""
  all_goals
    first
    | subst ef
    | skip
  all_goals
    first
    | subst eq
    | skip
  all_goals
    simp [unmarshalPlain, Marshal, omitArchive, members_cons, members_nil, stateFields,
      omitEmpty, h1, h2, h3, h4, h5, storeStrings_one, s0, *]

theorem plainDoc_Marshal (lib : GoLib) (s : StoredState) :
    plainDoc lib (Marshal lib s) = true := by
  obtain ⟨lists, tasks, archived, filter, query, metadata⟩ := s
  by_cases ea : (archived.getD []).isEmpty = true <;> by_cases ef : filter = "" <;>
    by_cases eq : query = ""
  all_goals
    simp [plainDoc, Marshal, members_cons, members_nil, stateFields, omitEmpty, ea, ef, eq]

theorem Unmarshal_Marshal (lib : GoLib) (s : StoredState) (h : Representable s) :
    Unmarshal lib (Marshal lib s) = .ok (omitArchive s) := by
  unfold Unmarshal
  rw [plainDoc_Marshal lib s, if_pos rfl]
  exact unmarshalPlain_Marshal lib s h

end RoundTrip

end TodoCli

namespace TodoCli

section RoundTripClaims

theorem lookup_WriteFile_same (fs : FileSystem) (path : String) (data : Content) (now : Time) :
    (WriteFile fs path data now).lookup path = some { content := data, modTime := now } := by
  simp [WriteFile, List.lookup]

theorem lookup_filter_ne (fs : FileSystem) (path other : String) (h : other ≠ path) :
    (fs.filter (fun e => e.1 != path)).lookup other = fs.lookup other := by
  induction fs with
  | nil => rfl
  | cons e rest ih =>
    obtain ⟨n, f⟩ := e
    by_cases hn : n = path
    · subst hn
      have h1 : (other == n) = false := by simpa using h
      simp [List.filter, List.lookup, h1, ih]
    · have h1 : (n != path) = true := by simpa using hn
      simp only [List.filter, h1, List.lookup]
      rw [ih]

theorem lookup_filter_same (fs : FileSystem) (path : String) :
    (fs.filter (fun e => e.1 != path)).lookup path = none := by
  induction fs with
  | nil => rfl
  | cons e rest ih =>
    obtain ⟨n, f⟩ := e
    by_cases hn : n = path
    · subst hn
      simp [List.filter, ih]
    · have h1 : (n != path) = true := by simpa using hn
      have h2 : (path == n) = false := by simpa using fun h : path = n => hn h.symm
      simp only [List.filter, h1, List.lookup, h2]
      exact ih

theorem lookup_WriteFile_ne (fs : FileSystem) (path other : String) (data : Content)
    (now : Time) (h : other ≠ path) :
    (WriteFile fs path data now).lookup other = fs.lookup other := by
  have h1 : (other == path) = false := by simpa using h
  simp only [WriteFile, List.lookup, h1]
  exact lookup_filter_ne fs path other h

theorem ReadFile_WriteFile_same (fs : FileSystem) (path : String) (data : Content)
    (now : Time) : ReadFile (WriteFile fs path data now) path = some data := by
  simp [ReadFile, lookup_WriteFile_same]

theorem ReadFile_WriteFile_ne (fs : FileSystem) (path other : String) (data : Content)
    (now : Time) (h : other ≠ path) :
    ReadFile (WriteFile fs path data now) other = ReadFile fs other := by
  simp [ReadFile, lookup_WriteFile_ne fs path other data now h]

theorem loadDefaults_omitArchive (s : StoredState) :
    loadDefaults (omitArchive s) = loadDefaults s := by
  obtain ⟨ls, ts, ar, f, q, m⟩ := s
  simp only [loadDefaults, omitArchive]
  cases ar with
  | none => simp
  | some l =>
    cases l with
    | nil => simp
    | cons a l => simp

theorem omitArchive_fixed (s : StoredState) (h : s.ArchivedCompleted ≠ some []) :
    omitArchive s = s := by
  obtain ⟨ls, ts, ar, f, q, m⟩ := s
  simp only [omitArchive]
  cases ar with
  | none => simp
  | some l =>
    cases l with
    | nil => exact absurd rfl h
    | cons a l => simp

theorem decodeState_Marshal (lib : GoLib) (s : StoredState) (h : Representable s) :
    decodeState lib (.doc (Marshal lib s)) = .ok (loadDefaults s) := by
  simp only [decodeState, Unmarshal_Marshal lib s h, loadDefaults_omitArchive]

theorem loadDefaults_fixed (s : StoredState) (hl : s.Lists.isSome = true)
    (ht : s.Tasks.isSome = true) (ha : s.ArchivedCompleted.isSome = true)
    (hf : s.Filter ≠ "") (hv : s.Metadata.Version ≠ 0)
    (hc : TrimSpace s.Metadata.Session.Focus ≠ "") : loadDefaults s = s := by
  obtain ⟨ls, ts, ar, f, q, ⟨v, fr, ⟨al, fo⟩⟩⟩ := s
  simp only [loadDefaults]
  simp only at hl ht ha hf hv hc
  obtain ⟨ls, rfl⟩ := Option.isSome_iff_exists.1 hl
  obtain ⟨ts, rfl⟩ := Option.isSome_iff_exists.1 ht
  obtain ⟨ar, rfl⟩ := Option.isSome_iff_exists.1 ha
  simp [hf, hv, hc]

theorem Load_Save (lib : GoLib) (fs : FileSystem) (path : String) (s : StoredState)
    (now : Time) (h : Representable s) :
    Load lib (Save lib fs path s now) path = .ok (loadDefaults s) := by
  simp only [Load, Save, writeJSON, ReadFile_WriteFile_same]
  exact decodeState_Marshal lib s h

theorem representable_NewState : Representable NewState.stored :=
  ⟨(by unfold InIntRange; decide), fun t ht => (by cases ht), fun t ht => (by cases ht)⟩

theorem representable_emptyFilter : Representable emptyFilterState :=
  ⟨(by unfold InIntRange; decide), fun t ht => (by cases ht), fun t ht => (by cases ht)⟩

theorem representable_sample : Representable sampleStored := by
  refine ⟨(by unfold InIntRange; decide), ?_, ?_⟩
  · intro t ht
    have e : t = Task.mk "t1" "l1" "write tests" true PriorityHigh 3 4 4 := by
      simpa [sampleStored] using ht
    subst e
    exact ⟨(by unfold InIntRange; decide), (by unfold InIntRange; decide)⟩
  · intro a ha
    have e : a = ArchivedCompletedTask.mk "a1" "old done" "l1" "Inbox" PriorityMedium 4 4 := by
      simpa [sampleStored] using ha
    subst e
    unfold InIntRange
    decide

/-- C23 (counterexample): the state of `NewState`, whose archive is empty and not nil, is
read back from what `json.Marshal` writes of it with a nil archive; and the state of
`NewState` with an empty filter, saved to a file and loaded from it, comes back with the
filter `all`. Neither is the state that was written. -/
theorem C23_counterexample :
    Unmarshal strokes (Marshal strokes NewState.stored) = .ok (omitArchive NewState.stored) ∧
      omitArchive NewState.stored ≠ NewState.stored ∧
      Load strokes (Save strokes [] "state.json" emptyFilterState 5) "state.json"
        = .ok NewState.stored ∧
      emptyFilterState ≠ NewState.stored := by
  refine ⟨Unmarshal_Marshal strokes _ representable_NewState, by decide, ?_, by decide⟩
  rw [Load_Save strokes [] "state.json" _ 5 representable_emptyFilter]
  rfl

/-- C23 (amended): for every state whose `int` fields hold 64-bit values, unmarshalling the
marshalled state gives the state back, field for field and in the same order, also when
optional fields hold their zero values, but for an archive without elements, which comes back
as the nil slice; `Save` followed by `Load` gives the state with the defaults of `decodeState`
applied (nil slices empty, empty filter `all`, version 0 to 1, blank focus `lists`), which is
the state itself when its slices are not nil, its filter is non-empty, its version is not zero
and its session focus is not blank. -/
theorem C23_round_trip (lib : GoLib) (fs : FileSystem) (path : String) (s : StoredState)
    (now : Time) (h : Representable s) :
    Unmarshal lib (Marshal lib s) = .ok (omitArchive s) ∧
    (s.ArchivedCompleted ≠ some [] → Unmarshal lib (Marshal lib s) = .ok s) ∧
    Load lib (Save lib fs path s now) path = .ok (loadDefaults s) ∧
    (s.Lists.isSome = true → s.Tasks.isSome = true → s.ArchivedCompleted.isSome = true →
      s.Filter ≠ "" → s.Metadata.Version ≠ 0 → TrimSpace s.Metadata.Session.Focus ≠ "" →
      Load lib (Save lib fs path s now) path = .ok s) := by
  refine ⟨Unmarshal_Marshal lib s h, ?_, Load_Save lib fs path s now h, ?_⟩
  · intro ha
    rw [Unmarshal_Marshal lib s h, omitArchive_fixed s ha]
  · intro hl ht ha hf hv hc
    rw [Load_Save lib fs path s now h, loadDefaults_fixed s hl ht ha hf hv hc]

theorem C23_round_trip_witness :
    Representable sampleStored ∧
    Unmarshal strokes (Marshal strokes sampleStored) = .ok sampleStored ∧
    Load strokes (Save strokes [] "state.json" sampleStored 5) "state.json"
      = .ok sampleStored :=
  ⟨representable_sample,
    (C23_round_trip strokes [] "state.json" sampleStored 5 representable_sample).2.1
      (by decide),
    (C23_round_trip strokes [] "state.json" sampleStored 5 representable_sample).2.2.2
      rfl rfl rfl (by decide) (by decide) (by decide)⟩

end RoundTripClaims

end TodoCli

namespace TodoCli

section LegacyClaims

theorem storeElems_mem {α : Type} (f : Json → Option (α × Bool)) :
    ∀ (items : List Json) (out : List α) (b : Bool), storeElems f items = some (out, b) →
      ∀ a ∈ out, ∃ item ∈ items, ∃ b2, f item = some (a, b2) := by
  intro items
  induction items with
  | nil =>
    intro out b h a ha
    simp only [storeElems, Option.some.injEq, Prod.mk.injEq] at h
    rw [← h.1] at ha
    cases ha
  | cons j js ih =>
    intro out b h a ha
    simp only [storeElems] at h
    cases hj : f j with
    | none => simp [hj] at h
    | some x =>
      cases hr : storeElems f js with
      | none => simp [hj, hr] at h
      | some rest =>
        simp only [hj, hr, Option.some.injEq, Prod.mk.injEq] at h
        rw [← h.1] at ha
        rcases List.mem_cons.1 ha with e | hm
        · exact ⟨j, List.mem_cons_self _ _, x.2, by rw [hj, e]⟩
        · obtain ⟨item, hi, b2, hb⟩ := ih rest.1 rest.2 (by rw [hr]) a hm
          exact ⟨item, List.mem_cons_of_mem _ hi, b2, hb⟩

theorem unmarshalTask_zero (lib : GoLib) (item : Json) (t : Task) (b : Bool)
    (h : unmarshalTask lib item = some (t, b)) (hobj : ∀ tms, item ≠ .obj tms) :
    t.Priority = 0 ∧ t.Position = 0 := by
  cases item with
  | obj tms => exact absurd rfl (hobj tms)
  | null =>
    simp only [unmarshalTask, Option.some.injEq, Prod.mk.injEq] at h
    rw [← h.1]
    exact ⟨rfl, rfl⟩
  | bool _ =>
    simp only [unmarshalTask, Option.some.injEq, Prod.mk.injEq] at h
    rw [← h.1]
    exact ⟨rfl, rfl⟩
  | num _ =>
    simp only [unmarshalTask, Option.some.injEq, Prod.mk.injEq] at h
    rw [← h.1]
    exact ⟨rfl, rfl⟩
  | real _ =>
    simp only [unmarshalTask, Option.some.injEq, Prod.mk.injEq] at h
    rw [← h.1]
    exact ⟨rfl, rfl⟩
  | str _ =>
    simp only [unmarshalTask, Option.some.injEq, Prod.mk.injEq] at h
    rw [← h.1]
    exact ⟨rfl, rfl⟩
  | arr _ =>
    simp only [unmarshalTask, Option.some.injEq, Prod.mk.injEq] at h
    rw [← h.1]
    exact ⟨rfl, rfl⟩

theorem unmarshalTask_legacy (lib : GoLib) (item : Json) (t : Task) (b : Bool)
    (h : unmarshalTask lib item = some (t, b))
    (hl : ∀ tms, item = .obj tms →
      members lib taskFields "priority" tms = [] ∧
        members lib taskFields "position" tms = []) :
    t.Priority = 0 ∧ t.Position = 0 := by
  by_cases hobj : ∃ tms, item = .obj tms
  · obtain ⟨tms, rfl⟩ := hobj
    obtain ⟨hp, hq⟩ := hl tms rfl
    simp only [unmarshalTask] at h
    cases hc : storeTimes lib (members lib taskFields "createdAt" tms) with
    | none => simp [hc] at h
    | some c =>
      cases hu : storeTimes lib (members lib taskFields "updatedAt" tms) with
      | none => simp [hc, hu] at h
      | some u =>
        simp only [hc, hu, hp, hq, Option.some.injEq, Prod.mk.injEq] at h
        rw [← h.1]
        exact ⟨rfl, rfl⟩
  · exact unmarshalTask_zero lib item t b h (fun tms e => hobj ⟨tms, e⟩)

theorem storeSlice_legacy (lib : GoLib) (v : Option Json) (tasks : Option (List Task))
    (b : Bool) (h : storeSlice (unmarshalTask lib) v = some (tasks, b))
    (hl : ∀ items, v = some (.arr items) → ∀ item ∈ items, ∀ tms, item = .obj tms →
      members lib taskFields "priority" tms = [] ∧
        members lib taskFields "position" tms = []) :
    ∀ t ∈ tasks.getD [], t.Priority = 0 ∧ t.Position = 0 := by
  intro t ht
  by_cases harr : ∃ items, v = some (.arr items)
  · obtain ⟨items, rfl⟩ := harr
    simp only [storeSlice] at h
    cases hr : storeElems (unmarshalTask lib) items with
    | none => simp [hr] at h
    | some r =>
      simp only [hr, Option.some.injEq, Prod.mk.injEq] at h
      rw [← h.1] at ht
      obtain ⟨item, hi, b2, hb⟩ := storeElems_mem _ items r.1 r.2 hr t ht
      exact unmarshalTask_legacy lib item t b2 hb (hl items rfl item hi)
  · have hnil : tasks = none := by
      cases v with
      | none =>
        simp only [storeSlice, Option.some.injEq, Prod.mk.injEq] at h
        exact h.1.symm
      | some j =>
        cases j with
        | arr items => exact absurd ⟨items, rfl⟩ harr
        | _ =>
          simp only [storeSlice, Option.some.injEq, Prod.mk.injEq] at h
          exact h.1.symm
    rw [hnil] at ht
    cases ht

/-- A member whose name differs from the name of a field by the case of a letter is stored
into that field: the document with the one member `Filter` loads with that filter. Members
of one field are stored in turn: with two members `query` and a member `QUERY` that is `null`
the query loaded is that of the second. -/
theorem Load_member_names :
    members strokes stateFields "filter" [("Filter", .str "done")] = [.str "done"] ∧
      Load strokes capitalFilterFiles "state.json" =
        .ok { Lists := some [], Tasks := some [], ArchivedCompleted := some [],
              Filter := FilterDone, Query := "",
              Metadata := Metadata.mk 1 false (SessionContext.mk "" SessionFocusLists) } ∧
      Load strokes repeatedQueryFiles "state.json" =
        .ok { Lists := some [], Tasks := some [], ArchivedCompleted := some [],
              Filter := FilterAll, Query := "b",
              Metadata := Metadata.mk 1 false (SessionContext.mk "" SessionFocusLists) } :=
  ⟨rfl, rfl, rfl⟩

/-- C24: a persisted document that is a JSON object giving each slice of the state at most
one member, without a member for the fields `filter`, `metadata` and `archivedCompleted`
(under the names `json.Unmarshal` accepts for them, which are the names whatever the case of
their letters), whose `lists` and `tasks` decode without error and whose task objects have no
member for `priority` and `position`, loads without error: the filter is `all`, the metadata
version is 1, the session focus is `lists`, the archive is empty and not nil, every task has
priority 0 and position 0, and the lists and tasks are those the document writes. -/
theorem C24_legacy_defaults (lib : GoLib) (fs : FileSystem) (path : String)
    (ms : List (String × Json)) (lists : Option (List TodoList)) (tasks : Option (List Task))
    (query : String)
    (hfile : ReadFile fs path = some (.doc (.obj ms)))
    (hplain : plainDoc lib (.obj ms) = true)
    (hfilter : members lib stateFields "filter" ms = [])
    (hmeta : members lib stateFields "metadata" ms = [])
    (harch : members lib stateFields "archivedCompleted" ms = [])
    (hlists : storeSlice (unmarshalList lib) (members lib stateFields "lists" ms).head?
      = some (lists, false))
    (htasks : storeSlice (unmarshalTask lib) (members lib stateFields "tasks" ms).head?
      = some (tasks, false))
    (hquery : storeStrings (members lib stateFields "query" ms) = (query, false))
    (hlegacy : ∀ items, (members lib stateFields "tasks" ms).head? = some (.arr items) →
      ∀ item ∈ items, ∀ tms, item = .obj tms →
        members lib taskFields "priority" tms = [] ∧
          members lib taskFields "position" tms = []) :
    Load lib fs path = .ok
        { Lists := some (lists.getD []), Tasks := some (tasks.getD []),
          ArchivedCompleted := some [], Filter := FilterAll, Query := query,
          Metadata := { Version := 1, FirstRun := false,
                        Session := { ActiveListID := "", Focus := SessionFocusLists } } } ∧
      ∀ t ∈ tasks.getD [], t.Priority = PriorityNone ∧ t.Position = 0 := by
  refine ⟨?_, storeSlice_legacy lib _ tasks false htasks hlegacy⟩
  simp only [Load, hfile, decodeState, Unmarshal, hplain, if_true, unmarshalPlain]
  rw [hlists, htasks, hquery, harch, hfilter, hmeta]
  rfl

theorem C24_legacy_defaults_witness :
    plainDoc strokes (.obj legacyMembers) = true ∧
    Load strokes [("legacy.json", File.mk (.doc (.obj legacyMembers)) 4)] "legacy.json" = .ok
        { Lists := some [TodoList.mk "l1" "Inbox" "blue" 2 2],
          Tasks := some [Task.mk "t1" "l1" "legacy task" false 0 0 3 3],
          ArchivedCompleted := some [], Filter := FilterAll, Query := "",
          Metadata := { Version := 1, FirstRun := false,
                        Session := { ActiveListID := "", Focus := SessionFocusLists } } } ∧
      ∀ t ∈ [Task.mk "t1" "l1" "legacy task" false 0 0 3 3],
        t.Priority = PriorityNone ∧ t.Position = 0 :=
  ⟨by decide,
    C24_legacy_defaults strokes
      [("legacy.json", File.mk (.doc (.obj legacyMembers)) 4)] "legacy.json"
      legacyMembers (some [TodoList.mk "l1" "Inbox" "blue" 2 2])
      (some [Task.mk "t1" "l1" "legacy task" false 0 0 3 3]) ""
      rfl (by decide) rfl rfl rfl rfl rfl rfl (by
        intro items h item hi tms e
        have h3 : (members strokes stateFields "tasks" legacyMembers).head? =
            some (.arr [.obj [("id", .str "t1"),
              ("listId", .str "l1"), ("text", .str "legacy task"), ("done", .bool false),
              ("createdAt", .str "III"), ("updatedAt", .str "III")]]) := rfl
        rw [h3] at h
        injection h with h
        injection h with h
        subst h
        rw [List.mem_singleton] at hi
        subst hi
        injection e with e
        subst e
        exact ⟨rfl, rfl⟩)⟩

end LegacyClaims

end TodoCli

namespace TodoCli

/-! ### Files by path -/

theorem lookup_Remove_ne (fs : FileSystem) (path other : String) (h : other ≠ path) :
    (Remove fs path).lookup other = fs.lookup other :=
  lookup_filter_ne fs path other h

theorem lookup_Remove_same (fs : FileSystem) (path : String) :
    (Remove fs path).lookup path = none :=
  lookup_filter_same fs path

theorem lookup_filter_two (fs : FileSystem) (a b other : String) (ha : other ≠ a)
    (hb : other ≠ b) :
    (fs.filter (fun e => e.1 != a && e.1 != b)).lookup other = fs.lookup other := by
  induction fs with
  | nil => rfl
  | cons e rest ih =>
    obtain ⟨n, f⟩ := e
    by_cases hn : other = n
    · subst hn
      have h1 : (other != a && other != b) = true := by simp [ha, hb]
      simp [List.filter, h1, List.lookup]
    · have h2 : (other == n) = false := by simpa using hn
      by_cases hk : (n != a && n != b) = true
      · simp only [List.filter, hk, List.lookup, h2]
        exact ih
      · have hk2 : (n != a && n != b) = false := by simpa using hk
        simp only [List.filter, hk2, List.lookup, h2]
        exact ih

theorem lookup_Rename_other (fs : FileSystem) (oldpath newpath other : String)
    (ho : other ≠ oldpath) (hn : other ≠ newpath) :
    (Rename fs oldpath newpath).lookup other = fs.lookup other := by
  unfold Rename
  cases h : List.lookup oldpath fs with
  | none => rfl
  | some f =>
    have h1 : (other == newpath) = false := by simpa using hn
    simp only [List.lookup, h1]
    exact lookup_filter_two fs oldpath newpath other ho hn

theorem lookup_Rename_new (fs : FileSystem) (oldpath newpath : String) (f : File)
    (h : fs.lookup oldpath = some f) :
    (Rename fs oldpath newpath).lookup newpath = some f := by
  unfold Rename
  simp [h, List.lookup]

theorem lookup_filter_two_left (fs : FileSystem) (a b : String) :
    (fs.filter (fun e => e.1 != a && e.1 != b)).lookup a = none := by
  induction fs with
  | nil => rfl
  | cons e rest ih =>
    obtain ⟨n, f⟩ := e
    by_cases hk : (n != a && n != b) = true
    · have h2 : (a == n) = false := by
        have : n ≠ a := by
          intro e
          simp [e] at hk
        simpa using fun e : a = n => this e.symm
      simp only [List.filter, hk, List.lookup, h2]
      exact ih
    · have hk2 : (n != a && n != b) = false := by simpa using hk
      simp only [List.filter, hk2]
      exact ih

theorem lookup_Rename_old (fs : FileSystem) (oldpath newpath : String) (f : File)
    (h : fs.lookup oldpath = some f) (hne : oldpath ≠ newpath) :
    (Rename fs oldpath newpath).lookup oldpath = none := by
  unfold Rename
  have h1 : (oldpath == newpath) = false := by simpa using hne
  simp only [h, List.lookup, h1]
  exact lookup_filter_two_left fs oldpath newpath

theorem lookup_run (now : Time) (fs : FileSystem) (c : FsCall) (path : String)
    (h : c.touches path = false) : (c.run now fs).lookup path = fs.lookup path := by
  cases c with
  | mkdirAll d => rfl
  | writeFile p data =>
    have hp : path ≠ p := by
      intro e
      simp [FsCall.touches, e] at h
    exact lookup_WriteFile_ne fs p path data now hp
  | remove p =>
    have hp : path ≠ p := by
      intro e
      simp [FsCall.touches, e] at h
    exact lookup_Remove_ne fs p path hp
  | createTemp p =>
    have hp : path ≠ p := by
      intro e
      simp [FsCall.touches, e] at h
    exact lookup_WriteFile_ne fs p path _ now hp
  | encode p data =>
    have hp : path ≠ p := by
      intro e
      simp [FsCall.touches, e] at h
    exact lookup_WriteFile_ne fs p path data now hp
  | sync p => rfl
  | close p => rfl
  | rename o n =>
    have hp : path ≠ o ∧ path ≠ n := by
      simp only [FsCall.touches, Bool.or_eq_false_iff, beq_eq_false_iff_ne, ne_eq] at h
      exact ⟨fun e => h.1 e.symm, fun e => h.2 e.symm⟩
    exact lookup_Rename_other fs o n path hp.1 hp.2

theorem lookup_foldl_run (now : Time) (calls : List FsCall) (fs : FileSystem) (path : String)
    (h : ∀ c ∈ calls, c.touches path = false) :
    (calls.foldl (FsCall.run now) fs).lookup path = fs.lookup path := by
  induction calls generalizing fs with
  | nil => rfl
  | cons c rest ih =>
    simp only [List.foldl]
    rw [ih _ (fun x hx => h x (List.mem_cons_of_mem _ hx)),
      lookup_run now fs c path (h c (List.mem_cons_self _ _))]

/-! ### Names -/

theorem ne_append_of_ne_nil (p x : String) (h : x.data ≠ []) : p ++ x ≠ p := by
  intro e
  have h1 := congrArg String.data e
  rw [String.data_append] at h1
  have h2 := congrArg List.length h1
  rw [List.length_append] at h2
  have h3 : x.data.length = 0 := by omega
  exact h (List.length_eq_zero.1 h3)

theorem startsWith_append (p a b : List Char) :
    startsWith (p ++ a) (p ++ b) = startsWith a b := by
  induction p with
  | nil => rfl
  | cons c cs ih => simp [startsWith, ih]

theorem startsWith_self_append (p b : List Char) (h : b ≠ []) :
    startsWith p (p ++ b) = false := by
  have := startsWith_append p [] b
  rw [List.append_nil] at this
  rw [this]
  cases b with
  | nil => exact absurd rfl h
  | cons d ds => rfl

theorem rotating_ne_path (path n : String)
    (h : startsWith n.data (path ++ ".bak.").data = true) : n ≠ path := by
  intro e
  subst e
  rw [String.data_append, startsWith_self_append _ _ (by decide)] at h
  cases h

theorem rotating_ne_bak (path n : String)
    (h : startsWith n.data (path ++ ".bak.").data = true) : n ≠ path ++ ".bak" := by
  intro e
  subst e
  rw [String.data_append, String.data_append, startsWith_append] at h
  revert h
  decide

theorem tmp_not_rotating (path rnd : String) :
    startsWith (path ++ ".tmp-" ++ rnd).data (path ++ ".bak.").data = false := by
  rw [String.data_append, String.data_append, String.data_append, List.append_assoc,
    startsWith_append]
  rfl

theorem bak_not_rotating (path : String) :
    startsWith (path ++ ".bak").data (path ++ ".bak.").data = false := by
  rw [String.data_append, String.data_append, startsWith_append]
  rfl

theorem path_not_rotating (path : String) :
    startsWith path.data (path ++ ".bak.").data = false := by
  rw [String.data_append]
  exact startsWith_self_append _ _ (by decide)

theorem tmp_ne_path (path rnd : String) : path ++ ".tmp-" ++ rnd ≠ path := by
  rw [String.append_assoc]
  apply ne_append_of_ne_nil
  rw [String.data_append]
  intro h
  have h2 := congrArg List.length h
  simp at h2

theorem bak_ne_path (path : String) : path ++ ".bak" ≠ path :=
  ne_append_of_ne_nil path ".bak" (by decide)

theorem tmp_ne_bak (path rnd : String) : path ++ ".tmp-" ++ rnd ≠ path ++ ".bak" := by
  intro e
  have h1 := congrArg String.data e
  rw [String.data_append, String.data_append, String.data_append, List.append_assoc] at h1
  have h2 := List.append_cancel_left h1
  revert h2
  simp

theorem rotating_startsWith (path stamp : String) :
    startsWith (path ++ ".bak." ++ stamp).data (path ++ ".bak.").data = true := by
  rw [String.data_append]
  exact (startsWith_iff _ _).2 ⟨_, rfl⟩

theorem dirPart_append_Base (path : String) : dirPart path ++ Base path = path := by
  apply String.ext
  simp only [dirPart, Base, String.data_append]
  rw [← List.reverse_append, List.takeWhile_append_dropWhile, List.reverse_reverse]

theorem hasMeta_append (a b : String) : hasMeta (a ++ b) = (hasMeta a || hasMeta b) := by
  simp only [hasMeta, String.data_append, List.any_append]

theorem hasMeta_rotating (path : String) (h : hasMeta path = false) :
    hasMeta (path ++ ".bak.") = false := by
  rw [hasMeta_append, h]
  rfl

theorem glob_rotating (lib : GoLib) (fs : FileSystem) (path : String)
    (h : hasMeta path = false) :
    lib.glob fs (path ++ ".bak.*") = some (namesWith fs (path ++ ".bak.")) := by
  have e : path ++ ".bak.*" = (path ++ ".bak.") ++ "*" := by
    rw [String.append_assoc]
    rfl
  rw [e]
  exact lib.glob_plain fs _ (hasMeta_rotating path h)

theorem star_not_mem_of_plain (path : String) (h : hasMeta path = false) :
    '*' ∉ path.data := by
  intro hm
  have h2 : hasMeta path = true := by
    simp only [hasMeta, List.any_eq_true]
    exact ⟨'*', hm, by decide⟩
  rw [h] at h2
  cases h2

theorem tempName_plain (path rnd : String) (h : hasMeta path = false) :
    tempName path rnd = path ++ ".tmp-" ++ rnd := by
  have hb : ∀ c ∈ (Base path).data, c ∈ path.data := by
    intro c hc
    simp only [Base, List.mem_reverse] at hc
    exact List.mem_reverse.1 (List.takeWhile_subset _ hc)
  have hc : (Base path ++ ".tmp-").data.contains '*' = false := by
    rw [Bool.eq_false_iff]
    intro hm
    rw [List.contains_iff_exists_mem_beq] at hm
    obtain ⟨c, hc, e⟩ := hm
    have e2 : c = '*' := by
      have e3 : '*' = c := by simpa using e
      exact e3.symm
    subst e2
    rw [String.data_append, List.mem_append] at hc
    rcases hc with hc | hc
    · exact star_not_mem_of_plain path h (hb _ hc)
    · revert hc
      decide
  unfold tempName
  simp only [hc, Bool.false_eq_true, if_false]
  have e : String.mk (Base path ++ ".tmp-").data = Base path ++ ".tmp-" := rfl
  rw [e, ← String.append_assoc, dirPart_append_Base]

end TodoCli

namespace TodoCli

/-! ### The rotating backups of a path -/

theorem mem_sortStrings (l : List String) (n : String) : n ∈ sortStrings l ↔ n ∈ l :=
  (List.perm_insertionSort _ l).mem_iff

theorem mem_names_iff (fs : FileSystem) (n : String) :
    n ∈ fs.map (·.1) ↔ (fs.lookup n).isSome = true := by
  induction fs with
  | nil => simp
  | cons e rest ih =>
    obtain ⟨k, f⟩ := e
    by_cases h : n = k
    · subst h
      simp [List.lookup]
    · have h2 : (n == k) = false := by simpa using h
      simp only [List.map_cons, List.mem_cons, h, false_or, List.lookup, h2]
      exact ih

theorem mem_namesWith (fs : FileSystem) (pre n : String) :
    n ∈ namesWith fs pre ↔ (fs.lookup n).isSome = true ∧ continues pre n = true := by
  unfold namesWith
  rw [mem_sortStrings, List.mem_dedup, List.mem_filter, mem_names_iff]

theorem startsWith_of_continues (pre n : String) (h : continues pre n = true) :
    startsWith n.data pre.data = true := by
  unfold continues at h
  rw [Bool.and_eq_true] at h
  exact h.1

theorem rotating_continues (lib : GoLib) (path : String) (now : Time) :
    continues (path ++ ".bak.") (path ++ ".bak." ++ lib.stampNano now) = true := by
  unfold continues
  rw [Bool.and_eq_true]
  refine ⟨rotating_startsWith path _, ?_⟩
  rw [String.data_append (path ++ ".bak."), List.drop_left, List.all_eq_true]
  intro c hc
  have h := lib.stampNano_nosep now
  simpa using fun e : c = '/' => h (e ▸ hc)

theorem leChars_iff (a : List Char) :
    ∀ b : List Char, leChars a b = true ↔ ¬ List.Lex (· < ·) b a := by
  induction a with
  | nil =>
    intro b
    simp only [leChars, true_iff]
    exact List.Lex.not_nil_right _ b
  | cons c cs ih =>
    intro b
    cases b with
    | nil =>
      simp only [leChars, Bool.false_eq_true, false_iff, not_not]
      exact List.Lex.nil
    | cons d ds =>
      have hcd : c < d ↔ c.toNat < d.toNat := Iff.rfl
      have hdc : d < c ↔ d.toNat < c.toNat := Iff.rfl
      simp only [leChars]
      by_cases h1 : c.toNat < d.toNat
      · simp only [h1, if_true, true_iff]
        intro hl
        cases hl with
        | cons h => exact absurd h1 (lt_irrefl _)
        | rel h => exact absurd (hdc.1 h) (by omega)
      · by_cases h2 : d.toNat < c.toNat
        · simp only [h1, h2, if_false, if_true, Bool.false_eq_true, false_iff, not_not]
          exact List.Lex.rel (hdc.2 h2)
        · have e : c = d :=
            le_antisymm (not_lt.1 (fun h => h2 (hdc.1 h))) (not_lt.1 (fun h => h1 (hcd.1 h)))
          subst e
          simp only [h1, if_false, ih ds, List.Lex.cons_iff]

theorem leChars_iff_le (a b : String) : leChars a.data b.data = true ↔ a ≤ b := by
  rw [leChars_iff, ← not_lt, String.lt_iff_toList_lt]
  rfl

theorem sortStrings_eq (l : List String) : sortStrings l = l.insertionSort (· ≤ ·) := by
  unfold sortStrings
  apply insertionSort_congr
  intro a _ b _
  exact leChars_iff_le a b

theorem sorted_sortStrings (l : List String) : (sortStrings l).Sorted (· ≤ ·) := by
  rw [sortStrings_eq]
  exact List.sorted_insertionSort _ l

theorem sortStrings_of_sorted (l : List String) (h : l.Sorted (· < ·)) : sortStrings l = l := by
  rw [sortStrings_eq]
  exact List.Sorted.insertionSort_eq (h.imp (fun hab => le_of_lt hab))

theorem sorted_namesWith (fs : FileSystem) (pre : String) :
    (namesWith fs pre).Sorted (· < ·) := by
  unfold namesWith
  apply List.Sorted.lt_of_le (sorted_sortStrings _)
  exact (List.perm_insertionSort _ _).nodup_iff.2 (List.nodup_dedup _)

theorem eq_of_sorted_of_mem_iff (l m : List String) (hl : l.Sorted (· < ·))
    (hm : m.Sorted (· < ·)) (h : ∀ n, n ∈ l ↔ n ∈ m) : l = m :=
  List.eq_of_perm_of_sorted ((List.perm_ext_iff_of_nodup hl.nodup hm.nodup).2 h)
    (hl.imp (fun hab => le_of_lt hab)) (hm.imp (fun hab => le_of_lt hab))

theorem namesWith_eq (fs : FileSystem) (pre : String) (l : List String)
    (hl : l.Sorted (· < ·))
    (h : ∀ n, n ∈ l ↔ ((fs.lookup n).isSome = true ∧ continues pre n = true)) :
    namesWith fs pre = l :=
  eq_of_sorted_of_mem_iff _ _ (sorted_namesWith fs pre) hl
    (fun n => (mem_namesWith fs pre n).trans (h n).symm)

theorem namesWith_congr (fs fs2 : FileSystem) (pre : String)
    (h : ∀ n, continues pre n = true → fs2.lookup n = fs.lookup n) :
    namesWith fs2 pre = namesWith fs pre := by
  apply namesWith_eq fs2 pre _ (sorted_namesWith fs pre)
  intro n
  rw [mem_namesWith]
  constructor
  · intro ⟨h1, h2⟩
    exact ⟨by rw [h n h2]; exact h1, h2⟩
  · intro ⟨h1, h2⟩
    exact ⟨by rw [← h n h2]; exact h1, h2⟩

theorem lookup_foldl_remove (now : Time) (names : List String) (fs : FileSystem)
    (n : String) :
    ((names.map FsCall.remove).foldl (FsCall.run now) fs).lookup n =
      if n ∈ names then none else fs.lookup n := by
  induction names generalizing fs with
  | nil => simp
  | cons k rest ih =>
    simp only [List.map_cons, List.foldl_cons, FsCall.run]
    rw [ih]
    by_cases hr : n ∈ rest
    · simp [hr]
    · by_cases hk : n = k
      · subst hk
        simp [hr, lookup_Remove_same]
      · simp [hr, hk, lookup_Remove_ne _ _ _ hk]

theorem mem_drop_iff_of_nodup (l : List String) (k : Nat) (h : l.Nodup) (n : String) :
    n ∈ l.drop k ↔ n ∈ l ∧ n ∉ l.take k := by
  have h1 : (l.take k ++ l.drop k).Nodup := by rw [List.take_append_drop]; exact h
  have h2 := List.nodup_append.1 h1
  constructor
  · intro hn
    exact ⟨List.mem_of_mem_drop hn, fun ht => h2.2.2 ht hn⟩
  · intro ⟨hn, ht⟩
    rw [← List.take_append_drop k l] at hn
    rcases List.mem_append.1 hn with hn | hn
    · exact absurd hn ht
    · exact hn

theorem pruneCalls_plain (lib : GoLib) (fs : FileSystem) (path : String)
    (hp : hasMeta path = false) : pruneCalls lib fs path = some (pruneRemovals fs path) := by
  unfold pruneCalls pruneRemovals
  rw [glob_rotating lib fs path hp]
  simp only
  split <;> rfl

/-- The rotating backups after the calls of `pruneRotatingBackups`: the last
`maxRotatingBackups` by name. -/
theorem namesWith_pruneRemovals (fs : FileSystem) (path : String) (now : Time) :
    namesWith ((pruneRemovals fs path).foldl (FsCall.run now) fs) (path ++ ".bak.") =
      (namesWith fs (path ++ ".bak.")).drop
        ((namesWith fs (path ++ ".bak.")).length - maxRotatingBackups) := by
  unfold pruneRemovals
  split
  · rename_i hle
    rw [Nat.sub_eq_zero_of_le hle]
    rfl
  · rw [sortStrings_of_sorted _ (sorted_namesWith _ _)]
    apply namesWith_eq _ _ _ ((sorted_namesWith fs _).sublist (List.drop_sublist _ _))
    intro n
    rw [lookup_foldl_remove, mem_drop_iff_of_nodup _ _ (sorted_namesWith fs _).nodup,
      mem_namesWith]
    by_cases hn : n ∈ List.take ((namesWith fs (path ++ ".bak.")).length - maxRotatingBackups)
        (namesWith fs (path ++ ".bak."))
    · simp [hn]
    · simp [hn]

theorem touches_pruneRemovals (fs : FileSystem) (path p : String)
    (hp : startsWith p.data (path ++ ".bak.").data = false) :
    ∀ c ∈ pruneRemovals fs path, c.touches p = false := by
  intro c hc
  unfold pruneRemovals at hc
  split at hc
  · cases hc
  · obtain ⟨n, hn, e⟩ := List.mem_map.1 hc
    subst e
    have h1 := List.mem_of_mem_take hn
    rw [mem_sortStrings, mem_namesWith] at h1
    have h2 := startsWith_of_continues _ _ h1.2
    have h3 : n ≠ p := by
      intro e
      rw [e, hp] at h2
      cases h2
    simpa [FsCall.touches] using h3

end TodoCli

namespace TodoCli

/-! ### The calls of `Autosave` -/

theorem backupCalls_none (lib : GoLib) (fs : FileSystem) (path : String) (now : Time)
    (h : ReadFile fs path = none) : backupCalls lib fs path now = ([], true) := by
  simp [backupCalls, h]

theorem backupCalls_some (lib : GoLib) (fs : FileSystem) (path : String) (now : Time)
    (d : Content) (hp : hasMeta path = false) (h : ReadFile fs path = some d) :
    backupCalls lib fs path now =
      (.writeFile (path ++ ".bak") d :: .writeFile (path ++ ".bak." ++ lib.stampNano now) d ::
        pruneRemovals (WriteFile (WriteFile fs (path ++ ".bak") d now)
          (path ++ ".bak." ++ lib.stampNano now) d now) path, true) := by
  simp [backupCalls, h, FsCall.run, pruneCalls_plain lib _ path hp]

theorem backupCalls_ok (lib : GoLib) (fs : FileSystem) (path : String) (now : Time)
    (hp : hasMeta path = false) : (backupCalls lib fs path now).2 = true := by
  cases h : ReadFile fs path with
  | none => rw [backupCalls_none lib fs path now h]
  | some d => rw [backupCalls_some lib fs path now d hp h]

theorem touches_backupCalls (lib : GoLib) (fs : FileSystem) (path : String) (now : Time)
    (hp : hasMeta path = false) :
    ∀ c ∈ (backupCalls lib fs path now).1, c.touches path = false := by
  intro c hc
  cases h : ReadFile fs path with
  | none =>
    rw [backupCalls_none lib fs path now h] at hc
    cases hc
  | some d =>
    rw [backupCalls_some lib fs path now d hp h] at hc
    rcases List.mem_cons.1 hc with e | hc
    · subst e
      simpa [FsCall.touches] using bak_ne_path path
    · rcases List.mem_cons.1 hc with e | hc
      · subst e
        simpa [FsCall.touches] using
          rotating_ne_path path _ (rotating_startsWith path (lib.stampNano now))
      · exact touches_pruneRemovals _ path path (path_not_rotating path) c hc

/-- The calls of `Autosave` on a path without pattern characters. -/
theorem autosaveCalls_eq (lib : GoLib) (fs : FileSystem) (path : String) (state : StoredState)
    (now : Time) (rnd : String) (hp : hasMeta path = false) :
    autosaveCalls lib fs path state now rnd =
      ((.mkdirAll (dirPart path) :: ((backupCalls lib fs path now).1 ++
        [.createTemp (path ++ ".tmp-" ++ rnd),
         .encode (path ++ ".tmp-" ++ rnd) (.doc (Marshal lib state)),
         .sync (path ++ ".tmp-" ++ rnd), .close (path ++ ".tmp-" ++ rnd)])) ++
      [.rename (path ++ ".tmp-" ++ rnd) path], true) := by
  simp [autosaveCalls, backupCalls_ok lib fs path now hp, tempName_plain path rnd hp]

theorem Autosave_eq (lib : GoLib) (fs : FileSystem) (path : String) (state : StoredState)
    (now : Time) (rnd : String) (hp : hasMeta path = false) :
    Autosave lib fs path state now rnd =
      (true, Remove ((autosaveCalls lib fs path state now rnd).1.foldl (FsCall.run now) fs)
        (path ++ ".tmp-" ++ rnd)) := by
  unfold Autosave
  simp only [autosaveCalls_eq lib fs path state now rnd hp, if_true,
    tempName_plain path rnd hp]

theorem touches_earlier (lib : GoLib) (fs : FileSystem) (path : String) (state : StoredState)
    (now : Time) (rnd : String) (hp : hasMeta path = false) :
    ∀ c ∈ (.mkdirAll (dirPart path) :: ((backupCalls lib fs path now).1 ++
        [.createTemp (path ++ ".tmp-" ++ rnd),
         .encode (path ++ ".tmp-" ++ rnd) (.doc (Marshal lib state)),
         .sync (path ++ ".tmp-" ++ rnd), .close (path ++ ".tmp-" ++ rnd)]) : List FsCall),
      c.touches path = false := by
  intro c hc
  have ht : ((path ++ ".tmp-" ++ rnd) == path) = false := by
    simpa using tmp_ne_path path rnd
  rcases List.mem_cons.1 hc with e | hc
  · subst e
    rfl
  · rcases List.mem_append.1 hc with hc | hc
    · exact touches_backupCalls lib fs path now hp c hc
    · simp only [List.mem_cons, List.mem_singleton, List.not_mem_nil, or_false] at hc
      rcases hc with e | e | e | e <;> subst e <;> simp [FsCall.touches, ht]

theorem lookup_autosaveStopped (lib : GoLib) (fs : FileSystem) (path : String)
    (state : StoredState) (now : Time) (rnd : String) (n : Nat) (cleanup : Bool)
    (hp : hasMeta path = false)
    (hn : n < (autosaveCalls lib fs path state now rnd).1.length) :
    (autosaveStopped lib fs path state now rnd n cleanup).lookup path = fs.lookup path := by
  have h1 : (((autosaveCalls lib fs path state now rnd).1.take n).foldl (FsCall.run now)
      fs).lookup path = fs.lookup path := by
    apply lookup_foldl_run
    intro c hc
    rw [autosaveCalls_eq lib fs path state now rnd hp] at hc hn
    simp only at hc hn
    rw [List.length_append, List.length_singleton] at hn
    rw [List.take_append_of_le_length (by omega)] at hc
    exact touches_earlier lib fs path state now rnd hp c (List.mem_of_mem_take hc)
  unfold autosaveStopped
  cases cleanup with
  | false => simpa using h1
  | true =>
    simp only [if_true, tempName_plain path rnd hp]
    rw [lookup_Remove_ne _ _ _ (fun e => tmp_ne_path path rnd e.symm)]
    exact h1

theorem lookup_Autosave (lib : GoLib) (fs : FileSystem) (path : String)
    (state : StoredState) (now : Time) (rnd : String) (hp : hasMeta path = false) :
    (Autosave lib fs path state now rnd).2.lookup path =
      some { content := .doc (Marshal lib state), modTime := now } := by
  rw [Autosave_eq lib fs path state now rnd hp]
  simp only
  rw [lookup_Remove_ne _ _ _ (fun e => tmp_ne_path path rnd e.symm)]
  rw [autosaveCalls_eq lib fs path state now rnd hp]
  simp only
  rw [List.foldl_append]
  simp only [List.foldl_cons, List.foldl_nil, FsCall.run]
  apply lookup_Rename_new
  rw [List.foldl_append]
  simp only [List.foldl_cons, List.foldl_nil, FsCall.run]
  exact lookup_WriteFile_same _ _ _ _

/-- The calls that follow the write of the latest backup leave that backup alone. -/
theorem touches_after_bak (lib : GoLib) (path : String) (state : StoredState)
    (now : Time) (rnd : String) (fs2 : FileSystem) (d : Content) :
    ∀ c ∈ (.writeFile (path ++ ".bak." ++ lib.stampNano now) d :: (pruneRemovals fs2 path ++
        [.createTemp (path ++ ".tmp-" ++ rnd),
         .encode (path ++ ".tmp-" ++ rnd) (.doc (Marshal lib state)),
         .sync (path ++ ".tmp-" ++ rnd), .close (path ++ ".tmp-" ++ rnd),
         .rename (path ++ ".tmp-" ++ rnd) path]) : List FsCall),
      c.touches (path ++ ".bak") = false := by
  intro c hc
  have ht : ((path ++ ".tmp-" ++ rnd) == (path ++ ".bak")) = false := by
    simpa using tmp_ne_bak path rnd
  have hp : (path == (path ++ ".bak")) = false := by
    simpa using fun e : path = path ++ ".bak" => bak_ne_path path e.symm
  rcases List.mem_cons.1 hc with e | hc
  · subst e
    simpa [FsCall.touches] using
      rotating_ne_bak path _ (rotating_startsWith path (lib.stampNano now))
  · rcases List.mem_append.1 hc with hc | hc
    · exact touches_pruneRemovals _ path _ (bak_not_rotating path) c hc
    · simp only [List.mem_cons, List.mem_singleton, List.not_mem_nil, or_false] at hc
      rcases hc with e | e | e | e | e <;> subst e <;> simp [FsCall.touches, ht, hp]

theorem autosaveCalls_some (lib : GoLib) (fs : FileSystem) (path : String)
    (state : StoredState) (now : Time) (rnd : String) (d : Content)
    (hp : hasMeta path = false) (h : ReadFile fs path = some d) :
    (autosaveCalls lib fs path state now rnd).1 =
      .mkdirAll (dirPart path) :: .writeFile (path ++ ".bak") d ::
        (.writeFile (path ++ ".bak." ++ lib.stampNano now) d ::
          (pruneRemovals (WriteFile (WriteFile fs (path ++ ".bak") d now)
            (path ++ ".bak." ++ lib.stampNano now) d now) path ++
          [.createTemp (path ++ ".tmp-" ++ rnd),
           .encode (path ++ ".tmp-" ++ rnd) (.doc (Marshal lib state)),
           .sync (path ++ ".tmp-" ++ rnd), .close (path ++ ".tmp-" ++ rnd),
           .rename (path ++ ".tmp-" ++ rnd) path])) := by
  rw [autosaveCalls_eq lib fs path state now rnd hp]
  simp [backupCalls_some lib fs path now d hp h]

theorem lookup_bak_take (lib : GoLib) (fs : FileSystem) (path : String) (state : StoredState)
    (now : Time) (rnd : String) (d : Content) (hp : hasMeta path = false)
    (h : ReadFile fs path = some d) (n : Nat) (hn : 2 ≤ n) :
    (((autosaveCalls lib fs path state now rnd).1.take n).foldl (FsCall.run now) fs).lookup
        (path ++ ".bak") = some { content := d, modTime := now } := by
  obtain ⟨k, rfl⟩ : ∃ k, n = k + 2 := ⟨n - 2, by omega⟩
  rw [autosaveCalls_some lib fs path state now rnd d hp h]
  simp only [List.take_succ_cons, List.foldl_cons, FsCall.run]
  rw [lookup_foldl_run now _ _ _ (fun c hc =>
    touches_after_bak lib path state now rnd _ d c (List.mem_of_mem_take hc))]
  exact lookup_WriteFile_same _ _ _ _

theorem lookup_bak_autosaveStopped (lib : GoLib) (fs : FileSystem) (path : String)
    (state : StoredState) (now : Time) (rnd : String) (d : Content)
    (hp : hasMeta path = false)
    (h : ReadFile fs path = some d) (n : Nat) (cleanup : Bool) (hn : 2 ≤ n) :
    (autosaveStopped lib fs path state now rnd n cleanup).lookup (path ++ ".bak") =
      some { content := d, modTime := now } := by
  unfold autosaveStopped
  cases cleanup with
  | false => simpa using lookup_bak_take lib fs path state now rnd d hp h n hn
  | true =>
    simp only [if_true, tempName_plain path rnd hp]
    rw [lookup_Remove_ne _ _ _ (fun e => tmp_ne_bak path rnd e.symm)]
    exact lookup_bak_take lib fs path state now rnd d hp h n hn

theorem lookup_bak_Autosave (lib : GoLib) (fs : FileSystem) (path : String)
    (state : StoredState) (now : Time) (rnd : String) (d : Content)
    (hp : hasMeta path = false) (h : ReadFile fs path = some d) :
    (Autosave lib fs path state now rnd).2.lookup (path ++ ".bak") =
      some { content := d, modTime := now } := by
  rw [Autosave_eq lib fs path state now rnd hp]
  simp only
  rw [lookup_Remove_ne _ _ _ (fun e => tmp_ne_bak path rnd e.symm)]
  have h1 := lookup_bak_take lib fs path state now rnd d hp h
    ((autosaveCalls lib fs path state now rnd).1.length + 2) (by omega)
  rw [List.take_of_length_le (by omega)] at h1
  exact h1

theorem Load_Autosave (lib : GoLib) (fs : FileSystem) (path : String) (state : StoredState)
    (now : Time) (rnd : String) (hp : hasMeta path = false) (h : Representable state) :
    Load lib (Autosave lib fs path state now rnd).2 path = .ok (loadDefaults state) := by
  simp only [Load, ReadFile, lookup_Autosave lib fs path state now rnd hp, Option.map]
  exact decodeState_Marshal lib state h

theorem Load_bak_Autosave (lib : GoLib) (fs : FileSystem) (path : String)
    (state : StoredState) (now : Time) (rnd : String) (d : Content)
    (hp : hasMeta path = false) (h : ReadFile fs path = some d) :
    Load lib (Autosave lib fs path state now rnd).2 (path ++ ".bak") = Load lib fs path := by
  have h1 : Load lib fs path = decodeState lib d := by simp only [Load, h]
  rw [h1]
  simp only [Load, ReadFile, lookup_bak_Autosave lib fs path state now rnd d hp h, Option.map]

end TodoCli

namespace TodoCli

section CrashSafety

/-- C26 (counterexample): `Autosave` of the state of `NewState` with an empty filter goes
through, and `Load` of the path then returns the filter `all`, not the state saved. -/
theorem C26_counterexample :
    (Autosave strokes [] "state.json" emptyFilterState 5 "r").1 = true ∧
      Load strokes (Autosave strokes [] "state.json" emptyFilterState 5 "r").2 "state.json"
        = .ok NewState.stored ∧
      emptyFilterState ≠ NewState.stored := by
  refine ⟨rfl, ?_, by decide⟩
  rw [Load_Autosave strokes [] "state.json" _ 5 "r" rfl representable_emptyFilter]
  rfl

/-- C26 (amended): on a path without a pattern character of `filepath.Match`, the calls
`Autosave` makes on the file system end with the rename of the temporary file to the path,
and no call before it writes, removes or moves the file at the path; so when `Autosave` stops
before the rename, with or without the deferred removal of the temporary file, the path holds
the content it held before. When a previous file existed, the `.bak` file holds a copy of
its content from the second call on, in particular before the rename. `Autosave` returns
without error, and afterwards, for a state whose `int` fields hold 64-bit values, `Load` of
the path returns the new state with the defaults of `decodeState` applied (the new state
itself when its slices are not nil, its filter is non-empty, its version not zero and its
session focus not blank), and when a previous file existed `Load` of the `.bak` path returns
what `Load` of the path returned before. -/
theorem C26_autosave_crash_safe (lib : GoLib) (fs : FileSystem) (path : String)
    (state : StoredState) (now : Time) (rnd : String) (hp : hasMeta path = false)
    (h : Representable state) :
    (∃ earlier, autosaveCalls lib fs path state now rnd =
        (earlier ++ [.rename (tempName path rnd) path], true) ∧
      ∀ c ∈ earlier, c.touches path = false) ∧
    (∀ n cleanup, n < (autosaveCalls lib fs path state now rnd).1.length →
      ReadFile (autosaveStopped lib fs path state now rnd n cleanup) path = ReadFile fs path) ∧
    (∀ d, ReadFile fs path = some d → ∀ n cleanup, 2 ≤ n →
      ReadFile (autosaveStopped lib fs path state now rnd n cleanup) (path ++ ".bak")
        = some d) ∧
    (Autosave lib fs path state now rnd).1 = true ∧
    Load lib (Autosave lib fs path state now rnd).2 path = .ok (loadDefaults state) ∧
    (state.Lists.isSome = true → state.Tasks.isSome = true →
      state.ArchivedCompleted.isSome = true → state.Filter ≠ "" →
      state.Metadata.Version ≠ 0 → TrimSpace state.Metadata.Session.Focus ≠ "" →
      Load lib (Autosave lib fs path state now rnd).2 path = .ok state) ∧
    (∀ d, ReadFile fs path = some d →
      Load lib (Autosave lib fs path state now rnd).2 (path ++ ".bak") = Load lib fs path) := by
  refine ⟨⟨_, ?_, touches_earlier lib fs path state now rnd hp⟩, ?_, ?_, ?_,
    Load_Autosave lib fs path state now rnd hp h, ?_,
    fun d hd => Load_bak_Autosave lib fs path state now rnd d hp hd⟩
  · rw [tempName_plain path rnd hp]
    exact autosaveCalls_eq lib fs path state now rnd hp
  · intro n cleanup hn
    simp only [ReadFile, lookup_autosaveStopped lib fs path state now rnd n cleanup hp hn]
  · intro d hd n cleanup hn
    simp only [ReadFile,
      lookup_bak_autosaveStopped lib fs path state now rnd d hp hd n cleanup hn, Option.map]
  · rw [Autosave_eq lib fs path state now rnd hp]
  · intro hl ht ha hf hv hc
    rw [Load_Autosave lib fs path state now rnd hp h, loadDefaults_fixed state hl ht ha hf hv hc]

theorem C26_autosave_crash_safe_witness :
    hasMeta "state.json" = false ∧ Representable sampleStored ∧
    Load strokes previousFiles "state.json" = .ok NewState.stored ∧
    (∀ n cleanup, n < 8 →
      ReadFile (autosaveStopped strokes previousFiles "state.json" sampleStored 5 "r" n cleanup)
        "state.json" = some (.doc (Marshal strokes NewState.stored))) ∧
    (Autosave strokes previousFiles "state.json" sampleStored 5 "r").1 = true ∧
    Load strokes (Autosave strokes previousFiles "state.json" sampleStored 5 "r").2
      "state.json" = .ok sampleStored ∧
    Load strokes (Autosave strokes previousFiles "state.json" sampleStored 5 "r").2
      ("state.json" ++ ".bak") = .ok NewState.stored :=
  have w := C26_autosave_crash_safe strokes previousFiles "state.json" sampleStored 5 "r" rfl
    representable_sample
  ⟨rfl, representable_sample, rfl, fun n cleanup hn => w.2.1 n cleanup hn, w.2.2.2.1,
    w.2.2.2.2.2.1 rfl rfl rfl (by decide) (by decide) (by decide),
    (w.2.2.2.2.2.2 _ rfl).trans rfl⟩

end CrashSafety

end TodoCli

namespace TodoCli

/-! ### The rotating backups after `Autosave` -/

theorem touches_tail (lib : GoLib) (path : String) (state : StoredState) (rnd n : String)
    (hn : startsWith n.data (path ++ ".bak.").data = true) :
    ∀ c ∈ ([.createTemp (path ++ ".tmp-" ++ rnd),
         .encode (path ++ ".tmp-" ++ rnd) (.doc (Marshal lib state)),
         .sync (path ++ ".tmp-" ++ rnd), .close (path ++ ".tmp-" ++ rnd),
         .rename (path ++ ".tmp-" ++ rnd) path] : List FsCall),
      c.touches n = false := by
  intro c hc
  have h1 : n ≠ path ++ ".tmp-" ++ rnd := by
    intro e
    rw [e, tmp_not_rotating] at hn
    cases hn
  have h2 : n ≠ path := rotating_ne_path path n hn
  have ht : ((path ++ ".tmp-" ++ rnd) == n) = false := by
    simpa using fun e : path ++ ".tmp-" ++ rnd = n => h1 e.symm
  have hp : (path == n) = false := by
    simpa using fun e : path = n => h2 e.symm
  simp only [List.mem_cons, List.mem_singleton, List.not_mem_nil, or_false] at hc
  rcases hc with e | e | e | e | e <;> subst e <;> simp [FsCall.touches, ht, hp]

theorem namesWith_Autosave_none (lib : GoLib) (fs : FileSystem) (path : String)
    (state : StoredState) (now : Time) (rnd : String) (hp : hasMeta path = false)
    (h : ReadFile fs path = none) :
    namesWith (Autosave lib fs path state now rnd).2 (path ++ ".bak.") =
      namesWith fs (path ++ ".bak.") := by
  apply namesWith_congr
  intro n hc
  have hn := startsWith_of_continues _ _ hc
  have h1 : n ≠ path ++ ".tmp-" ++ rnd := by
    intro e
    rw [e, tmp_not_rotating] at hn
    cases hn
  rw [Autosave_eq lib fs path state now rnd hp]
  simp only
  rw [lookup_Remove_ne _ _ _ h1]
  apply lookup_foldl_run
  intro c hc
  rw [autosaveCalls_eq lib fs path state now rnd hp] at hc
  simp only [backupCalls_none lib fs path now h, List.nil_append, List.cons_append,
    List.mem_cons] at hc
  rcases hc with e | hc
  · subst e
    rfl
  · exact touches_tail lib path state rnd n hn c (by simpa using hc)

theorem lt_rotating (lib : GoLib) (path : String) (a b : Time) (h : a < b) :
    path ++ ".bak." ++ lib.stampNano a < path ++ ".bak." ++ lib.stampNano b := by
  have h1 := lib.stampNano_lt a b h
  rw [String.lt_iff_toList_lt] at h1 ⊢
  simp only [String.toList, String.data_append] at h1 ⊢
  exact List.Lex.append_left _ h1 _

theorem mem_namesWith_written (lib : GoLib) (fs : FileSystem) (path : String) (d : Content)
    (now : Time) (n : String) :
    n ∈ namesWith (WriteFile (WriteFile fs (path ++ ".bak") d now)
        (path ++ ".bak." ++ lib.stampNano now) d now) (path ++ ".bak.") ↔
      n ∈ namesWith fs (path ++ ".bak.") ∨ n = path ++ ".bak." ++ lib.stampNano now := by
  rw [mem_namesWith, mem_namesWith]
  by_cases e : n = path ++ ".bak." ++ lib.stampNano now
  · subst e
    constructor
    · intro _
      exact Or.inr rfl
    · intro _
      exact ⟨by rw [lookup_WriteFile_same]; rfl, rotating_continues lib path now⟩
  · rw [lookup_WriteFile_ne _ _ _ _ _ e]
    by_cases hn : continues (path ++ ".bak.") n = true
    · rw [lookup_WriteFile_ne _ _ _ _ _
        (rotating_ne_bak path n (startsWith_of_continues _ _ hn))]
      constructor
      · intro h
        exact Or.inl h
      · rintro (h | h)
        · exact h
        · exact absurd h e
    · constructor
      · intro h
        exact absurd h.2 hn
      · rintro (h | h)
        · exact absurd h.2 hn
        · exact absurd h e

theorem namesWith_Autosave_some (lib : GoLib) (fs : FileSystem) (path : String)
    (state : StoredState) (now : Time) (rnd : String) (d : Content)
    (hp : hasMeta path = false) (h : ReadFile fs path = some d) :
    namesWith (Autosave lib fs path state now rnd).2 (path ++ ".bak.") =
      (namesWith (WriteFile (WriteFile fs (path ++ ".bak") d now)
          (path ++ ".bak." ++ lib.stampNano now) d now) (path ++ ".bak.")).drop
        ((namesWith (WriteFile (WriteFile fs (path ++ ".bak") d now)
          (path ++ ".bak." ++ lib.stampNano now) d now) (path ++ ".bak.")).length
            - maxRotatingBackups) := by
  rw [← namesWith_pruneRemovals _ path now]
  apply namesWith_congr
  intro n hc
  have hn := startsWith_of_continues _ _ hc
  have h1 : n ≠ path ++ ".tmp-" ++ rnd := by
    intro e
    rw [e, tmp_not_rotating] at hn
    cases hn
  rw [Autosave_eq lib fs path state now rnd hp]
  simp only
  rw [lookup_Remove_ne _ _ _ h1, autosaveCalls_some lib fs path state now rnd d hp h]
  simp only [List.foldl_cons, List.foldl_append, FsCall.run]
  exact lookup_foldl_run now _ _ n (touches_tail lib path state rnd n hn)

/-! ### The last names of a sorted list -/

theorem length_drop_sub (k : Nat) (l : List String) : (l.drop (l.length - k)).length ≤ k := by
  rw [List.length_drop]
  omega

theorem length_drop_sub_of_le (k : Nat) (l : List String) (h : k ≤ l.length) :
    (l.drop (l.length - k)).length = k := by
  rw [List.length_drop]
  omega

theorem lt_of_sorted_drop (l : List String) (k : Nat) (h : l.Sorted (· < ·)) (a b : String)
    (ha : a ∈ l) (hna : a ∉ l.drop k) (hb : b ∈ l.drop k) : a < b := by
  have h1 : (l.take k ++ l.drop k).Pairwise (· < ·) := by
    rw [List.take_append_drop]
    exact h
  rw [List.pairwise_append] at h1
  have h2 : a ∈ l.take k := by
    rw [← List.take_append_drop k l] at ha
    rcases List.mem_append.1 ha with h3 | h3
    · exact h3
    · exact absurd h3 hna
  exact h1.2.2 a h2 b hb

theorem length_of_not_mem_drop (l : List String) (k : Nat) (a : String) (ha : a ∈ l)
    (hna : a ∉ l.drop (l.length - k)) : (l.drop (l.length - k)).length = k := by
  apply length_drop_sub_of_le
  by_contra hlt
  have e : l.length - k = 0 := by omega
  rw [e, List.drop_zero] at hna
  exact hna ha

end TodoCli

namespace TodoCli

theorem length_le_of_nodup_subset (l m : List String) (hl : l.Nodup) (h : ∀ n ∈ l, n ∈ m) :
    l.length ≤ m.length :=
  (hl.subperm h).length_le

/-- One more name and the last ten: what is kept, what is dropped, and that a name below
ten names is below the names kept. -/
theorem last_ten_step (S R0 : List String) (rot : String) (hS : S.Sorted (· < ·))
    (hR0 : R0.Nodup) (hmem : ∀ n, n ∈ S ↔ n ∈ R0 ∨ n = rot) :
    (∀ b ∈ S.drop (S.length - 10), b ∈ R0 ∨ b = rot) ∧
    (∀ a, (a ∈ R0 ∨ a = rot) → a ∉ S.drop (S.length - 10) →
      (S.drop (S.length - 10)).length = 10 ∧ ∀ b ∈ S.drop (S.length - 10), a < b) ∧
    (S.drop (S.length - 10)).length ≤ 10 ∧
    (10 ≤ R0.length → 10 ≤ (S.drop (S.length - 10)).length ∧
      ∀ x, (∀ y ∈ R0, x < y) → ∀ b ∈ S.drop (S.length - 10), x < b) := by
  have hsub : ∀ b ∈ S.drop (S.length - 10), b ∈ S := fun b hb => List.mem_of_mem_drop hb
  have hnd : (S.drop (S.length - 10)).Nodup := (hS.nodup).sublist (List.drop_sublist _ _)
  refine ⟨fun b hb => (hmem b).1 (hsub b hb), ?_, length_drop_sub 10 S, ?_⟩
  · intro a ha hna
    have haS : a ∈ S := (hmem a).2 ha
    exact ⟨length_of_not_mem_drop S 10 a haS hna,
      fun b hb => lt_of_sorted_drop S _ hS a b haS hna hb⟩
  · intro h10
    have hlen : R0.length ≤ S.length :=
      length_le_of_nodup_subset R0 S hR0 (fun n hn => (hmem n).2 (Or.inl hn))
    have hk : (S.drop (S.length - 10)).length = 10 :=
      length_drop_sub_of_le 10 S (by omega)
    refine ⟨by omega, ?_⟩
    intro x hx b hb
    rcases (hmem b).1 (hsub b hb) with hb0 | hbr
    · exact hx b hb0
    · by_cases hr : rot ∈ R0
      · rw [hbr]
        exact hx rot hr
      · have hex : ∃ m ∈ R0, m ∉ S.drop (S.length - 10) := by
          by_contra hall
          have hall2 : ∀ m ∈ R0, m ∈ S.drop (S.length - 10) := by
            intro m hm
            by_contra hmn
            exact hall ⟨m, hm, hmn⟩
          have h11 : (rot :: R0).length ≤ (S.drop (S.length - 10)).length := by
            apply length_le_of_nodup_subset _ _ (List.nodup_cons.2 ⟨hr, hR0⟩)
            intro n hn
            rcases List.mem_cons.1 hn with e | hn
            · rw [e, ← hbr]
              exact hb
            · exact hall2 n hn
          rw [List.length_cons] at h11
          omega
        obtain ⟨m, hm, hmn⟩ := hex
        have h1 : m < b :=
          lt_of_sorted_drop S _ hS m b ((hmem m).2 (Or.inl hm)) hmn hb
        exact lt_trans (hx m hm) h1

theorem autosaveAll_ok (lib : GoLib) (path : String) (hp : hasMeta path = false) :
    ∀ (saves : List (StoredState × Time × String)) (fs : FileSystem),
      (autosaveAll lib path fs saves).1 = true := by
  intro saves
  induction saves with
  | nil =>
    intro fs
    rfl
  | cons c rest ih =>
    intro fs
    simp only [autosaveAll, ih, Bool.and_true]
    rw [Autosave_eq lib fs path c.1 c.2.1 c.2.2 hp]

/-- The rotating backups after successive calls of `Autosave`, against those found at the
start and those the calls wrote. -/
theorem rotating_autosaveAll (lib : GoLib) (path : String) (hp : hasMeta path = false) :
    ∀ (saves : List (StoredState × Time × String)) (fs : FileSystem),
      (∀ b ∈ namesWith (autosaveAll lib path fs saves).2 (path ++ ".bak."),
        b ∈ namesWith fs (path ++ ".bak.") ∨ b ∈ rotatingWritten lib path fs saves) ∧
      (∀ a, (a ∈ namesWith fs (path ++ ".bak.") ∨ a ∈ rotatingWritten lib path fs saves) →
        a ∉ namesWith (autosaveAll lib path fs saves).2 (path ++ ".bak.") →
        (namesWith (autosaveAll lib path fs saves).2 (path ++ ".bak.")).length = 10 ∧
          ∀ b ∈ namesWith (autosaveAll lib path fs saves).2 (path ++ ".bak."), a < b) ∧
      ((rotatingWritten lib path fs saves ≠ [] ∨
          (namesWith fs (path ++ ".bak.")).length ≤ 10) →
        (namesWith (autosaveAll lib path fs saves).2 (path ++ ".bak.")).length ≤ 10) ∧
      (10 ≤ (namesWith fs (path ++ ".bak.")).length →
        10 ≤ (namesWith (autosaveAll lib path fs saves).2 (path ++ ".bak.")).length ∧
        ∀ x, (∀ y ∈ namesWith fs (path ++ ".bak."), x < y) →
          ∀ b ∈ namesWith (autosaveAll lib path fs saves).2 (path ++ ".bak."), x < b) := by
  intro saves
  induction saves with
  | nil =>
    intro fs
    refine ⟨fun b hb => Or.inl hb, ?_, ?_, fun h => ⟨h, fun x hx => hx⟩⟩
    · intro a ha hna
      rcases ha with ha | ha
      · exact absurd ha hna
      · cases ha
    · intro h
      rcases h with h | h
      · exact absurd rfl h
      · exact h
  | cons c rest ih =>
    intro fs
    obtain ⟨i1, i2, i3, i4⟩ := ih (Autosave lib fs path c.1 c.2.1 c.2.2).2
    cases hr : ReadFile fs path with
    | none =>
      have hG := namesWith_Autosave_none lib fs path c.1 c.2.1 c.2.2 hp hr
      rw [hG] at i1 i2 i3 i4
      simp only [autosaveAll, rotatingWritten, hr, List.nil_append]
      exact ⟨i1, i2, i3, i4⟩
    | some d =>
      have hG := namesWith_Autosave_some lib fs path c.1 c.2.1 c.2.2 d hp hr
      obtain ⟨s1, s2, s3, s4⟩ := last_ten_step _ (namesWith fs (path ++ ".bak."))
        (path ++ ".bak." ++ lib.stampNano c.2.1) (sorted_namesWith _ _)
        (sorted_namesWith fs _).nodup (mem_namesWith_written lib fs path d c.2.1)
      have e10 : maxRotatingBackups = 10 := rfl
      rw [e10] at hG
      rw [← hG] at s1 s2 s3 s4
      simp only [autosaveAll, rotatingWritten, hr, List.singleton_append, List.mem_cons]
      refine ⟨?_, ?_, ?_, ?_⟩
      · intro b hb
        rcases i1 b hb with h | h
        · rcases s1 b h with h2 | h2
          · exact Or.inl h2
          · exact Or.inr (Or.inl h2)
        · exact Or.inr (Or.inr h)
      · intro a ha hna
        by_cases ha1 : a ∈ namesWith (Autosave lib fs path c.1 c.2.1 c.2.2).2 (path ++ ".bak.")
        · exact i2 a (Or.inl ha1) hna
        · by_cases haw : a ∈ rotatingWritten lib path
              (Autosave lib fs path c.1 c.2.1 c.2.2).2 rest
          · exact i2 a (Or.inr haw) hna
          · have ha2 : a ∈ namesWith fs (path ++ ".bak.") ∨
                a = path ++ ".bak." ++ lib.stampNano c.2.1 := by
              rcases ha with h | h | h
              · exact Or.inl h
              · exact Or.inr h
              · exact absurd h haw
            obtain ⟨k1, k2⟩ := s2 a ha2 ha1
            obtain ⟨j1, j2⟩ := i4 (by omega)
            have j3 := i3 (Or.inr (by omega))
            exact ⟨by omega, j2 a k2⟩
      · intro _
        exact i3 (Or.inr s3)
      · intro h10
        obtain ⟨k1, k2⟩ := s4 h10
        obtain ⟨j1, j2⟩ := i4 k1
        exact ⟨j1, fun x hx => j2 x (k2 x hx)⟩

end TodoCli

namespace TodoCli

theorem autosaveAll_concat (lib : GoLib) (path : String) (c : StoredState × Time × String) :
    ∀ (init : List (StoredState × Time × String)) (fs : FileSystem),
      (autosaveAll lib path fs (init ++ [c])).2 =
        (Autosave lib (autosaveAll lib path fs init).2 path c.1 c.2.1 c.2.2).2 := by
  intro init
  induction init with
  | nil =>
    intro fs
    rfl
  | cons x rest ih =>
    intro fs
    simp only [List.cons_append, autosaveAll]
    exact ih _

theorem rotatingWritten_sublist (lib : GoLib) (path : String) :
    ∀ (saves : List (StoredState × Time × String)) (fs : FileSystem),
      List.Sublist (rotatingWritten lib path fs saves)
        (saves.map (fun c => path ++ ".bak." ++ lib.stampNano c.2.1)) := by
  intro saves
  induction saves with
  | nil =>
    intro fs
    exact List.Sublist.slnil
  | cons c rest ih =>
    intro fs
    simp only [rotatingWritten, List.map_cons]
    cases ReadFile fs path with
    | none => exact List.Sublist.cons _ (ih _)
    | some d => exact List.Sublist.cons₂ _ (ih _)

theorem readable_autosaveAll (lib : GoLib) (fs : FileSystem) (path : String)
    (init : List (StoredState × Time × String)) (hp : hasMeta path = false)
    (h : (ReadFile fs path).isSome = true ∨ init ≠ []) :
    ∃ d, ReadFile (autosaveAll lib path fs init).2 path = some d := by
  rcases List.eq_nil_or_concat init with e | ⟨L, b, e⟩
  · subst e
    rcases h with h | h
    · exact Option.isSome_iff_exists.1 h
    · exact absurd rfl h
  · subst e
    rw [List.concat_eq_append, autosaveAll_concat]
    refine ⟨.doc (Marshal lib b.1), ?_⟩
    simp only [ReadFile, lookup_Autosave lib _ path b.1 b.2.1 b.2.2 hp, Option.map]

/-- The rotating backup of the last call is kept when fewer than ten of the names found at
the start are greater. -/
theorem latest_autosaveAll (lib : GoLib) (fs : FileSystem) (path : String)
    (init : List (StoredState × Time × String)) (c : StoredState × Time × String)
    (hp : hasMeta path = false)
    (hread : (ReadFile fs path).isSome = true ∨ init ≠ [])
    (htimes : ((init ++ [c]).map (fun x => x.2.1)).Pairwise (· < ·))
    (hfew : ((namesWith fs (path ++ ".bak.")).filter
      (fun n => decide (path ++ ".bak." ++ lib.stampNano c.2.1 < n))).length < 10) :
    path ++ ".bak." ++ lib.stampNano c.2.1 ∈
      namesWith (autosaveAll lib path fs (init ++ [c])).2 (path ++ ".bak.") := by
  obtain ⟨d, hd⟩ := readable_autosaveAll lib fs path init hp hread
  obtain ⟨i1, _, _, _⟩ := rotating_autosaveAll lib path hp init fs
  have hG := namesWith_Autosave_some lib (autosaveAll lib path fs init).2 path c.1 c.2.1 c.2.2
    d hp hd
  obtain ⟨s1, s2, _, _⟩ := last_ten_step _
    (namesWith (autosaveAll lib path fs init).2 (path ++ ".bak."))
    (path ++ ".bak." ++ lib.stampNano c.2.1) (sorted_namesWith _ _)
    (sorted_namesWith (autosaveAll lib path fs init).2 _).nodup
    (mem_namesWith_written lib (autosaveAll lib path fs init).2 path d c.2.1)
  have e10 : maxRotatingBackups = 10 := rfl
  rw [e10] at hG
  rw [← hG, ← autosaveAll_concat] at s1 s2
  by_contra hna
  obtain ⟨k1, k2⟩ := s2 _ (Or.inr rfl) hna
  have hsub : ∀ b ∈ namesWith (autosaveAll lib path fs (init ++ [c])).2 (path ++ ".bak."),
      b ∈ (namesWith fs (path ++ ".bak.")).filter
        (fun n => decide (path ++ ".bak." ++ lib.stampNano c.2.1 < n)) := by
    intro b hb
    have hlt := k2 b hb
    rw [List.mem_filter]
    refine ⟨?_, by simpa using hlt⟩
    rcases s1 b hb with h | h
    · rcases i1 b h with h2 | h2
      · exact h2
      · exfalso
        obtain ⟨x, hx, e⟩ := List.mem_map.1 ((rotatingWritten_sublist lib path init fs).subset h2)
        rw [List.map_append, List.pairwise_append] at htimes
        have hxc : x.2.1 < c.2.1 :=
          htimes.2.2 _ (List.mem_map.2 ⟨x, hx, rfl⟩) _ (by simp)
        have h3 := lt_rotating lib path _ _ hxc
        rw [e] at h3
        exact lt_asymm h3 hlt
    · exact absurd h (ne_of_gt hlt)
  have hle := length_le_of_nodup_subset _ _ (sorted_namesWith _ _).nodup hsub
  omega

/-- On a path without a pattern character of `filepath.Match`, successive calls of `Autosave`
all return without error, and of the rotating backups that exist afterwards: they are in
ascending name order; each was found at the start or written by one of the calls; when a call
wrote one, or at most 10 were found at the start, they are at most 10; a name found at the
start or written that is gone is smaller than each of them, and they are 10 then; and the
rotating backup of the last call, made at strictly increasing times on an existing file, is
among them when fewer than 10 names found at the start are greater than it. -/
theorem Autosave_rotating_backups (lib : GoLib) (fs : FileSystem) (path : String)
    (saves : List (StoredState × Time × String)) (hp : hasMeta path = false) :
    (autosaveAll lib path fs saves).1 = true ∧
    (namesWith (autosaveAll lib path fs saves).2 (path ++ ".bak.")).Sorted (· < ·) ∧
    (∀ b ∈ namesWith (autosaveAll lib path fs saves).2 (path ++ ".bak."),
      b ∈ namesWith fs (path ++ ".bak.") ∨ b ∈ rotatingWritten lib path fs saves) ∧
    ((rotatingWritten lib path fs saves ≠ [] ∨ (namesWith fs (path ++ ".bak.")).length ≤ 10) →
      (namesWith (autosaveAll lib path fs saves).2 (path ++ ".bak.")).length ≤ 10) ∧
    (∀ a, (a ∈ namesWith fs (path ++ ".bak.") ∨ a ∈ rotatingWritten lib path fs saves) →
      a ∉ namesWith (autosaveAll lib path fs saves).2 (path ++ ".bak.") →
      (namesWith (autosaveAll lib path fs saves).2 (path ++ ".bak.")).length = 10 ∧
        ∀ b ∈ namesWith (autosaveAll lib path fs saves).2 (path ++ ".bak."), a < b) ∧
    (∀ init c, saves = init ++ [c] → ((ReadFile fs path).isSome = true ∨ init ≠ []) →
      (saves.map (fun x => x.2.1)).Pairwise (· < ·) →
      ((namesWith fs (path ++ ".bak.")).filter
        (fun n => decide (path ++ ".bak." ++ lib.stampNano c.2.1 < n))).length < 10 →
      path ++ ".bak." ++ lib.stampNano c.2.1 ∈
        namesWith (autosaveAll lib path fs saves).2 (path ++ ".bak.")) := by
  obtain ⟨i1, i2, i3, _⟩ := rotating_autosaveAll lib path hp saves fs
  refine ⟨autosaveAll_ok lib path hp saves fs, sorted_namesWith _ _, i1, i3, i2, ?_⟩
  intro init c e hread htimes hfew
  subst e
  exact latest_autosaveAll lib fs path init c hp hread htimes hfew

end TodoCli

namespace TodoCli

section RotatingBackups

/-- Twelve calls of `Autosave` on `state.json`, at the times 2 to 13, on an existing file:
every call writes a rotating backup, 10 exist afterwards, they are the last 10 written, each
greater by name than the two that are gone, and the backup of the last call is among them. -/
theorem Autosave_rotating_backups_example :
    hasMeta "state.json" = false ∧
    (rotatingWritten strokes "state.json" previousFiles (savesUpTo 12)).length = 12 ∧
    (namesWith (autosaveAll strokes "state.json" previousFiles (savesUpTo 12)).2
      ("state.json" ++ ".bak.")).length = 10 ∧
    namesWith (autosaveAll strokes "state.json" previousFiles (savesUpTo 12)).2
        ("state.json" ++ ".bak.") =
      (rotatingWritten strokes "state.json" previousFiles (savesUpTo 12)).drop 2 ∧
    (∀ b ∈ namesWith (autosaveAll strokes "state.json" previousFiles (savesUpTo 12)).2
        ("state.json" ++ ".bak."),
      "state.json" ++ ".bak." ++ strokes.stampNano 2 < b ∧
        "state.json" ++ ".bak." ++ strokes.stampNano 3 < b) ∧
    "state.json" ++ ".bak." ++ strokes.stampNano 13 ∈
      namesWith (autosaveAll strokes "state.json" previousFiles (savesUpTo 12)).2
        ("state.json" ++ ".bak.") :=
  have w := Autosave_rotating_backups strokes previousFiles "state.json" (savesUpTo 12) rfl
  ⟨rfl, by decide, by decide, by decide,
    fun b hb =>
      ⟨((w.2.2.2.2.1 _ (Or.inr (by decide)) (by decide)).2 b hb),
        ((w.2.2.2.2.1 _ (Or.inr (by decide)) (by decide)).2 b hb)⟩,
    w.2.2.2.2.2 (savesUpTo 11) (NewState.stored, 13, "r") (by decide) (Or.inl rfl)
      (by decide) (by decide)⟩

/-- C25 (the code at the failing input): the state file lies in the directory `d[1]`; eleven
calls of `Autosave`, at the times 2 to 12, all return without error; `filepath.Glob` on the
pattern built from the path reads `[1]` as a class and matches none of the rotating backups,
so that nothing was pruned: the eleven rotating backups written all exist. -/
theorem C25_backups_grow_at_bracket_path :
    (autosaveAll strokes "d[1]/state.json" bracketFiles (savesUpTo 11)).1 = true ∧
      strokes.glob (autosaveAll strokes "d[1]/state.json" bracketFiles (savesUpTo 11)).2
        ("d[1]/state.json" ++ ".bak.*") = some [] ∧
      namesWith (autosaveAll strokes "d[1]/state.json" bracketFiles (savesUpTo 11)).2
          ("d[1]/state.json" ++ ".bak.") =
        rotatingWritten strokes "d[1]/state.json" bracketFiles (savesUpTo 11) ∧
      (namesWith (autosaveAll strokes "d[1]/state.json" bracketFiles (savesUpTo 11)).2
        ("d[1]/state.json" ++ ".bak.")).length = 11 :=
  ⟨rfl, rfl, by decide, by decide⟩

end RotatingBackups

end TodoCli

namespace TodoCli

/-! ### What a decoded state holds -/

theorem inIntRange_zero : InIntRange 0 := by
  unfold InIntRange
  decide

theorem storeInt_range (cur : Int × Bool) (v : Json) (h : InIntRange cur.1) :
    InIntRange (storeInt cur v).1 := by
  cases v with
  | num n =>
    simp only [storeInt]
    split
    · rename_i hn
      exact hn
    · exact h
  | _ => exact h

theorem foldl_storeInt_range (vs : List Json) :
    ∀ cur : Int × Bool, InIntRange cur.1 → InIntRange (vs.foldl storeInt cur).1 := by
  induction vs with
  | nil =>
    intro cur h
    exact h
  | cons v vs ih =>
    intro cur h
    exact ih _ (storeInt_range cur v h)

theorem storeInts_range (vs : List Json) : InIntRange (storeInts vs).1 :=
  foldl_storeInt_range vs (0, false) inIntRange_zero

theorem unmarshalTask_range (lib : GoLib) (item : Json) (t : Task) (b : Bool)
    (h : unmarshalTask lib item = some (t, b)) :
    InIntRange t.Priority ∧ InIntRange t.Position := by
  by_cases hobj : ∃ tms, item = .obj tms
  · obtain ⟨tms, rfl⟩ := hobj
    simp only [unmarshalTask] at h
    cases hc : storeTimes lib (members lib taskFields "createdAt" tms) with
    | none => simp [hc] at h
    | some c =>
      cases hu : storeTimes lib (members lib taskFields "updatedAt" tms) with
      | none => simp [hc, hu] at h
      | some u =>
        simp only [hc, hu, Option.some.injEq, Prod.mk.injEq] at h
        rw [← h.1]
        exact ⟨storeInts_range _, storeInts_range _⟩
  · obtain ⟨h1, h2⟩ := unmarshalTask_zero lib item t b h (fun tms e => hobj ⟨tms, e⟩)
    rw [h1, h2]
    exact ⟨inIntRange_zero, inIntRange_zero⟩

theorem unmarshalArchived_range (lib : GoLib) (item : Json) (a : ArchivedCompletedTask)
    (b : Bool) (h : unmarshalArchived lib item = some (a, b)) : InIntRange a.Priority := by
  cases item with
  | obj tms =>
    simp only [unmarshalArchived] at h
    cases hc : storeTimes lib (members lib archivedFields "doneAt" tms) with
    | none => simp [hc] at h
    | some c =>
      cases hu : storeTimes lib (members lib archivedFields "archivedAt" tms) with
      | none => simp [hc, hu] at h
      | some u =>
        simp only [hc, hu, Option.some.injEq, Prod.mk.injEq] at h
        rw [← h.1]
        exact storeInts_range _
  | _ =>
    simp only [unmarshalArchived, Option.some.injEq, Prod.mk.injEq] at h
    rw [← h.1]
    exact inIntRange_zero

theorem storeSlice_mem {α : Type} (f : Json → Option (α × Bool)) (v : Option Json)
    (out : Option (List α)) (b : Bool) (h : storeSlice f v = some (out, b)) :
    ∀ a ∈ out.getD [], ∃ item b2, f item = some (a, b2) := by
  intro a ha
  by_cases harr : ∃ items, v = some (.arr items)
  · obtain ⟨items, rfl⟩ := harr
    simp only [storeSlice] at h
    cases hr : storeElems f items with
    | none => simp [hr] at h
    | some r =>
      simp only [hr, Option.some.injEq, Prod.mk.injEq] at h
      rw [← h.1] at ha
      obtain ⟨item, _, b2, hb⟩ := storeElems_mem f items r.1 r.2 hr a ha
      exact ⟨item, b2, hb⟩
  · have hnil : out = none := by
      cases v with
      | none =>
        simp only [storeSlice, Option.some.injEq, Prod.mk.injEq] at h
        exact h.1.symm
      | some j =>
        cases j with
        | arr items => exact absurd ⟨items, rfl⟩ harr
        | _ =>
          simp only [storeSlice, Option.some.injEq, Prod.mk.injEq] at h
          exact h.1.symm
    rw [hnil] at ha
    cases ha

theorem unmarshalMetadata_range (lib : GoLib) (vs : List Json) :
    InIntRange (unmarshalMetadata lib vs).1.Version :=
  storeInts_range _

theorem representable_unmarshalPlain (lib : GoLib) (j : Json) (s : StoredState)
    (h : unmarshalPlain lib j = .ok s) : Representable s := by
  cases j with
  | obj ms =>
    simp only [unmarshalPlain] at h
    cases hl : storeSlice (unmarshalList lib) (members lib stateFields "lists" ms).head? with
    | none => simp [hl] at h
    | some lists =>
      cases ht : storeSlice (unmarshalTask lib) (members lib stateFields "tasks" ms).head? with
      | none => simp [hl, ht] at h
      | some tasks =>
        cases ha : storeSlice (unmarshalArchived lib)
            (members lib stateFields "archivedCompleted" ms).head? with
        | none => simp [hl, ht, ha] at h
        | some archived =>
          simp only [hl, ht, ha] at h
          split at h
          · cases h
          · injection h with h
            subst h
            refine ⟨unmarshalMetadata_range lib _, ?_, ?_⟩
            · intro t hm
              obtain ⟨item, b2, hb⟩ := storeSlice_mem _ _ tasks.1 tasks.2 ht t hm
              exact unmarshalTask_range lib item t b2 hb
            · intro a hm
              obtain ⟨item, b2, hb⟩ := storeSlice_mem _ _ archived.1 archived.2 ha a hm
              exact unmarshalArchived_range lib item a b2 hb
  | null =>
    simp only [unmarshalPlain] at h
    injection h with h
    subst h
    exact ⟨inIntRange_zero, fun t ht => (by cases ht), fun t ht => (by cases ht)⟩
  | bool _ => simp [unmarshalPlain] at h
  | num _ => simp [unmarshalPlain] at h
  | real _ => simp [unmarshalPlain] at h
  | str _ => simp [unmarshalPlain] at h
  | arr _ => simp [unmarshalPlain] at h

theorem representable_Unmarshal (lib : GoLib) (j : Json) (s : StoredState)
    (h : Unmarshal lib j = .ok s) : Representable s := by
  unfold Unmarshal at h
  split at h
  · exact representable_unmarshalPlain lib j s h
  · exact lib.unmarshalRepeated_range j s h

theorem representable_loadDefaults (s : StoredState) (h : Representable s) :
    Representable (loadDefaults s) := by
  obtain ⟨hv, ht, ha⟩ := h
  refine ⟨?_, ht, ha⟩
  show InIntRange (if s.Metadata.Version = 0 then 1 else s.Metadata.Version)
  split
  · unfold InIntRange
    decide
  · exact hv

theorem loadDefaults_idem (s : StoredState) :
    loadDefaults (loadDefaults s) = loadDefaults s := by
  apply loadDefaults_fixed (loadDefaults s) rfl rfl rfl
  · show (if s.Filter = "" then FilterAll else s.Filter) ≠ ""
    split
    · decide
    · assumption
  · show (if s.Metadata.Version = 0 then 1 else s.Metadata.Version) ≠ 0
    split
    · decide
    · assumption
  · show TrimSpace (if TrimSpace s.Metadata.Session.Focus = "" then SessionFocusLists
      else s.Metadata.Session.Focus) ≠ ""
    split
    · decide
    · assumption

theorem decodeState_ok (lib : GoLib) (d : Content) (s : StoredState)
    (h : decodeState lib d = .ok s) : Representable s ∧ loadDefaults s = s := by
  cases d with
  | garbage text => simp [decodeState] at h
  | doc j =>
    simp only [decodeState] at h
    cases hu : Unmarshal lib j with
    | error e => simp [hu] at h
    | ok st =>
      simp only [hu] at h
      injection h with h
      have e : s = loadDefaults st := h.symm
      rw [e]
      exact ⟨representable_loadDefaults st (representable_Unmarshal lib j st hu),
        loadDefaults_idem st⟩

end TodoCli

namespace TodoCli

/-! ### The name of the quarantined file -/

theorem Ext_shape (base : String) :
    (Ext base).data = [] ∨ ∃ e, (Ext base).data = '.' :: e ∧ '.' ∉ e := by
  unfold Ext
  split
  · right
    refine ⟨_, rfl, ?_⟩
    intro hm
    have h1 := List.mem_reverse.1 hm
    have h2 := List.mem_takeWhile_imp h1
    simp at h2
  · left
    rfl

theorem Ext_suffix (base : String) : (Ext base).data <:+ base.data := by
  unfold Ext
  split
  · rename_i hc
    have hmem : '.' ∈ base.data.reverse := by
      rw [List.mem_reverse]
      simpa using hc
    have hsplit := List.takeWhile_append_dropWhile (fun c => c != '.') base.data.reverse
    cases hd : List.dropWhile (fun c => c != '.') base.data.reverse with
    | nil =>
      rw [hd, List.append_nil] at hsplit
      rw [← hsplit] at hmem
      have h2 := List.mem_takeWhile_imp hmem
      simp at h2
    | cons x rest =>
      have hx : x = '.' := by
        have h3 := List.head_dropWhile_not (fun c => c != '.') base.data.reverse
          (by rw [hd]; exact List.cons_ne_nil _ _)
        simp only [hd, List.head_cons] at h3
        simpa using h3
      subst hx
      rw [hd] at hsplit
      have h4 := congrArg List.reverse hsplit
      rw [List.reverse_append, List.reverse_reverse, List.reverse_cons,
        List.append_assoc] at h4
      exact ⟨rest.reverse, h4⟩
  · exact List.nil_suffix

theorem TrimSuffix_append (s suffix : String) (h : suffix.data <:+ s.data) :
    (TrimSuffix s suffix).data ++ suffix.data = s.data := by
  unfold TrimSuffix
  have hs : suffix.data.isSuffixOf s.data = true := List.isSuffixOf_iff_suffix.2 h
  rw [if_pos hs]
  obtain ⟨t, ht⟩ := h
  show List.take (s.data.length - suffix.data.length) s.data ++ suffix.data = s.data
  rw [← ht, List.length_append, Nat.add_sub_cancel, List.take_left]

theorem split_at_dot (x y a b : List Char) (hx : '.' ∉ x) (hy : '.' ∉ y)
    (h : x ++ '.' :: a = y ++ '.' :: b) : x = y ∧ a = b := by
  induction x generalizing y with
  | nil =>
    cases y with
    | nil =>
      simp only [List.nil_append, List.cons.injEq, true_and] at h
      exact ⟨rfl, h⟩
    | cons c y =>
      simp only [List.nil_append, List.cons_append, List.cons.injEq] at h
      exact absurd (h.1 ▸ List.mem_cons_self _ _) hy
  | cons c x ih =>
    cases y with
    | nil =>
      simp only [List.nil_append, List.cons_append, List.cons.injEq] at h
      exact absurd (h.1 ▸ List.mem_cons_self _ _) hx
    | cons c2 y =>
      simp only [List.cons_append, List.cons.injEq] at h
      obtain ⟨e1, e2⟩ := ih y (fun hm => hx (List.mem_cons_of_mem _ hm))
        (fun hm => hy (List.mem_cons_of_mem _ hm)) h.2
      exact ⟨by rw [h.1, e1], e2⟩

/-- No quarantine name starts as a backup name does: the characters after the stem and the
extension cannot be `.bak`. -/
theorem corrupt_core (t e rest : List Char) (ht : '.' ∉ t)
    (he : e = [] ∨ ∃ e2, e = '.' :: e2 ∧ '.' ∉ e2) :
    ".corrupt-".data ++ t ++ e ≠ e ++ ".bak".data ++ rest := by
  intro h
  rcases he with he | ⟨e2, he, hd⟩
  · subst he
    simp at h
  · subst he
    have h1 : ("corrupt-".data ++ t) ++ '.' :: e2 = e2 ++ '.' :: ("bak".data ++ rest) := by
      have h2 : '.' :: (("corrupt-".data ++ t) ++ '.' :: e2) =
          '.' :: (e2 ++ '.' :: ("bak".data ++ rest)) := by
        simpa using h
      exact List.cons_injective h2
    have hx : '.' ∉ "corrupt-".data ++ t := by
      intro hm
      rcases List.mem_append.1 hm with hm | hm
      · revert hm
        decide
      · exact ht hm
    obtain ⟨e1, e3⟩ := split_at_dot _ _ _ _ hx hd h1
    rw [← e1] at e3
    simp at e3

theorem corruptPath_data (lib : GoLib) (path : String) (now : Time) :
    ∃ stem : List Char,
      path.data = stem ++ (Ext (Base path)).data ∧
      (corruptPathOf lib path now).data =
        stem ++ (".corrupt-".data ++ (lib.stampSec now).data ++ (Ext (Base path)).data) := by
  refine ⟨(dirPart path).data ++ (TrimSuffix (Base path) (Ext (Base path))).data, ?_, ?_⟩
  · rw [List.append_assoc, TrimSuffix_append _ _ (Ext_suffix _), ← String.data_append,
      dirPart_append_Base]
  · simp only [corruptPathOf, String.data_append, List.append_assoc]

theorem corruptPath_ne_path (lib : GoLib) (path : String) (now : Time) :
    corruptPathOf lib path now ≠ path := by
  obtain ⟨stem, h1, h2⟩ := corruptPath_data lib path now
  intro e
  have h3 : (corruptPathOf lib path now).data.length = path.data.length := by rw [e]
  rw [h1, h2] at h3
  simp only [List.length_append] at h3
  obtain ⟨k, hk, hk9⟩ : ∃ k, ".corrupt-".data.length = k ∧ k = 9 := ⟨9, rfl, rfl⟩
  rw [hk] at h3
  omega

theorem corruptPath_not_backup (lib : GoLib) (path : String) (now : Time)
    (rest : List Char) :
    (corruptPathOf lib path now).data ≠ (path ++ ".bak").data ++ rest := by
  obtain ⟨stem, h1, h2⟩ := corruptPath_data lib path now
  intro e
  rw [h2, String.data_append, h1] at e
  simp only [List.append_assoc] at e
  have h3 := List.append_cancel_left e
  exact corrupt_core _ _ rest (lib.stampSec_nodot now) (Ext_shape _)
    (by simpa only [List.append_assoc] using h3)

theorem corruptPath_ne_bak (lib : GoLib) (path : String) (now : Time) :
    corruptPathOf lib path now ≠ path ++ ".bak" := by
  intro e
  apply corruptPath_not_backup lib path now []
  rw [e, List.append_nil]

theorem corruptPath_not_rotating (lib : GoLib) (path : String) (now : Time) :
    startsWith (corruptPathOf lib path now).data (path ++ ".bak.").data = false := by
  cases h : startsWith (corruptPathOf lib path now).data (path ++ ".bak.").data with
  | false => rfl
  | true =>
    obtain ⟨post, hp⟩ := (startsWith_iff _ _).1 h
    exfalso
    apply corruptPath_not_backup lib path now ('.' :: post)
    rw [hp]
    simp only [String.data_append, List.append_assoc]
    rfl

end TodoCli

namespace TodoCli

/-! ### The search for the latest valid backup -/

theorem firstValid_some (lib : GoLib) (fs : FileSystem) :
    ∀ (l : List String) (s : StoredState) (c : String), firstValid lib fs l = some (s, c) →
      ∃ pre post, l = pre ++ c :: post ∧
        (∃ d, ReadFile fs c = some d ∧ decodeState lib d = .ok s) ∧
        ∀ x ∈ pre, ∀ d s2, ReadFile fs x = some d → decodeState lib d ≠ .ok s2 := by
  intro l
  induction l with
  | nil =>
    intro s c h
    simp [firstValid] at h
  | cons x rest ih =>
    intro s c h
    simp only [firstValid] at h
    cases hr : ReadFile fs x with
    | none =>
      simp only [hr] at h
      obtain ⟨pre, post, e, hc, hp⟩ := ih s c h
      refine ⟨x :: pre, post, by rw [e]; rfl, hc, ?_⟩
      intro y hy d s2 hd
      rcases List.mem_cons.1 hy with e2 | hy
      · subst e2
        rw [hr] at hd
        cases hd
      · exact hp y hy d s2 hd
    | some data =>
      simp only [hr] at h
      cases hdec : decodeState lib data with
      | error err =>
        simp only [hdec] at h
        obtain ⟨pre, post, e, hc, hp⟩ := ih s c h
        refine ⟨x :: pre, post, by rw [e]; rfl, hc, ?_⟩
        intro y hy d s2 hd
        rcases List.mem_cons.1 hy with e2 | hy
        · subst e2
          rw [hr] at hd
          injection hd with hd
          subst hd
          rw [hdec]
          intro h3
          cases h3
        · exact hp y hy d s2 hd
      | ok state =>
        simp only [hdec, Option.some.injEq, Prod.mk.injEq] at h
        obtain ⟨e1, e2⟩ := h
        subst e1
        subst e2
        exact ⟨[], rest, rfl, ⟨data, hr, hdec⟩, fun y hy => (by cases hy)⟩

theorem firstValid_isSome (lib : GoLib) (fs : FileSystem) :
    ∀ (l : List String),
      (∃ x ∈ l, ∃ d s, ReadFile fs x = some d ∧ decodeState lib d = .ok s) →
      ∃ r, firstValid lib fs l = some r := by
  intro l
  induction l with
  | nil =>
    rintro ⟨x, hx, _⟩
    cases hx
  | cons y rest ih =>
    rintro ⟨x, hx, d, s, hd, hs⟩
    simp only [firstValid]
    cases hr : ReadFile fs y with
    | none =>
      simp only
      rcases List.mem_cons.1 hx with e | hx
      · subst e
        rw [hr] at hd
        cases hd
      · exact ih ⟨x, hx, d, s, hd, hs⟩
    | some data =>
      simp only
      cases hdec : decodeState lib data with
      | ok state => exact ⟨_, rfl⟩
      | error err =>
        simp only
        rcases List.mem_cons.1 hx with e | hx
        · subst e
          rw [hr] at hd
          injection hd with hd
          subst hd
          rw [hdec] at hs
          cases hs
        · exact ih ⟨x, hx, d, s, hd, hs⟩

theorem firstValid_congr (lib : GoLib) (fs fs2 : FileSystem) :
    ∀ (l : List String), (∀ x ∈ l, fs2.lookup x = fs.lookup x) →
      firstValid lib fs2 l = firstValid lib fs l := by
  intro l
  induction l with
  | nil =>
    intro _
    rfl
  | cons y rest ih =>
    intro h
    simp only [firstValid, ReadFile, h y (List.mem_cons_self _ _),
      ih (fun x hx => h x (List.mem_cons_of_mem _ hx))]

theorem newerFirst_congr (fs fs2 : FileSystem) (a b : String)
    (ha : fs2.lookup a = fs.lookup a) (hb : fs2.lookup b = fs.lookup b) :
    newerFirst fs2 a b = newerFirst fs a b := by
  simp only [newerFirst, Stat, ha, hb]

theorem sortSliceStable_congr {α : Type} (less less2 : α → α → Bool) (l : List α)
    (h : ∀ a ∈ l, ∀ b ∈ l, less a b = less2 a b) :
    sortSliceStable less l = sortSliceStable less2 l := by
  unfold sortSliceStable
  apply insertionSort_congr
  intro a ha b hb
  rw [h b hb a ha]

theorem backupCandidates_plain (lib : GoLib) (fs : FileSystem) (path : String)
    (hp : hasMeta path = false) :
    backupCandidates lib fs path =
      some ((if (Stat fs (path ++ ".bak")).isSome then [path ++ ".bak"] else []) ++
        namesWith fs (path ++ ".bak.")) := by
  unfold backupCandidates
  rw [glob_rotating lib fs path hp]

theorem mem_backupCandidates (lib : GoLib) (fs : FileSystem) (path c : String)
    (cands : List String) (hp : hasMeta path = false)
    (hc : backupCandidates lib fs path = some cands) (h : c ∈ cands) :
    (c = path ++ ".bak" ∨ startsWith c.data (path ++ ".bak.").data = true) ∧
      (fs.lookup c).isSome = true := by
  rw [backupCandidates_plain lib fs path hp] at hc
  injection hc with hc
  rw [← hc] at h
  rcases List.mem_append.1 h with h | h
  · split at h
    · rename_i hs
      rw [List.mem_singleton] at h
      subst h
      exact ⟨Or.inl rfl, hs⟩
    · cases h
  · obtain ⟨h1, h2⟩ := (mem_namesWith _ _ _).1 h
    exact ⟨Or.inr (startsWith_of_continues _ _ h2), h1⟩

theorem lookup_moved (lib : GoLib) (fs : FileSystem) (path n : String) (now : Time)
    (h : n = path ++ ".bak" ∨ startsWith n.data (path ++ ".bak.").data = true) :
    (Rename fs path (corruptPathOf lib path now)).lookup n = fs.lookup n := by
  apply lookup_Rename_other
  · rcases h with h | h
    · rw [h]
      exact bak_ne_path path
    · exact rotating_ne_path path n h
  · rcases h with h | h
    · rw [h]
      exact fun e => corruptPath_ne_bak lib path now e.symm
    · intro e
      rw [e, corruptPath_not_rotating] at h
      cases h

theorem backupCandidates_moved (lib : GoLib) (fs : FileSystem) (path : String)
    (now : Time) (hp : hasMeta path = false) :
    backupCandidates lib (Rename fs path (corruptPathOf lib path now)) path =
      backupCandidates lib fs path := by
  rw [backupCandidates_plain lib _ path hp, backupCandidates_plain lib fs path hp]
  rw [namesWith_congr fs _ _ (fun n hn =>
    lookup_moved lib fs path n now (Or.inr (startsWith_of_continues _ _ hn)))]
  simp only [Stat, lookup_moved lib fs path _ now (Or.inl rfl)]

theorem loadLatestValidBackup_moved (lib : GoLib) (fs : FileSystem) (path : String)
    (now : Time) (hp : hasMeta path = false) :
    loadLatestValidBackup lib (Rename fs path (corruptPathOf lib path now)) path =
      loadLatestValidBackup lib fs path := by
  unfold loadLatestValidBackup
  rw [backupCandidates_moved lib fs path now hp]
  cases hc : backupCandidates lib fs path with
  | none => rfl
  | some cands =>
    simp only
    split
    · rfl
    · have hl : ∀ x ∈ cands,
          (Rename fs path (corruptPathOf lib path now)).lookup x = fs.lookup x :=
        fun x hx => lookup_moved lib fs path x now
          (mem_backupCandidates lib fs path x cands hp hc hx).1
      rw [sortSliceStable_congr (newerFirst (Rename fs path (corruptPathOf lib path now)))
        (newerFirst fs) _ (fun a ha b hb => newerFirst_congr _ _ a b (hl a ha) (hl b hb))]
      rw [firstValid_congr lib fs _ _ (fun x hx => hl x ((perm_sortSliceStable _ _).mem_iff.1 hx))]

theorem sorted_candidates (fs : FileSystem) (l : List String)
    (hex : ∀ c ∈ l, (fs.lookup c).isSome = true) :
    (sortSliceStable (newerFirst fs) l).Pairwise (fun a b => ∀ fa fb,
      Stat fs a = some fa → Stat fs b = some fb → fb.modTime ≤ fa.modTime) := by
  have hc : sortSliceStable (newerFirst fs) l =
      l.insertionSort (fun a b =>
        ((fs.lookup b).map (·.modTime)).getD 0 ≤ ((fs.lookup a).map (·.modTime)).getD 0) := by
    unfold sortSliceStable
    apply insertionSort_congr
    intro a ha b hb
    obtain ⟨fa, hfa⟩ := Option.isSome_iff_exists.1 (hex a ha)
    obtain ⟨fb, hfb⟩ := Option.isSome_iff_exists.1 (hex b hb)
    simp only [newerFirst, Stat, hfa, hfb, Option.map, Option.getD, decide_eq_false_iff_not,
      gt_iff_lt, not_lt]
  haveI : IsTotal String (fun a b =>
      ((fs.lookup b).map (·.modTime)).getD 0 ≤ ((fs.lookup a).map (·.modTime)).getD 0) :=
    ⟨fun a b => le_total _ _⟩
  haveI : IsTrans String (fun a b =>
      ((fs.lookup b).map (·.modTime)).getD 0 ≤ ((fs.lookup a).map (·.modTime)).getD 0) :=
    ⟨fun a b c h1 h2 => le_trans h2 h1⟩
  rw [hc]
  refine (List.sorted_insertionSort _ l).imp ?_
  intro a b h fa fb hfa hfb
  simp only [Stat] at hfa hfb
  simpa only [hfa, hfb, Option.map, Option.getD] using h

theorem loadLatestValidBackup_spec (lib : GoLib) (fs : FileSystem) (path : String)
    (cands : List String) (hp : hasMeta path = false)
    (hcands : backupCandidates lib fs path = some cands)
    (hvalid : ∃ c ∈ cands, ∃ d s, ReadFile fs c = some d ∧ decodeState lib d = .ok s) :
    ∃ s c, loadLatestValidBackup lib fs path = .ok (s, c) ∧ c ∈ cands ∧
      (∃ d, ReadFile fs c = some d ∧ decodeState lib d = .ok s) ∧
      ∀ c2 ∈ cands, ∀ f f2 s2, Stat fs c = some f → Stat fs c2 = some f2 →
        decodeState lib f2.content = .ok s2 → f2.modTime ≤ f.modTime := by
  obtain ⟨c0, hc0, d0, s0, hd0, hs0⟩ := hvalid
  have hne : ¬ cands.length = 0 := by
    intro h
    rw [List.length_eq_zero.1 h] at hc0
    cases hc0
  have hperm := perm_sortSliceStable (newerFirst fs) cands
  obtain ⟨⟨s, c⟩, hr⟩ := firstValid_isSome lib fs (sortSliceStable (newerFirst fs) cands)
    ⟨c0, hperm.mem_iff.2 hc0, d0, s0, hd0, hs0⟩
  obtain ⟨pre, post, e, hdec, hpre⟩ := firstValid_some lib fs _ s c hr
  have hsorted := sorted_candidates fs cands
    (fun x hx => (mem_backupCandidates lib fs path x cands hp hcands hx).2)
  rw [e, List.pairwise_append, List.pairwise_cons] at hsorted
  refine ⟨s, c, ?_, ?_, hdec, ?_⟩
  · unfold loadLatestValidBackup
    simp only [hcands, hne, if_false, hr]
  · apply hperm.mem_iff.1
    rw [e]
    exact List.mem_append_right _ (List.mem_cons_self _ _)
  · intro c2 hc2 f f2 s2 hf hf2 hs2
    have hm : c2 ∈ pre ++ c :: post := by
      rw [← e]
      exact hperm.mem_iff.2 hc2
    rcases List.mem_append.1 hm with hm | hm
    · exfalso
      refine hpre c2 hm f2.content s2 ?_ hs2
      simp only [ReadFile]
      simp only [Stat] at hf2
      rw [hf2]
      rfl
    · rcases List.mem_cons.1 hm with e2 | hm
      · subst e2
        rw [hf] at hf2
        injection hf2 with hf2
        rw [hf2]
      · exact hsorted.2.1.1 c2 hm f f2 hf hf2

end TodoCli

namespace TodoCli

section Recovery

theorem LoadWithRecovery_recovered (lib : GoLib) (fs : FileSystem) (path : String)
    (now : Time) (data : Content) (err : JsonErr) (s : StoredState) (c : String)
    (hp : hasMeta path = false)
    (hread : ReadFile fs path = some data) (hdec : decodeState lib data = .error err)
    (hcorrupt : isCorruptStateError err = true)
    (hl : loadLatestValidBackup lib fs path = .ok (s, c)) :
    LoadWithRecovery lib fs path now =
      (.ok (s, "Estado corrompido recuperado de " ++ Base c ++
          (if corruptPathOf lib path now ≠ "" then
            " (arquivo ruim movido para " ++ Base (corruptPathOf lib path now) ++ ")"
          else "")),
        Save lib (Rename fs path (corruptPathOf lib path now)) path s now) := by
  have hL : Load lib fs path = .error err := by simp only [Load, hread, hdec]
  have hstat : (Stat fs path).isNone = false := by
    simp only [ReadFile] at hread
    simp only [Stat]
    cases h : List.lookup path fs with
    | none => simp [h] at hread
    | some f => rfl
  unfold LoadWithRecovery
  simp only [hL, hcorrupt, moveCorruptFile, hstat, Bool.false_eq_true, if_false,
    not_true_eq_false, loadLatestValidBackup_moved lib fs path now hp, hl]

theorem message_ne_empty (a b : String) :
    "Estado corrompido recuperado de " ++ a ++ b ≠ "" := by
  intro h
  have h2 := congrArg (fun s : String => s.data.length) h
  simp only [String.data_append, List.length_append] at h2
  have h3 : "Estado corrompido recuperado de ".data.length = 32 := rfl
  have h4 : "".data.length = 0 := rfl
  rw [h3, h4] at h2
  omega

/-- When the file at a path without a pattern character of `filepath.Match` does not decode
because of a JSON syntax error, a type mismatch or an unexpected end of input, and a backup
candidate (the `.bak` file or a rotating backup) decodes, `LoadWithRecovery` returns without
error the state decoded from a candidate that decodes and that no decoding candidate is
modified after, with a non-empty message; afterwards `Load` of the path returns that state,
and the corrupt content is found under the name made of the directory of the path, the base
name without its extension, `.corrupt-`, the time stamp and the extension, which is not the
path. -/
theorem LoadWithRecovery_recovers (lib : GoLib) (fs : FileSystem) (path : String)
    (now : Time) (data : Content) (err : JsonErr) (cands : List String)
    (hp : hasMeta path = false)
    (hread : ReadFile fs path = some data) (hdec : decodeState lib data = .error err)
    (hcorrupt : isCorruptStateError err = true)
    (hcands : backupCandidates lib fs path = some cands)
    (hvalid : ∃ c ∈ cands, ∃ d s, ReadFile fs c = some d ∧ decodeState lib d = .ok s) :
    ∃ c s msg,
      (LoadWithRecovery lib fs path now).1 = .ok (s, msg) ∧ msg ≠ "" ∧
      c ∈ cands ∧
      (∃ d, ReadFile fs c = some d ∧ decodeState lib d = .ok s) ∧
      (∀ c2 ∈ cands, ∀ f f2 s2, Stat fs c = some f →
        Stat fs c2 = some f2 → decodeState lib f2.content = .ok s2 →
        f2.modTime ≤ f.modTime) ∧
      Load lib (LoadWithRecovery lib fs path now).2 path = .ok s ∧
      ReadFile (LoadWithRecovery lib fs path now).2 (corruptPathOf lib path now) = some data ∧
      corruptPathOf lib path now =
        dirPart path ++ (TrimSuffix (Base path) (Ext (Base path)) ++ ".corrupt-" ++
          lib.stampSec now ++ Ext (Base path)) ∧
      corruptPathOf lib path now ≠ path := by
  obtain ⟨s, c, hl, hc, hd, hlatest⟩ := loadLatestValidBackup_spec lib fs path cands hp hcands
    hvalid
  have hrec := LoadWithRecovery_recovered lib fs path now data err s c hp hread hdec hcorrupt hl
  obtain ⟨d, hd1, hd2⟩ := hd
  obtain ⟨hrep, hfix⟩ := decodeState_ok lib d s hd2
  refine ⟨c, s, _, by rw [hrec], message_ne_empty _ _, hc, ⟨d, hd1, hd2⟩, hlatest, ?_, ?_, rfl,
    corruptPath_ne_path lib path now⟩
  · rw [hrec]
    show Load lib (Save lib _ path s now) path = .ok s
    rw [Load_Save lib _ path s now hrep, hfix]
  · rw [hrec]
    show ReadFile (Save lib _ path s now) (corruptPathOf lib path now) = some data
    simp only [Save, writeJSON]
    rw [ReadFile_WriteFile_ne _ _ _ _ _ (corruptPath_ne_path lib path now)]
    simp only [ReadFile] at hread ⊢
    cases h : List.lookup path fs with
    | none => simp [h] at hread
    | some f =>
      rw [lookup_Rename_new fs path _ f h]
      rw [h] at hread
      exact hread

/-- A state file that is not JSON beside a latest backup that is cut short and two rotating
backups: `LoadWithRecovery` passes over the latest backup, the most recently modified, and
returns the state of the rotating backup modified last; `Load` then returns that state and
the corrupt file is found under its quarantine name. -/
theorem LoadWithRecovery_recovers_example :
    backupCandidates strokes corruptFiles "state.json" =
      some ["state.json.bak", "state.json.bak.II", "state.json.bak.IIII"] ∧
    decodeState strokes (.garbage "\x7b\"lists\":") = .error .notJSON ∧
    Load strokes corruptFiles "state.json.bak.II" = .ok NewState.stored ∧
    Load strokes corruptFiles "state.json.bak.IIII" = .ok sampleStored ∧
    (LoadWithRecovery strokes corruptFiles "state.json" 9).1 =
      .ok (sampleStored, "Estado corrompido recuperado de state.json.bak.IIII" ++
        " (arquivo ruim movido para state.corrupt-IIIIIIIII.json)") ∧
    ∃ c s msg,
      (LoadWithRecovery strokes corruptFiles "state.json" 9).1 = .ok (s, msg) ∧ msg ≠ "" ∧
      c ∈ ["state.json.bak", "state.json.bak.II", "state.json.bak.IIII"] ∧
      (∃ d, ReadFile corruptFiles c = some d ∧ decodeState strokes d = .ok s) ∧
      (∀ c2 ∈ ["state.json.bak", "state.json.bak.II", "state.json.bak.IIII"], ∀ f f2 s2,
        Stat corruptFiles c = some f → Stat corruptFiles c2 = some f2 →
        decodeState strokes f2.content = .ok s2 → f2.modTime ≤ f.modTime) ∧
      Load strokes (LoadWithRecovery strokes corruptFiles "state.json" 9).2 "state.json"
        = .ok s ∧
      ReadFile (LoadWithRecovery strokes corruptFiles "state.json" 9).2
        (corruptPathOf strokes "state.json" 9) = some (.garbage "not json") ∧
      corruptPathOf strokes "state.json" 9 =
        dirPart "state.json" ++ (TrimSuffix (Base "state.json") (Ext (Base "state.json")) ++
          ".corrupt-" ++ strokes.stampSec 9 ++ Ext (Base "state.json")) ∧
      corruptPathOf strokes "state.json" 9 ≠ "state.json" :=
  ⟨rfl, rfl, rfl, rfl, rfl,
    LoadWithRecovery_recovers strokes corruptFiles "state.json" 9 (.garbage "not json")
      .notJSON _ rfl rfl rfl rfl rfl
      ⟨"state.json.bak.II", by decide, .doc (Marshal strokes NewState.stored),
        NewState.stored, rfl, rfl⟩⟩

/-- C27 (the code at the failing inputs). First input: the state file holds a list whose
creation time does not parse, so it does not decode, and the latest backup decodes;
`isCorruptStateError` does not recognise the error of `Time.UnmarshalJSON`, and
`LoadWithRecovery` returns the error of the decoding and leaves the files as they are, whereas
on the same file with a number for the name of the list, a type mismatch, it recovers the
state of the backup. Second input: the state file is not JSON and lies in the directory
`d[1]` beside a rotating backup that decodes; `filepath.Glob` on the pattern built from the
path finds no candidate, and `LoadWithRecovery` returns the state of `NewState`. -/
theorem C27_backup_not_recovered :
    (Load strokes badTimeFiles "state.json" = .error .other ∧
      backupCandidates strokes badTimeFiles "state.json" = some ["state.json.bak"] ∧
      Load strokes badTimeFiles "state.json.bak" = .ok sampleStored ∧
      LoadWithRecovery strokes badTimeFiles "state.json" 9 =
        (.error (.decode .other), badTimeFiles) ∧
      Load strokes badNameFiles "state.json" = .error .typeError ∧
      (LoadWithRecovery strokes badNameFiles "state.json" 9).1 =
        .ok (sampleStored, "Estado corrompido recuperado de state.json.bak" ++
          " (arquivo ruim movido para state.corrupt-IIIIIIIII.json)")) ∧
    (Load strokes bracketCorruptFiles "d[1]/state.json" = .error .notJSON ∧
      Load strokes bracketCorruptFiles "d[1]/state.json.bak.II" = .ok sampleStored ∧
      backupCandidates strokes bracketCorruptFiles "d[1]/state.json" = some [] ∧
      (LoadWithRecovery strokes bracketCorruptFiles "d[1]/state.json" 9).1 =
        .ok (NewState.stored,
          "Estado corrompido sem backup válido; iniciado com estado vazio" ++
            " (arquivo ruim movido para state.corrupt-IIIIIIIII.json)")) :=
  ⟨⟨rfl, rfl, rfl, rfl, rfl, rfl⟩, rfl, rfl, rfl, rfl⟩

end Recovery

end TodoCli
